import Mathlib

/-!
# Knapsack-Visualizer: the dynamic programs, their optima and their paths

A shallow embedding of the solvers of `src/cpp/knapsack_*.cpp`: the tables they fill hold
the optima of the knapsack variants; the binary decomposition, the package list, the
backtracked paths, the traces and the handling of the input are characterised.

Conventions of the embedding:
* a `vector<vector<int>>` is a list of rows, read with `Table.get` and written with
  `Table.set`; the loops are folds (`forUp`, `forLt`, `forDown`) over the loop variable;
* every solver is given twice. The definitions whose names end in `W` (and `run01I`,
  `fill01I`, `cell01I`) compute as the program does, in 32-bit `int` arithmetic: every sum,
  difference and product of `int`s goes through `wrap32`, the wrap-around of the
  compiled program. The definitions of the same names without `W` run the same loops in
  exact arithmetic, on natural numbers or integers; the lemmas `..._eq` and `..._cast`
  show that the two agree as long as no intermediate result leaves the range of `int`;
* what is said of the program is stated on the `int` definitions, with the bound on the
  input under which it holds; statements that do not depend on the values of the sums
  (orders, lengths, termination, single evaluations) are stated on the exact ones;
* the inputs are `int`s: the natural numbers that stand for capacities, counts, weights
  and values are below `2^31`, and so are `n + 1` and `capacity + 1`;
* `n` is the number of items supplied unless a declared count is named, the JSON output
  and the timing are left out;
* recursion and loops that are not plain counting loops carry a `fuel` argument, shown
  sufficient where the result is used.
-/

open scoped Pointwise

namespace Knapsack

/-! ## Loops and tables -/

/-- The loop `for (k = lo; k <= hi; k++) s = body k s`. -/
def forUp {σ : Type} (lo hi : Nat) (body : Nat → σ → σ) (s : σ) : σ :=
  (List.range' lo (hi + 1 - lo)).foldl (fun acc k => body k acc) s

/-- The loop `for (k = hi; k >= lo; k--) s = body k s`. -/
def forDown {σ : Type} (hi lo : Nat) (body : Nat → σ → σ) (s : σ) : σ :=
  (List.range' lo (hi + 1 - lo)).foldr (fun k acc => body k acc) s

/-- A `vector<vector<T>>`: a list of rows. -/
abbrev Table (α : Type) := List (List α)

/-- The table `vector<vector<T>>(rows, vector<T>(cols, x))`. -/
def Table.mk {α : Type} (rows cols : Nat) (x : α) : Table α :=
  List.replicate rows (List.replicate cols x)

/-- The read `dp[i][j]`. -/
def Table.get {α : Type} [Inhabited α] (T : Table α) (i j : Nat) : α :=
  (T.getD i []).getD j default

/-- The write `dp[i][j] = x`. -/
def Table.set {α : Type} (T : Table α) (i j : Nat) (x : α) : Table α :=
  List.set T i ((T.getD i []).set j x)

/-! ## 0/1 knapsack (`knapsack_01.cpp`) -/

/-- The `Item` of `knapsack_01.cpp`, `knapsack_complete.cpp` and `knapsack_count.cpp`. -/
structure Item where
  weight : Nat
  value : Nat
deriving Repr, DecidableEq, Inhabited

/-- The body of the inner loop of `knapsack_01.cpp`: the cell `dp[i][j]` for the item `(w, v)`.
In exact arithmetic; the 32-bit `int` computation of the program is `cell01W`. -/
def cell01 (w v i j : Nat) (dp : Table Nat) : Table Nat :=
  if j < w then
    dp.set i j (dp.get (i - 1) j)
  else
    let withoutItem := dp.get (i - 1) j
    let withItem := dp.get (i - 1) (j - w) + v
    dp.set i j (max withoutItem withItem)

/-- The DP calculation of `knapsack_01.cpp`: the filled table `dp`.
In exact arithmetic; the 32-bit `int` computation of the program is `fill01W`. -/
def fill01 (items : List Item) (capacity : Nat) : Table Nat :=
  let n := items.length
  forUp 1 n (fun i dp =>
    let w := (items.getD (i - 1) default).weight
    let v := (items.getD (i - 1) default).value
    forUp 0 capacity (fun j dp => cell01 w v i j dp) dp)
    (Table.mk (n + 1) (capacity + 1) 0)

/-- The `max_value` of `knapsack_01.cpp`: `dp[n][capacity]`.
In exact arithmetic; the 32-bit `int` computation of the program is `maxValue01W`. -/
def maxValue01 (items : List Item) (capacity : Nat) : Nat :=
  (fill01 items capacity).get items.length capacity

/-! ## Selections of items (specification side) -/

/-- Total weight of the items at the positions `S`. -/
def selWeight (items : List Item) (S : Finset Nat) : Nat :=
  ∑ t in S, (items.getD t default).weight

/-- Total value of the items at the positions `S`. -/
def selValue (items : List Item) (S : Finset Nat) : Nat :=
  ∑ t in S, (items.getD t default).value

/-- The total values of the subsets of the first `i` items whose total weight is at most `j`. -/
def feasibleValues01 (items : List Item) (i j : Nat) : Set Nat :=
  {val | ∃ S : Finset Nat, S ⊆ Finset.range i ∧ selWeight items S ≤ j ∧ selValue items S = val}

/-! ## Complete (unbounded) knapsack (`knapsack_complete.cpp`) -/

/-- The body of the inner loop of `knapsack_complete.cpp`: the with-branch reads the current
row, `dp[i][j - w]`.
In exact arithmetic; the 32-bit `int` computation of the program is `cellCompleteW`. -/
def cellComplete (w v i j : Nat) (dp : Table Nat) : Table Nat :=
  if j < w then
    dp.set i j (dp.get (i - 1) j)
  else
    let withoutItem := dp.get (i - 1) j
    let withItem := dp.get i (j - w) + v
    dp.set i j (max withoutItem withItem)

/-- The DP calculation of `knapsack_complete.cpp`.
In exact arithmetic; the 32-bit `int` computation of the program is `fillCompleteW`. -/
def fillComplete (items : List Item) (capacity : Nat) : Table Nat :=
  let n := items.length
  forUp 1 n (fun i dp =>
    let w := (items.getD (i - 1) default).weight
    let v := (items.getD (i - 1) default).value
    forUp 0 capacity (fun j dp => cellComplete w v i j dp) dp)
    (Table.mk (n + 1) (capacity + 1) 0)

/-- The `max_value` of `knapsack_complete.cpp`: `dp[n][capacity]`.
In exact arithmetic; the 32-bit `int` computation of the program is `maxValueCompleteW`. -/
def maxValueComplete (items : List Item) (capacity : Nat) : Nat :=
  (fillComplete items capacity).get items.length capacity

/-- The total values `sum x t * value t` of the vectors `x` of copy counts for the first `i`
items with `sum x t * weight t ≤ j`. -/
def feasibleValuesComplete (items : List Item) (i j : Nat) : Set Nat :=
  {val | ∃ x : Nat → Nat,
    (∑ t in Finset.range i, x t * (items.getD t default).weight) ≤ j ∧
    (∑ t in Finset.range i, x t * (items.getD t default).value) = val}

/-! ## Solution counting (`knapsack_count.cpp`) -/

/-- The body of the inner loop of `knapsack_count.cpp`.
In exact arithmetic; the 32-bit `int` computation of the program is `cellCountW`. -/
def cellCount (w i j : Nat) (dp : Table Nat) : Table Nat :=
  let notTake := dp.get (i - 1) j
  let take := if j ≥ w then dp.get (i - 1) (j - w) else 0
  dp.set i j (notTake + take)

/-- The DP calculation of `knapsack_count.cpp`, from the table with `dp[0][0] = 1`.
In exact arithmetic; the 32-bit `int` computation of the program is `fillCountW`. -/
def fillCount (items : List Item) (capacity : Nat) : Table Nat :=
  let n := items.length
  forUp 1 n (fun i dp =>
    let w := (items.getD (i - 1) default).weight
    forUp 0 capacity (fun j dp => cellCount w i j dp) dp)
    ((Table.mk (n + 1) (capacity + 1) 0).set 0 0 1)

/-- The reported result of `knapsack_count.cpp`: `dp[n][capacity]`.
In exact arithmetic; the 32-bit `int` computation of the program is `resultCountW`. -/
def resultCount (items : List Item) (capacity : Nat) : Nat :=
  (fillCount items capacity).get items.length capacity

/-- The number of subsets of the first `i` items (as sets of positions) of total weight
exactly `j`. -/
def numSubsetsExact (items : List Item) (i j : Nat) : Nat :=
  ((Finset.range i).powerset.filter (fun S => selWeight items S = j)).card

/-! ## Two-resource knapsack (`knapsack_2d.cpp`) -/

/-- The `Item` of `knapsack_2d.cpp`. -/
structure Item2D where
  weight : Nat
  volume : Nat
  value : Nat
deriving Repr, DecidableEq, Inhabited

/-- A `vector<vector<vector<int>>>`. -/
abbrev Table3 := List (Table Nat)

/-- The table `dp(n + 1, (capacity + 1) x (capacity2 + 1) zeros)`. -/
def Table3.mk (n1 n2 n3 : Nat) : Table3 := List.replicate n1 (Table.mk n2 n3 0)

/-- The read `dp[i][j][k]`. -/
def Table3.get (T : Table3) (i j k : Nat) : Nat := (T.getD i []).get j k

/-- The write `dp[i][j][k] = x`. -/
def Table3.set (T : Table3) (i j k : Nat) (x : Nat) : Table3 :=
  List.set T i ((T.getD i []).set j k x)

/-- The body of the innermost loop of `knapsack_2d.cpp`.
In exact arithmetic; the 32-bit `int` computation of the program is `cell2DW`. -/
def cell2D (w m v i j k : Nat) (dp : Table3) : Table3 :=
  let oldVal := dp.get (i - 1) j k
  let newVal :=
    if j ≥ w ∧ k ≥ m then
      let withItem := dp.get (i - 1) (j - w) (k - m) + v
      if withItem > oldVal then withItem else oldVal
    else oldVal
  dp.set i j k newVal

/-- The DP calculation of `knapsack_2d.cpp`.
In exact arithmetic; the 32-bit `int` computation of the program is `fill2DW`. -/
def fill2D (items : List Item2D) (capacity capacity2 : Nat) : Table3 :=
  let n := items.length
  forUp 1 n (fun i dp =>
    let w := (items.getD (i - 1) default).weight
    let m := (items.getD (i - 1) default).volume
    let v := (items.getD (i - 1) default).value
    forUp 0 capacity (fun j dp =>
      forUp 0 capacity2 (fun k dp => cell2D w m v i j k dp) dp) dp)
    (Table3.mk (n + 1) (capacity + 1) (capacity2 + 1))

/-- The `max_value` of `knapsack_2d.cpp`: `dp[n][capacity][capacity2]`.
In exact arithmetic; the 32-bit `int` computation of the program is `maxValue2DW`. -/
def maxValue2D (items : List Item2D) (capacity capacity2 : Nat) : Nat :=
  (fill2D items capacity capacity2).get items.length capacity capacity2

/-- The total values of the subsets of the first `i` items whose total weight is at most `j`
and whose total secondary cost (volume) is at most `k`. -/
def feasibleValues2D (items : List Item2D) (i j k : Nat) : Set Nat :=
  {val | ∃ S : Finset Nat, S ⊆ Finset.range i ∧
    (∑ t in S, (items.getD t default).weight) ≤ j ∧
    (∑ t in S, (items.getD t default).volume) ≤ k ∧
    (∑ t in S, (items.getD t default).value) = val}

/-! ## K-th best (`knapsack_kth.cpp`) -/

/-- The `Item` of `knapsack_kth.cpp`; values are not restricted in sign. -/
structure ItemK where
  weight : Nat
  value : Int
deriving Repr, DecidableEq, Inhabited

/-- The function `mergeTopK` of `knapsack_kth.cpp`: the two-pointer merge of `a` and `b` that
stops once `k` values are out; on equal heads the element of `a` goes first. -/
def mergeTopK : List Int → List Int → Nat → List Int
  | _, _, 0 => []
  | [], [], _ + 1 => []
  | [], y :: b, k + 1 => y :: mergeTopK [] b k
  | x :: a, [], k + 1 => x :: mergeTopK a [] k
  | x :: a, y :: b, k + 1 =>
    if x ≥ y then x :: mergeTopK a (y :: b) k else y :: mergeTopK (x :: a) b k

/-- The body of the inner loop of `knapsack_kth.cpp`.
In exact arithmetic; the 32-bit `int` computation of the program is `cellKthW`. -/
def cellKth (w : Nat) (v : Int) (K : Nat) (i j : Nat) (dp : Table (List Int)) :
    Table (List Int) :=
  let notTake := dp.get (i - 1) j
  let take := if j ≥ w then (dp.get (i - 1) (j - w)).map (fun val => val + v) else []
  dp.set i j (mergeTopK notTake take K)

/-- The DP calculation of `knapsack_kth.cpp`; every cell starts as the one-element list `[0]`.
In exact arithmetic; the 32-bit `int` computation of the program is `fillKthW`. -/
def fillKth (items : List ItemK) (capacity K : Nat) : Table (List Int) :=
  let n := items.length
  forUp 1 n (fun i dp =>
    let w := (items.getD (i - 1) default).weight
    let v := (items.getD (i - 1) default).value
    forUp 0 capacity (fun j dp => cellKth w v K i j dp) dp)
    (Table.mk (n + 1) (capacity + 1) [0])

/-- The reported `topK` list of `knapsack_kth.cpp`: the cell `dp[n][capacity]`.
In exact arithmetic; the 32-bit `int` computation of the program is `topKW`. -/
def topK (items : List ItemK) (capacity K : Nat) : List Int :=
  (fillKth items capacity K).get items.length capacity

/-- The total values of all the sub-selections of `items` (one entry per set of positions, so
equal values stay as duplicates) whose total weight is at most `C`. -/
def subsetValuesWithin (items : List ItemK) (C : Nat) : List Int :=
  ((items.sublists).filter (fun l => (l.map (fun it => it.weight)).sum ≤ C)).map
    (fun l => (l.map (fun it => it.value)).sum)

/-- The non-increasingly sorted list of the values of `subsetValuesWithin`. -/
def sortedSubsetValues (items : List ItemK) (C : Nat) : List Int :=
  (subsetValuesWithin items C).insertionSort (fun a b => a ≥ b)

/-! ## Group knapsack (`knapsack_group.cpp`) -/

/-- The loop `for (k = lo; k < hi; k++) s = body k s`. -/
def forLt {σ : Type} (lo hi : Nat) (body : Nat → σ → σ) (s : σ) : σ :=
  (List.range' lo (hi - lo)).foldl (fun acc k => body k acc) s

/-- The `Item` of `knapsack_group.cpp` (its `originalIndex` is the item's position). -/
structure ItemG where
  weight : Nat
  value : Nat
  group : Int
deriving Repr, DecidableEq, Inhabited

/-- The statement `groups[g].push_back(i)` on a `map<int, vector<int>>`, kept as the list of
its entries in ascending key order. -/
def groupsInsert : List (Int × List Nat) → Int → Nat → List (Int × List Nat)
  | [], g, i => [(g, [i])]
  | (g', l) :: rest, g, i =>
    if g < g' then (g, [i]) :: (g', l) :: rest
    else if g = g' then (g', l ++ [i]) :: rest
    else (g', l) :: groupsInsert rest g i

/-- The read `groups[g]` of an existing key (an absent key reads as the empty vector). -/
def groupsFind : List (Int × List Nat) → Int → List Nat
  | [], _ => []
  | (g', l) :: rest, g => if g = g' then l else groupsFind rest g

/-- The map `groups` after the input loop of `knapsack_group.cpp`. -/
def buildGroups (items : List ItemG) : List (Int × List Nat) :=
  forLt 0 items.length (fun i groups => groupsInsert groups (items.getD i default).group i) []

/-- The vector `groupIds`: the keys of `groups` in iteration order. -/
def groupIdsOf (groups : List (Int × List Nat)) : List Int := groups.map (fun p => p.1)

/-- One column of the group fill: `dp[g + 1][j]` inherits `dp[g][j]` and is raised by every
item of the group that fits and gives strictly more; the second component is `bestChoice`.
In exact arithmetic; the 32-bit `int` computation of the program is `cellGroupW`. -/
def cellGroup (items : List ItemG) (groupItems : List Nat) (g j : Nat) (dp : Table Nat) :
    Table Nat × Int :=
  groupItems.foldl (fun st idx =>
    let w := (items.getD idx default).weight
    let v := (items.getD idx default).value
    if j ≥ w ∧ st.1.get g (j - w) + v > st.1.get (g + 1) j then
      (st.1.set (g + 1) j (st.1.get g (j - w) + v), (idx : Int))
    else st) (dp.set (g + 1) j (dp.get g j), -1)

/-- The group knapsack DP of `knapsack_group.cpp`.
In exact arithmetic; the 32-bit `int` computation of the program is `fillGroupW`. -/
def fillGroup (items : List ItemG) (capacity : Nat) : Table Nat :=
  let groups := buildGroups items
  let numGroups := groups.length
  let groupIds := groupIdsOf groups
  forLt 0 numGroups (fun g dp =>
    let gid := groupIds.getD g 0
    let groupItems := groupsFind groups gid
    forUp 0 capacity (fun j dp => (cellGroup items groupItems g j dp).1) dp)
    (Table.mk (numGroups + 1) (capacity + 1) 0)

/-- The `numGroups` of `knapsack_group.cpp`. -/
def numGroupsOf (items : List ItemG) : Nat := (buildGroups items).length

/-- The `max_value` of `knapsack_group.cpp`: `dp[numGroups][capacity]`.
In exact arithmetic, and as a value of the table only: what a run prints, in 32-bit `int`
arithmetic and with the division `n / numGroups` it performs before, is `reportedMaxGroupW`. -/
def maxValueGroup (items : List ItemG) (capacity : Nat) : Nat :=
  (fillGroup items capacity).get (numGroupsOf items) capacity

/-- The distinct group ids of the items, in ascending order. -/
def distinctGroupIds (items : List ItemG) : List Int :=
  ((items.map (fun it => it.group)).toFinset).sort (fun a b => a ≤ b)

/-- The total values of the selections (sets of item positions) that take items of the first
`g` groups only, in ascending group-id order, at most one item from each group, and have total
weight at most `j`. -/
def feasibleValuesGroup (items : List ItemG) (g j : Nat) : Set Nat :=
  {val | ∃ S : Finset Nat,
    (∀ t ∈ S, t < items.length ∧ (items.getD t default).group ∈ (distinctGroupIds items).take g) ∧
    (∀ s ∈ S, ∀ t ∈ S, (items.getD s default).group = (items.getD t default).group → s = t) ∧
    (∑ t in S, (items.getD t default).weight) ≤ j ∧
    (∑ t in S, (items.getD t default).value) = val}

/-! ## Mixed knapsack (`knapsack_mixed.cpp`) -/

/-- The `Item` of `knapsack_mixed.cpp`: `type` 0 is 0/1, 1 is complete, anything else is
multiple with the count `count`. -/
structure ItemM where
  weight : Nat
  value : Nat
  type : Nat
  count : Nat
deriving Repr, DecidableEq, Inhabited

/-- The input loop of `knapsack_mixed.cpp`: an argument `w,v,t` becomes an item whose count is
3 when `t` is 2 and 1 otherwise. -/
def parseMixed (args : List (Nat × Nat × Nat)) : List ItemM :=
  args.map (fun a => ⟨a.1, a.2.1, a.2.2, if a.2.2 = 2 then 3 else 1⟩)

/-- The loop `for (k = 1; k <= count && k * w <= j; k++)` of the multiple branch, started at
`k` with the running `newVal`; `fuel` bounds the number of iterations left.
In exact arithmetic; the 32-bit `int` computation of the program is `loopMultipleW`. -/
def loopMultiple (prev : Nat → Nat) (w v count j : Nat) : Nat → Nat → Nat → Nat
  | 0, _, newVal => newVal
  | fuel + 1, k, newVal =>
    if k ≤ count ∧ k * w ≤ j then
      loopMultiple prev w v count j fuel (k + 1)
        (if prev (j - k * w) + k * v > newVal then prev (j - k * w) + k * v else newVal)
    else newVal

/-- The body of the second inner loop of `knapsack_mixed.cpp`.
In exact arithmetic; the 32-bit `int` computation of the program is `cellMixedW`. -/
def cellMixed (it : ItemM) (i j : Nat) (dp : Table Nat) : Table Nat :=
  let w := it.weight
  let v := it.value
  let oldVal := dp.get (i - 1) j
  let newVal :=
    if it.type = 0 then
      if j ≥ w ∧ dp.get (i - 1) (j - w) + v > oldVal then dp.get (i - 1) (j - w) + v else oldVal
    else if it.type = 1 then
      if j ≥ w ∧ dp.get i (j - w) + v > oldVal then dp.get i (j - w) + v else oldVal
    else
      loopMultiple (fun b => dp.get (i - 1) b) w v it.count j it.count 1 oldVal
  dp.set i j newVal

/-- The DP calculation of `knapsack_mixed.cpp`: each row is first copied from the previous one
and then filled.
In exact arithmetic; the 32-bit `int` computation of the program is `fillMixedW`. -/
def fillMixed (items : List ItemM) (capacity : Nat) : Table Nat :=
  let n := items.length
  forUp 1 n (fun i dp =>
    let dp := forUp 0 capacity (fun j dp => dp.set i j (dp.get (i - 1) j)) dp
    forUp 0 capacity (fun j dp => cellMixed (items.getD (i - 1) default) i j dp) dp)
    (Table.mk (n + 1) (capacity + 1) 0)

/-- The `max_value` of `knapsack_mixed.cpp` on the arguments `args`: `dp[n][capacity]`.
In exact arithmetic; the 32-bit `int` computation of the program is `maxValueMixedW`. -/
def maxValueMixed (args : List (Nat × Nat × Nat)) (capacity : Nat) : Nat :=
  (fillMixed (parseMixed args) capacity).get args.length capacity

/-- The copy counts an item of type `t` may take: at most 1 for type 0, any number for type 1,
at most 3 for type 2. -/
def allowedCount (t : Nat) (k : Nat) : Prop :=
  (t = 0 → k ≤ 1) ∧ (t = 2 → k ≤ 3)

/-- The total values `sum x t * value t` of the vectors of copy counts for the first `i`
arguments that respect the types and have `sum x t * weight t ≤ j`. -/
def feasibleValuesMixed (args : List (Nat × Nat × Nat)) (i j : Nat) : Set Nat :=
  {val | ∃ x : Nat → Nat,
    (∀ t, t < i → allowedCount (args.getD t default).2.2 (x t)) ∧
    (∑ t in Finset.range i, x t * (args.getD t default).1) ≤ j ∧
    (∑ t in Finset.range i, x t * (args.getD t default).2.1) = val}

/-! ## Multiple knapsack (`knapsack_multiple.cpp`) -/

/-- The `Item` of `knapsack_multiple.cpp`. -/
structure ItemC where
  weight : Nat
  value : Nat
  count : Nat
deriving Repr, DecidableEq, Inhabited

/-- The `SplitItem` of `knapsack_multiple.cpp`. -/
structure SplitItem where
  weight : Nat
  value : Nat
  originalIndex : Nat
  splitCount : Nat
deriving Repr, DecidableEq, Inhabited

/-- The loop `for (k = 1; k <= cnt; k *= 2) { push {w * k, v * k, i, k}; cnt -= k; }` from the
state `(k, cnt, splitItems)`; it returns the list and the remaining `cnt`. Every iteration
lowers `cnt` by `k ≥ 1`, so `fuel = cnt` iterations are enough.
In exact arithmetic; the 32-bit `int` computation of the program is `splitLoopW`. -/
def splitLoop (it : ItemC) (i : Nat) : Nat → Nat → Nat → List SplitItem → List SplitItem × Nat
  | 0, _, cnt, splitItems => (splitItems, cnt)
  | fuel + 1, k, cnt, splitItems =>
    if k ≤ cnt then
      splitLoop it i fuel (k * 2) (cnt - k) (splitItems ++ [⟨it.weight * k, it.value * k, i, k⟩])
    else (splitItems, cnt)

/-- The binary decomposition of item `i`: the doubling loop, then the remainder if any.
In exact arithmetic; the 32-bit `int` computation of the program is `splitOneW`. -/
def splitOne (it : ItemC) (i : Nat) (splitItems : List SplitItem) : List SplitItem :=
  let r := splitLoop it i it.count 1 it.count splitItems
  if r.2 > 0 then r.1 ++ [⟨it.weight * r.2, it.value * r.2, i, r.2⟩] else r.1

/-- The vector `splitItems` of `knapsack_multiple.cpp`. -/
def splitAll (items : List ItemC) : List SplitItem :=
  forLt 0 items.length (fun i splitItems => splitOne (items.getD i default) i splitItems) []

/-- The DP of `knapsack_multiple.cpp`: the 0/1 rule over the split items.
In exact arithmetic; the 32-bit `int` computation of the program is `fillMultipleW`. -/
def fillMultiple (items : List ItemC) (capacity : Nat) : Table Nat :=
  let splitItems := splitAll items
  let m := splitItems.length
  forUp 1 m (fun i dp =>
    let w := (splitItems.getD (i - 1) default).weight
    let v := (splitItems.getD (i - 1) default).value
    forUp 0 capacity (fun j dp => cell01 w v i j dp) dp)
    (Table.mk (m + 1) (capacity + 1) 0)

/-- The `max_value` of `knapsack_multiple.cpp`: `dp[m][capacity]`.
In exact arithmetic; the 32-bit `int` computation of the program is `maxValueMultipleW`. -/
def maxValueMultiple (items : List ItemC) (capacity : Nat) : Nat :=
  (fillMultiple items capacity).get (splitAll items).length capacity

/-- The optimum by naive enumeration of the copies: for the first item every number of copies
`k = 0..count` that fits is tried directly, with the rest of the items in what is left of the
capacity. -/
def naiveBestMultiple : List ItemC → Nat → Nat
  | [], _ => 0
  | it :: rest, cap =>
    (List.range (it.count + 1)).foldl (fun best k =>
      if k * it.weight ≤ cap then
        max best (k * it.value + naiveBestMultiple rest (cap - k * it.weight))
      else best) 0

/-- The values `sum x t * value t` of the vectors of copy counts with `x t ≤ count t` for every
item and `sum x t * weight t ≤ C`: what enumerating the copies of every item gives. -/
def feasibleValuesMultiple (items : List ItemC) (C : Nat) : Set Nat :=
  {val | ∃ x : Nat → Nat,
    (∀ t, t < items.length → x t ≤ (items.getD t default).count) ∧
    (∑ t in Finset.range items.length, x t * (items.getD t default).weight) ≤ C ∧
    (∑ t in Finset.range items.length, x t * (items.getD t default).value) = val}

/-! ## Dependency knapsack (`knapsack_depend.cpp`) -/

/-- The `Item` of `knapsack_depend.cpp`: `parent` 0 is a main item, `parent > 0` an attachment
of the main item number `parent` (1-based). -/
structure ItemD where
  weight : Nat
  value : Nat
  parent : Nat
deriving Repr, DecidableEq, Inhabited

/-- The `Package` of `knapsack_depend.cpp` (without its description string). -/
structure Package where
  weight : Nat
  value : Nat
  items : List Nat
deriving Repr, DecidableEq, Inhabited

/-- The map `attachments` after the input loop: `attachments[parent - 1].push_back(i)` for
every item with `parent > 0`. -/
def buildAttachments (items : List ItemD) : List (Int × List Nat) :=
  forLt 0 items.length (fun i atts =>
    if (items.getD i default).parent > 0 then
      groupsInsert atts (((items.getD i default).parent : Int) - 1) i
    else atts) []

/-- The package of main item `i` for the subset `mask` of its attachments `atts`.
In exact arithmetic; the 32-bit `int` computation of the program is `mkPackageW`. -/
def mkPackage (items : List ItemD) (i : Nat) (atts : List Nat) (mask : Nat) : Package :=
  forLt 0 atts.length (fun j pkg =>
    if mask &&& (1 <<< j) ≠ 0 then
      let attIdx := atts.getD j 0
      { weight := pkg.weight + (items.getD attIdx default).weight
        value := pkg.value + (items.getD attIdx default).value
        items := pkg.items ++ [attIdx] }
    else pkg)
    ⟨(items.getD i default).weight, (items.getD i default).value, [i]⟩

/-- The vector `packages`: for every main item, in input order, one package per subset of its
attachments (`mask` from 0 to `2 ^ numAtts - 1`).
In exact arithmetic; the 32-bit `int` computation of the program is `buildPackagesW`. -/
def buildPackages (items : List ItemD) : List Package :=
  let attachments := buildAttachments items
  forLt 0 items.length (fun i packages =>
    if (items.getD i default).parent = 0 then
      let atts := groupsFind attachments (i : Int)
      let numAtts := atts.length
      forLt 0 (1 <<< numAtts) (fun mask packages =>
        packages ++ [mkPackage items i atts mask]) packages
    else packages) []

/-- The DP of `knapsack_depend.cpp`: the 0/1 rule over the packages. -/
def fillDepend (items : List ItemD) (capacity : Nat) : Table Nat :=
  let packages := buildPackages items
  let m := packages.length
  forUp 1 m (fun i dp =>
    let w := (packages.getD (i - 1) default).weight
    let v := (packages.getD (i - 1) default).value
    forUp 0 capacity (fun j dp => cell01 w v i j dp) dp)
    (Table.mk (m + 1) (capacity + 1) 0)

/-- The `max_value` of `knapsack_depend.cpp`: `dp[m][capacity]`. -/
def maxValueDepend (items : List ItemD) (capacity : Nat) : Nat :=
  (fillDepend items capacity).get (buildPackages items).length capacity

/-- The total values of the sets of items (every item at most once) of total weight at most `C`
in which an attachment occurs only together with its main item. -/
def feasibleValuesDepend (items : List ItemD) (C : Nat) : Set Nat :=
  {val | ∃ S : Finset Nat, S ⊆ Finset.range items.length ∧
    (∀ t ∈ S, (items.getD t default).parent > 0 → (items.getD t default).parent - 1 ∈ S) ∧
    (∑ t in S, (items.getD t default).weight) ≤ C ∧
    (∑ t in S, (items.getD t default).value) = val}

/-! ## Tree knapsack (`knapsack_tree.cpp`) -/

/-- The `Item` of `knapsack_tree.cpp`: `parent` is the 1-based number of the parent node, 0
for a root. -/
structure ItemT where
  weight : Nat
  value : Nat
  parent : Nat
deriving Repr, DecidableEq, Inhabited

/-- The vector `children` after the input loop: `children[parent - 1].push_back(i)` for every
item that is not a root. -/
def buildChildren (items : List ItemT) : List (List Nat) :=
  forLt 0 items.length (fun i children =>
    if (items.getD i default).parent = 0 then children
    else children.set ((items.getD i default).parent - 1)
      (children.getD ((items.getD i default).parent - 1) [] ++ [i]))
    (List.replicate items.length [])

/-- The vector `roots` after the input loop. -/
def buildRoots (items : List ItemT) : List Nat :=
  forLt 0 items.length (fun i roots =>
    if (items.getD i default).parent = 0 then roots ++ [i] else roots) []

/-- The merge of the table of `child` into the table of `u` (weight `w`): for `j` from
`capacity` down to `w` and `k` from 0 to `j - w`, `dp[u][j]` is raised to
`dp[u][j - k] + dp[child][k]` when that is more.
In exact arithmetic; the 32-bit `int` computation of the program is `mergeChildW`. -/
def mergeChild (w capacity u child : Nat) (dp : Table Nat) : Table Nat :=
  forDown capacity w (fun j dp =>
    forUp 0 (j - w) (fun k dp =>
      if dp.get u j < dp.get u (j - k) + dp.get child k then
        dp.set u j (dp.get u (j - k) + dp.get child k)
      else dp) dp) dp

/-- The function `dfs` of `knapsack_tree.cpp` on the global table `dp`; `fuel` bounds the
depth of the recursion (at fuel 0 nothing is done).
In exact arithmetic; the 32-bit `int` computation of the program is `dfsW`. -/
def dfs (items : List ItemT) (children : List (List Nat)) (capacity : Nat) :
    Nat → Nat → Table Nat → Table Nat
  | 0, _, dp => dp
  | fuel + 1, u, dp =>
    let w := (items.getD u default).weight
    let v := (items.getD u default).value
    let dp := (children.getD u []).foldl (fun dp child => dfs items children capacity fuel child dp) dp
    let dp := forUp w capacity (fun j dp => dp.set u j v) dp
    (children.getD u []).foldl (fun dp child => mergeChild w capacity u child dp) dp

/-- The table `dp` after `for (int root : roots) dfs(root)`; the recursion is at most `n`
deep. -/
def dfsAll (items : List ItemT) (capacity : Nat) : Table Nat :=
  (buildRoots items).foldl
    (fun dp root => dfs items (buildChildren items) capacity items.length root dp)
    (Table.mk items.length (capacity + 1) 0)

/-- The merge of one root into `finalDp`: for `j` from `capacity` down to 0 and `k` from 0 to
`j`, `finalDp[j] = max(finalDp[j], finalDp[j - k] + dp[root][k])`.
In exact arithmetic; the 32-bit `int` computation of the program is `mergeRootW`. -/
def mergeRoot (capacity root : Nat) (dp : Table Nat) (finalDp : List Nat) : List Nat :=
  forDown capacity 0 (fun j finalDp =>
    forUp 0 j (fun k finalDp =>
      finalDp.set j (max (finalDp.getD j 0) (finalDp.getD (j - k) 0 + dp.get root k)))
      finalDp) finalDp

/-- The `max_value` of `knapsack_tree.cpp`: `dp[roots[0]][capacity]` for a single root,
otherwise `finalDp[capacity]` after the merge of all the roots.
In exact arithmetic; the 32-bit `int` computation of the program is `maxValueTreeW`. -/
def maxValueTree (items : List ItemT) (capacity : Nat) : Nat :=
  let roots := buildRoots items
  let dp := dfsAll items capacity
  if roots.length = 1 then dp.get (roots.getD 0 0) capacity
  else
    let finalDp := roots.foldl (fun finalDp root => mergeRoot capacity root dp finalDp)
      (List.replicate (capacity + 1) 0)
    finalDp.getD capacity 0

/-- Following the parent pointers from node `t` reaches a root in fewer than `fuel` steps. -/
def reachesRoot (items : List ItemT) : Nat → Nat → Bool
  | 0, _ => false
  | fuel + 1, t =>
    if (items.getD t default).parent = 0 then true
    else reachesRoot items fuel ((items.getD t default).parent - 1)

/-- A valid forest, in a form that can be computed: every parent id is in `0..n` and from
every node the parent pointers lead to a root through at most `n` nodes. -/
def ValidForest (items : List ItemT) : Prop :=
  (∀ t, t < items.length → (items.getD t default).parent ≤ items.length) ∧
  (∀ t, t < items.length → reachesRoot items items.length t = true)

/-- The node reached from `t` by `k` parent steps, if the chain is that long. -/
def ancestorAt (items : List ItemT) : Nat → Nat → Option Nat
  | 0, t => some t
  | k + 1, t =>
    if (items.getD t default).parent = 0 then none
    else ancestorAt items k ((items.getD t default).parent - 1)

/-- The parent pointers have no cycle: no node is its own ancestor. -/
def NoCycle (items : List ItemT) : Prop :=
  ∀ t, t < items.length → ∀ k, 0 < k → ancestorAt items k t ≠ some t

/-- The total values of the sets `S` of nodes of total weight at most `C` in which the parent
of every non-root node of `S` is in `S` too. -/
def feasibleValuesTree (items : List ItemT) (C : Nat) : Set Nat :=
  {val | ∃ S : Finset Nat, S ⊆ Finset.range items.length ∧
    (∀ t ∈ S, (items.getD t default).parent ≠ 0 → (items.getD t default).parent - 1 ∈ S) ∧
    (∑ t in S, (items.getD t default).weight) ≤ C ∧
    (∑ t in S, (items.getD t default).value) = val}

/-! ## Auxiliary definitions for the proofs -/

/-- The table has `R` rows of `Cc` columns each. -/
def Table.Dims {α : Type} (T : Table α) (R Cc : Nat) : Prop :=
  T.length = R ∧ ∀ row ∈ T, row.length = Cc

/-- The cells `(i, j)` visited by `for (i = lo; i <= hi; i++) for (j = 0; j <= C; j++)`. -/
def cellsOf (lo hi C : Nat) : List (Nat × Nat) :=
  (List.range' lo (hi + 1 - lo)).flatMap
    (fun i => (List.range' 0 (C + 1)).map (fun j => (i, j)))

/-- Row-major order of cells. -/
def cellLt (a b : Nat × Nat) : Prop := a.1 < b.1 ∨ (a.1 = b.1 ∧ a.2 < b.2)

/-- The row `r` gives, for every capacity `j ≤ C`, the greatest value of a pair of `A` whose
weight is at most `j`. -/
def Rep (A : Set (ℕ × ℕ)) (r : ℕ → ℕ) (C : ℕ) : Prop :=
  ∀ j, j ≤ C → IsGreatest {val | ∃ wt, wt ≤ j ∧ (wt, val) ∈ A} (r j)

/-- The pairs (total weight, total value) of the selections among the first `i` of the items
with weights `w` and values `v`. -/
def subsetPairs (w v : ℕ → ℕ) (i : ℕ) : Set (ℕ × ℕ) :=
  {q | ∃ S : Finset ℕ, S ⊆ Finset.range i ∧ q = (∑ t in S, w t, ∑ t in S, v t)}

/-- The pairs (total weight, total value) of the vectors of copy counts for the first `i` items
in which item `t` has a count allowed by `al t`. -/
def countPairs (al : ℕ → ℕ → Prop) (w v : ℕ → ℕ) (i : ℕ) : Set (ℕ × ℕ) :=
  {q | ∃ x : ℕ → ℕ, (∀ t, t < i → al t (x t)) ∧
    q = (∑ t in Finset.range i, x t * w t, ∑ t in Finset.range i, x t * v t)}

/-- The multiples of the item `(w, v)` whose count is allowed by `al`. -/
def multiples (al : ℕ → Prop) (w v : ℕ) : Set (ℕ × ℕ) :=
  {p | ∃ k, al k ∧ p = (k * w, k * v)}

/-- The value `cell01` writes. -/
def rule01 (w v : Nat) (i j : Nat) (T : Table Nat) : Nat :=
  if j < w then T.get (i - 1) j else max (T.get (i - 1) j) (T.get (i - 1) (j - w) + v)

/-- The value `cellComplete` writes. -/
def ruleComplete (w v : Nat) (i j : Nat) (T : Table Nat) : Nat :=
  if j < w then T.get (i - 1) j else max (T.get (i - 1) j) (T.get i (j - w) + v)

/-- The value `cellCount` writes. -/
def ruleCount (w : Nat) (i j : Nat) (T : Table Nat) : Nat :=
  T.get (i - 1) j + (if j ≥ w then T.get (i - 1) (j - w) else 0)

/-- The three-dimensional table has `R` planes of `Cc` rows of `M` columns. -/
def Table3.Dims (T : Table3) (R Cc M : Nat) : Prop :=
  T.length = R ∧ ∀ t ∈ T, Table.Dims t Cc M

/-- The cells visited by the three nested loops of `knapsack_2d.cpp`. -/
def cells3 (n C M : Nat) : List (Nat × Nat × Nat) :=
  (List.range' 1 (n + 1 - 1)).flatMap (fun i =>
    (List.range' 0 (C + 1 - 0)).flatMap (fun j =>
      (List.range' 0 (M + 1 - 0)).map (fun k => (i, j, k))))

/-- Lexicographic order of the cells of a three-dimensional table. -/
def cell3Lt (a b : Nat × Nat × Nat) : Prop :=
  a.1 < b.1 ∨ (a.1 = b.1 ∧ (a.2.1 < b.2.1 ∨ (a.2.1 = b.2.1 ∧ a.2.2 < b.2.2)))

/-- The value `cell2D` writes. -/
def rule2D (w m v : Nat) (i j k : Nat) (T : Table3) : Nat :=
  if j ≥ w ∧ k ≥ m then
    (if T.get (i - 1) (j - w) (k - m) + v > T.get (i - 1) j k
      then T.get (i - 1) (j - w) (k - m) + v else T.get (i - 1) j k)
  else T.get (i - 1) j k

/-- The value `cellKth` writes. -/
def ruleKth (w : Nat) (v : Int) (K : Nat) (i j : Nat) (T : Table (List Int)) : List Int :=
  mergeTopK (T.get (i - 1) j)
    (if j ≥ w then (T.get (i - 1) (j - w)).map (fun val => val + v) else []) K

/-- The value the group fill leaves in `dp[g + 1][j]`: the row `prev` of the previous group at
`j`, raised by every member of the group that fits and gives strictly more. -/
def bestOfGroup (items : List ItemG) (groupItems : List Nat) (prev : Nat → Nat) (j : Nat) : Nat :=
  groupItems.foldl (fun best idx =>
    let w := (items.getD idx default).weight
    let v := (items.getD idx default).value
    if j ≥ w ∧ prev (j - w) + v > best then prev (j - w) + v else best) (prev j)

/-- The alternatives one group offers: nothing, or one of its members. -/
def groupChoices (items : List ItemG) (groupItems : List Nat) : Set (ℕ × ℕ) :=
  {p | p = (0, 0) ∨ ∃ idx ∈ groupItems,
    p = ((items.getD idx default).weight, (items.getD idx default).value)}

/-- The pairs (total weight, total value) of the selections with at most one item from each of
the first `g` groups and none from the other groups. -/
def groupPairs (items : List ItemG) (g : Nat) : Set (ℕ × ℕ) :=
  {q | ∃ S : Finset Nat,
    (∀ t ∈ S, t < items.length ∧ (items.getD t default).group ∈ (distinctGroupIds items).take g) ∧
    (∀ s ∈ S, ∀ t ∈ S, (items.getD s default).group = (items.getD t default).group → s = t) ∧
    q = (∑ t in S, (items.getD t default).weight, ∑ t in S, (items.getD t default).value)}

/-- The value `cellMixed` writes. -/
def ruleMixed (it : ItemM) (i j : Nat) (T : Table Nat) : Nat :=
  if it.type = 0 then
    if j ≥ it.weight ∧ T.get (i - 1) (j - it.weight) + it.value > T.get (i - 1) j
      then T.get (i - 1) (j - it.weight) + it.value else T.get (i - 1) j
  else if it.type = 1 then
    if j ≥ it.weight ∧ T.get i (j - it.weight) + it.value > T.get (i - 1) j
      then T.get i (j - it.weight) + it.value else T.get (i - 1) j
  else
    loopMultiple (fun b => T.get (i - 1) b) it.weight it.value it.count j it.count 1
      (T.get (i - 1) j)

/-- The two passes over row `i` of `knapsack_mixed.cpp`, as one body indexed by
(row, pass, column): pass 0 copies the previous row, pass 1 fills. -/
def bodyMixed (items : List ItemM) (c : Nat × Nat × Nat) (dp : Table Nat) : Table Nat :=
  if c.2.1 = 0 then dp.set c.1 c.2.2 (dp.get (c.1 - 1) c.2.2)
  else cellMixed (items.getD (c.1 - 1) default) c.1 c.2.2 dp

/-- The value `bodyMixed` writes. -/
def fnMixed (items : List ItemM) (c : Nat × Nat × Nat) (T : Table Nat) : Nat :=
  if c.2.1 = 0 then T.get (c.1 - 1) c.2.2
  else ruleMixed (items.getD (c.1 - 1) default) c.1 c.2.2 T

/-- The copy counts the mixed solver gives an item. -/
def allowedM (it : ItemM) (k : Nat) : Prop :=
  if it.type = 0 then k ≤ 1 else if it.type = 1 then True else k ≤ it.count

/-- The pairs reachable from those of `A` by adding, for each pseudo-item of `L` in turn,
nothing or that pseudo-item. -/
def sumsFrom (A : Set (ℕ × ℕ)) (L : List (ℕ × ℕ)) : Set (ℕ × ℕ) :=
  L.foldl (fun B p => B + {(0, 0), p}) A

/-- The (weight, value) pairs of a list of split items. -/
def splitPairs (L : List SplitItem) : List (ℕ × ℕ) := L.map (fun s => (s.weight, s.value))

/-- Node `c` is a child of node `u`. -/
def IsChild (items : List ItemT) (u c : Nat) : Prop :=
  c < items.length ∧ (items.getD c default).parent = u + 1

/-- Node `t` lies in the subtree of node `u`. -/
def InSub (items : List ItemT) (u t : Nat) : Prop :=
  Relation.ReflTransGen (IsChild items) u t

/-- The number of parent steps from `t` to its root, counted with `fuel`. -/
def stepsToRoot (items : List ItemT) : Nat → Nat → Nat
  | 0, _ => 0
  | fuel + 1, t =>
    if (items.getD t default).parent = 0 then 0
    else stepsToRoot items fuel ((items.getD t default).parent - 1) + 1

/-- The depth of node `t` in a valid forest. -/
def depthOf (items : List ItemT) (t : Nat) : Nat := stepsToRoot items items.length t

/-- The sets of nodes that lie in the subtrees of the nodes of `L` and contain, with every node
outside `L`, its parent. -/
def InF (items : List ItemT) (L : List Nat) (S : Finset Nat) : Prop :=
  (∀ t ∈ S, ∃ c ∈ L, InSub items c t) ∧
  (∀ t ∈ S, t ∉ L → (items.getD t default).parent ≠ 0 ∧ (items.getD t default).parent - 1 ∈ S)

/-- The pairs (total weight, total value) of the sets of `InF items L`. -/
def pairsF (items : List ItemT) (L : List Nat) : Set (ℕ × ℕ) :=
  {q | ∃ S : Finset Nat, InF items L S ∧
    q = (∑ t in S, (items.getD t default).weight, ∑ t in S, (items.getD t default).value)}

/-- No node of `L` lies in the subtree of another one. -/
def Antichain (items : List ItemT) (L : List Nat) : Prop :=
  L.Nodup ∧ ∀ c ∈ L, ∀ c' ∈ L, InSub items c c' → c = c'

/-- The row `r` of a node of weight `w`: zero below `w`, and from `w` on the greatest value of
a pair of `X` within the capacity; every pair of `X` weighs at least `w`. -/
def ARep (X : Set (ℕ × ℕ)) (r : ℕ → ℕ) (w C : ℕ) : Prop :=
  (∀ j, j < w → j ≤ C → r j = 0)
  ∧ (∀ j, w ≤ j → j ≤ C → IsGreatest {val | ∃ wt, wt ≤ j ∧ (wt, val) ∈ X} (r j))
  ∧ ∀ q ∈ X, w ≤ q.1

/-- Row `t` of the table holds the optima of the subtree of `t`: the greatest value of a
selection in the subtree that is empty or contains `t` and is closed under parents. -/
def RowOK (items : List ItemT) (C : Nat) (T : Table Nat) (t : Nat) : Prop :=
  Rep (pairsF items [t]) (fun j => T.get t j) C

/-- What a call `dfs(u)` does to the table `T`, giving `T'`: the rows outside the subtree of
`u` stay and the rows inside hold the optima of their subtrees. -/
def DfsPost (items : List ItemT) (C : Nat) (u : Nat) (T T' : Table Nat) : Prop :=
  T'.Dims items.length (C + 1)
  ∧ (∀ t, ¬ InSub items u t → ∀ j, T'.get t j = T.get t j)
  ∧ ∀ t, InSub items u t → RowOK items C T' t

/-! ## Binary decomposition: the multipliers of one item -/

/-- The multipliers (`splitCount`) of the pseudo-items that the binary decomposition emits for
item `it` at position `i`, in emission order. -/
def multipliers (it : ItemC) (i : Nat) : List Nat :=
  (splitOne it i []).map (fun s => s.splitCount)

/-- The totals obtained by choosing each member of a list of multipliers at most once. -/
def subSums (ms : List Nat) : Set Nat := {s | ∃ l : List Nat, l.Sublist ms ∧ l.sum = s}

/-! ## Dependency knapsack: the package list, as the specification describes it -/

/-- The main items (`parent = 0`) in input order. -/
def mainsOf (items : List ItemD) : List Nat :=
  (List.range items.length).filter (fun t => (items.getD t default).parent = 0)

/-- The attachments of main item `i`: the positions whose `parent` is `i + 1`, ascending. -/
def attsOf (items : List ItemD) (i : Nat) : List Nat :=
  (List.range items.length).filter (fun t => (items.getD t default).parent = i + 1)

/-- The package made of main item `i` and the attachments `l`: weight and value are the
main item's plus the sums over `l`. -/
def packageOf (items : List ItemD) (i : Nat) (l : List Nat) : Package :=
  { weight := (items.getD i default).weight + (l.map (fun t => (items.getD t default).weight)).sum
    value := (items.getD i default).value + (l.map (fun t => (items.getD t default).value)).sum
    items := i :: l }

/-! ## Backtracking: the array `path` -/

/-- One entry `{"r": i, "c": j, "item": i - 1}` of the array `path`. -/
structure PathEntry where
  r : Nat
  c : Nat
  item : Nat
deriving Repr, DecidableEq, Inhabited

/-- The loop `for (i = n; i > 0 && j > 0; i--) if (dp[i][j] != dp[i - 1][j]) { emit
{i, j, i - 1}; j -= weight(i - 1); }` of `knapsack_01.cpp`, `knapsack_multiple.cpp` and
`knapsack_depend.cpp`, from the state `(i, j)`; `weight t` is the weight of the entry `t` of
the vector the table was filled over. A `j` that would become negative ends the loop exactly
as `j = 0` does. -/
def backtrackFrom (weight : Nat → Nat) (dp : Table Nat) : Nat → Nat → List PathEntry
  | 0, _ => []
  | i + 1, j =>
    if j > 0 then
      if dp.get (i + 1) j ≠ dp.get i j then
        ⟨i + 1, j, i⟩ :: backtrackFrom weight dp i (j - weight i)
      else backtrackFrom weight dp i j
    else []

/-- The `path` of `knapsack_01.cpp`. -/
def path01 (items : List Item) (capacity : Nat) : List PathEntry :=
  backtrackFrom (fun t => (items.getD t default).weight) (fill01 items capacity)
    items.length capacity

/-- The loop `for (i = n; i > 0 && j > 0; ) { if (dp[i][j] != dp[i - 1][j]) { emit; j -=
weight; } else i--; }` of `knapsack_complete.cpp` from the state `(i, j)`, for at most `fuel`
iterations. -/
def backtrackComplete (items : List Item) (dp : Table Nat) : Nat → Nat → Nat → List PathEntry
  | 0, _, _ => []
  | fuel + 1, i, j =>
    if i > 0 ∧ j > 0 then
      if dp.get i j ≠ dp.get (i - 1) j then
        ⟨i, j, i - 1⟩ ::
          backtrackComplete items dp fuel i (j - (items.getD (i - 1) default).weight)
      else backtrackComplete items dp fuel (i - 1) j
    else []

/-- The `path` of `knapsack_complete.cpp`, the loop being run for `fuel` iterations. -/
def pathComplete (items : List Item) (capacity fuel : Nat) : List PathEntry :=
  backtrackComplete items (fillComplete items capacity) fuel items.length capacity

/-- The loop `while (j >= w && dp[i][j] == dp[i][j - w] + v) j -= w;` of
`knapsack_mixed.cpp`, for at most `fuel` iterations; it returns the final `j`.
In exact arithmetic; the 32-bit `int` computation of the program is `whileMixedW`. -/
def whileMixed (dp : Table Nat) (i w v : Nat) : Nat → Nat → Nat
  | 0, j => j
  | fuel + 1, j =>
    if j ≥ w ∧ dp.get i j = dp.get i (j - w) + v then whileMixed dp i w v fuel (j - w) else j

/-- The backtracking loop of `knapsack_mixed.cpp` from the state `(i, j)`: one entry per item
at which the table differs from the row above; a type-1 item then lowers `j` by the while
loop (run for `j` iterations, enough when the weight is positive), any other by its weight
once.
In exact arithmetic; the 32-bit `int` computation of the program is `backtrackMixedW`. -/
def backtrackMixed (items : List ItemM) (dp : Table Nat) : Nat → Nat → List PathEntry
  | 0, _ => []
  | i + 1, j =>
    if j > 0 then
      if dp.get (i + 1) j ≠ dp.get i j then
        let w := (items.getD i default).weight
        ⟨i + 1, j, i⟩ :: backtrackMixed items dp i
          (if (items.getD i default).type = 1 then
            whileMixed dp (i + 1) w (items.getD i default).value j j
          else j - w)
      else backtrackMixed items dp i j
    else []

/-- The `path` of `knapsack_mixed.cpp`. -/
def pathMixed (args : List (Nat × Nat × Nat)) (capacity : Nat) : List PathEntry :=
  backtrackMixed (parseMixed args) (fillMixed (parseMixed args) capacity)
    (parseMixed args).length capacity

/-- The backtracking loop of `knapsack_2d.cpp` from the state `(i, j, k)`:
`for (i = n; i > 0 && j > 0 && k > 0; i--)`. -/
def backtrack2D (items : List Item2D) (dp : Table3) : Nat → Nat → Nat → List PathEntry
  | 0, _, _ => []
  | i + 1, j, k =>
    if j > 0 ∧ k > 0 then
      if dp.get (i + 1) j k ≠ dp.get i j k then
        ⟨i + 1, j, i⟩ :: backtrack2D items dp i (j - (items.getD i default).weight)
          (k - (items.getD i default).volume)
      else backtrack2D items dp i j k
    else []

/-- The `path` of `knapsack_2d.cpp`. -/
def path2D (items : List Item2D) (capacity capacity2 : Nat) : List PathEntry :=
  backtrack2D items (fill2D items capacity capacity2) items.length capacity capacity2

/-- One entry `{"r", "c", "item": originalIndex, "splitCnt": splitCount}` of the `path` of
`knapsack_multiple.cpp`. -/
structure PathEntryC where
  r : Nat
  c : Nat
  item : Nat
  splitCnt : Nat
deriving Repr, DecidableEq, Inhabited

/-- The `path` of `knapsack_multiple.cpp`: the 0/1 walk over the split items, every entry
naming the original item and the multiplier of the split item `i - 1`. -/
def pathMultiple (items : List ItemC) (capacity : Nat) : List PathEntryC :=
  let splitItems := splitAll items
  (backtrackFrom (fun t => (splitItems.getD t default).weight) (fillMultiple items capacity)
    splitItems.length capacity).map (fun e =>
      ⟨e.r, e.c, (splitItems.getD e.item default).originalIndex,
        (splitItems.getD e.item default).splitCount⟩)

/-- One entry `{"r", "c", "items"}` of the `path` of `knapsack_depend.cpp` (without the
description string). -/
structure PathEntryD where
  r : Nat
  c : Nat
  items : List Nat
deriving Repr, DecidableEq, Inhabited

/-- The `path` of `knapsack_depend.cpp`: the 0/1 walk over the packages, every entry listing
the items of the package `i - 1`. -/
def pathDepend (items : List ItemD) (capacity : Nat) : List PathEntryD :=
  let packages := buildPackages items
  (backtrackFrom (fun t => (packages.getD t default).weight) (fillDepend items capacity)
    packages.length capacity).map (fun e => ⟨e.r, e.c, (packages.getD e.item default).items⟩)

/-- One entry of the array `steps` of `knapsack_group.cpp`: the cell, its group id, the value
written and `bestChoice` (`decision` is "take" exactly when `bestChoice >= 0`). -/
structure StepG where
  row : Nat
  col : Nat
  groupId : Int
  val : Nat
  bestChoice : Int
deriving Repr, DecidableEq, Inhabited

/-- The group fill of `knapsack_group.cpp` together with the array `steps` it emits.
In exact arithmetic; the 32-bit `int` computation of the program is `fillGroupStepsW`. -/
def fillGroupSteps (items : List ItemG) (capacity : Nat) : Table Nat × List StepG :=
  let groups := buildGroups items
  let numGroups := groups.length
  let groupIds := groupIdsOf groups
  forLt 0 numGroups (fun g st =>
    let gid := groupIds.getD g 0
    let groupItems := groupsFind groups gid
    forUp 0 capacity (fun j st =>
      let r := cellGroup items groupItems g j st.1
      (r.1, st.2 ++ [⟨g + 1, j, gid, r.1.get (g + 1) j, r.2⟩])) st)
    (Table.mk (numGroups + 1) (capacity + 1) 0, [])

/-- The array `steps` of `knapsack_group.cpp`. -/
def stepsGroup (items : List ItemG) (capacity : Nat) : List StepG :=
  (fillGroupSteps items capacity).2

/-- The `bestChoice` recorded in the step of cell `(row, col)`, if there is such a step. -/
def recordedChoice (steps : List StepG) (row col : Nat) : Option Int :=
  (steps.find? (fun s => decide (s.row = row ∧ s.col = col))).map (fun s => s.bestChoice)

/-- The repeat count a path of `knapsack_multiple.cpp` reports for the original item `i`: the
sum of the multipliers (`splitCnt`) of the entries that name `i`. -/
def repeatCount (path : List PathEntryC) (i : Nat) : Nat :=
  ((path.filter (fun e => e.item = i)).map (fun e => e.splitCnt)).sum

/-! ## Traces of a fill (proof side) -/

/-- The outputs a fold emits along the way: `out k s` for every key `k`, computed in the state
`s` the fold has reached just before `k`. -/
def traceOf {κ σ ω : Type} (body : κ → σ → σ) (out : κ → σ → ω) : List κ → σ → List ω
  | [], _ => []
  | k :: ws, s => out k s :: traceOf body out ws (body k s)

/-- The value and the `bestChoice` the group fill computes for column `j` from the row `prev`
of the previous group: the row at `j`, raised by every member that fits and gives strictly
more, and the last member that raised it (or -1). -/
def choiceOfGroup (items : List ItemG) (groupItems : List Nat) (prev : Nat → Nat) (j : Nat) :
    Nat × Int :=
  groupItems.foldl (fun st idx =>
    let w := (items.getD idx default).weight
    let v := (items.getD idx default).value
    if j ≥ w ∧ prev (j - w) + v > st.1 then (prev (j - w) + v, (idx : Int)) else st)
    (prev j, -1)

/-! ## The path of the tree solver -/

/-- One entry `{"node": root, "val": dp[root][capacity]}` of the `path` of
`knapsack_tree.cpp`. -/
structure PathEntryT where
  node : Nat
  val : Nat
deriving Repr, DecidableEq, Inhabited

/-- The `path` of `knapsack_tree.cpp`: every root with `dp[root][capacity] > 0`, in the order
of `roots`, with that value. -/
def pathTree (items : List ItemT) (capacity : Nat) : List PathEntryT :=
  let dp := dfsAll items capacity
  ((buildRoots items).filter (fun root => decide (dp.get root capacity > 0))).map
    (fun root => ⟨root, dp.get root capacity⟩)

/-- The total values of the sets `S` of nodes of the subtree of `u` that contain `u`, contain
the parent of each of their members other than `u`, and have total weight at most `j`. -/
def subtreeValues (items : List ItemT) (u j : Nat) : Set Nat :=
  {val | ∃ S : Finset Nat, u ∈ S ∧ (∀ t ∈ S, InSub items u t) ∧
    (∀ t ∈ S, t ≠ u → (items.getD t default).parent ≠ 0 ∧
      (items.getD t default).parent - 1 ∈ S) ∧
    (∑ t in S, (items.getD t default).weight) ≤ j ∧
    (∑ t in S, (items.getD t default).value) = val}

/-! ## The trace of the two-resource solver -/

/-- The vector `items` of `knapsack_count.cpp` after the input loop, for the declared count
`n` and the tuples supplied: `vector<Item> items(n)` is zero-filled and the loop
`for (i = 0; i < n && i + 3 < argc; i++)` overwrites the entries that have a tuple. -/
def readItems (n : Nat) (tuples : List Item) : List Item :=
  forLt 0 n (fun i items =>
    if i < tuples.length then items.set i (tuples.getD i default) else items)
    (List.replicate n ⟨0, 0⟩)

/-- The count `dp[n][capacity]` that `knapsack_count.cpp` reports for the declared count `n`
and the tuples supplied.
In exact arithmetic; the 32-bit `int` computation of the program is `resultCountDeclaredW`. -/
def resultCountDeclared (n : Nat) (tuples : List Item) (capacity : Nat) : Nat :=
  resultCount (readItems n tuples) capacity

/-! ## The backtracking loop of the complete solver, iteration by iteration -/

/-- The read `dp[i][j]` with its bounds checked: `none` when the row `i` or the column `j` is
outside the table. -/
def Table.read? {α : Type} (T : Table α) (i j : Nat) : Option α :=
  (T.get? i).bind (fun row => row.get? j)

/-- The loop `int bestJ = w; for (int j = w; j <= capacity; j++) if (dp[u][j] > dp[u][bestJ])
bestJ = j;` of `dfs` in `knapsack_tree.cpp`. -/
def bestJ (w capacity u : Nat) (dp : Table Nat) : Nat :=
  forUp w capacity (fun j bestJ => if dp.get u j > dp.get u bestJ then j else bestJ) w

/-- The fields `node`, `col` and `val` of a "complete" step of `knapsack_tree.cpp`. -/
structure StepT where
  node : Nat
  col : Nat
  val : Nat
deriving Repr, DecidableEq, Inhabited

/-- The "complete" step `dfs(u)` emits on the table `dp` it has computed: `col` is `bestJ` and
`val` is the read `dp[u][bestJ]`; `none` when that read is outside the row. -/
def completeStep (items : List ItemT) (capacity u : Nat) (dp : Table Nat) : Option StepT :=
  (dp.read? u (bestJ (items.getD u default).weight capacity u dp)).map
    (fun val => ⟨u, bestJ (items.getD u default).weight capacity u dp, val⟩)

/-! ## The calls of `dfs` -/

/-- The nodes `dfs(u)` of `knapsack_tree.cpp` is called on, in the order of the calls:
`u`, then the calls made for its children in turn; `none` when the recursion is deeper than
`fuel`. -/
def dfsVisits (children : List (List Nat)) : Nat → Nat → Option (List Nat)
  | 0, _ => none
  | fuel + 1, u =>
    (children.getD u []).foldl (fun acc child =>
      acc.bind (fun l => (dfsVisits children fuel child).map (fun l' => l ++ l'))) (some [u])

/-- The calls of `dfs` made by `for (int root : roots) dfs(root);`. -/
def dfsVisitsAll (items : List ItemT) (fuel : Nat) : Option (List Nat) :=
  (buildRoots items).foldl (fun acc root =>
    acc.bind (fun l => (dfsVisits (buildChildren items) fuel root).map (fun l' => l ++ l')))
    (some [])

/-- Node `t` lies `d` parent steps below a root. -/
def RootAt (items : List ItemT) (d t : Nat) : Prop :=
  ∃ r, ancestorAt items d t = some r ∧ (items.getD r default).parent = 0

/-! ## The 32-bit `int` of the programs

The tables of the programs hold `int`s and every sum is an `int` sum. The definitions of this
part, named with a final `W`, compute in that arithmetic: a sum that leaves the range of a
32-bit `int` wraps around. The definitions of the earlier parts compute the same loops in
exact arithmetic; the two agree as long as no sum leaves the range. -/

/-- The 32-bit two's complement `int` that holds the exact result `x`: `x` itself in the range
`-2^31 .. 2^31 - 1`, and `x` reduced modulo `2^32` into that range otherwise. -/
def wrap32 (x : Int) : Int := (x + 2147483648) % 4294967296 - 2147483648

/-- A table of natural numbers as a table of `int`s. -/
def castT (T : Table Nat) : Table Int :=
  List.map (fun row : List Nat => List.map (fun x : Nat => (x : Int)) row) T

/-- Every cell of column `j` is at most `j * V`. -/
def BoundJ (V : Nat) (T : Table Nat) : Prop := ∀ r j, T.get r j ≤ j * V

/-! ### 0/1 knapsack -/

/-- The body of the inner loop of `knapsack_01.cpp` on the `int` table: `withItem` is the
`int` sum `dp[i - 1][j - w] + v`. -/
def cell01W (w : Nat) (v : Int) (i j : Nat) (dp : Table Int) : Table Int :=
  if j < w then
    dp.set i j (dp.get (i - 1) j)
  else
    let withoutItem := dp.get (i - 1) j
    let withItem := wrap32 (dp.get (i - 1) (j - w) + v)
    dp.set i j (max withoutItem withItem)

/-- The DP calculation of `knapsack_01.cpp` on the `int` table. -/
def fill01W (items : List Item) (capacity : Nat) : Table Int :=
  let n := items.length
  forUp 1 n (fun i dp =>
    let w := (items.getD (i - 1) default).weight
    let v := ((items.getD (i - 1) default).value : Int)
    forUp 0 capacity (fun j dp => cell01W w v i j dp) dp)
    (Table.mk (n + 1) (capacity + 1) 0)

/-- The `max_value` of `knapsack_01.cpp`: the `int` `dp[n][capacity]`. -/
def maxValue01W (items : List Item) (capacity : Nat) : Int :=
  (fill01W items capacity).get items.length capacity

/-- The backtracking loop of `knapsack_01.cpp`, `knapsack_multiple.cpp` and
`knapsack_depend.cpp` (see `backtrackFrom`) on the `int` table. -/
def backtrackFromW (weight : Nat → Nat) (dp : Table Int) : Nat → Nat → List PathEntry
  | 0, _ => []
  | i + 1, j =>
    if j > 0 then
      if dp.get (i + 1) j ≠ dp.get i j then
        ⟨i + 1, j, i⟩ :: backtrackFromW weight dp i (j - weight i)
      else backtrackFromW weight dp i j
    else []

/-- The `path` of `knapsack_01.cpp`, read off the `int` table. -/
def path01W (items : List Item) (capacity : Nat) : List PathEntry :=
  backtrackFromW (fun t => (items.getD t default).weight) (fill01W items capacity)
    items.length capacity

/-! ### Complete knapsack -/

/-- The body of the inner loop of `knapsack_complete.cpp` on the `int` table: `withItem` is
the `int` sum `dp[i][j - w] + v`. -/
def cellCompleteW (w : Nat) (v : Int) (i j : Nat) (dp : Table Int) : Table Int :=
  if j < w then
    dp.set i j (dp.get (i - 1) j)
  else
    let withoutItem := dp.get (i - 1) j
    let withItem := wrap32 (dp.get i (j - w) + v)
    dp.set i j (max withoutItem withItem)

/-- The DP calculation of `knapsack_complete.cpp` on the `int` table. -/
def fillCompleteW (items : List Item) (capacity : Nat) : Table Int :=
  let n := items.length
  forUp 1 n (fun i dp =>
    let w := (items.getD (i - 1) default).weight
    let v := ((items.getD (i - 1) default).value : Int)
    forUp 0 capacity (fun j dp => cellCompleteW w v i j dp) dp)
    (Table.mk (n + 1) (capacity + 1) 0)

/-- The `max_value` of `knapsack_complete.cpp`: the `int` `dp[n][capacity]`. -/
def maxValueCompleteW (items : List Item) (capacity : Nat) : Int :=
  (fillCompleteW items capacity).get items.length capacity

/-- A `vector<vector<vector<int>>>` of `int`s. -/
abbrev Table3W := List (Table Int)

/-- The `int` table `dp(n + 1, (capacity + 1) x (capacity2 + 1) zeros)`. -/
def Table3W.mk (n1 n2 n3 : Nat) : Table3W := List.replicate n1 (Table.mk n2 n3 0)

/-- The read `dp[i][j][k]` of the `int` table. -/
def Table3W.get (T : Table3W) (i j k : Nat) : Int := (T.getD i []).get j k

/-- The write `dp[i][j][k] = x` on the `int` table. -/
def Table3W.set (T : Table3W) (i j k : Nat) (x : Int) : Table3W :=
  List.set T i ((T.getD i []).set j k x)

/-- A three-dimensional table of natural numbers as a table of `int`s. -/
def castT3 (T : Table3) : Table3W := List.map castT T

/-- Every cell of weight column `j` is at most `j * V`. -/
def BoundJ3 (V : Nat) (T : Table3) : Prop := ∀ i j k, T.get i j k ≤ j * V

/-- The body of the innermost loop of `knapsack_2d.cpp` on the `int` table: `withItem` is the
`int` sum `dp[i - 1][j - w][k - m] + v`. -/
def cell2DW (w m : Nat) (v : Int) (i j k : Nat) (dp : Table3W) : Table3W :=
  let oldVal := dp.get (i - 1) j k
  let newVal :=
    if j ≥ w ∧ k ≥ m then
      let withItem := wrap32 (dp.get (i - 1) (j - w) (k - m) + v)
      if withItem > oldVal then withItem else oldVal
    else oldVal
  dp.set i j k newVal

/-- The DP calculation of `knapsack_2d.cpp` on the `int` table. -/
def fill2DW (items : List Item2D) (capacity capacity2 : Nat) : Table3W :=
  let n := items.length
  forUp 1 n (fun i dp =>
    let w := (items.getD (i - 1) default).weight
    let m := (items.getD (i - 1) default).volume
    let v := ((items.getD (i - 1) default).value : Int)
    forUp 0 capacity (fun j dp =>
      forUp 0 capacity2 (fun k dp => cell2DW w m v i j k dp) dp) dp)
    (Table3W.mk (n + 1) (capacity + 1) (capacity2 + 1))

/-- The `max_value` of `knapsack_2d.cpp`: the `int` `dp[n][capacity][capacity2]`. -/
def maxValue2DW (items : List Item2D) (capacity capacity2 : Nat) : Int :=
  (fill2DW items capacity capacity2).get items.length capacity capacity2

/-- The backtracking loop of `knapsack_2d.cpp` (see `backtrack2D`) on the `int` table. -/
def backtrack2DW (items : List Item2D) (dp : Table3W) : Nat → Nat → Nat → List PathEntry
  | 0, _, _ => []
  | i + 1, j, k =>
    if j > 0 ∧ k > 0 then
      if dp.get (i + 1) j k ≠ dp.get i j k then
        ⟨i + 1, j, i⟩ :: backtrack2DW items dp i (j - (items.getD i default).weight)
          (k - (items.getD i default).volume)
      else backtrack2DW items dp i j k
    else []

/-- The `path` of `knapsack_2d.cpp`, read off the `int` table. -/
def path2DW (items : List Item2D) (capacity capacity2 : Nat) : List PathEntry :=
  backtrack2DW items (fill2DW items capacity capacity2) items.length capacity capacity2

/-! ### Tree knapsack -/

/-- The merge of the table of `child` into the table of `u` (see `mergeChild`) on the `int`
table: the sum `dp[u][j - k] + dp[child][k]` is an `int` sum. -/
def mergeChildW (w capacity u child : Nat) (dp : Table Int) : Table Int :=
  forDown capacity w (fun j dp =>
    forUp 0 (j - w) (fun k dp =>
      if dp.get u j < wrap32 (dp.get u (j - k) + dp.get child k) then
        dp.set u j (wrap32 (dp.get u (j - k) + dp.get child k))
      else dp) dp) dp

/-- The function `dfs` of `knapsack_tree.cpp` on the global `int` table `dp`; `fuel` bounds
the depth of the recursion (at fuel 0 nothing is done). -/
def dfsW (items : List ItemT) (children : List (List Nat)) (capacity : Nat) :
    Nat → Nat → Table Int → Table Int
  | 0, _, dp => dp
  | fuel + 1, u, dp =>
    let w := (items.getD u default).weight
    let v := ((items.getD u default).value : Int)
    let dp := (children.getD u []).foldl (fun dp child => dfsW items children capacity fuel child dp) dp
    let dp := forUp w capacity (fun j dp => dp.set u j v) dp
    (children.getD u []).foldl (fun dp child => mergeChildW w capacity u child dp) dp

/-- The `int` table `dp` after `for (int root : roots) dfs(root)`; the recursion is at most
`n` deep. -/
def dfsAllW (items : List ItemT) (capacity : Nat) : Table Int :=
  (buildRoots items).foldl
    (fun dp root => dfsW items (buildChildren items) capacity items.length root dp)
    (Table.mk items.length (capacity + 1) 0)

/-- The merge of one root into the `int` vector `finalDp` (see `mergeRoot`): the sum
`finalDp[j - k] + dp[root][k]` is an `int` sum. -/
def mergeRootW (capacity root : Nat) (dp : Table Int) (finalDp : List Int) : List Int :=
  forDown capacity 0 (fun j finalDp =>
    forUp 0 j (fun k finalDp =>
      finalDp.set j (max (finalDp.getD j 0)
        (wrap32 (finalDp.getD (j - k) 0 + dp.get root k)))) finalDp) finalDp

/-- The `max_value` of `knapsack_tree.cpp` as an `int`: `dp[roots[0]][capacity]` for a single
root, otherwise `finalDp[capacity]` after the merge of all the roots. -/
def maxValueTreeW (items : List ItemT) (capacity : Nat) : Int :=
  let roots := buildRoots items
  let dp := dfsAllW items capacity
  if roots.length = 1 then dp.get (roots.getD 0 0) capacity
  else
    let finalDp := roots.foldl (fun finalDp root => mergeRootW capacity root dp finalDp)
      (List.replicate (capacity + 1) 0)
    finalDp.getD capacity 0

/-- A vector of natural numbers as a vector of `int`s. -/
def castL (l : List Nat) : List Int := List.map (fun x : Nat => (x : Int)) l

/-- Every entry `j` of the vector is at most `j * V`. -/
def BoundL (V : Nat) (l : List Nat) : Prop := ∀ j, l.getD j 0 ≤ j * V

/-! ### Multiple knapsack -/

/-- The `SplitItem` of `knapsack_multiple.cpp` with its `int` fields. -/
structure SplitItemW where
  weight : Int
  value : Int
  originalIndex : Nat
  splitCount : Int
deriving Repr, DecidableEq, Inhabited

/-- A pseudo-item of natural numbers as a pseudo-item of `int`s. -/
def castSplit (s : SplitItem) : SplitItemW :=
  ⟨(s.weight : Int), (s.value : Int), s.originalIndex, (s.splitCount : Int)⟩

/-- The loop `for (k = 1; k <= cnt; k *= 2) { push {w * k, v * k, i, k}; cnt -= k; }` on
`int`s, from the state `(k, cnt, splitItems)`: the products, the doubling of `k` and the
difference are `int` operations. It returns the list and the remaining `cnt`. The loop is run
for at most `fuel` iterations (`splitOneW` allows `count` of them, see `splitLoop`). -/
def splitLoopW (w v : Int) (i : Nat) :
    Nat → Int → Int → List SplitItemW → List SplitItemW × Int
  | 0, _, cnt, splitItems => (splitItems, cnt)
  | fuel + 1, k, cnt, splitItems =>
    if k ≤ cnt then
      splitLoopW w v i fuel (wrap32 (k * 2)) (wrap32 (cnt - k))
        (splitItems ++ [⟨wrap32 (w * k), wrap32 (v * k), i, k⟩])
    else (splitItems, cnt)

/-- The binary decomposition of item `i` on `int`s: the doubling loop, then the remainder if
any. -/
def splitOneW (it : ItemC) (i : Nat) (splitItems : List SplitItemW) : List SplitItemW :=
  let r := splitLoopW (it.weight : Int) (it.value : Int) i it.count 1 (it.count : Int) splitItems
  if r.2 > 0 then
    r.1 ++ [⟨wrap32 ((it.weight : Int) * r.2), wrap32 ((it.value : Int) * r.2), i, r.2⟩]
  else r.1

/-- The vector `splitItems` of `knapsack_multiple.cpp`, with `int` fields. -/
def splitAllW (items : List ItemC) : List SplitItemW :=
  forLt 0 items.length (fun i splitItems => splitOneW (items.getD i default) i splitItems) []

/-- The read `dp[i][j]` for an `int` column `j` (a column outside the row reads as 0). -/
def getI (dp : Table Int) (i : Nat) (j : Int) : Int :=
  if j < 0 then 0 else dp.get i j.toNat

/-- The 0/1 rule of `knapsack_multiple.cpp` and `knapsack_depend.cpp` for an entry whose
weight and value are `int`s: the column `j - w` and the sum `dp[i - 1][j - w] + v` are `int`
results. -/
def cell01ZW (w v : Int) (i j : Nat) (dp : Table Int) : Table Int :=
  if (j : Int) < w then
    dp.set i j (dp.get (i - 1) j)
  else
    let withoutItem := dp.get (i - 1) j
    let withItem := wrap32 (getI dp (i - 1) (wrap32 ((j : Int) - w)) + v)
    dp.set i j (max withoutItem withItem)

/-- The DP of `knapsack_multiple.cpp` on the `int` table, over the `int` split items. -/
def fillMultipleW (items : List ItemC) (capacity : Nat) : Table Int :=
  let splitItems := splitAllW items
  let m := splitItems.length
  forUp 1 m (fun i dp =>
    let w := (splitItems.getD (i - 1) default).weight
    let v := (splitItems.getD (i - 1) default).value
    forUp 0 capacity (fun j dp => cell01ZW w v i j dp) dp)
    (Table.mk (m + 1) (capacity + 1) 0)

/-- The `max_value` of `knapsack_multiple.cpp`: the `int` `dp[m][capacity]`. -/
def maxValueMultipleW (items : List ItemC) (capacity : Nat) : Int :=
  (fillMultipleW items capacity).get (splitAllW items).length capacity

/-- One entry `{"r", "c", "item": originalIndex, "splitCnt": splitCount}` of the `path` of
`knapsack_multiple.cpp`, the column and the multiplier being `int`s. -/
structure PathEntryCW where
  r : Nat
  c : Int
  item : Nat
  splitCnt : Int
deriving Repr, DecidableEq, Inhabited

/-- A path entry of natural numbers as a path entry with `int` fields. -/
def castEntryC (e : PathEntryC) : PathEntryCW := ⟨e.r, (e.c : Int), e.item, (e.splitCnt : Int)⟩

/-- The loop `for (i = m; i > 0 && j > 0; i--) if (dp[i][j] != dp[i - 1][j]) { emit;
j -= splitItems[i - 1].weight; }` of `knapsack_multiple.cpp` on the `int` table, from the
state `(i, j)` with the `int` column `j`. -/
def backtrackMultipleW (splitItems : List SplitItemW) (dp : Table Int) :
    Nat → Int → List PathEntryCW
  | 0, _ => []
  | i + 1, j =>
    if j > 0 then
      if getI dp (i + 1) j ≠ getI dp i j then
        ⟨i + 1, j, (splitItems.getD i default).originalIndex,
            (splitItems.getD i default).splitCount⟩ ::
          backtrackMultipleW splitItems dp i (wrap32 (j - (splitItems.getD i default).weight))
      else backtrackMultipleW splitItems dp i j
    else []

/-- The `path` of `knapsack_multiple.cpp`, read off the `int` table. -/
def pathMultipleW (items : List ItemC) (capacity : Nat) : List PathEntryCW :=
  backtrackMultipleW (splitAllW items) (fillMultipleW items capacity) (splitAllW items).length
    (capacity : Int)

/-- The multipliers (`splitCount`) of the pseudo-items that the binary decomposition on
`int`s emits for item `it` at position `i`, in emission order. -/
def multipliersW (it : ItemC) (i : Nat) : List Int :=
  (splitOneW it i []).map (fun s => s.splitCount)

/-! ### Dependency knapsack: the packages -/

/-- The `Package` of `knapsack_depend.cpp` (without its description string) with its `int`
weight and value. -/
structure PackageW where
  weight : Int
  value : Int
  items : List Nat
deriving Repr, DecidableEq, Inhabited

/-- A package of natural numbers as a package with `int` fields. -/
def castPackage (p : Package) : PackageW := ⟨(p.weight : Int), (p.value : Int), p.items⟩

/-- The package of main item `i` for the subset `mask` of its attachments `atts`, as the
program computes it: `pkg.weight += ..` and `pkg.value += ..` are `int` sums. -/
def mkPackageW (items : List ItemD) (i : Nat) (atts : List Nat) (mask : Nat) : PackageW :=
  forLt 0 atts.length (fun j pkg =>
    if mask &&& (1 <<< j) ≠ 0 then
      let attIdx := atts.getD j 0
      { weight := wrap32 (pkg.weight + ((items.getD attIdx default).weight : Int))
        value := wrap32 (pkg.value + ((items.getD attIdx default).value : Int))
        items := pkg.items ++ [attIdx] }
    else pkg)
    ⟨((items.getD i default).weight : Int), ((items.getD i default).value : Int), [i]⟩

/-- The vector `packages` as the program computes it: the bound `1 << numAtts` of the loop
over the masks is an `int` (for `numAtts = 31` it is negative and the loop does not run). -/
def buildPackagesW (items : List ItemD) : List PackageW :=
  let attachments := buildAttachments items
  forLt 0 items.length (fun i packages =>
    if (items.getD i default).parent = 0 then
      let atts := groupsFind attachments (i : Int)
      let numAtts := atts.length
      forLt 0 (wrap32 ((1 <<< numAtts : Nat) : Int)).toNat (fun mask packages =>
        packages ++ [mkPackageW items i atts mask]) packages
    else packages) []

/-! ### K-th best in `int` arithmetic -/

/-- The body of the inner loop of `knapsack_kth.cpp`; the sum `val + v` is an `int`. -/
def cellKthW (w : Nat) (v : Int) (K : Nat) (i j : Nat) (dp : Table (List Int)) :
    Table (List Int) :=
  let notTake := dp.get (i - 1) j
  let take := if j ≥ w then (dp.get (i - 1) (j - w)).map (fun val => wrap32 (val + v)) else []
  dp.set i j (mergeTopK notTake take K)

/-- The DP calculation of `knapsack_kth.cpp` in `int` arithmetic. -/
def fillKthW (items : List ItemK) (capacity K : Nat) : Table (List Int) :=
  let n := items.length
  forUp 1 n (fun i dp =>
    let w := (items.getD (i - 1) default).weight
    let v := (items.getD (i - 1) default).value
    forUp 0 capacity (fun j dp => cellKthW w v K i j dp) dp)
    (Table.mk (n + 1) (capacity + 1) [0])

/-- The reported `topK` list of `knapsack_kth.cpp` in `int` arithmetic. -/
def topKW (items : List ItemK) (capacity K : Nat) : List Int :=
  (fillKthW items capacity K).get items.length capacity

/-- Every value of row `r` of a k-th-best table is between `-(r * V)` and `r * V`. -/
def BoundR (V : Nat) (T : Table (List Int)) : Prop :=
  ∀ r j, ∀ x ∈ T.get r j, -((r * V : Nat) : Int) ≤ x ∧ x ≤ ((r * V : Nat) : Int)

/-! ### Group knapsack in `int` arithmetic -/

/-- One column of the group fill of `knapsack_group.cpp`; the sum `dp[g][j - w] + v` is an
`int`, in the comparison and in the assignment. -/
def cellGroupW (items : List ItemG) (groupItems : List Nat) (g j : Nat) (dp : Table Int) :
    Table Int × Int :=
  groupItems.foldl (fun st idx =>
    let w := (items.getD idx default).weight
    let v := ((items.getD idx default).value : Int)
    if j ≥ w ∧ wrap32 (st.1.get g (j - w) + v) > st.1.get (g + 1) j then
      (st.1.set (g + 1) j (wrap32 (st.1.get g (j - w) + v)), (idx : Int))
    else st) (dp.set (g + 1) j (dp.get g j), -1)

/-- The group knapsack DP of `knapsack_group.cpp` in `int` arithmetic. -/
def fillGroupW (items : List ItemG) (capacity : Nat) : Table Int :=
  let groups := buildGroups items
  let numGroups := groups.length
  let groupIds := groupIdsOf groups
  forLt 0 numGroups (fun g dp =>
    let gid := groupIds.getD g 0
    let groupItems := groupsFind groups gid
    forUp 0 capacity (fun j dp => (cellGroupW items groupItems g j dp).1) dp)
    (Table.mk (numGroups + 1) (capacity + 1) 0)

/-- The value `dp[numGroups][capacity]` of `knapsack_group.cpp` in `int` arithmetic. -/
def maxValueGroupW (items : List ItemG) (capacity : Nat) : Int :=
  (fillGroupW items capacity).get (numGroupsOf items) capacity

/-- The `max_value` that a run of `knapsack_group.cpp` prints. The JSON text is printed at the
very end, after the field `operations`, whose value is `numGroups * (capacity + 1) *
(n / numGroups)`: with no group the division by zero ends the run and nothing is printed. -/
def reportedMaxGroupW (items : List ItemG) (capacity : Nat) : Option Int :=
  if numGroupsOf items = 0 then none else some (maxValueGroupW items capacity)

/-- One entry of the array `steps` of `knapsack_group.cpp`, with the `int` value written. -/
structure StepGW where
  row : Nat
  col : Nat
  groupId : Int
  val : Int
  bestChoice : Int
deriving Repr, DecidableEq, Inhabited

/-- A step with a natural value as a step with an `int` value. -/
def castStepG (s : StepG) : StepGW := ⟨s.row, s.col, s.groupId, (s.val : Int), s.bestChoice⟩

/-- The group fill of `knapsack_group.cpp` in `int` arithmetic together with the array
`steps` it emits. -/
def fillGroupStepsW (items : List ItemG) (capacity : Nat) : Table Int × List StepGW :=
  let groups := buildGroups items
  let numGroups := groups.length
  let groupIds := groupIdsOf groups
  forLt 0 numGroups (fun g st =>
    let gid := groupIds.getD g 0
    let groupItems := groupsFind groups gid
    forUp 0 capacity (fun j st =>
      let r := cellGroupW items groupItems g j st.1
      (r.1, st.2 ++ [⟨g + 1, j, gid, r.1.get (g + 1) j, r.2⟩])) st)
    (Table.mk (numGroups + 1) (capacity + 1) 0, [])

/-- The array `steps` of `knapsack_group.cpp` in `int` arithmetic. -/
def stepsGroupW (items : List ItemG) (capacity : Nat) : List StepGW :=
  (fillGroupStepsW items capacity).2

/-- The `bestChoice` recorded in the step of cell `(row, col)`, if there is such a step. -/
def recordedChoiceW (steps : List StepGW) (row col : Nat) : Option Int :=
  (steps.find? (fun s => decide (s.row = row ∧ s.col = col))).map (fun s => s.bestChoice)

/-! ### Mixed knapsack in `int` arithmetic -/

/-- The loop `for (k = 1; k <= count && k * w <= j; k++)` of the multiple branch of
`knapsack_mixed.cpp`; the products `k * w` and `k * v`, the index `j - k * w` and the sum are
`int`s, and `prev` reads the previous row at an `int` index. -/
def loopMultipleW (prev : Int → Int) (w v : Int) (count j : Nat) : Nat → Nat → Int → Int
  | 0, _, newVal => newVal
  | fuel + 1, k, newVal =>
    if k ≤ count ∧ wrap32 ((k : Int) * w) ≤ (j : Int) then
      loopMultipleW prev w v count j fuel (k + 1)
        (if wrap32 (prev (wrap32 ((j : Int) - wrap32 ((k : Int) * w))) + wrap32 ((k : Int) * v))
            > newVal then
          wrap32 (prev (wrap32 ((j : Int) - wrap32 ((k : Int) * w))) + wrap32 ((k : Int) * v))
        else newVal)
    else newVal

/-- The body of the second inner loop of `knapsack_mixed.cpp` in `int` arithmetic. -/
def cellMixedW (it : ItemM) (i j : Nat) (dp : Table Int) : Table Int :=
  let w := it.weight
  let v := (it.value : Int)
  let oldVal := dp.get (i - 1) j
  let newVal :=
    if it.type = 0 then
      if j ≥ w ∧ wrap32 (dp.get (i - 1) (j - w) + v) > oldVal then
        wrap32 (dp.get (i - 1) (j - w) + v)
      else oldVal
    else if it.type = 1 then
      if j ≥ w ∧ wrap32 (dp.get i (j - w) + v) > oldVal then wrap32 (dp.get i (j - w) + v)
      else oldVal
    else
      loopMultipleW (fun b => getI dp (i - 1) b) (w : Int) v it.count j it.count 1 oldVal
  dp.set i j newVal

/-- The DP calculation of `knapsack_mixed.cpp` in `int` arithmetic. -/
def fillMixedW (items : List ItemM) (capacity : Nat) : Table Int :=
  let n := items.length
  forUp 1 n (fun i dp =>
    let dp := forUp 0 capacity (fun j dp => dp.set i j (dp.get (i - 1) j)) dp
    forUp 0 capacity (fun j dp => cellMixedW (items.getD (i - 1) default) i j dp) dp)
    (Table.mk (n + 1) (capacity + 1) 0)

/-- The `max_value` of `knapsack_mixed.cpp` in `int` arithmetic. -/
def maxValueMixedW (args : List (Nat × Nat × Nat)) (capacity : Nat) : Int :=
  (fillMixedW (parseMixed args) capacity).get args.length capacity

/-- The loop `while (j >= w && dp[i][j] == dp[i][j - w] + v) j -= w;` of
`knapsack_mixed.cpp` in `int` arithmetic, for at most `fuel` iterations. -/
def whileMixedW (dp : Table Int) (i w : Nat) (v : Int) : Nat → Nat → Nat
  | 0, j => j
  | fuel + 1, j =>
    if j ≥ w ∧ dp.get i j = wrap32 (dp.get i (j - w) + v) then whileMixedW dp i w v fuel (j - w)
    else j

/-- The backtracking loop of `knapsack_mixed.cpp` over the `int` table. The column stays a
natural number: `j -= w` below `w` gives a negative column, and a column that is not positive
ends the loop. -/
def backtrackMixedW (items : List ItemM) (dp : Table Int) : Nat → Nat → List PathEntry
  | 0, _ => []
  | i + 1, j =>
    if j > 0 then
      if dp.get (i + 1) j ≠ dp.get i j then
        let w := (items.getD i default).weight
        ⟨i + 1, j, i⟩ :: backtrackMixedW items dp i
          (if (items.getD i default).type = 1 then
            whileMixedW dp (i + 1) w ((items.getD i default).value : Int) j j
          else j - w)
      else backtrackMixedW items dp i j
    else []

/-- The `path` of `knapsack_mixed.cpp` in `int` arithmetic. -/
def pathMixedW (args : List (Nat × Nat × Nat)) (capacity : Nat) : List PathEntry :=
  backtrackMixedW (parseMixed args) (fillMixedW (parseMixed args) capacity)
    (parseMixed args).length capacity

/-! ### Solution counting in `int` arithmetic -/

/-- The body of the inner loop of `knapsack_count.cpp`; the sum `notTake + take` is an
`int`. -/
def cellCountW (w i j : Nat) (dp : Table Int) : Table Int :=
  let notTake := dp.get (i - 1) j
  let take := if j ≥ w then dp.get (i - 1) (j - w) else 0
  dp.set i j (wrap32 (notTake + take))

/-- The DP calculation of `knapsack_count.cpp` in `int` arithmetic. -/
def fillCountW (items : List Item) (capacity : Nat) : Table Int :=
  let n := items.length
  forUp 1 n (fun i dp =>
    let w := (items.getD (i - 1) default).weight
    forUp 0 capacity (fun j dp => cellCountW w i j dp) dp)
    ((Table.mk (n + 1) (capacity + 1) 0).set 0 0 1)

/-- The reported result of `knapsack_count.cpp` in `int` arithmetic: `dp[n][capacity]`. -/
def resultCountW (items : List Item) (capacity : Nat) : Int :=
  (fillCountW items capacity).get items.length capacity

/-- The count `dp[n][capacity]` that `knapsack_count.cpp` reports, in `int` arithmetic, for
the declared count `n` and the tuples supplied. -/
def resultCountDeclaredW (n : Nat) (tuples : List Item) (capacity : Nat) : Int :=
  resultCountW (readItems n tuples) capacity

/-- Every cell of row `r` of a counting table is at most `2 ^ r`. -/
def BoundP (T : Table Nat) : Prop := ∀ r j, T.get r j ≤ 2 ^ r

/-! ### The run of `knapsack_01.cpp` on a decoded command line -/

section Writes

variable {σ ι α κ : Type}

/-- A fold of writes: only the written cells change. -/
theorem writes_frame (get : σ → ι → α) (set : σ → ι → α → σ) (ok : σ → Prop)
    (valid : ι → Prop)
    (hother : ∀ s c x c', ok s → valid c → c' ≠ c → get (set s c x) c' = get s c')
    (hok : ∀ s c x, ok s → valid c → ok (set s c x))
    (cellOf : κ → ι) (fn : κ → σ → α) (body : κ → σ → σ)
    (ws : List κ) (hbody : ∀ k ∈ ws, ∀ s, ok s → body k s = set s (cellOf k) (fn k s))
    (hv : ∀ k ∈ ws, valid (cellOf k)) (s0 : σ) (h0 : ok s0) :
    ok (ws.foldl (fun s k => body k s) s0) ∧
      ∀ c, (∀ k ∈ ws, cellOf k ≠ c) → get (ws.foldl (fun s k => body k s) s0) c = get s0 c := by
  induction ws generalizing s0 with
  | nil => exact ⟨h0, fun c _ => rfl⟩
  | cons k ws ih =>
    have hvk : valid (cellOf k) := hv k (List.mem_cons_self _ _)
    have hbk := hbody k (List.mem_cons_self _ _) s0 h0
    have h1 : ok (body k s0) := by rw [hbk]; exact hok _ _ _ h0 hvk
    obtain ⟨ha, hb⟩ := ih (fun k' hk' => hbody k' (List.mem_cons_of_mem _ hk'))
      (fun k' hk' => hv k' (List.mem_cons_of_mem _ hk')) (body k s0) h1
    refine ⟨ha, fun c hc => ?_⟩
    rw [List.foldl_cons, hb c (fun k' hk' => hc k' (List.mem_cons_of_mem _ hk'))]
    have : c ≠ cellOf k := fun h => hc k (List.mem_cons_self _ _) h.symm
    rw [hbk, hother _ _ _ _ h0 hvk this]

/-- A fold of writes: a cell holds what its last write computed, and that write's function may
be evaluated in the final store when it reads no cell written from then on. -/
theorem writes_last (get : σ → ι → α) (set : σ → ι → α → σ) (ok : σ → Prop)
    (valid : ι → Prop)
    (hsame : ∀ s c x, ok s → valid c → get (set s c x) c = x)
    (hother : ∀ s c x c', ok s → valid c → c' ≠ c → get (set s c x) c' = get s c')
    (hok : ∀ s c x, ok s → valid c → ok (set s c x))
    (cellOf : κ → ι) (fn : κ → σ → α) (body : κ → σ → σ)
    (later : κ → κ → Prop)
    (ws : List κ) (hbody : ∀ k ∈ ws, ∀ s, ok s → body k s = set s (cellOf k) (fn k s))
    (hpw : ws.Pairwise later) (hv : ∀ k ∈ ws, valid (cellOf k))
    (s0 : σ) (h0 : ok s0) (k : κ) (hk : k ∈ ws) (D : ι → Prop)
    (hloc : ∀ s s', (∀ d, D d → get s d = get s' d) → fn k s = fn k s')
    (hD : ∀ d, D d → d ≠ cellOf k ∧ ∀ k' ∈ ws, later k k' → cellOf k' ≠ d)
    (hlast : ∀ k' ∈ ws, later k k' → cellOf k' ≠ cellOf k) :
    get (ws.foldl (fun s k => body k s) s0) (cellOf k)
      = fn k (ws.foldl (fun s k => body k s) s0) := by
  obtain ⟨pre, post, rfl⟩ := List.append_of_mem hk
  have hpost : ∀ k' ∈ post, later k k' := by
    have := (List.pairwise_append.1 hpw).2.1
    exact fun k' hk' => (List.pairwise_cons.1 this).1 k' hk'
  have hmem : ∀ k' ∈ post, k' ∈ pre ++ k :: post := fun k' hk' => by simp [hk']
  obtain ⟨hok1, -⟩ := writes_frame get set ok valid hother hok cellOf fn body pre
    (fun k' hk' => hbody k' (by simp [hk'])) (fun k' hk' => hv k' (by simp [hk'])) s0 h0
  rw [List.foldl_append, List.foldl_cons]
  set s1 := pre.foldl (fun s k => body k s) s0 with hs1
  have hvk : valid (cellOf k) := hv k hk
  have hbk := hbody k hk s1 hok1
  have hok2 : ok (body k s1) := by rw [hbk]; exact hok _ _ _ hok1 hvk
  obtain ⟨-, hfr⟩ := writes_frame get set ok valid hother hok cellOf fn body post
    (fun k' hk' => hbody k' (hmem k' hk')) (fun k' hk' => hv k' (hmem k' hk')) (body k s1) hok2
  rw [hfr _ (fun k' hk' => hlast k' (hmem k' hk') (hpost k' hk'))]
  rw [hbk, hsame _ _ _ hok1 hvk]
  apply hloc
  intro d hd
  rw [← hbk, hfr d (fun k' hk' => (hD d hd).2 k' (hmem k' hk') (hpost k' hk'))]
  rw [hbk, hother _ _ _ _ hok1 hvk (hD d hd).1]

end Writes

/-! ## Tables -/

theorem Table.dims_mk {α : Type} (R Cc : Nat) (x : α) : (Table.mk R Cc x).Dims R Cc := by
  refine ⟨by simp [Table.mk], fun row hrow => ?_⟩
  rw [Table.mk, List.mem_replicate] at hrow
  rw [hrow.2, List.length_replicate]

theorem Table.get_mk {α : Type} [Inhabited α] (R Cc : Nat) (x : α) (i j : Nat) (hi : i < R)
    (hj : j < Cc) : (Table.mk R Cc x).get i j = x := by
  simp [Table.mk, Table.get, List.getElem?_replicate, hi, hj]

theorem Table.dims_set {α : Type} (T : Table α) (R Cc : Nat) (h : T.Dims R Cc) (i j : Nat)
    (x : α) : (T.set i j x).Dims R Cc := by
  refine ⟨by simp [Table.set, h.1], fun row hrow => ?_⟩
  rw [Table.set] at hrow
  rcases List.mem_or_eq_of_mem_set hrow with h1 | h1
  · exact h.2 row h1
  · rw [h1, List.length_set]
    by_cases hi : i < T.length
    · have : T.getD i [] = T[i] := by simp [hi]
      rw [this]
      exact h.2 _ (List.getElem_mem _)
    · simp only [not_lt] at hi
      rw [h1] at hrow
      rw [List.set_eq_of_length_le hi] at hrow
      have := h.2 _ hrow
      simpa using this

theorem Table.get_set_same {α : Type} [Inhabited α] (T : Table α) (R Cc : Nat)
    (h : T.Dims R Cc) (i j : Nat) (x : α) (hi : i < R) (hj : j < Cc) :
    (T.set i j x).get i j = x := by
  have hi2 : i < T.length := by rw [h.1]; exact hi
  have hrow : (T[i]).length = Cc := h.2 _ (List.getElem_mem _)
  simp [Table.set, Table.get, hi2, hrow, hj]

theorem Table.get_set_other {α : Type} [Inhabited α] (T : Table α) (i j : Nat) (x : α)
    (a b : Nat) (hne : (a, b) ≠ (i, j)) : (T.set i j x).get a b = T.get a b := by
  unfold Table.set Table.get
  by_cases hai : a = i
  · subst hai
    have hb : j ≠ b := fun hb => hne (by rw [hb])
    by_cases hi : a < T.length
    · simp [hi, List.getElem?_set, hb]
    · simp only [not_lt] at hi
      rw [List.set_eq_of_length_le hi]
  · have hia : i ≠ a := fun hh => hai hh.symm
    simp [List.getElem?_set, hia]

/-! ## Loops as folds over the list of visited cells -/

theorem forUp_forUp_eq {σ : Type} (lo hi C : Nat) (body : Nat × Nat → σ → σ) (s : σ) :
    forUp lo hi (fun i acc => forUp 0 C (fun j acc => body (i, j) acc) acc) s
      = (cellsOf lo hi C).foldl (fun acc c => body c acc) s := by
  unfold forUp cellsOf
  generalize List.range' lo (hi + 1 - lo) = l
  induction l generalizing s with
  | nil => rfl
  | cons a l ih =>
    rw [List.foldl_cons, ih, List.flatMap_cons, List.foldl_append, List.foldl_map]
    rfl

theorem mem_cellsOf (lo hi C : Nat) (c : Nat × Nat) :
    c ∈ cellsOf lo hi C ↔ lo ≤ c.1 ∧ c.1 ≤ hi ∧ c.2 ≤ C := by
  obtain ⟨i, j⟩ := c
  simp only [cellsOf, List.mem_flatMap, List.mem_map, List.mem_range'_1, Prod.mk.injEq]
  constructor
  · rintro ⟨a, ⟨h1, h2⟩, b, ⟨-, h4⟩, rfl, rfl⟩
    exact ⟨h1, by omega, by omega⟩
  · rintro ⟨h1, h2, h3⟩
    exact ⟨i, ⟨h1, by omega⟩, j, ⟨by omega, by omega⟩, rfl, rfl⟩

theorem pairwise_cellsOf (lo hi C : Nat) : (cellsOf lo hi C).Pairwise cellLt := by
  unfold cellsOf
  rw [List.pairwise_flatMap]
  constructor
  · intro i _
    rw [List.pairwise_map]
    exact (List.pairwise_lt_range' 0 (C + 1)).imp (fun h => Or.inr ⟨rfl, h⟩)
  · refine (List.pairwise_lt_range' lo (hi + 1 - lo)).imp ?_
    intro a b hab x hx y hy
    simp only [List.mem_map] at hx hy
    obtain ⟨_, _, rfl⟩ := hx
    obtain ⟨_, _, rfl⟩ := hy
    exact Or.inl hab

/-- The row-major fill of rows `1..n` of a table: every cell written holds, in the final table,
the value its rule computes from the final table, when the rule reads only earlier cells. -/
theorem fill2D_spec {α : Type} [Inhabited α] (n C : Nat)
    (body : Nat × Nat → Table α → Table α) (fn : Nat × Nat → Table α → α)
    (hbody : ∀ c ∈ cellsOf 1 n C, ∀ T : Table α, T.Dims (n + 1) (C + 1) →
      body c T = T.set c.1 c.2 (fn c T))
    (hloc : ∀ c ∈ cellsOf 1 n C, ∀ T T' : Table α,
      (∀ d, cellLt d c → T.get d.1 d.2 = T'.get d.1 d.2) → fn c T = fn c T')
    (T0 : Table α) (h0 : T0.Dims (n + 1) (C + 1)) :
    (forUp 1 n (fun i acc => forUp 0 C (fun j acc => body (i, j) acc) acc) T0).Dims (n + 1) (C + 1)
    ∧ (∀ j, (forUp 1 n (fun i acc => forUp 0 C (fun j acc => body (i, j) acc) acc) T0).get 0 j
        = T0.get 0 j)
    ∧ ∀ i j, 1 ≤ i → i ≤ n → j ≤ C →
      (forUp 1 n (fun i acc => forUp 0 C (fun j acc => body (i, j) acc) acc) T0).get i j
        = fn (i, j) (forUp 1 n (fun i acc => forUp 0 C (fun j acc => body (i, j) acc) acc) T0) := by
  rw [forUp_forUp_eq]
  have hsame : ∀ (s : Table α) (c : Nat × Nat) (x : α), s.Dims (n + 1) (C + 1) →
      (c.1 < n + 1 ∧ c.2 < C + 1) → (s.set c.1 c.2 x).get c.1 c.2 = x :=
    fun s c x hs hc => Table.get_set_same s _ _ hs c.1 c.2 x hc.1 hc.2
  have hother : ∀ (s : Table α) (c : Nat × Nat) (x : α) (c' : Nat × Nat),
      s.Dims (n + 1) (C + 1) → (c.1 < n + 1 ∧ c.2 < C + 1) → c' ≠ c →
      (s.set c.1 c.2 x).get c'.1 c'.2 = s.get c'.1 c'.2 :=
    fun s c x c' _ _ hne => Table.get_set_other s c.1 c.2 x c'.1 c'.2 hne
  have hok : ∀ (s : Table α) (c : Nat × Nat) (x : α), s.Dims (n + 1) (C + 1) →
      (c.1 < n + 1 ∧ c.2 < C + 1) → (s.set c.1 c.2 x).Dims (n + 1) (C + 1) :=
    fun s c x hs _ => Table.dims_set s _ _ hs c.1 c.2 x
  have hv : ∀ k ∈ cellsOf 1 n C, (id k).1 < n + 1 ∧ (id k).2 < C + 1 := by
    intro k hk
    rw [mem_cellsOf] at hk
    exact ⟨by simp only [id]; omega, by simp only [id]; omega⟩
  have hfr := writes_frame (fun (s : Table α) (c : Nat × Nat) => s.get c.1 c.2)
    (fun s c x => s.set c.1 c.2 x) (fun s => s.Dims (n + 1) (C + 1))
    (fun c => c.1 < n + 1 ∧ c.2 < C + 1) hother hok id fn body (cellsOf 1 n C) hbody hv T0 h0
  refine ⟨hfr.1, fun j => ?_, fun i j h1 h2 h3 => ?_⟩
  · refine hfr.2 (0, j) (fun k hk hk0 => ?_)
    rw [mem_cellsOf] at hk
    simp only [id] at hk0
    rw [hk0] at hk
    simp at hk
  · have hmem : (i, j) ∈ cellsOf 1 n C := (mem_cellsOf 1 n C (i, j)).2 ⟨h1, h2, h3⟩
    refine writes_last (fun (s : Table α) (c : Nat × Nat) => s.get c.1 c.2)
      (fun s c x => s.set c.1 c.2 x) (fun s => s.Dims (n + 1) (C + 1))
      (fun c => c.1 < n + 1 ∧ c.2 < C + 1) hsame hother hok id fn body cellLt (cellsOf 1 n C)
      hbody (pairwise_cellsOf 1 n C) hv T0 h0 (i, j) hmem (fun d => cellLt d (i, j))
      (hloc (i, j) hmem) ?_ ?_
    · intro d hd
      refine ⟨fun h => ?_, fun k' _ hk' h => ?_⟩
      · simp only [id] at h; rw [h] at hd; unfold cellLt at hd; omega
      · simp only [id] at h; rw [← h] at hd; unfold cellLt at hd hk'; simp only at hd hk'; omega
    · intro k' _ hk' h
      simp only [id] at h; rw [h] at hk'; unfold cellLt at hk'; omega

/-! ## Rows that represent a set of achievable (weight, value) pairs -/

theorem rep_zero (C : ℕ) : Rep {((0 : ℕ), (0 : ℕ))} (fun _ => 0) C := by
  intro j _
  constructor
  · exact ⟨0, Nat.zero_le _, rfl⟩
  · rintro val ⟨wt, _, h⟩
    simp only [Set.mem_singleton_iff, Prod.mk.injEq] at h
    omega

/-- One more group of alternatives `P`: when the new row is, at every capacity, the greatest of
the old row shifted by an alternative, it represents the sums of `A` and `P`. -/
theorem rep_add (A P : Set (ℕ × ℕ)) (r r' : ℕ → ℕ) (C : ℕ) (hA : Rep A r C)
    (hstep : ∀ j, j ≤ C → IsGreatest {x | ∃ p ∈ P, p.1 ≤ j ∧ x = r (j - p.1) + p.2} (r' j)) :
    Rep (A + P) r' C := by
  intro j hj
  obtain ⟨⟨p, hp, hpj, hx⟩, hub⟩ := hstep j hj
  constructor
  · obtain ⟨⟨wt, hwt, hmem⟩, -⟩ := hA (j - p.1) (by omega)
    refine ⟨wt + p.1, by omega, ?_⟩
    rw [hx]
    exact Set.mem_add.2 ⟨_, hmem, p, hp, rfl⟩
  · rintro val ⟨wt, hwt, hmem⟩
    obtain ⟨a, ha, q, hq, haq⟩ := Set.mem_add.1 hmem
    have h1 : a.1 + q.1 = wt := congrArg Prod.fst haq
    have h2 : a.2 + q.2 = val := congrArg Prod.snd haq
    have h3 : a.2 ≤ r (j - q.1) := (hA (j - q.1) (by omega)).2 ⟨a.1, by omega, ha⟩
    have h4 : r (j - q.1) + q.2 ≤ r' j := hub ⟨q, hq, by omega, rfl⟩
    omega

/-- The 0/1 rule: the item `(w, v)` is skipped or taken once. -/
theorem step01_greatest (r r' : ℕ → ℕ) (w v j : ℕ)
    (h : r' j = if j < w then r j else max (r j) (r (j - w) + v)) :
    IsGreatest {x | ∃ p ∈ ({(0, 0), (w, v)} : Set (ℕ × ℕ)), p.1 ≤ j ∧ x = r (j - p.1) + p.2}
      (r' j) := by
  constructor
  · by_cases hjw : j < w
    · exact ⟨(0, 0), by simp, Nat.zero_le _, by simp [h, hjw]⟩
    · rw [h, if_neg hjw]
      rcases le_total (r j) (r (j - w) + v) with h1 | h1
      · exact ⟨(w, v), by simp, by simpa using hjw, by simp [max_eq_right h1]⟩
      · exact ⟨(0, 0), by simp, Nat.zero_le _, by simp [max_eq_left h1]⟩
  · rintro x ⟨p, hp, hpj, rfl⟩
    simp only [Set.mem_insert_iff, Set.mem_singleton_iff] at hp
    rcases hp with rfl | rfl
    · simp only [Nat.sub_zero, Nat.add_zero]
      rw [h]; split
      · exact le_refl _
      · exact le_max_left _ _
    · simp only at hpj
      rw [h, if_neg (by omega)]
      exact le_max_right _ _

theorem subsetPairs_zero (w v : ℕ → ℕ) : subsetPairs w v 0 = {(0, 0)} := by
  ext q
  simp only [subsetPairs, Finset.range_zero, Finset.subset_empty, Set.mem_setOf_eq,
    Set.mem_singleton_iff]
  constructor
  · rintro ⟨S, rfl, rfl⟩; simp
  · rintro rfl; exact ⟨∅, rfl, by simp⟩

theorem subsetPairs_succ (w v : ℕ → ℕ) (i : ℕ) :
    subsetPairs w v (i + 1) = subsetPairs w v i + {(0, 0), (w i, v i)} := by
  ext q
  rw [Set.mem_add]
  constructor
  · rintro ⟨S, hS, rfl⟩
    by_cases hi : i ∈ S
    · refine ⟨_, ⟨S.erase i, ?_, rfl⟩, (w i, v i), by simp, ?_⟩
      · intro t ht
        have h1 := hS (Finset.mem_of_mem_erase ht)
        have h2 := Finset.ne_of_mem_erase ht
        simp only [Finset.mem_range] at h1 ⊢
        omega
      · rw [Prod.mk_add_mk, Finset.sum_erase_add _ _ hi, Finset.sum_erase_add _ _ hi]
    · refine ⟨_, ⟨S, ?_, rfl⟩, (0, 0), by simp, by simp⟩
      intro t ht
      have h1 := hS ht
      have h2 : t ≠ i := fun h => hi (h ▸ ht)
      simp only [Finset.mem_range] at h1 ⊢
      omega
  · rintro ⟨a, ⟨S, hS, rfl⟩, p, hp, rfl⟩
    simp only [Set.mem_insert_iff, Set.mem_singleton_iff] at hp
    rcases hp with rfl | rfl
    · refine ⟨S, fun t ht => ?_, by simp⟩
      have := hS ht
      simp only [Finset.mem_range] at this ⊢
      omega
    · have hi : i ∉ S := fun h => by
        have := hS h
        simp at this
      refine ⟨insert i S, fun t ht => ?_, ?_⟩
      · rcases Finset.mem_insert.1 ht with rfl | h
        · simp
        · have := hS h
          simp only [Finset.mem_range] at this ⊢
          omega
      · rw [Finset.sum_insert hi, Finset.sum_insert hi, Prod.mk_add_mk]
        simp [add_comm]

/-- A table whose rows follow the 0/1 rule holds the 0/1 optima. -/
theorem rep01_of_rec (w v : ℕ → ℕ) (T : ℕ → ℕ → ℕ) (n C : ℕ) (h0 : ∀ j, j ≤ C → T 0 j = 0)
    (hrec : ∀ i j, i < n → j ≤ C →
      T (i + 1) j = if j < w i then T i j else max (T i j) (T i (j - w i) + v i))
    (i : ℕ) (hi : i ≤ n) : Rep (subsetPairs w v i) (T i) C := by
  induction i with
  | zero =>
    rw [subsetPairs_zero]
    intro j hj
    rw [h0 j hj]
    exact rep_zero C j hj
  | succ i ih =>
    rw [subsetPairs_succ]
    exact rep_add _ _ (T i) _ C (ih (by omega))
      (fun j hj => step01_greatest (T i) (T (i + 1)) (w i) (v i) j (hrec i j (by omega) hj))

theorem countPairs_zero (al : ℕ → ℕ → Prop) (w v : ℕ → ℕ) : countPairs al w v 0 = {(0, 0)} := by
  ext q
  simp [countPairs]

theorem countPairs_succ (al : ℕ → ℕ → Prop) (w v : ℕ → ℕ) (i : ℕ) :
    countPairs al w v (i + 1) = countPairs al w v i + multiples (al i) (w i) (v i) := by
  ext q
  rw [Set.mem_add]
  constructor
  · rintro ⟨x, hx, rfl⟩
    refine ⟨_, ⟨x, fun t ht => hx t (by omega), rfl⟩, _, ⟨x i, hx i (by omega), rfl⟩, ?_⟩
    rw [Prod.mk_add_mk, Finset.sum_range_succ, Finset.sum_range_succ]
  · rintro ⟨a, ⟨x, hx, rfl⟩, p, ⟨k, hk, rfl⟩, rfl⟩
    refine ⟨Function.update x i k, fun t ht => ?_, ?_⟩
    · by_cases hti : t = i
      · subst hti; simpa using hk
      · rw [Function.update_noteq hti]; exact hx t (by omega)
    · have e : ∀ (f : ℕ → ℕ), ∑ t in Finset.range i, Function.update x i k t * f t
          = ∑ t in Finset.range i, x t * f t := by
        intro f
        refine Finset.sum_congr rfl (fun t ht => ?_)
        have : t ≠ i := by simp only [Finset.mem_range] at ht; omega
        rw [Function.update_noteq this]
      rw [Prod.mk_add_mk, Finset.sum_range_succ, Finset.sum_range_succ, e, e,
        Function.update_same]

/-- The complete rule (the with-branch reads the new row): any number of copies of `(w, v)`. -/
theorem stepComplete_greatest (r r' : ℕ → ℕ) (w v C : ℕ) (hw : 0 < w)
    (h : ∀ j, j ≤ C → r' j = if j < w then r j else max (r j) (r' (j - w) + v))
    (j : ℕ) (hj : j ≤ C) :
    IsGreatest {x | ∃ p ∈ multiples (fun _ => True) w v, p.1 ≤ j ∧ x = r (j - p.1) + p.2}
      (r' j) := by
  induction j using Nat.strong_induction_on with
  | _ j ih =>
    by_cases hjw : j < w
    · rw [h j hj, if_pos hjw]
      constructor
      · exact ⟨(0, 0), ⟨0, trivial, by simp⟩, Nat.zero_le _, by simp⟩
      · rintro x ⟨p, ⟨k, -, rfl⟩, hpj, rfl⟩
        simp only at hpj
        have hk : k = 0 := by
          rcases Nat.eq_zero_or_pos k with h0 | h0
          · exact h0
          · have : w ≤ k * w := Nat.le_mul_of_pos_left w h0
            omega
        subst hk
        simp
    · obtain ⟨⟨p, ⟨k, -, rfl⟩, hpj, hx⟩, hub⟩ := ih (j - w) (by omega) (by omega)
      simp only at hpj hx
      rw [h j hj, if_neg hjw]
      constructor
      · rcases le_total (r j) (r' (j - w) + v) with h1 | h1
        · rw [max_eq_right h1]
          refine ⟨((k + 1) * w, (k + 1) * v), ⟨k + 1, trivial, rfl⟩, ?_, ?_⟩
          · simp only; rw [Nat.add_mul]; omega
          · simp only
            rw [hx, Nat.add_mul, Nat.add_mul, Nat.one_mul, Nat.one_mul]
            have : j - w - k * w = j - (k * w + w) := by omega
            rw [this]; omega
        · rw [max_eq_left h1]
          exact ⟨(0, 0), ⟨0, trivial, by simp⟩, Nat.zero_le _, by simp⟩
      · rintro x ⟨p, ⟨k', -, rfl⟩, hpj', rfl⟩
        simp only at hpj' ⊢
        rcases Nat.eq_zero_or_pos k' with h0 | h0
        · subst h0
          simp only [Nat.zero_mul, Nat.sub_zero, Nat.add_zero]
          exact le_max_left _ _
        · obtain ⟨m, rfl⟩ : ∃ m, k' = m + 1 := ⟨k' - 1, by omega⟩
          rw [Nat.add_mul, Nat.one_mul] at hpj'
          have hm := hub ⟨(m * w, m * v), ⟨m, trivial, rfl⟩, by simp only; omega, rfl⟩
          simp only at hm
          have e : j - (m + 1) * w = j - w - m * w := by rw [Nat.add_mul, Nat.one_mul]; omega
          rw [e, Nat.add_mul, Nat.one_mul]
          have := le_max_right (r j) (r' (j - w) + v)
          omega

/-! ## 0/1 knapsack -/

theorem cell01_eq (w v i j : Nat) (T : Table Nat) :
    cell01 w v i j T = T.set i j (rule01 w v i j T) := by
  unfold cell01 rule01
  split <;> rfl

/-- A fill of rows `1..n` by `cell01` with the item weights `w` and values `v` (by row). -/
theorem fillBy01_rec (w v : Nat → Nat) (n C : Nat) (T0 : Table Nat)
    (h0 : T0.Dims (n + 1) (C + 1)) :
    (∀ j, (forUp 1 n (fun i dp => forUp 0 C (fun j dp => cell01 (w i) (v i) i j dp) dp) T0).get 0 j
        = T0.get 0 j) ∧
    ∀ i j, 1 ≤ i → i ≤ n → j ≤ C →
      (forUp 1 n (fun i dp => forUp 0 C (fun j dp => cell01 (w i) (v i) i j dp) dp) T0).get i j
        = rule01 (w i) (v i) i j
          (forUp 1 n (fun i dp => forUp 0 C (fun j dp => cell01 (w i) (v i) i j dp) dp) T0) := by
  have h := fill2D_spec n C (fun c dp => cell01 (w c.1) (v c.1) c.1 c.2 dp)
    (fun c T => rule01 (w c.1) (v c.1) c.1 c.2 T)
    (fun c _ T _ => cell01_eq _ _ _ _ T)
    (fun c hc T T' hTT => by
      rw [mem_cellsOf] at hc
      have e1 : ∀ b, T.get (c.1 - 1) b = T'.get (c.1 - 1) b :=
        fun b => hTT (c.1 - 1, b) (Or.inl (by simp only; omega))
      simp only [rule01, e1])
    T0 h0
  exact ⟨h.2.1, h.2.2⟩

theorem fill01_rec (items : List Item) (C : Nat) :
    (∀ j, j ≤ C → (fill01 items C).get 0 j = 0) ∧
    ∀ i j, i < items.length → j ≤ C →
      (fill01 items C).get (i + 1) j =
        if j < (items.getD i default).weight then (fill01 items C).get i j
        else max ((fill01 items C).get i j)
          ((fill01 items C).get i (j - (items.getD i default).weight)
            + (items.getD i default).value) := by
  have h := fillBy01_rec (fun i => (items.getD (i - 1) default).weight)
    (fun i => (items.getD (i - 1) default).value) items.length C
    (Table.mk (items.length + 1) (C + 1) 0) (Table.dims_mk _ _ _)
  have hf : fill01 items C = forUp 1 items.length (fun i dp => forUp 0 C (fun j dp =>
      cell01 (items.getD (i - 1) default).weight (items.getD (i - 1) default).value i j dp) dp)
      (Table.mk (items.length + 1) (C + 1) 0) := rfl
  rw [← hf] at h
  constructor
  · intro j hj
    have := h.1 j
    rw [Table.get_mk _ _ _ _ _ (by omega) (by omega)] at this
    exact this
  · intro i j hi hj
    have := h.2 (i + 1) j (by omega) (by omega) hj
    simpa only [rule01, Nat.add_sub_cancel] using this

theorem feasibleValues01_eq (items : List Item) (i j : Nat) :
    feasibleValues01 items i j = {val | ∃ wt, wt ≤ j ∧ (wt, val) ∈
      subsetPairs (fun t => (items.getD t default).weight)
        (fun t => (items.getD t default).value) i} := by
  ext val
  simp only [feasibleValues01, selWeight, selValue, subsetPairs, Set.mem_setOf_eq,
    Prod.mk.injEq]
  constructor
  · rintro ⟨S, hS, hw, rfl⟩
    exact ⟨_, hw, S, hS, rfl, rfl⟩
  · rintro ⟨wt, hw, S, hS, rfl, rfl⟩
    exact ⟨S, hS, hw, rfl⟩

theorem fill01_greatest (items : List Item) (C i j : Nat) (hi : i ≤ items.length) (hj : j ≤ C) :
    IsGreatest (feasibleValues01 items i j) ((fill01 items C).get i j) := by
  rw [feasibleValues01_eq]
  obtain ⟨h0, hrec⟩ := fill01_rec items C
  exact rep01_of_rec _ _ (fun a b => (fill01 items C).get a b) items.length C h0 hrec i hi j hj

/-- In exact arithmetic: every cell `dp[i][j]` of the 0/1 table (`i ≤ n`, `j ≤ capacity`) is the
greatest total value of a subset of the first `i` items whose total weight is at most `j`;
`max_value` is the optimum of the instance; for capacity 10 and items (2,3),(3,4),(4,5),(5,6) it
is 13. -/
theorem knapsack01_optimal (items : List Item) (capacity : Nat) :
    (∀ i j, i ≤ items.length → j ≤ capacity →
      IsGreatest (feasibleValues01 items i j) ((fill01 items capacity).get i j))
    ∧ IsGreatest (feasibleValues01 items items.length capacity) (maxValue01 items capacity)
    ∧ maxValue01 [⟨2, 3⟩, ⟨3, 4⟩, ⟨4, 5⟩, ⟨5, 6⟩] 10 = 13 :=
  ⟨fun i j hi hj => fill01_greatest items capacity i j hi hj,
    fill01_greatest items capacity _ _ (le_refl _) (le_refl _), by decide⟩

theorem knapsack01_optimal_witness :
    IsGreatest (feasibleValues01 [⟨2, 3⟩, ⟨3, 4⟩] 2 5) ((fill01 [⟨2, 3⟩, ⟨3, 4⟩] 5).get 2 5) :=
  (knapsack01_optimal [⟨2, 3⟩, ⟨3, 4⟩] 5).1 2 5 (by decide) (by decide)

/-! ## Complete knapsack -/

theorem cellComplete_eq (w v i j : Nat) (T : Table Nat) :
    cellComplete w v i j T = T.set i j (ruleComplete w v i j T) := by
  unfold cellComplete ruleComplete
  split <;> rfl

theorem fillComplete_rec (items : List Item) (C : Nat) (hw : ∀ it ∈ items, 0 < it.weight) :
    (∀ j, j ≤ C → (fillComplete items C).get 0 j = 0) ∧
    ∀ i j, i < items.length → j ≤ C →
      (fillComplete items C).get (i + 1) j =
        if j < (items.getD i default).weight then (fillComplete items C).get i j
        else max ((fillComplete items C).get i j)
          ((fillComplete items C).get (i + 1) (j - (items.getD i default).weight)
            + (items.getD i default).value) := by
  have h := fill2D_spec items.length C
    (fun c dp => cellComplete (items.getD (c.1 - 1) default).weight
      (items.getD (c.1 - 1) default).value c.1 c.2 dp)
    (fun c T => ruleComplete (items.getD (c.1 - 1) default).weight
      (items.getD (c.1 - 1) default).value c.1 c.2 T)
    (fun c _ T _ => cellComplete_eq _ _ _ _ T)
    (fun c hc T T' hTT => by
      rw [mem_cellsOf] at hc
      have e1 : ∀ b, T.get (c.1 - 1) b = T'.get (c.1 - 1) b :=
        fun b => hTT (c.1 - 1, b) (Or.inl (by simp only; omega))
      have hpos : 0 < (items.getD (c.1 - 1) default).weight := by
        have hlt : c.1 - 1 < items.length := by omega
        rw [List.getD_eq_getElem _ _ hlt]
        exact hw _ (List.getElem_mem _)
      simp only [ruleComplete, e1]
      split
      · rfl
      · rw [hTT (c.1, c.2 - (items.getD (c.1 - 1) default).weight)
          (Or.inr ⟨rfl, by simp only; omega⟩)])
    (Table.mk (items.length + 1) (C + 1) 0) (Table.dims_mk _ _ _)
  have hf : fillComplete items C = forUp 1 items.length (fun i dp => forUp 0 C (fun j dp =>
      cellComplete (items.getD (i - 1) default).weight (items.getD (i - 1) default).value i j dp)
      dp) (Table.mk (items.length + 1) (C + 1) 0) := rfl
  rw [← hf] at h
  constructor
  · intro j hj
    have := h.2.1 j
    rw [Table.get_mk _ _ _ _ _ (by omega) (by omega)] at this
    exact this
  · intro i j hi hj
    have := h.2.2 (i + 1) j (by omega) (by omega) hj
    simpa only [ruleComplete, Nat.add_sub_cancel] using this

theorem feasibleValuesComplete_eq (items : List Item) (i j : Nat) :
    feasibleValuesComplete items i j = {val | ∃ wt, wt ≤ j ∧ (wt, val) ∈
      countPairs (fun _ _ => True) (fun t => (items.getD t default).weight)
        (fun t => (items.getD t default).value) i} := by
  ext val
  simp only [feasibleValuesComplete, countPairs, Set.mem_setOf_eq, Prod.mk.injEq]
  constructor
  · rintro ⟨x, hw, rfl⟩
    exact ⟨_, hw, x, fun _ _ => trivial, rfl, rfl⟩
  · rintro ⟨wt, hw, x, -, rfl, rfl⟩
    exact ⟨x, hw, rfl⟩

theorem fillComplete_greatest (items : List Item) (C : Nat)
    (hw : ∀ it ∈ items, 0 < it.weight) (i j : Nat) (hi : i ≤ items.length) (hj : j ≤ C) :
    IsGreatest (feasibleValuesComplete items i j) ((fillComplete items C).get i j) := by
  rw [feasibleValuesComplete_eq]
  obtain ⟨h0, hrec⟩ := fillComplete_rec items C hw
  have key : ∀ i, i ≤ items.length → Rep (countPairs (fun _ _ => True)
      (fun t => (items.getD t default).weight) (fun t => (items.getD t default).value) i)
      (fun j => (fillComplete items C).get i j) C := by
    intro i
    induction i with
    | zero =>
      intro _
      rw [countPairs_zero]
      intro j hj
      simp only [h0 j hj]
      exact rep_zero C j hj
    | succ i ih =>
      intro hi
      rw [countPairs_succ]
      refine rep_add _ _ (fun j => (fillComplete items C).get i j) _ C (ih (by omega)) ?_
      have hpos : 0 < (items.getD i default).weight := by
        have hlt : i < items.length := by omega
        rw [List.getD_eq_getElem _ _ hlt]
        exact hw _ (List.getElem_mem _)
      exact fun j hj => stepComplete_greatest _ _ _ _ C hpos
        (fun j hj => hrec i j (by omega) hj) j hj
  exact key i hi j hj

/-- In exact arithmetic: with positive weights, every cell `dp[i][j]` of the complete-knapsack table
is the greatest `sum x t * value t` over the vectors of copy counts for the first `i` items with
`sum x t * weight t ≤ j`; `max_value` is the unbounded optimum; capacity 5 with the single item
(2,3) gives 6. -/
theorem knapsackComplete_optimal (items : List Item) (capacity : Nat)
    (hw : ∀ it ∈ items, 0 < it.weight) :
    (∀ i j, i ≤ items.length → j ≤ capacity →
      IsGreatest (feasibleValuesComplete items i j) ((fillComplete items capacity).get i j))
    ∧ IsGreatest (feasibleValuesComplete items items.length capacity)
        (maxValueComplete items capacity)
    ∧ maxValueComplete [⟨2, 3⟩] 5 = 6 :=
  ⟨fun i j hi hj => fillComplete_greatest items capacity hw i j hi hj,
    fillComplete_greatest items capacity hw _ _ (le_refl _) (le_refl _), by decide⟩

theorem knapsackComplete_optimal_witness :
    (∀ it ∈ [(⟨2, 3⟩ : Item)], 0 < it.weight) ∧
    IsGreatest (feasibleValuesComplete [⟨2, 3⟩] 1 5) (maxValueComplete [⟨2, 3⟩] 5) :=
  ⟨by decide, (knapsackComplete_optimal [⟨2, 3⟩] 5 (by decide)).2.1⟩

/-! ## Solution counting -/

theorem cellCount_eq (w i j : Nat) (T : Table Nat) :
    cellCount w i j T = T.set i j (ruleCount w i j T) := rfl

theorem fillCount_rec (items : List Item) (C : Nat) :
    (∀ j, j ≤ C → (fillCount items C).get 0 j = if j = 0 then 1 else 0) ∧
    ∀ i j, i < items.length → j ≤ C →
      (fillCount items C).get (i + 1) j = (fillCount items C).get i j +
        (if j ≥ (items.getD i default).weight
          then (fillCount items C).get i (j - (items.getD i default).weight) else 0) := by
  have h := fill2D_spec items.length C
    (fun c dp => cellCount (items.getD (c.1 - 1) default).weight c.1 c.2 dp)
    (fun c T => ruleCount (items.getD (c.1 - 1) default).weight c.1 c.2 T)
    (fun c _ T _ => cellCount_eq _ _ _ T)
    (fun c hc T T' hTT => by
      rw [mem_cellsOf] at hc
      have e1 : ∀ b, T.get (c.1 - 1) b = T'.get (c.1 - 1) b :=
        fun b => hTT (c.1 - 1, b) (Or.inl (by simp only; omega))
      simp only [ruleCount, e1])
    ((Table.mk (items.length + 1) (C + 1) 0).set 0 0 1)
    (Table.dims_set _ _ _ (Table.dims_mk _ _ _) _ _ _)
  have hf : fillCount items C = forUp 1 items.length (fun i dp => forUp 0 C (fun j dp =>
      cellCount (items.getD (i - 1) default).weight i j dp)
      dp) ((Table.mk (items.length + 1) (C + 1) 0).set 0 0 1) := rfl
  rw [← hf] at h
  constructor
  · intro j hj
    rw [h.2.1 j]
    by_cases hj0 : j = 0
    · subst hj0
      rw [Table.get_set_same _ _ _ (Table.dims_mk _ _ _) _ _ _ (by omega) (by omega)]
      rfl
    · rw [Table.get_set_other _ _ _ _ _ _ (by simpa using hj0),
        Table.get_mk _ _ _ _ _ (by omega) (by omega), if_neg hj0]
  · intro i j hi hj
    have := h.2.2 (i + 1) j (by omega) (by omega) hj
    simpa only [ruleCount, Nat.add_sub_cancel] using this

theorem card_filter_sum_succ (w : ℕ → ℕ) (i j : ℕ) :
    ((Finset.range (i + 1)).powerset.filter (fun S => ∑ t in S, w t = j)).card
      = ((Finset.range i).powerset.filter (fun S => ∑ t in S, w t = j)).card
        + (if j ≥ w i
            then ((Finset.range i).powerset.filter (fun S => ∑ t in S, w t = j - w i)).card
            else 0) := by
  have hni : ∀ S ∈ (Finset.range i).powerset, i ∉ S := by
    intro S hS hi
    have := Finset.mem_powerset.1 hS hi
    simp at this
  rw [Finset.range_succ, Finset.powerset_insert, Finset.filter_union,
    Finset.card_union_of_disjoint]
  · congr 1
    rw [Finset.filter_image, Finset.card_image_of_injOn]
    · split
      · refine congrArg Finset.card (Finset.filter_congr (fun S hS => ?_))
        rw [Finset.sum_insert (hni S hS)]
        omega
      · rw [Finset.card_eq_zero, Finset.filter_eq_empty_iff]
        intro S hS
        rw [Finset.sum_insert (hni S hS)]
        omega
    · intro S hS S' hS' heq
      have h1 := hni S (Finset.mem_filter.1 hS).1
      have h2 := hni S' (Finset.mem_filter.1 hS').1
      have := congrArg (fun X => Finset.erase X i) heq
      simpa [Finset.erase_insert h1, Finset.erase_insert h2] using this
  · rw [Finset.disjoint_left]
    intro S hS hS'
    have h1 := hni S (Finset.mem_filter.1 hS).1
    obtain ⟨S', -, rfl⟩ := Finset.mem_image.1 (Finset.mem_filter.1 hS').1
    exact h1 (Finset.mem_insert_self _ _)

theorem fillCount_correct (items : List Item) (C i j : Nat) (hi : i ≤ items.length)
    (hj : j ≤ C) : (fillCount items C).get i j = numSubsetsExact items i j := by
  obtain ⟨h0, hrec⟩ := fillCount_rec items C
  induction i generalizing j with
  | zero =>
    rw [h0 j hj]
    unfold numSubsetsExact selWeight
    by_cases hj0 : j = 0
    · subst hj0; simp [Finset.filter_singleton]
    · rw [if_neg hj0]
      symm
      rw [Finset.card_eq_zero, Finset.filter_eq_empty_iff]
      intro S hS
      simp only [Finset.range_zero, Finset.powerset_empty, Finset.mem_singleton] at hS
      subst hS
      simpa using (Ne.symm hj0)
  | succ i ih =>
    rw [hrec i j (by omega) hj, ih j (by omega) hj]
    unfold numSubsetsExact selWeight
    rw [card_filter_sum_succ]
    congr 1
    split
    · rw [ih _ (by omega) (by omega)]
      rfl
    · rfl

theorem fillCount_weights (items : List Item) (C : Nat) :
    fillCount (items.map (fun it => ⟨it.weight, 0⟩)) C = fillCount items C := by
  unfold fillCount
  simp only [List.length_map]
  congr 1
  funext i dp
  have : ((items.map (fun it => (⟨it.weight, 0⟩ : Item))).getD (i - 1) default).weight
      = (items.getD (i - 1) default).weight := by
    simp only [List.getD_eq_getElem?_getD, List.getElem?_map]
    cases items[i - 1]? <;> rfl
  rw [this]

theorem fillCount_example (v₁ v₂ : Nat) : (fillCount [⟨1, v₁⟩, ⟨3, v₂⟩] 4).get 2 4 = 1 := by
  rw [← fillCount_weights]
  simp only [List.map]
  decide

/-- C7: every cell `dp[i][j]` of the counting table (`i ≤ n`, `j ≤ capacity`) is the number
of subsets of the first `i` items, taken as sets of positions, whose total weight is exactly
`j`; the reported result is the number of subsets of total weight exactly `capacity`; with
capacity 4 and item weights 1 and 3 the cell `dp[2][4]` is 1. -/
theorem knapsackCount_correct (items : List Item) (capacity : Nat) :
    (∀ i j, i ≤ items.length → j ≤ capacity →
      (fillCount items capacity).get i j = numSubsetsExact items i j)
    ∧ resultCount items capacity = numSubsetsExact items items.length capacity
    ∧ ∀ v₁ v₂ : Nat, (fillCount [⟨1, v₁⟩, ⟨3, v₂⟩] 4).get 2 4 = 1 :=
  ⟨fun i j hi hj => fillCount_correct items capacity i j hi hj,
    fillCount_correct items capacity _ _ (le_refl _) (le_refl _), fillCount_example⟩

theorem knapsackCount_correct_witness :
    (fillCount [⟨1, 0⟩, ⟨3, 0⟩] 4).get 2 4 = numSubsetsExact [⟨1, 0⟩, ⟨3, 0⟩] 2 4 :=
  (knapsackCount_correct [⟨1, 0⟩, ⟨3, 0⟩] 4).1 2 4 (by decide) (by decide)

/-! ## Two-resource knapsack -/

theorem Table3.dims3_mk (R Cc M : Nat) : (Table3.mk R Cc M).Dims R Cc M := by
  refine ⟨by simp [Table3.mk], fun t ht => ?_⟩
  rw [Table3.mk, List.mem_replicate] at ht
  rw [ht.2]
  exact Table.dims_mk _ _ _

theorem Table3.get3_mk (R Cc M : Nat) (i j k : Nat) (hi : i < R) (hj : j < Cc) (hk : k < M) :
    (Table3.mk R Cc M).get i j k = 0 := by
  have : (Table3.mk R Cc M).getD i [] = Table.mk Cc M 0 := by
    simp [Table3.mk, List.getElem?_replicate, hi]
  rw [Table3.get, this, Table.get_mk _ _ _ _ _ hj hk]

theorem Table3.dims3_set (T : Table3) (R Cc M : Nat) (h : T.Dims R Cc M) (i j k : Nat)
    (x : Nat) : (T.set i j k x).Dims R Cc M := by
  refine ⟨by simp [Table3.set, h.1], fun t ht => ?_⟩
  rw [Table3.set] at ht
  by_cases hi : i < T.length
  · rcases List.mem_or_eq_of_mem_set ht with h1 | h1
    · exact h.2 t h1
    · rw [h1]
      apply Table.dims_set
      have : T.getD i [] = T[i] := by simp [hi]
      rw [this]
      exact h.2 _ (List.getElem_mem _)
  · simp only [not_lt] at hi
    rw [List.set_eq_of_length_le hi] at ht
    exact h.2 t ht

theorem Table3.get3_set_same (T : Table3) (R Cc M : Nat) (h : T.Dims R Cc M) (i j k : Nat)
    (x : Nat) (hi : i < R) (hj : j < Cc) (hk : k < M) : (T.set i j k x).get i j k = x := by
  have hi2 : i < T.length := by rw [h.1]; exact hi
  have hd : (T[i]).Dims Cc M := h.2 _ (List.getElem_mem _)
  have e : T.getD i [] = T[i] := by simp [hi2]
  have e2 : (List.set T i ((T[i]).set j k x)).getD i [] = (T[i]).set j k x := by
    simp [hi2]
  rw [Table3.set, Table3.get, e, e2]
  exact Table.get_set_same _ _ _ hd _ _ _ hj hk

theorem Table3.get3_set_other (T : Table3) (i j k : Nat) (x : Nat) (a b c : Nat)
    (hne : (a, b, c) ≠ (i, j, k)) : (T.set i j k x).get a b c = T.get a b c := by
  unfold Table3.set Table3.get
  by_cases hai : a = i
  · subst hai
    have hb : (b, c) ≠ (j, k) := fun hb => hne (by rw [hb])
    by_cases hi : a < T.length
    · have e2 : (List.set T a ((T.getD a []).set j k x)).getD a [] = (T.getD a []).set j k x := by
        simp [hi]
      rw [e2]
      exact Table.get_set_other _ _ _ _ _ _ hb
    · simp only [not_lt] at hi
      rw [List.set_eq_of_length_le hi]
  · have hia : i ≠ a := fun hh => hai hh.symm
    simp [List.getElem?_set, hia]

theorem foldl_flatMap_eq {α β σ : Type} (l : List α) (f : α → List β) (g : σ → β → σ) (s : σ) :
    (l.flatMap f).foldl g s = l.foldl (fun acc a => (f a).foldl g acc) s := by
  induction l generalizing s with
  | nil => rfl
  | cons a l ih => rw [List.flatMap_cons, List.foldl_append, List.foldl_cons, ih]

theorem forUp3_eq {σ : Type} (n C M : Nat) (body : Nat × Nat × Nat → σ → σ) (s : σ) :
    forUp 1 n (fun i acc => forUp 0 C (fun j acc =>
        forUp 0 M (fun k acc => body (i, j, k) acc) acc) acc) s
      = (cells3 n C M).foldl (fun acc c => body c acc) s := by
  unfold forUp cells3
  simp only [foldl_flatMap_eq, List.foldl_map]

theorem mem_cells3 (n C M : Nat) (c : Nat × Nat × Nat) :
    c ∈ cells3 n C M ↔ 1 ≤ c.1 ∧ c.1 ≤ n ∧ c.2.1 ≤ C ∧ c.2.2 ≤ M := by
  obtain ⟨i, j, k⟩ := c
  simp only [cells3, List.mem_flatMap, List.mem_map, List.mem_range'_1, Prod.mk.injEq]
  constructor
  · rintro ⟨a, ⟨h1, h2⟩, b, ⟨-, h4⟩, d, ⟨-, h5⟩, rfl, rfl, rfl⟩
    exact ⟨h1, by omega, by omega, by omega⟩
  · rintro ⟨h1, h2, h3, h4⟩
    exact ⟨i, ⟨h1, by omega⟩, j, ⟨by omega, by omega⟩, k, ⟨by omega, by omega⟩, rfl, rfl, rfl⟩

theorem pairwise_cells3 (n C M : Nat) : (cells3 n C M).Pairwise cell3Lt := by
  unfold cells3
  rw [List.pairwise_flatMap]
  constructor
  · intro i _
    rw [List.pairwise_flatMap]
    constructor
    · intro j _
      rw [List.pairwise_map]
      exact (List.pairwise_lt_range' 0 (M + 1 - 0)).imp (fun h => Or.inr ⟨rfl, Or.inr ⟨rfl, h⟩⟩)
    · refine (List.pairwise_lt_range' 0 (C + 1 - 0)).imp ?_
      intro a b hab x hx y hy
      simp only [List.mem_map] at hx hy
      obtain ⟨_, _, rfl⟩ := hx
      obtain ⟨_, _, rfl⟩ := hy
      exact Or.inr ⟨rfl, Or.inl hab⟩
  · refine (List.pairwise_lt_range' 1 (n + 1 - 1)).imp ?_
    intro a b hab x hx y hy
    simp only [List.mem_flatMap, List.mem_map] at hx hy
    obtain ⟨_, _, _, _, rfl⟩ := hx
    obtain ⟨_, _, _, _, rfl⟩ := hy
    exact Or.inl hab

/-- The fill of planes `1..n` of a three-dimensional table, cell by cell. -/
theorem fill3D_spec (n C M : Nat)
    (body : Nat × Nat × Nat → Table3 → Table3) (fn : Nat × Nat × Nat → Table3 → Nat)
    (hbody : ∀ c ∈ cells3 n C M, ∀ T : Table3, T.Dims (n + 1) (C + 1) (M + 1) →
      body c T = T.set c.1 c.2.1 c.2.2 (fn c T))
    (hloc : ∀ c ∈ cells3 n C M, ∀ T T' : Table3,
      (∀ d, cell3Lt d c → T.get d.1 d.2.1 d.2.2 = T'.get d.1 d.2.1 d.2.2) → fn c T = fn c T')
    (T0 : Table3) (h0 : T0.Dims (n + 1) (C + 1) (M + 1)) :
    (∀ j k, (forUp 1 n (fun i acc => forUp 0 C (fun j acc =>
        forUp 0 M (fun k acc => body (i, j, k) acc) acc) acc) T0).get 0 j k = T0.get 0 j k)
    ∧ ∀ i j k, 1 ≤ i → i ≤ n → j ≤ C → k ≤ M →
      (forUp 1 n (fun i acc => forUp 0 C (fun j acc =>
        forUp 0 M (fun k acc => body (i, j, k) acc) acc) acc) T0).get i j k
        = fn (i, j, k) (forUp 1 n (fun i acc => forUp 0 C (fun j acc =>
            forUp 0 M (fun k acc => body (i, j, k) acc) acc) acc) T0) := by
  rw [forUp3_eq]
  have hsame : ∀ (s : Table3) (c : Nat × Nat × Nat) (x : Nat), s.Dims (n + 1) (C + 1) (M + 1) →
      (c.1 < n + 1 ∧ c.2.1 < C + 1 ∧ c.2.2 < M + 1) →
      (s.set c.1 c.2.1 c.2.2 x).get c.1 c.2.1 c.2.2 = x :=
    fun s c x hs hc => Table3.get3_set_same s _ _ _ hs _ _ _ x hc.1 hc.2.1 hc.2.2
  have hother : ∀ (s : Table3) (c : Nat × Nat × Nat) (x : Nat) (c' : Nat × Nat × Nat),
      s.Dims (n + 1) (C + 1) (M + 1) → (c.1 < n + 1 ∧ c.2.1 < C + 1 ∧ c.2.2 < M + 1) → c' ≠ c →
      (s.set c.1 c.2.1 c.2.2 x).get c'.1 c'.2.1 c'.2.2 = s.get c'.1 c'.2.1 c'.2.2 :=
    fun s c x c' _ _ hne => Table3.get3_set_other s _ _ _ x _ _ _ hne
  have hok : ∀ (s : Table3) (c : Nat × Nat × Nat) (x : Nat), s.Dims (n + 1) (C + 1) (M + 1) →
      (c.1 < n + 1 ∧ c.2.1 < C + 1 ∧ c.2.2 < M + 1) →
      (s.set c.1 c.2.1 c.2.2 x).Dims (n + 1) (C + 1) (M + 1) :=
    fun s c x hs _ => Table3.dims3_set s _ _ _ hs _ _ _ x
  have hv : ∀ k ∈ cells3 n C M,
      (id k).1 < n + 1 ∧ (id k).2.1 < C + 1 ∧ (id k).2.2 < M + 1 := by
    intro k hk
    rw [mem_cells3] at hk
    simp only [id]
    omega
  have hfr := writes_frame (fun (s : Table3) (c : Nat × Nat × Nat) => s.get c.1 c.2.1 c.2.2)
    (fun s c x => s.set c.1 c.2.1 c.2.2 x) (fun s => s.Dims (n + 1) (C + 1) (M + 1))
    (fun c => c.1 < n + 1 ∧ c.2.1 < C + 1 ∧ c.2.2 < M + 1) hother hok id fn body
    (cells3 n C M) hbody hv T0 h0
  refine ⟨fun j k => ?_, fun i j k h1 h2 h3 h4 => ?_⟩
  · refine hfr.2 (0, j, k) (fun c hc hc0 => ?_)
    rw [mem_cells3] at hc
    simp only [id] at hc0
    rw [hc0] at hc
    simp at hc
  · have hmem : (i, j, k) ∈ cells3 n C M := (mem_cells3 n C M (i, j, k)).2 ⟨h1, h2, h3, h4⟩
    refine writes_last (fun (s : Table3) (c : Nat × Nat × Nat) => s.get c.1 c.2.1 c.2.2)
      (fun s c x => s.set c.1 c.2.1 c.2.2 x) (fun s => s.Dims (n + 1) (C + 1) (M + 1))
      (fun c => c.1 < n + 1 ∧ c.2.1 < C + 1 ∧ c.2.2 < M + 1) hsame hother hok id fn body
      cell3Lt (cells3 n C M) hbody (pairwise_cells3 n C M) hv T0 h0 (i, j, k) hmem
      (fun d => cell3Lt d (i, j, k)) (hloc (i, j, k) hmem) ?_ ?_
    · intro d hd
      refine ⟨fun h => ?_, fun k' _ hk' h => ?_⟩
      · simp only [id] at h; rw [h] at hd; unfold cell3Lt at hd; omega
      · simp only [id] at h; rw [← h] at hd; unfold cell3Lt at hd hk'; simp only at hd hk'; omega
    · intro k' _ hk' h
      simp only [id] at h; rw [h] at hk'; unfold cell3Lt at hk'; omega

theorem cell2D_eq (w m v i j k : Nat) (T : Table3) :
    cell2D w m v i j k T = T.set i j k (rule2D w m v i j k T) := rfl

theorem fill2D_rec (items : List Item2D) (C M : Nat) :
    (∀ j k, j ≤ C → k ≤ M → (fill2D items C M).get 0 j k = 0) ∧
    ∀ i j k, i < items.length → j ≤ C → k ≤ M →
      (fill2D items C M).get (i + 1) j k =
        if j ≥ (items.getD i default).weight ∧ k ≥ (items.getD i default).volume then
          max ((fill2D items C M).get i j k)
            ((fill2D items C M).get i (j - (items.getD i default).weight)
              (k - (items.getD i default).volume) + (items.getD i default).value)
        else (fill2D items C M).get i j k := by
  have h := fill3D_spec items.length C M
    (fun c dp => cell2D (items.getD (c.1 - 1) default).weight
      (items.getD (c.1 - 1) default).volume (items.getD (c.1 - 1) default).value
      c.1 c.2.1 c.2.2 dp)
    (fun c T => rule2D (items.getD (c.1 - 1) default).weight
      (items.getD (c.1 - 1) default).volume (items.getD (c.1 - 1) default).value
      c.1 c.2.1 c.2.2 T)
    (fun c _ T _ => cell2D_eq _ _ _ _ _ _ T)
    (fun c hc T T' hTT => by
      rw [mem_cells3] at hc
      have e1 : ∀ a b, T.get (c.1 - 1) a b = T'.get (c.1 - 1) a b :=
        fun a b => hTT (c.1 - 1, a, b) (Or.inl (by simp only; omega))
      simp only [rule2D, e1])
    (Table3.mk (items.length + 1) (C + 1) (M + 1)) (Table3.dims3_mk _ _ _)
  have hf : fill2D items C M = forUp 1 items.length (fun i dp => forUp 0 C (fun j dp =>
      forUp 0 M (fun k dp => cell2D (items.getD (i - 1) default).weight
      (items.getD (i - 1) default).volume (items.getD (i - 1) default).value i j k dp) dp)
      dp) (Table3.mk (items.length + 1) (C + 1) (M + 1)) := rfl
  rw [← hf] at h
  constructor
  · intro j k hj hk
    rw [h.1 j k, Table3.get3_mk _ _ _ _ _ _ (by omega) (by omega) (by omega)]
  · intro i j k hi hj hk
    have := h.2 (i + 1) j k (by omega) (by omega) hj hk
    simp only [rule2D, Nat.add_sub_cancel] at this
    rw [this]
    split
    · split
      · rw [max_eq_right (by omega)]
      · rw [max_eq_left (by omega)]
    · rfl

theorem fill2D_greatest (items : List Item2D) (C M : Nat) (i j k : Nat)
    (hi : i ≤ items.length) (hj : j ≤ C) (hk : k ≤ M) :
    IsGreatest (feasibleValues2D items i j k) ((fill2D items C M).get i j k) := by
  obtain ⟨h0, hrec⟩ := fill2D_rec items C M
  induction i generalizing j k with
  | zero =>
    rw [h0 j k hj hk]
    constructor
    · exact ⟨∅, by simp, by simp, by simp, by simp⟩
    · rintro val ⟨S, hS, -, -, rfl⟩
      simp only [Finset.range_zero, Finset.subset_empty] at hS
      subst hS
      simp
  | succ i ih =>
    have hni : ∀ S : Finset ℕ, S ⊆ Finset.range i → i ∉ S := by
      intro S hS hi
      have := hS hi
      simp at this
    have hsub : ∀ S : Finset ℕ, S ⊆ Finset.range i → S ⊆ Finset.range (i + 1) :=
      fun S hS => hS.trans (Finset.range_subset.2 (Nat.le_succ i))
    rw [hrec i j k (by omega) hj hk]
    constructor
    · split
      · rename_i hfit
        rcases le_total ((fill2D items C M).get i j k)
          ((fill2D items C M).get i (j - (items.getD i default).weight)
              (k - (items.getD i default).volume) + (items.getD i default).value) with h1 | h1
        · rw [max_eq_right h1]
          obtain ⟨S, hS, hw, hm, hv⟩ := (ih (j - (items.getD i default).weight)
            (k - (items.getD i default).volume) (by omega) (by omega) (by omega)).1
          refine ⟨insert i S, ?_, ?_, ?_, ?_⟩
          · intro t ht
            rcases Finset.mem_insert.1 ht with rfl | h
            · simp
            · exact hsub S hS h
          · rw [Finset.sum_insert (hni S hS)]; omega
          · rw [Finset.sum_insert (hni S hS)]; omega
          · rw [Finset.sum_insert (hni S hS), hv]; omega
        · rw [max_eq_left h1]
          obtain ⟨S, hS, hw, hm, hv⟩ := (ih j k (by omega) hj hk).1
          exact ⟨S, hsub S hS, hw, hm, hv⟩
      · obtain ⟨S, hS, hw, hm, hv⟩ := (ih j k (by omega) hj hk).1
        exact ⟨S, hsub S hS, hw, hm, hv⟩
    · rintro val ⟨S, hS, hw, hm, rfl⟩
      by_cases hiS : i ∈ S
      · have hS' : S.erase i ⊆ Finset.range i := by
          intro t ht
          have h1 := hS (Finset.mem_of_mem_erase ht)
          have h2 := Finset.ne_of_mem_erase ht
          simp only [Finset.mem_range] at h1 ⊢
          omega
        rw [← Finset.sum_erase_add _ _ hiS] at hw hm ⊢
        have hfit : j ≥ (items.getD i default).weight ∧ k ≥ (items.getD i default).volume :=
          ⟨by omega, by omega⟩
        rw [if_pos hfit]
        have := (ih (j - (items.getD i default).weight)
            (k - (items.getD i default).volume) (by omega) (by omega) (by omega)).2
          ⟨S.erase i, hS', by omega, by omega, rfl⟩
        have h2 := le_max_right ((fill2D items C M).get i j k)
          ((fill2D items C M).get i (j - (items.getD i default).weight)
              (k - (items.getD i default).volume) + (items.getD i default).value)
        omega
      · have hS' : S ⊆ Finset.range i := by
          intro t ht
          have h1 := hS ht
          have h2 : t ≠ i := fun h => hiS (h ▸ ht)
          simp only [Finset.mem_range] at h1 ⊢
          omega
        have := (ih j k (by omega) hj hk).2 ⟨S, hS', hw, hm, rfl⟩
        split
        · exact this.trans (le_max_left _ _)
        · exact this

/-- In exact arithmetic: every cell `dp[i][j][k]` of the two-resource table (`i ≤ n`, `j ≤
capacity`, `k ≤ capacity2`) is the greatest total value of a subset of the first `i` items whose
total weight is at most `j` and whose total secondary cost is at most `k`; `max_value` is
`dp[n][capacity][capacity2]`, the optimum of the instance. -/
theorem knapsack2D_optimal (items : List Item2D) (capacity capacity2 : Nat) :
    (∀ i j k, i ≤ items.length → j ≤ capacity → k ≤ capacity2 →
      IsGreatest (feasibleValues2D items i j k) ((fill2D items capacity capacity2).get i j k))
    ∧ maxValue2D items capacity capacity2
        = (fill2D items capacity capacity2).get items.length capacity capacity2
    ∧ IsGreatest (feasibleValues2D items items.length capacity capacity2)
        (maxValue2D items capacity capacity2) :=
  ⟨fun i j k hi hj hk => fill2D_greatest items capacity capacity2 i j k hi hj hk, rfl,
    fill2D_greatest items capacity capacity2 _ _ _ (le_refl _) (le_refl _) (le_refl _)⟩

theorem knapsack2D_optimal_witness :
    IsGreatest (feasibleValues2D [⟨2, 1, 3⟩, ⟨1, 2, 4⟩] 2 3 2)
      ((fill2D [⟨2, 1, 3⟩, ⟨1, 2, 4⟩] 3 3).get 2 3 2) :=
  (knapsack2D_optimal [⟨2, 1, 3⟩, ⟨1, 2, 4⟩] 3 3).1 2 3 2 (by decide) (by decide) (by decide)

/-! ## K-th best -/

theorem mergeTopK_eq_take_merge (a b : List Int) (k : Nat) :
    mergeTopK a b k = (List.merge a b (fun x y => decide (x ≥ y))).take k := by
  induction k generalizing a b with
  | zero => cases a <;> cases b <;> simp [mergeTopK]
  | succ k ih =>
    cases a with
    | nil =>
      cases b with
      | nil => simp [mergeTopK]
      | cons y b => simp [mergeTopK, ih]
    | cons x a =>
      cases b with
      | nil => simp [mergeTopK, ih]
      | cons y b =>
        by_cases h : x ≥ y
        · simp [mergeTopK, h, ih, List.cons_merge_cons]
        · simp [mergeTopK, h, ih, List.cons_merge_cons]

theorem mergeTopK_take (a b : List Int) (k m n : Nat) (hm : k ≤ m) (hn : k ≤ n) :
    mergeTopK (a.take m) (b.take n) k = mergeTopK a b k := by
  induction k generalizing a b m n with
  | zero => cases a <;> cases b <;> simp [mergeTopK]
  | succ k ih =>
    obtain ⟨m, rfl⟩ : ∃ m', m = m' + 1 := ⟨m - 1, by omega⟩
    obtain ⟨n, rfl⟩ : ∃ n', n = n' + 1 := ⟨n - 1, by omega⟩
    cases a with
    | nil =>
      cases b with
      | nil => simp [mergeTopK]
      | cons y b =>
        have := ih [] b m n (by omega) (by omega)
        simp only [List.take_nil] at this
        simp [mergeTopK, this]
    | cons x a =>
      cases b with
      | nil =>
        have := ih a [] m n (by omega) (by omega)
        simp only [List.take_nil] at this
        simp [mergeTopK, this]
      | cons y b =>
        have h1 := ih a (y :: b) m (n + 1) (by omega) (by omega)
        have h2 := ih (x :: a) b (m + 1) n (by omega) (by omega)
        simp only [List.take_succ_cons] at h1 h2
        by_cases h : x ≥ y
        · simp [mergeTopK, h, h1]
        · simp [mergeTopK, h, h2]

theorem cellKth_eq (w : Nat) (v : Int) (K i j : Nat) (T : Table (List Int)) :
    cellKth w v K i j T = T.set i j (ruleKth w v K i j T) := rfl

theorem fillKth_rec (items : List ItemK) (C K : Nat) :
    (∀ j, j ≤ C → (fillKth items C K).get 0 j = [0]) ∧
    ∀ i j, i < items.length → j ≤ C →
      (fillKth items C K).get (i + 1) j =
        mergeTopK ((fillKth items C K).get i j)
          (if j ≥ (items.getD i default).weight
            then ((fillKth items C K).get i (j - (items.getD i default).weight)).map
              (fun val => val + (items.getD i default).value)
            else []) K := by
  have h := fill2D_spec items.length C
    (fun c dp => cellKth (items.getD (c.1 - 1) default).weight
      (items.getD (c.1 - 1) default).value K c.1 c.2 dp)
    (fun c T => ruleKth (items.getD (c.1 - 1) default).weight
      (items.getD (c.1 - 1) default).value K c.1 c.2 T)
    (fun c _ T _ => cellKth_eq _ _ _ _ _ T)
    (fun c hc T T' hTT => by
      rw [mem_cellsOf] at hc
      have e1 : ∀ b, T.get (c.1 - 1) b = T'.get (c.1 - 1) b :=
        fun b => hTT (c.1 - 1, b) (Or.inl (by simp only; omega))
      simp only [ruleKth, e1])
    (Table.mk (items.length + 1) (C + 1) [0]) (Table.dims_mk _ _ _)
  have hf : fillKth items C K = forUp 1 items.length (fun i dp => forUp 0 C (fun j dp =>
      cellKth (items.getD (i - 1) default).weight (items.getD (i - 1) default).value K i j dp)
      dp) (Table.mk (items.length + 1) (C + 1) [0]) := rfl
  rw [← hf] at h
  constructor
  · intro j hj
    rw [h.2.1 j, Table.get_mk _ _ _ _ _ (by omega) (by omega)]
  · intro i j hi hj
    have := h.2.2 (i + 1) j (by omega) (by omega) hj
    simpa only [ruleKth, Nat.add_sub_cancel] using this

theorem subsetValuesWithin_nil (C : Nat) : subsetValuesWithin [] C = [0] := by
  simp [subsetValuesWithin]

theorem subsetValuesWithin_concat (L : List ItemK) (it : ItemK) (j : Nat) :
    subsetValuesWithin (L ++ [it]) j = subsetValuesWithin L j ++
      (if j ≥ it.weight then (subsetValuesWithin L (j - it.weight)).map (fun val => val + it.value)
        else []) := by
  unfold subsetValuesWithin
  rw [List.sublists_concat, List.filter_append, List.map_append, List.filter_map, List.map_map]
  congr 1
  split
  · rename_i hjw
    rw [List.map_map]
    have e : (List.filter ((fun l => decide ((List.map (fun it => it.weight) l).sum ≤ j)) ∘
        fun x => x ++ [it]) L.sublists)
        = List.filter (fun l => decide ((List.map (fun it => it.weight) l).sum ≤ j - it.weight))
          L.sublists := by
      refine List.filter_congr (fun l _ => ?_)
      simp only [Function.comp, List.map_append, List.sum_append, List.map_cons, List.map_nil,
        List.sum_cons, List.sum_nil, Nat.add_zero, decide_eq_decide]
      omega
    rw [e]
    refine List.map_congr_left (fun l _ => ?_)
    simp [Function.comp]
  · rename_i hjw
    have e : (List.filter ((fun l => decide ((List.map (fun it => it.weight) l).sum ≤ j)) ∘
        fun x => x ++ [it]) L.sublists) = [] := by
      rw [List.filter_eq_nil_iff]
      intro l _
      simp only [Function.comp, List.map_append, List.sum_append, List.map_cons, List.map_nil,
        List.sum_cons, List.sum_nil, Nat.add_zero, decide_eq_true_eq]
      omega
    rw [e]
    rfl

theorem sortedDesc_insertionSort (l : List Int) :
    (l.insertionSort (fun a b => a ≥ b)).Sorted (fun a b => a ≥ b) := by
  haveI : IsTotal Int (fun a b => a ≥ b) := ⟨fun a b => le_total b a⟩
  haveI : IsTrans Int (fun a b => a ≥ b) := ⟨fun a b c h1 h2 => le_trans h2 h1⟩
  exact List.sorted_insertionSort _ l

/-- Merging the sorted lists of two collections of values gives the sorted list of their
union. -/
theorem merge_sorted_eq (A B sA sB : List Int) (hA : sA.Perm A) (hB : sB.Perm B)
    (hsA : sA.Sorted (fun a b => a ≥ b)) (hsB : sB.Sorted (fun a b => a ≥ b)) :
    List.merge sA sB (fun x y => decide (x ≥ y)) = (A ++ B).insertionSort (fun a b => a ≥ b) := by
  haveI : IsTotal Int (fun a b => a ≥ b) := ⟨fun a b => le_total b a⟩
  haveI : IsTrans Int (fun a b => a ≥ b) := ⟨fun a b c h1 h2 => le_trans h2 h1⟩
  haveI : IsAntisymm Int (fun a b => a ≥ b) := ⟨fun a b h1 h2 => le_antisymm h2 h1⟩
  have h1 : (List.merge sA sB (fun x y => decide (x ≥ y))).Sorted (fun a b => a ≥ b) :=
    List.Sorted.merge hsA hsB
  have h2 : (List.merge sA sB (fun x y => decide (x ≥ y))).Perm
      ((A ++ B).insertionSort (fun a b => a ≥ b)) :=
    ((List.merge_perm_append _).trans (hA.append hB)).trans
      (List.perm_insertionSort _ _).symm
  exact List.eq_of_perm_of_sorted h2 h1 (sortedDesc_insertionSort _)

theorem fillKth_correct (items : List ItemK) (C K : Nat) (hK : 1 ≤ K) (i j : Nat)
    (hi : i ≤ items.length) (hj : j ≤ C) :
    (fillKth items C K).get i j = (sortedSubsetValues (items.take i) j).take K := by
  obtain ⟨h0, hrec⟩ := fillKth_rec items C K
  induction i generalizing j with
  | zero =>
    rw [h0 j hj, List.take_zero, sortedSubsetValues, subsetValuesWithin_nil]
    obtain ⟨K, rfl⟩ : ∃ K', K = K' + 1 := ⟨K - 1, by omega⟩
    simp
  | succ i ih =>
    have hlt : i < items.length := by omega
    have hit : items.getD i default = items[i] := List.getD_eq_getElem _ _ hlt
    have htake : items.take (i + 1) = items.take i ++ [items[i]] := by
      rw [List.take_succ]
      simp [hlt]
    rw [hrec i j hlt hj, ih j (by omega) hj, hit, htake]
    unfold sortedSubsetValues
    rw [subsetValuesWithin_concat]
    set A := subsetValuesWithin (items.take i) j with hA
    set w := (items[i]).weight with hw
    set v := (items[i]).value with hv
    by_cases hjw : j ≥ w
    · rw [if_pos hjw, if_pos hjw, ih (j - w) (by omega) (by omega), List.map_take]
      unfold sortedSubsetValues
      set B := subsetValuesWithin (items.take i) (j - w) with hB
      rw [mergeTopK_take _ _ K K K (le_refl _) (le_refl _), mergeTopK_eq_take_merge]
      congr 1
      apply merge_sorted_eq
      · exact List.perm_insertionSort _ _
      · exact (List.perm_insertionSort _ _).map _
      · exact sortedDesc_insertionSort _
      · have := sortedDesc_insertionSort B
        unfold List.Sorted at this ⊢
        rw [List.pairwise_map]
        exact this.imp (fun h => by omega)
    · rw [if_neg hjw, if_neg hjw]
      have := mergeTopK_take (A.insertionSort (fun a b => a ≥ b)) [] K K K (le_refl _)
        (le_refl _)
      rw [List.take_nil] at this
      rw [this, mergeTopK_eq_take_merge]
      congr 1
      apply merge_sorted_eq
      · exact List.perm_insertionSort _ _
      · exact List.Perm.refl _
      · exact sortedDesc_insertionSort _
      · exact List.sorted_nil

theorem take_min_length {α : Type} (l : List α) (K : Nat) :
    l.take (min K l.length) = l.take K := by
  rw [List.take_eq_take]
  omega

/-- In exact arithmetic: for `K ≥ 1` the reported `topK` list (the final cell `dp[n][capacity]`) is
the first `min(K, N)` elements of the non-increasingly sorted list of the total values of all
`N` sub-selections of the items whose total weight is at most `capacity`, one entry per
sub-selection (equal values stay as duplicates). -/
theorem knapsackKth_topK (items : List ItemK) (capacity K : Nat) (hK : 1 ≤ K) :
    topK items capacity K = (sortedSubsetValues items capacity).take
      (min K (subsetValuesWithin items capacity).length) := by
  have h := fillKth_correct items capacity K hK items.length capacity (le_refl _) (le_refl _)
  rw [List.take_length] at h
  have hl : (subsetValuesWithin items capacity).length
      = (sortedSubsetValues items capacity).length := by
    rw [sortedSubsetValues, List.length_insertionSort]
  rw [hl, take_min_length]
  exact h

theorem knapsackKth_topK_witness :
    topK [⟨1, 1⟩, ⟨1, 1⟩, ⟨1, 2⟩] 3 2 = (sortedSubsetValues [⟨1, 1⟩, ⟨1, 1⟩, ⟨1, 2⟩] 3).take
      (min 2 (subsetValuesWithin [⟨1, 1⟩, ⟨1, 1⟩, ⟨1, 2⟩] 3).length) :=
  knapsackKth_topK [⟨1, 1⟩, ⟨1, 1⟩, ⟨1, 2⟩] 3 2 (by decide)

/-! ## Group knapsack -/

theorem Table.set_set {α : Type} (T : Table α) (i j : Nat) (x y : α) :
    (T.set i j x).set i j y = T.set i j y := by
  unfold Table.set
  by_cases hi : i < T.length
  · simp [hi, List.set_set]
  · simp only [not_lt] at hi
    rw [List.set_eq_of_length_le hi, List.set_eq_of_length_le hi]

theorem forLt_eq_forUp {σ : Type} (n : Nat) (body : Nat → σ → σ) (s : σ) :
    forLt 0 n body s = forUp 1 n (fun i acc => body (i - 1) acc) s := by
  unfold forLt forUp
  have : List.range' 1 (n + 1 - 1) = (List.range' 0 (n - 0)).map (fun k => k + 1) := by
    have e : (fun k => k + 1) = (fun k => 1 + k) := funext (fun k => Nat.add_comm k 1)
    rw [e, List.map_add_range']
    simp
  rw [this, List.foldl_map]
  simp

/-- The state of the loop over the members of a group, as a function of the table before. -/
theorem cellGroup_fst (items : List ItemG) (groupItems : List Nat) (g j : Nat) (T : Table Nat)
    (R Cc : Nat) (hT : T.Dims R Cc) (hg : g + 1 < R) (hj : j < Cc) :
    (cellGroup items groupItems g j T).1
      = T.set (g + 1) j (bestOfGroup items groupItems (fun b => T.get g b) j) := by
  unfold cellGroup bestOfGroup
  have key : ∀ (l : List Nat) (best : Nat) (bc : Int),
      (l.foldl (fun (st : Table Nat × Int) idx =>
        if j ≥ (items.getD idx default).weight ∧
            st.1.get g (j - (items.getD idx default).weight) + (items.getD idx default).value
              > st.1.get (g + 1) j then
          (st.1.set (g + 1) j (st.1.get g (j - (items.getD idx default).weight)
            + (items.getD idx default).value), (idx : Int))
        else st) (T.set (g + 1) j best, bc)).1
      = T.set (g + 1) j (l.foldl (fun best idx =>
          if j ≥ (items.getD idx default).weight ∧
              T.get g (j - (items.getD idx default).weight) + (items.getD idx default).value
                > best then
            T.get g (j - (items.getD idx default).weight) + (items.getD idx default).value
          else best) best) := by
    intro l
    induction l with
    | nil => intro best bc; rfl
    | cons idx l ih =>
      intro best bc
      rw [List.foldl_cons, List.foldl_cons]
      have e1 : ∀ b, (T.set (g + 1) j best).get g b = T.get g b :=
        fun b => Table.get_set_other _ _ _ _ _ _ (by simp)
      have e2 : (T.set (g + 1) j best).get (g + 1) j = best :=
        Table.get_set_same _ _ _ hT _ _ _ hg hj
      simp only [e1, e2]
      split
      · rw [Table.set_set, ih]
      · rw [ih]
  exact key groupItems _ _

/-- The value left by the loop over a group is the greatest among the alternatives. -/
theorem bestOfGroup_greatest (items : List ItemG) (groupItems : List Nat) (r : ℕ → ℕ) (j : ℕ) :
    IsGreatest {x | ∃ p ∈ groupChoices items groupItems, p.1 ≤ j ∧ x = r (j - p.1) + p.2}
      (bestOfGroup items groupItems r j) := by
  unfold bestOfGroup
  have key : ∀ (l : List Nat) (best : ℕ),
      (best = r j ∨ ∃ idx ∈ groupItems, (items.getD idx default).weight ≤ j ∧
        best = r (j - (items.getD idx default).weight) + (items.getD idx default).value) →
      (∀ idx ∈ l, idx ∈ groupItems) →
      (fun res => (res = r j ∨ ∃ idx ∈ groupItems, (items.getD idx default).weight ≤ j ∧
          res = r (j - (items.getD idx default).weight) + (items.getD idx default).value) ∧
        best ≤ res ∧ ∀ idx ∈ l, (items.getD idx default).weight ≤ j →
          r (j - (items.getD idx default).weight) + (items.getD idx default).value ≤ res)
      (l.foldl (fun best idx =>
        if j ≥ (items.getD idx default).weight ∧
            r (j - (items.getD idx default).weight) + (items.getD idx default).value > best then
          r (j - (items.getD idx default).weight) + (items.getD idx default).value
        else best) best) := by
    intro l
    induction l with
    | nil => intro best hb _; exact ⟨hb, le_refl _, fun _ h => by simp at h⟩
    | cons a l ih =>
      intro best hb hl
      rw [List.foldl_cons]
      have ha : a ∈ groupItems := hl a (List.mem_cons_self _ _)
      have hl' : ∀ idx ∈ l, idx ∈ groupItems := fun idx h => hl idx (List.mem_cons_of_mem _ h)
      split
      · rename_i hc
        obtain ⟨h1, h2, h3⟩ := ih _ (Or.inr ⟨a, ha, hc.1, rfl⟩) hl'
        refine ⟨h1, by omega, fun idx hidx hw => ?_⟩
        rcases List.mem_cons.1 hidx with rfl | h
        · exact h2
        · exact h3 idx h hw
      · rename_i hc
        obtain ⟨h1, h2, h3⟩ := ih _ hb hl'
        refine ⟨h1, h2, fun idx hidx hw => ?_⟩
        rcases List.mem_cons.1 hidx with rfl | h
        · have : r (j - (items.getD idx default).weight) + (items.getD idx default).value ≤ best := by
            by_contra hcon
            exact hc ⟨hw, by omega⟩
          omega
        · exact h3 idx h hw
  obtain ⟨h1, h2, h3⟩ := key groupItems (r j) (Or.inl rfl) (fun _ h => h)
  constructor
  · rcases h1 with h1 | ⟨idx, hidx, hw, h1⟩
    · exact ⟨(0, 0), Or.inl rfl, Nat.zero_le _, by simpa using h1⟩
    · exact ⟨_, Or.inr ⟨idx, hidx, rfl⟩, hw, h1⟩
  · rintro x ⟨p, hp, hpj, rfl⟩
    rcases hp with rfl | ⟨idx, hidx, rfl⟩
    · simpa using h2
    · exact h3 idx hidx hpj

theorem forLt_succ {σ : Type} (n : Nat) (body : Nat → σ → σ) (s : σ) :
    forLt 0 (n + 1) body s = body n (forLt 0 n body s) := by
  unfold forLt
  simp only [Nat.sub_zero]
  rw [List.range'_1_concat, List.foldl_append]
  simp

theorem mem_groupIdsOf_insert (gs : List (Int × List Nat)) (g : Int) (i : Nat) (k : Int) :
    k ∈ groupIdsOf (groupsInsert gs g i) ↔ k = g ∨ k ∈ groupIdsOf gs := by
  induction gs with
  | nil => simp [groupsInsert, groupIdsOf]
  | cons p gs ih =>
    obtain ⟨g', l⟩ := p
    unfold groupsInsert
    split
    · simp [groupIdsOf]
    · split
      · rename_i h1 h2
        subst h2
        simp [groupIdsOf]
      · simp only [groupIdsOf, List.map_cons, List.mem_cons] at ih ⊢
        rw [ih]
        tauto

theorem sorted_groupIdsOf_insert (gs : List (Int × List Nat)) (g : Int) (i : Nat)
    (h : (groupIdsOf gs).Pairwise (fun a b => a < b)) :
    (groupIdsOf (groupsInsert gs g i)).Pairwise (fun a b => a < b) := by
  induction gs with
  | nil => simp [groupsInsert, groupIdsOf]
  | cons p gs ih =>
    obtain ⟨g', l⟩ := p
    have h' := h
    simp only [groupIdsOf, List.map_cons, List.pairwise_cons] at h'
    unfold groupsInsert
    split
    · rename_i hlt
      simp only [groupIdsOf, List.map_cons]
      refine List.Pairwise.cons ?_ (by simpa [groupIdsOf] using h)
      intro k hk
      rcases List.mem_cons.1 hk with rfl | hk
      · exact hlt
      · exact lt_trans hlt (h'.1 k hk)
    · split
      · simpa [groupIdsOf] using h
      · rename_i h1 h2
        simp only [groupIdsOf, List.map_cons]
        refine List.Pairwise.cons ?_ (ih h'.2)
        intro k hk
        have := (mem_groupIdsOf_insert gs g i k).1 hk
        rcases this with rfl | hk
        · omega
        · exact h'.1 k hk

theorem groupsFind_of_not_mem (gs : List (Int × List Nat)) (k : Int)
    (h : k ∉ groupIdsOf gs) : groupsFind gs k = [] := by
  induction gs with
  | nil => rfl
  | cons p gs ih =>
    obtain ⟨g', l⟩ := p
    simp only [groupIdsOf, List.map_cons, List.mem_cons, not_or] at h
    unfold groupsFind
    rw [if_neg h.1]
    exact ih h.2

theorem groupsFind_insert (gs : List (Int × List Nat)) (g : Int) (i : Nat) (k : Int)
    (h : (groupIdsOf gs).Pairwise (fun a b => a < b)) :
    groupsFind (groupsInsert gs g i) k
      = if k = g then groupsFind gs g ++ [i] else groupsFind gs k := by
  induction gs with
  | nil =>
    simp only [groupsInsert, groupsFind]
    split <;> simp
  | cons p gs ih =>
    obtain ⟨g', l⟩ := p
    have h' := h
    simp only [groupIdsOf, List.map_cons, List.pairwise_cons] at h'
    unfold groupsInsert
    split
    · rename_i hlt
      have hnot : g ∉ groupIdsOf ((g', l) :: gs) := by
        simp only [groupIdsOf, List.map_cons, List.mem_cons, not_or]
        refine ⟨by omega, fun hk => ?_⟩
        have := h'.1 g hk
        omega
      rw [groupsFind_of_not_mem _ g hnot]
      by_cases hkg : k = g
      · simp [groupsFind, hkg]
      · rw [if_neg hkg]
        conv_lhs => unfold groupsFind
        rw [if_neg hkg]
    · split
      · rename_i h1 h2
        subst h2
        by_cases hkg : k = g
        · simp [groupsFind, hkg]
        · simp [groupsFind, hkg]
      · rename_i h1 h2
        by_cases hkg' : k = g'
        · have hne : k ≠ g := fun hh => h2 (hh ▸ hkg')
          subst hkg'
          have hgk : ¬ k = g := hne
          simp [groupsFind, hgk]
        · conv_lhs => unfold groupsFind
          rw [if_neg hkg', ih h'.2]
          have hgg : g ≠ g' := h2
          by_cases hkg : k = g
          · subst hkg
            simp [groupsFind, hgg]
          · simp [groupsFind, hkg, hkg']

/-- The map `groups` after the first `i` insertions. -/
theorem buildGroups_inv (items : List ItemG) (i : Nat) :
    (groupIdsOf (forLt 0 i (fun i groups =>
      groupsInsert groups (items.getD i default).group i) [])).Pairwise (fun a b => a < b)
    ∧ (∀ k, k ∈ groupIdsOf (forLt 0 i (fun i groups =>
        groupsInsert groups (items.getD i default).group i) [])
        ↔ ∃ t, t < i ∧ (items.getD t default).group = k)
    ∧ ∀ k, groupsFind (forLt 0 i (fun i groups =>
        groupsInsert groups (items.getD i default).group i) []) k
        = (List.range i).filter (fun t => (items.getD t default).group = k) := by
  induction i with
  | zero =>
    refine ⟨by simp [forLt, groupIdsOf], fun k => by simp [forLt, groupIdsOf], fun k => ?_⟩
    simp [forLt, groupsFind]
  | succ i ih =>
    obtain ⟨h1, h2, h3⟩ := ih
    rw [forLt_succ]
    refine ⟨sorted_groupIdsOf_insert _ _ _ h1, fun k => ?_, fun k => ?_⟩
    · rw [mem_groupIdsOf_insert, h2]
      constructor
      · rintro (rfl | ⟨t, ht, rfl⟩)
        · exact ⟨i, by omega, rfl⟩
        · exact ⟨t, by omega, rfl⟩
      · rintro ⟨t, ht, rfl⟩
        by_cases hti : t = i
        · subst hti; exact Or.inl rfl
        · exact Or.inr ⟨t, by omega, rfl⟩
    · rw [groupsFind_insert _ _ _ _ h1, h3, h3, List.range_succ, List.filter_append]
      by_cases hk : k = (items.getD i default).group
      · subst hk
        simp
      · rw [if_neg hk]
        have : ¬ (items.getD i default).group = k := fun h => hk h.symm
        simp only [List.filter_cons, List.filter_nil, this, decide_False, Bool.false_eq_true,
          if_false, List.append_nil]

theorem groupIdsOf_buildGroups (items : List ItemG) :
    groupIdsOf (buildGroups items) = distinctGroupIds items := by
  obtain ⟨h1, h2, -⟩ := buildGroups_inv items items.length
  have hnd : (groupIdsOf (buildGroups items)).Nodup := h1.imp (fun h => ne_of_lt h)
  have hs : (groupIdsOf (buildGroups items)).Sorted (fun a b => a ≤ b) :=
    h1.imp (fun h => le_of_lt h)
  refine List.eq_of_perm_of_sorted ?_ hs (Finset.sort_sorted _ _)
  refine (List.perm_ext_iff_of_nodup hnd (Finset.sort_nodup _ _)).2 ?_
  intro k
  rw [Finset.mem_sort, List.mem_toFinset, List.mem_map]
  have := h2 k
  unfold buildGroups
  rw [this]
  constructor
  · rintro ⟨t, ht, rfl⟩
    refine ⟨items[t], List.getElem_mem _, ?_⟩
    rw [List.getD_eq_getElem _ _ ht]
  · rintro ⟨it, hit, rfl⟩
    obtain ⟨t, ht, rfl⟩ := List.getElem_of_mem hit
    exact ⟨t, ht, by rw [List.getD_eq_getElem _ _ ht]⟩

theorem numGroupsOf_eq (items : List ItemG) :
    numGroupsOf items = (distinctGroupIds items).length := by
  rw [← groupIdsOf_buildGroups]
  simp [numGroupsOf, groupIdsOf]

theorem mem_groupsFind_buildGroups (items : List ItemG) (k : Int) (idx : Nat) :
    idx ∈ groupsFind (buildGroups items) k
      ↔ idx < items.length ∧ (items.getD idx default).group = k := by
  obtain ⟨-, -, h3⟩ := buildGroups_inv items items.length
  unfold buildGroups
  rw [h3 k]
  simp

theorem fillGroup_rec (items : List ItemG) (C : Nat) :
    (∀ j, j ≤ C → (fillGroup items C).get 0 j = 0) ∧
    ∀ g j, g < numGroupsOf items → j ≤ C →
      (fillGroup items C).get (g + 1) j =
        bestOfGroup items
          (groupsFind (buildGroups items) ((distinctGroupIds items).getD g 0))
          (fun b => (fillGroup items C).get g b) j := by
  have h := fill2D_spec (numGroupsOf items) C
    (fun c dp => (cellGroup items
      (groupsFind (buildGroups items) ((groupIdsOf (buildGroups items)).getD (c.1 - 1) 0))
      (c.1 - 1) c.2 dp).1)
    (fun c T => bestOfGroup items
      (groupsFind (buildGroups items) ((groupIdsOf (buildGroups items)).getD (c.1 - 1) 0))
      (fun b => T.get (c.1 - 1) b) c.2)
    (fun c hc T hT => by
      rw [mem_cellsOf] at hc
      have := cellGroup_fst items
        (groupsFind (buildGroups items) ((groupIdsOf (buildGroups items)).getD (c.1 - 1) 0))
        (c.1 - 1) c.2 T _ _ hT (by omega) (by omega)
      simp only []
      rw [this]
      congr 1
      omega)
    (fun c hc T T' hTT => by
      rw [mem_cellsOf] at hc
      have e1 : (fun b => T.get (c.1 - 1) b) = (fun b => T'.get (c.1 - 1) b) :=
        funext (fun b => hTT (c.1 - 1, b) (Or.inl (by simp only; omega)))
      simp only [e1])
    (Table.mk (numGroupsOf items + 1) (C + 1) 0) (Table.dims_mk _ _ _)
  have hf : fillGroup items C = forUp 1 (numGroupsOf items) (fun i dp => forUp 0 C (fun j dp =>
      (cellGroup items
        (groupsFind (buildGroups items) ((groupIdsOf (buildGroups items)).getD (i - 1) 0))
        (i - 1) j dp).1) dp) (Table.mk (numGroupsOf items + 1) (C + 1) 0) := by
    unfold fillGroup
    simp only []
    rw [forLt_eq_forUp]
    rfl
  rw [← hf] at h
  constructor
  · intro j hj
    rw [h.2.1 j, Table.get_mk _ _ _ _ _ (by omega) (by omega)]
  · intro g j hg hj
    have := h.2.2 (g + 1) j (by omega) (by omega) hj
    simp only [Nat.add_sub_cancel, groupIdsOf_buildGroups] at this
    exact this

theorem groupPairs_zero (items : List ItemG) : groupPairs items 0 = {(0, 0)} := by
  ext q
  simp only [groupPairs, List.take_zero, List.not_mem_nil, and_false, Set.mem_setOf_eq,
    Set.mem_singleton_iff]
  constructor
  · rintro ⟨S, hS, -, rfl⟩
    have : S = ∅ := Finset.eq_empty_of_forall_not_mem (fun t ht => hS t ht)
    subst this
    simp
  · rintro rfl
    exact ⟨∅, by simp, by simp, by simp⟩

theorem groupPairs_succ (items : List ItemG) (g : Nat) (hg : g < (distinctGroupIds items).length)
    (members : List Nat)
    (hmem : ∀ idx, idx ∈ members ↔
      idx < items.length ∧ (items.getD idx default).group = (distinctGroupIds items).getD g 0) :
    groupPairs items (g + 1) = groupPairs items g + groupChoices items members := by
  have hgid : (distinctGroupIds items).getD g 0 = (distinctGroupIds items)[g] :=
    List.getD_eq_getElem _ _ hg
  have htake : (distinctGroupIds items).take (g + 1)
      = (distinctGroupIds items).take g ++ [(distinctGroupIds items)[g]] := by
    rw [List.take_succ]
    simp [hg]
  have hnd : (distinctGroupIds items).Nodup := Finset.sort_nodup _ _
  have hnot : (distinctGroupIds items)[g] ∉ (distinctGroupIds items).take g := by
    intro hin
    have h1 : ((distinctGroupIds items).take (g + 1)).Nodup :=
      hnd.sublist (List.take_sublist _ _)
    rw [htake] at h1
    have := (List.nodup_append.1 h1).2.2
    exact this hin (List.mem_singleton_self _)
  rw [hgid] at hmem
  ext q
  rw [Set.mem_add]
  constructor
  · rintro ⟨S, hS, hinj, rfl⟩
    by_cases hex : ∃ t ∈ S, (items.getD t default).group = (distinctGroupIds items)[g]
    · obtain ⟨t, htS, htg⟩ := hex
      refine ⟨_, ⟨S.erase t, ?_, ?_, rfl⟩, _, Or.inr ⟨t, (hmem t).2 ⟨(hS t htS).1, htg⟩, rfl⟩, ?_⟩
      · intro s hs
        have hsS := Finset.mem_of_mem_erase hs
        have hne := Finset.ne_of_mem_erase hs
        refine ⟨(hS s hsS).1, ?_⟩
        have := (hS s hsS).2
        rw [htake, List.mem_append, List.mem_singleton] at this
        rcases this with h | h
        · exact h
        · exact absurd (hinj s hsS t htS (h.trans htg.symm)) hne
      · intro s hs u hu hsu
        exact hinj s (Finset.mem_of_mem_erase hs) u (Finset.mem_of_mem_erase hu) hsu
      · rw [Prod.mk_add_mk, Finset.sum_erase_add _ _ htS, Finset.sum_erase_add _ _ htS]
    · simp only [not_exists, not_and] at hex
      refine ⟨_, ⟨S, ?_, hinj, rfl⟩, (0, 0), Or.inl rfl, by simp⟩
      intro s hs
      refine ⟨(hS s hs).1, ?_⟩
      have := (hS s hs).2
      rw [htake, List.mem_append, List.mem_singleton] at this
      rcases this with h | h
      · exact h
      · exact absurd h (hex s hs)
  · rintro ⟨a, ⟨S, hS, hinj, rfl⟩, p, hp, rfl⟩
    have hsub : ∀ k, k ∈ (distinctGroupIds items).take g →
        k ∈ (distinctGroupIds items).take (g + 1) := by
      intro k hk
      rw [htake]
      exact List.mem_append_left _ hk
    rcases hp with rfl | ⟨idx, hidx, rfl⟩
    · exact ⟨S, fun t ht => ⟨(hS t ht).1, hsub _ (hS t ht).2⟩, hinj, by simp⟩
    · obtain ⟨hlt, hgrp⟩ := (hmem idx).1 hidx
      have hniS : idx ∉ S := by
        intro hin
        have := (hS idx hin).2
        rw [hgrp] at this
        exact hnot this
      refine ⟨insert idx S, ?_, ?_, ?_⟩
      · intro t ht
        rcases Finset.mem_insert.1 ht with rfl | h
        · refine ⟨hlt, ?_⟩
          rw [htake, hgrp]
          exact List.mem_append_right _ (List.mem_singleton_self _)
        · exact ⟨(hS t h).1, hsub _ (hS t h).2⟩
      · intro s hs t ht hst
        rcases Finset.mem_insert.1 hs with rfl | hs'
        · rcases Finset.mem_insert.1 ht with rfl | ht'
          · rfl
          · have := (hS t ht').2
            rw [← hst, hgrp] at this
            exact absurd this hnot
        · rcases Finset.mem_insert.1 ht with rfl | ht'
          · have := (hS s hs').2
            rw [hst, hgrp] at this
            exact absurd this hnot
          · exact hinj s hs' t ht' hst
      · rw [Finset.sum_insert hniS, Finset.sum_insert hniS, Prod.mk_add_mk]
        simp [add_comm]

theorem feasibleValuesGroup_eq (items : List ItemG) (g j : Nat) :
    feasibleValuesGroup items g j
      = {val | ∃ wt, wt ≤ j ∧ (wt, val) ∈ groupPairs items g} := by
  ext val
  simp only [feasibleValuesGroup, groupPairs, Set.mem_setOf_eq, Prod.mk.injEq]
  constructor
  · rintro ⟨S, hS, hinj, hw, rfl⟩
    exact ⟨_, hw, S, hS, hinj, rfl, rfl⟩
  · rintro ⟨wt, hw, S, hS, hinj, rfl, rfl⟩
    exact ⟨S, hS, hinj, hw, rfl⟩

theorem fillGroup_greatest (items : List ItemG) (C g j : Nat) (hg : g ≤ numGroupsOf items)
    (hj : j ≤ C) :
    IsGreatest (feasibleValuesGroup items g j) ((fillGroup items C).get g j) := by
  rw [feasibleValuesGroup_eq]
  obtain ⟨h0, hrec⟩ := fillGroup_rec items C
  have key : ∀ g, g ≤ numGroupsOf items →
      Rep (groupPairs items g) (fun j => (fillGroup items C).get g j) C := by
    intro g
    induction g with
    | zero =>
      intro _
      rw [groupPairs_zero]
      intro j hj
      simp only [h0 j hj]
      exact rep_zero C j hj
    | succ g ih =>
      intro hg
      rw [groupPairs_succ items g (by rw [← numGroupsOf_eq]; omega)
        (groupsFind (buildGroups items) ((distinctGroupIds items).getD g 0))
        (fun idx => mem_groupsFind_buildGroups items _ idx)]
      refine rep_add _ _ (fun j => (fillGroup items C).get g j) _ C (ih (by omega)) ?_
      intro j hj
      simp only [hrec g j (by omega) hj]
      exact bestOfGroup_greatest items _ _ j
  exact key g hg j hj

/-- In exact arithmetic: with `G` the number of distinct group ids (the solver's `numGroups`), every
cell `dp[g][j]` of the group table (`g ≤ G`, `j ≤ capacity`) is the greatest total value of a
selection that takes at most one item from each of the first `g` groups, in ascending group-id
order, and has total weight at most `j`; `max_value` is `dp[G][capacity]`. -/
theorem knapsackGroup_optimal (items : List ItemG) (capacity : Nat) :
    numGroupsOf items = (distinctGroupIds items).length
    ∧ (∀ g j, g ≤ (distinctGroupIds items).length → j ≤ capacity →
      IsGreatest (feasibleValuesGroup items g j) ((fillGroup items capacity).get g j))
    ∧ maxValueGroup items capacity
        = (fillGroup items capacity).get (distinctGroupIds items).length capacity
    ∧ IsGreatest (feasibleValuesGroup items (distinctGroupIds items).length capacity)
        (maxValueGroup items capacity) :=
  ⟨numGroupsOf_eq items,
    fun g j hg hj => fillGroup_greatest items capacity g j (by rw [numGroupsOf_eq]; exact hg) hj,
    by rw [maxValueGroup, numGroupsOf_eq],
    by
      rw [← numGroupsOf_eq]
      exact fillGroup_greatest items capacity _ _ (le_refl _) (le_refl _)⟩

theorem knapsackGroup_optimal_witness :
    IsGreatest (feasibleValuesGroup [⟨2, 3, 5⟩, ⟨3, 4, 1⟩, ⟨4, 5, 5⟩] 1 4)
      ((fillGroup [⟨2, 3, 5⟩, ⟨3, 4, 1⟩, ⟨4, 5, 5⟩] 4).get 1 4) :=
  (knapsackGroup_optimal [⟨2, 3, 5⟩, ⟨3, 4, 1⟩, ⟨4, 5, 5⟩] 4).2.1 1 4
    (by rw [← numGroupsOf_eq]; decide) (by decide)

/-! ## Mixed knapsack -/

theorem loopMultiple_spec (prev : ℕ → ℕ) (w v count j : ℕ) (fuel k newVal : ℕ)
    (hfuel : fuel + k = count + 1) :
    newVal ≤ loopMultiple prev w v count j fuel k newVal
    ∧ (loopMultiple prev w v count j fuel k newVal = newVal ∨
        ∃ k', k ≤ k' ∧ k' ≤ count ∧ k' * w ≤ j ∧
          loopMultiple prev w v count j fuel k newVal = prev (j - k' * w) + k' * v)
    ∧ ∀ k', k ≤ k' → k' ≤ count → k' * w ≤ j →
        prev (j - k' * w) + k' * v ≤ loopMultiple prev w v count j fuel k newVal := by
  induction fuel generalizing k newVal with
  | zero =>
    refine ⟨le_refl _, Or.inl rfl, fun k' h1 h2 _ => ?_⟩
    omega
  | succ fuel ih =>
    unfold loopMultiple
    split
    · rename_i hc
      obtain ⟨h1, h2, h3⟩ := ih (k + 1)
        (if prev (j - k * w) + k * v > newVal then prev (j - k * w) + k * v else newVal)
        (by omega)
      have hle : newVal ≤
          (if prev (j - k * w) + k * v > newVal then prev (j - k * w) + k * v else newVal) := by
        split <;> omega
      have hle2 : prev (j - k * w) + k * v ≤
          (if prev (j - k * w) + k * v > newVal then prev (j - k * w) + k * v else newVal) := by
        split <;> omega
      refine ⟨le_trans hle h1, ?_, fun k' hk1 hk2 hk3 => ?_⟩
      · rcases h2 with h2 | ⟨k', hk1, hk2, hk3, h2⟩
        · rw [h2]
          split
          · exact Or.inr ⟨k, le_refl _, hc.1, hc.2, rfl⟩
          · exact Or.inl rfl
        · exact Or.inr ⟨k', by omega, hk2, hk3, h2⟩
      · by_cases hkk : k' = k
        · subst hkk
          exact le_trans hle2 h1
        · exact h3 k' (by omega) hk2 hk3
    · rename_i hc
      refine ⟨le_refl _, Or.inl rfl, fun k' hk1 hk2 hk3 => ?_⟩
      exfalso
      apply hc
      refine ⟨by omega, ?_⟩
      exact le_trans (Nat.mul_le_mul_right w hk1) hk3

/-- The multiple rule: up to `count` copies of `(w, v)`. -/
theorem stepMultiple_greatest (r : ℕ → ℕ) (w v count j : ℕ) :
    IsGreatest {x | ∃ p ∈ multiples (fun k => k ≤ count) w v, p.1 ≤ j ∧ x = r (j - p.1) + p.2}
      (loopMultiple r w v count j count 1 (r j)) := by
  obtain ⟨h1, h2, h3⟩ := loopMultiple_spec r w v count j count 1 (r j) rfl
  constructor
  · rcases h2 with h2 | ⟨k', hk1, hk2, hk3, h2⟩
    · exact ⟨(0, 0), ⟨0, Nat.zero_le _, by simp⟩, Nat.zero_le _, by simpa using h2⟩
    · exact ⟨(k' * w, k' * v), ⟨k', hk2, rfl⟩, hk3, h2⟩
  · rintro x ⟨p, ⟨k, hk, rfl⟩, hpj, rfl⟩
    simp only at hpj ⊢
    rcases Nat.eq_zero_or_pos k with h0 | h0
    · subst h0
      simpa using h1
    · exact h3 k h0 hk hpj

theorem multiples_le_one (w v : ℕ) :
    multiples (fun k => k ≤ 1) w v = {(0, 0), (w, v)} := by
  ext p
  simp only [multiples, Set.mem_setOf_eq, Set.mem_insert_iff, Set.mem_singleton_iff]
  constructor
  · rintro ⟨k, hk, rfl⟩
    rcases Nat.le_one_iff_eq_zero_or_eq_one.1 hk with rfl | rfl
    · left; simp
    · right; simp
  · rintro (rfl | rfl)
    · exact ⟨0, by omega, by simp⟩
    · exact ⟨1, by omega, by simp⟩

theorem cellMixed_eq (it : ItemM) (i j : Nat) (T : Table Nat) :
    cellMixed it i j T = T.set i j (ruleMixed it i j T) := rfl

theorem bodyMixed_eq (items : List ItemM) (c : Nat × Nat × Nat) (T : Table Nat) :
    bodyMixed items c T = T.set c.1 c.2.2 (fnMixed items c T) := by
  unfold bodyMixed fnMixed
  split
  · rfl
  · rw [cellMixed_eq]

theorem fillMixed_eq_fold (items : List ItemM) (C : Nat) :
    fillMixed items C = (cells3 items.length 1 C).foldl (fun acc c => bodyMixed items c acc)
      (Table.mk (items.length + 1) (C + 1) 0) := by
  rw [← forUp3_eq]
  unfold fillMixed
  congr 1

theorem ruleMixed_local (it : ItemM) (hw : 0 < it.weight) (i j : Nat) (hi : 1 ≤ i)
    (T T' : Table Nat) (hTT : ∀ d, cellLt d (i, j) → T.get d.1 d.2 = T'.get d.1 d.2) :
    ruleMixed it i j T = ruleMixed it i j T' := by
  have e1 : ∀ b, T.get (i - 1) b = T'.get (i - 1) b :=
    fun b => hTT (i - 1, b) (Or.inl (by simp only; omega))
  have e2 : j ≥ it.weight → T.get i (j - it.weight) = T'.get i (j - it.weight) :=
    fun h => hTT (i, j - it.weight) (Or.inr ⟨rfl, by simp only; omega⟩)
  unfold ruleMixed
  simp only [e1]
  split
  · rfl
  · split
    · by_cases h : j ≥ it.weight
      · rw [e2 h]
      · simp [h]
    · rfl

theorem fillMixed_rec (items : List ItemM) (C : Nat) (hw : ∀ it ∈ items, 0 < it.weight) :
    (∀ j, j ≤ C → (fillMixed items C).get 0 j = 0) ∧
    ∀ i j, i < items.length → j ≤ C →
      (fillMixed items C).get (i + 1) j
        = ruleMixed (items.getD i default) (i + 1) j (fillMixed items C) := by
  have h0 := Table.dims_mk (items.length + 1) (C + 1) (0 : Nat)
  have hsame : ∀ (s : Table Nat) (c : Nat × Nat) (x : Nat),
      s.Dims (items.length + 1) (C + 1) →
      (c.1 < items.length + 1 ∧ c.2 < C + 1) → (s.set c.1 c.2 x).get c.1 c.2 = x :=
    fun s c x hs hc => Table.get_set_same s _ _ hs c.1 c.2 x hc.1 hc.2
  have hother : ∀ (s : Table Nat) (c : Nat × Nat) (x : Nat) (c' : Nat × Nat),
      s.Dims (items.length + 1) (C + 1) → (c.1 < items.length + 1 ∧ c.2 < C + 1) → c' ≠ c →
      (s.set c.1 c.2 x).get c'.1 c'.2 = s.get c'.1 c'.2 :=
    fun s c x c' _ _ hne => Table.get_set_other s c.1 c.2 x c'.1 c'.2 hne
  have hok : ∀ (s : Table Nat) (c : Nat × Nat) (x : Nat),
      s.Dims (items.length + 1) (C + 1) →
      (c.1 < items.length + 1 ∧ c.2 < C + 1) →
      (s.set c.1 c.2 x).Dims (items.length + 1) (C + 1) :=
    fun s c x hs _ => Table.dims_set s _ _ hs c.1 c.2 x
  have hv : ∀ k ∈ cells3 items.length 1 C,
      ((fun c : Nat × Nat × Nat => (c.1, c.2.2)) k).1 < items.length + 1 ∧
      ((fun c : Nat × Nat × Nat => (c.1, c.2.2)) k).2 < C + 1 := by
    intro k hk
    rw [mem_cells3] at hk
    simp only
    omega
  have hbody : ∀ k ∈ cells3 items.length 1 C, ∀ s : Table Nat,
      s.Dims (items.length + 1) (C + 1) → bodyMixed items k s
        = s.set ((fun c : Nat × Nat × Nat => (c.1, c.2.2)) k).1
            ((fun c : Nat × Nat × Nat => (c.1, c.2.2)) k).2 (fnMixed items k s) :=
    fun k _ s _ => bodyMixed_eq items k s
  rw [fillMixed_eq_fold]
  constructor
  · intro j hj
    have hfr := writes_frame (fun (s : Table Nat) (c : Nat × Nat) => s.get c.1 c.2)
      (fun s c x => s.set c.1 c.2 x) (fun s => s.Dims (items.length + 1) (C + 1))
      (fun c => c.1 < items.length + 1 ∧ c.2 < C + 1) hother hok
      (fun c : Nat × Nat × Nat => (c.1, c.2.2)) (fnMixed items) (bodyMixed items)
      (cells3 items.length 1 C) hbody hv _ h0
    have := hfr.2 (0, j) (fun c hc hc0 => by
      rw [mem_cells3] at hc
      have := congrArg Prod.fst hc0
      simp only at this
      omega)
    simp only at this
    rw [this, Table.get_mk _ _ _ _ _ (by omega) (by omega)]
  · intro i j hi hj
    have hmem : (i + 1, 1, j) ∈ cells3 items.length 1 C :=
      (mem_cells3 _ _ _ _).2 ⟨by simp, by simp only; omega, by simp, hj⟩
    have hpos : 0 < (items.getD i default).weight := by
      rw [List.getD_eq_getElem _ _ hi]
      exact hw _ (List.getElem_mem _)
    have := writes_last (fun (s : Table Nat) (c : Nat × Nat) => s.get c.1 c.2)
      (fun s c x => s.set c.1 c.2 x) (fun s => s.Dims (items.length + 1) (C + 1))
      (fun c => c.1 < items.length + 1 ∧ c.2 < C + 1) hsame hother hok
      (fun c : Nat × Nat × Nat => (c.1, c.2.2)) (fnMixed items) (bodyMixed items)
      cell3Lt (cells3 items.length 1 C) hbody (pairwise_cells3 _ _ _) hv _ h0 (i + 1, 1, j) hmem
      (fun d => cellLt d (i + 1, j))
      (fun s s' hss => by
        simp only [fnMixed, Nat.add_sub_cancel, one_ne_zero, if_false]
        exact ruleMixed_local _ hpos (i + 1) j (by omega) s s' hss)
      (fun d hd => by
        refine ⟨fun h => ?_, fun k' hk' hlater h => ?_⟩
        · rw [h] at hd; unfold cellLt at hd; simp only at hd; omega
        · rw [mem_cells3] at hk'
          rw [← h] at hd
          unfold cellLt at hd
          unfold cell3Lt at hlater
          simp only at hd hlater
          omega)
      (fun k' hk' hlater h => by
        rw [mem_cells3] at hk'
        unfold cell3Lt at hlater
        have h1 := congrArg Prod.fst h
        have h2 := congrArg Prod.snd h
        simp only at h1 h2 hlater
        omega)
    simp only [fnMixed, Nat.add_sub_cancel, one_ne_zero, if_false] at this
    exact this

theorem take_if_better (j w a b : ℕ) :
    (if j ≥ w ∧ a > b then a else b) = if j < w then b else max b a := by
  by_cases h1 : j < w
  · rw [if_pos h1, if_neg (by omega)]
  · rw [if_neg h1]
    by_cases h2 : a > b
    · rw [if_pos ⟨by omega, h2⟩, max_eq_right (by omega)]
    · rw [if_neg (fun h => h2 h.2), max_eq_left (by omega)]

theorem fillMixed_rep (items : List ItemM) (C : Nat) (hw : ∀ it ∈ items, 0 < it.weight)
    (i : Nat) (hi : i ≤ items.length) :
    Rep (countPairs (fun t k => allowedM (items.getD t default) k)
      (fun t => (items.getD t default).weight) (fun t => (items.getD t default).value) i)
      (fun j => (fillMixed items C).get i j) C := by
  obtain ⟨h0, hrec⟩ := fillMixed_rec items C hw
  induction i with
  | zero =>
    rw [countPairs_zero]
    intro j hj
    simp only [h0 j hj]
    exact rep_zero C j hj
  | succ i ih =>
    rw [countPairs_succ]
    refine rep_add _ _ (fun j => (fillMixed items C).get i j) _ C (ih (by omega)) ?_
    have hpos : 0 < (items.getD i default).weight := by
      have hlt : i < items.length := by omega
      rw [List.getD_eq_getElem _ _ hlt]
      exact hw _ (List.getElem_mem _)
    intro j hj
    by_cases ht0 : (items.getD i default).type = 0
    · have hal : (fun k => allowedM (items.getD i default) k) = (fun k => k ≤ 1) := by
        funext k; unfold allowedM; rw [if_pos ht0]
      rw [hal, multiples_le_one]
      apply step01_greatest (fun j => (fillMixed items C).get i j)
      simp only [hrec i j (by omega) hj, ruleMixed, ht0, if_true, Nat.add_sub_cancel]
      exact take_if_better _ _ _ _
    · by_cases ht1 : (items.getD i default).type = 1
      · have hal : (fun k => allowedM (items.getD i default) k) = (fun _ => True) := by
          funext k; unfold allowedM; rw [if_neg ht0, if_pos ht1]
        rw [hal]
        refine stepComplete_greatest (fun j => (fillMixed items C).get i j) _ _ _ C hpos
          (fun j hj => ?_) j hj
        simp only [hrec i j (by omega) hj, ruleMixed, ht0, ht1, if_true, if_false,
          Nat.add_sub_cancel]
        exact take_if_better _ _ _ _
      · have hal : (fun k => allowedM (items.getD i default) k)
            = (fun k => k ≤ (items.getD i default).count) := by
          funext k; unfold allowedM; rw [if_neg ht0, if_neg ht1]
        rw [hal]
        simp only [hrec i j (by omega) hj, ruleMixed, ht0, ht1, if_false, Nat.add_sub_cancel]
        exact stepMultiple_greatest (fun j => (fillMixed items C).get i j) _ _ _ j

theorem parseMixed_getD (args : List (Nat × Nat × Nat)) (t : Nat) (ht : t < args.length) :
    (parseMixed args).getD t default
      = ⟨(args.getD t default).1, (args.getD t default).2.1, (args.getD t default).2.2,
          if (args.getD t default).2.2 = 2 then 3 else 1⟩ := by
  unfold parseMixed
  rw [List.getD_eq_getElem _ _ (by simpa using ht), List.getD_eq_getElem _ _ ht, List.getElem_map]

theorem feasibleValuesMixed_eq (args : List (Nat × Nat × Nat))
    (hty : ∀ a ∈ args, a.2.2 ≤ 2) (i j : Nat) (hi : i ≤ args.length) :
    feasibleValuesMixed args i j = {val | ∃ wt, wt ≤ j ∧ (wt, val) ∈
      countPairs (fun t k => allowedM ((parseMixed args).getD t default) k)
        (fun t => ((parseMixed args).getD t default).weight)
        (fun t => ((parseMixed args).getD t default).value) i} := by
  have hal : ∀ t, t < i → ∀ k, allowedM ((parseMixed args).getD t default) k
      ↔ allowedCount (args.getD t default).2.2 k := by
    intro t ht k
    have hlt : t < args.length := by omega
    rw [parseMixed_getD args t hlt]
    have h2 : (args.getD t default).2.2 ≤ 2 := by
      rw [List.getD_eq_getElem _ _ hlt]
      exact hty _ (List.getElem_mem _)
    unfold allowedM allowedCount
    simp only
    split
    · rename_i h; rw [h]; simp
    · split
      · rename_i h; rw [h]; simp
      · rename_i h0 h1
        have : (args.getD t default).2.2 = 2 := by omega
        rw [this]; simp
  have hwv : ∀ (x : ℕ → ℕ),
      (∑ t in Finset.range i, x t * ((parseMixed args).getD t default).weight
        = ∑ t in Finset.range i, x t * (args.getD t default).1) ∧
      (∑ t in Finset.range i, x t * ((parseMixed args).getD t default).value
        = ∑ t in Finset.range i, x t * (args.getD t default).2.1) := by
    intro x
    constructor <;>
    · refine Finset.sum_congr rfl (fun t ht => ?_)
      rw [parseMixed_getD args t (by simp only [Finset.mem_range] at ht; omega)]
  ext val
  simp only [feasibleValuesMixed, countPairs, Set.mem_setOf_eq, Prod.mk.injEq]
  constructor
  · rintro ⟨x, hx, hwt, rfl⟩
    exact ⟨_, hwt, x, fun t ht => (hal t ht _).2 (hx t ht), (hwv x).1.symm, (hwv x).2.symm⟩
  · rintro ⟨wt, hwt, x, hx, rfl, rfl⟩
    exact ⟨x, fun t ht => (hal t ht _).1 (hx t ht), by rw [← (hwv x).1]; exact hwt,
      ((hwv x).2).symm⟩

theorem fillMixed_greatest (args : List (Nat × Nat × Nat)) (C : Nat)
    (hty : ∀ a ∈ args, a.2.2 ≤ 2) (hw : ∀ a ∈ args, 0 < a.1) (i j : Nat)
    (hi : i ≤ args.length) (hj : j ≤ C) :
    IsGreatest (feasibleValuesMixed args i j) ((fillMixed (parseMixed args) C).get i j) := by
  rw [feasibleValuesMixed_eq args hty i j hi]
  have hw' : ∀ it ∈ parseMixed args, 0 < it.weight := by
    intro it hit
    unfold parseMixed at hit
    obtain ⟨a, ha, rfl⟩ := List.mem_map.1 hit
    exact hw a ha
  exact fillMixed_rep (parseMixed args) C hw' i (by simpa [parseMixed] using hi) j hj

/-- In exact arithmetic: for arguments `(weight, value, type)` with types in {0, 1, 2} and positive
weights, the mixed solver's cells, and in particular `max_value = dp[n][capacity]`, are the
greatest `sum x t * value t` over copy counts with `sum x t * weight t` within the capacity,
where an item of type 0 is taken at most once, an item of type 1 any number of times and an item
of type 2 at most 3 times (the count the program gives every item of type 2). -/
theorem knapsackMixed_optimal (args : List (Nat × Nat × Nat)) (capacity : Nat)
    (hty : ∀ a ∈ args, a.2.2 ≤ 2) (hw : ∀ a ∈ args, 0 < a.1) :
    (∀ it ∈ parseMixed args, it.type = 2 → it.count = 3)
    ∧ (∀ i j, i ≤ args.length → j ≤ capacity →
      IsGreatest (feasibleValuesMixed args i j) ((fillMixed (parseMixed args) capacity).get i j))
    ∧ IsGreatest (feasibleValuesMixed args args.length capacity) (maxValueMixed args capacity) := by
  refine ⟨?_, fun i j hi hj => fillMixed_greatest args capacity hty hw i j hi hj,
    fillMixed_greatest args capacity hty hw _ _ (le_refl _) (le_refl _)⟩
  intro it hit h2
  unfold parseMixed at hit
  obtain ⟨a, -, rfl⟩ := List.mem_map.1 hit
  simp only at h2 ⊢
  rw [if_pos h2]

theorem knapsackMixed_optimal_witness :
    IsGreatest (feasibleValuesMixed [(2, 3, 0), (3, 4, 1), (4, 5, 2)] 3 12)
      (maxValueMixed [(2, 3, 0), (3, 4, 1), (4, 5, 2)] 12) :=
  (knapsackMixed_optimal [(2, 3, 0), (3, 4, 1), (4, 5, 2)] 12 (by decide) (by decide)).2.2

/-! ## Multiple knapsack -/

theorem sumsFrom_append (A : Set (ℕ × ℕ)) (L₁ L₂ : List (ℕ × ℕ)) :
    sumsFrom A (L₁ ++ L₂) = sumsFrom (sumsFrom A L₁) L₂ := by
  unfold sumsFrom
  rw [List.foldl_append]

/-- A table whose rows follow the 0/1 rule over the list `L` of pseudo-items. -/
theorem rep01_list (L : List (ℕ × ℕ)) (T : ℕ → ℕ → ℕ) (C : ℕ) (h0 : ∀ j, j ≤ C → T 0 j = 0)
    (hrec : ∀ i j, i < L.length → j ≤ C →
      T (i + 1) j = if j < (L.getD i default).1 then T i j
        else max (T i j) (T i (j - (L.getD i default).1) + (L.getD i default).2))
    (i : ℕ) (hi : i ≤ L.length) : Rep (sumsFrom {(0, 0)} (L.take i)) (T i) C := by
  induction i with
  | zero =>
    intro j hj
    rw [h0 j hj]
    exact rep_zero C j hj
  | succ i ih =>
    have hlt : i < L.length := by omega
    have htake : L.take (i + 1) = L.take i ++ [L.getD i default] := by
      rw [List.take_succ, List.getD_eq_getElem _ _ hlt]
      simp [hlt]
    rw [htake, sumsFrom_append]
    exact rep_add _ _ (T i) _ C (ih (by omega))
      (fun j hj => step01_greatest (T i) (T (i + 1)) _ _ j (hrec i j hlt hj))

/-- Adding a pseudo-item of `c ≤ a` copies to the multiples below `a` gives the multiples
below `a + c`. -/
theorem multiples_lt_add (w v a c : ℕ) (hc : c ≤ a) :
    multiples (fun k => k < a) w v + {(0, 0), (w * c, v * c)}
      = multiples (fun k => k < a + c) w v := by
  ext q
  rw [Set.mem_add]
  constructor
  · rintro ⟨p, ⟨k, hk, rfl⟩, r, hr, rfl⟩
    simp only [Set.mem_insert_iff, Set.mem_singleton_iff] at hr
    rcases hr with rfl | rfl
    · exact ⟨k, by omega, by simp⟩
    · refine ⟨k + c, by omega, ?_⟩
      rw [Prod.mk_add_mk, Nat.add_mul, Nat.add_mul, Nat.mul_comm w c, Nat.mul_comm v c]
  · rintro ⟨k, hk, rfl⟩
    by_cases hka : k < a
    · exact ⟨_, ⟨k, hka, rfl⟩, (0, 0), by simp, by simp⟩
    · refine ⟨_, ⟨k - c, by omega, rfl⟩, (w * c, v * c), by simp, ?_⟩
      rw [Prod.mk_add_mk, Nat.mul_comm w c, Nat.mul_comm v c, ← Nat.add_mul, ← Nat.add_mul]
      have : k - c + c = k := by omega
      rw [this]

theorem sumsFrom_add (A B : Set (ℕ × ℕ)) (L : List (ℕ × ℕ)) :
    sumsFrom (A + B) L = A + sumsFrom B L := by
  induction L generalizing B with
  | nil => rfl
  | cons p L ih =>
    unfold sumsFrom at ih ⊢
    rw [List.foldl_cons, List.foldl_cons, add_assoc, ih]

/-- The doubling loop appends to the list it is given. -/
theorem splitLoop_append (it : ItemC) (i fuel k cnt : ℕ) (acc : List SplitItem) :
    splitLoop it i fuel k cnt acc
      = (acc ++ (splitLoop it i fuel k cnt []).1, (splitLoop it i fuel k cnt []).2) := by
  induction fuel generalizing k cnt acc with
  | zero => simp [splitLoop]
  | succ fuel ih =>
    unfold splitLoop
    split
    · rw [ih, ih (k * 2) (cnt - k) ([] ++ _)]
      simp
    · simp

/-- The doubling loop from `(k, cnt)`, with the multiples below `k` reached so far, ends with
the multiples below `k' ` reached, where `k' + cnt' = k + cnt` and `cnt' < k'`. -/
theorem splitLoop_spec (it : ItemC) (i fuel k cnt : ℕ) (hk : 1 ≤ k) (hfuel : cnt ≤ fuel) :
    ∃ k', (splitLoop it i fuel k cnt []).2 < k'
      ∧ k' + (splitLoop it i fuel k cnt []).2 = k + cnt
      ∧ sumsFrom (multiples (fun c => c < k) it.weight it.value)
          (splitPairs (splitLoop it i fuel k cnt []).1)
        = multiples (fun c => c < k') it.weight it.value := by
  induction fuel generalizing k cnt with
  | zero =>
    refine ⟨k, ?_, rfl, rfl⟩
    simp only [splitLoop]
    omega
  | succ fuel ih =>
    unfold splitLoop
    split
    · rename_i hle
      rw [splitLoop_append]
      obtain ⟨k', h1, h2, h3⟩ := ih (k * 2) (cnt - k) (by omega) (by omega)
      refine ⟨k', h1, by simp only; omega, ?_⟩
      simp only [List.nil_append, splitPairs, List.map_append, List.map_cons, List.map_nil,
        List.singleton_append]
      unfold sumsFrom
      rw [List.foldl_cons, multiples_lt_add _ _ _ _ (le_refl k)]
      have e : k + k = k * 2 := by omega
      rw [e]
      exact h3
    · rename_i hle
      exact ⟨k, by simp only; omega, rfl, rfl⟩

theorem multiples_lt_one (w v : ℕ) : multiples (fun k => k < 1) w v = {(0, 0)} := by
  ext p
  simp only [multiples, Set.mem_setOf_eq, Set.mem_singleton_iff]
  constructor
  · rintro ⟨k, hk, rfl⟩
    have : k = 0 := by omega
    subst this
    simp
  · rintro rfl
    exact ⟨0, by omega, by simp⟩

/-- The binary decomposition of one item reaches exactly the multiples up to its count. -/
theorem splitOne_sums (it : ItemC) (i : ℕ) (acc : List SplitItem) (A : Set (ℕ × ℕ)) :
    ∃ pieces, splitOne it i acc = acc ++ pieces ∧
      sumsFrom A (splitPairs pieces)
        = A + multiples (fun k => k ≤ it.count) it.weight it.value := by
  obtain ⟨k', h1, h2, h3⟩ := splitLoop_spec it i it.count 1 it.count (le_refl _) (le_refl _)
  have hA : A = A + {((0 : ℕ), (0 : ℕ))} := by
    have : ({((0 : ℕ), (0 : ℕ))} : Set (ℕ × ℕ)) = 0 := rfl
    rw [this, add_zero]
  have hle : (fun k => k ≤ it.count) = (fun k => k < k' + (splitLoop it i it.count 1 it.count []).2) := by
    funext k
    rw [h2]
    exact propext ⟨fun h => by omega, fun h => by omega⟩
  unfold splitOne
  simp only []
  rw [splitLoop_append]
  simp only []
  split
  · rename_i hpos
    refine ⟨(splitLoop it i it.count 1 it.count []).1 ++
      [⟨it.weight * (splitLoop it i it.count 1 it.count []).2,
        it.value * (splitLoop it i it.count 1 it.count []).2, i,
        (splitLoop it i it.count 1 it.count []).2⟩], by simp, ?_⟩
    rw [splitPairs, List.map_append, sumsFrom_append]
    conv_lhs => rw [hA]
    rw [sumsFrom_add, ← multiples_lt_one it.weight it.value]
    have h3' := h3
    unfold splitPairs at h3'
    rw [h3']
    simp only [List.map_cons, List.map_nil]
    unfold sumsFrom
    rw [List.foldl_cons, List.foldl_nil, add_assoc, multiples_lt_add _ _ _ _ (by omega), hle]
  · rename_i hpos
    refine ⟨(splitLoop it i it.count 1 it.count []).1, rfl, ?_⟩
    conv_lhs => rw [hA]
    rw [sumsFrom_add, ← multiples_lt_one it.weight it.value, h3, hle]
    have : (splitLoop it i it.count 1 it.count []).2 = 0 := by omega
    rw [this, Nat.add_zero]

theorem splitAll_sums (items : List ItemC) (i : ℕ) :
    sumsFrom {(0, 0)} (splitPairs (forLt 0 i (fun i splitItems =>
        splitOne (items.getD i default) i splitItems) []))
      = countPairs (fun t k => k ≤ (items.getD t default).count)
          (fun t => (items.getD t default).weight) (fun t => (items.getD t default).value) i := by
  induction i with
  | zero =>
    rw [countPairs_zero]
    rfl
  | succ i ih =>
    rw [forLt_succ, countPairs_succ]
    obtain ⟨pieces, h1, h2⟩ := splitOne_sums (items.getD i default) i
      (forLt 0 i (fun i splitItems => splitOne (items.getD i default) i splitItems) [])
      (countPairs (fun t k => k ≤ (items.getD t default).count)
          (fun t => (items.getD t default).weight) (fun t => (items.getD t default).value) i)
    rw [h1, splitPairs, List.map_append, sumsFrom_append]
    have ih' := ih
    unfold splitPairs at ih'
    rw [ih']
    exact h2

theorem fillMultiple_rep (items : List ItemC) (C : ℕ) :
    Rep (countPairs (fun t k => k ≤ (items.getD t default).count)
          (fun t => (items.getD t default).weight) (fun t => (items.getD t default).value)
          items.length)
      (fun j => (fillMultiple items C).get (splitAll items).length j) C := by
  have h := fillBy01_rec (fun i => ((splitAll items).getD (i - 1) default).weight)
    (fun i => ((splitAll items).getD (i - 1) default).value) (splitAll items).length C
    (Table.mk ((splitAll items).length + 1) (C + 1) 0) (Table.dims_mk _ _ _)
  have hf : fillMultiple items C = forUp 1 (splitAll items).length (fun i dp =>
      forUp 0 C (fun j dp => cell01 ((splitAll items).getD (i - 1) default).weight
        ((splitAll items).getD (i - 1) default).value i j dp) dp)
      (Table.mk ((splitAll items).length + 1) (C + 1) 0) := rfl
  rw [← hf] at h
  have hlen : (splitPairs (splitAll items)).length = (splitAll items).length := by
    simp [splitPairs]
  have hget : ∀ i, i < (splitAll items).length →
      (splitPairs (splitAll items)).getD i default
        = (((splitAll items).getD i default).weight, ((splitAll items).getD i default).value) := by
    intro i hi
    rw [List.getD_eq_getElem _ _ (by rw [hlen]; exact hi), List.getD_eq_getElem _ _ hi]
    simp [splitPairs]
  have key := rep01_list (splitPairs (splitAll items))
    (fun a b => (fillMultiple items C).get a b) C
    (fun j hj => by
      have := h.1 j
      rw [Table.get_mk _ _ _ _ _ (by omega) (by omega)] at this
      exact this)
    (fun i j hi hj => by
      rw [hlen] at hi
      have := h.2 (i + 1) j (by omega) (by omega) hj
      rw [hget i hi]
      simpa only [rule01, Nat.add_sub_cancel] using this)
    (splitAll items).length (by rw [hlen])
  rw [← hlen, List.take_length] at key
  have hs := splitAll_sums items items.length
  have hsa : splitAll items = forLt 0 items.length (fun i splitItems =>
      splitOne (items.getD i default) i splitItems) [] := rfl
  rw [← hsa] at hs
  rw [hs] at key
  rw [hlen] at key
  exact key

theorem feasibleValuesMultiple_eq (items : List ItemC) (C : Nat) :
    feasibleValuesMultiple items C = {val | ∃ wt, wt ≤ C ∧ (wt, val) ∈
      countPairs (fun t k => k ≤ (items.getD t default).count)
        (fun t => (items.getD t default).weight) (fun t => (items.getD t default).value)
        items.length} := by
  ext val
  simp only [feasibleValuesMultiple, countPairs, Set.mem_setOf_eq, Prod.mk.injEq]
  constructor
  · rintro ⟨x, hx, hw, rfl⟩
    exact ⟨_, hw, x, hx, rfl, rfl⟩
  · rintro ⟨wt, hw, x, hx, rfl, rfl⟩
    exact ⟨x, hx, hw, rfl⟩

theorem maxValueMultiple_greatest (items : List ItemC) (C : Nat) :
    IsGreatest (feasibleValuesMultiple items C) (maxValueMultiple items C) := by
  rw [feasibleValuesMultiple_eq]
  exact fillMultiple_rep items C C (le_refl _)

theorem foldl_max_spec (l : List ℕ) (p : ℕ → Prop) [DecidablePred p] (f : ℕ → ℕ) (b : ℕ) :
    b ≤ l.foldl (fun best k => if p k then max best (f k) else best) b
    ∧ (l.foldl (fun best k => if p k then max best (f k) else best) b = b
        ∨ ∃ k ∈ l, p k ∧ l.foldl (fun best k => if p k then max best (f k) else best) b = f k)
    ∧ ∀ k ∈ l, p k → f k ≤ l.foldl (fun best k => if p k then max best (f k) else best) b := by
  induction l generalizing b with
  | nil => exact ⟨le_refl _, Or.inl rfl, fun k hk => by simp at hk⟩
  | cons a l ih =>
    rw [List.foldl_cons]
    obtain ⟨h1, h2, h3⟩ := ih (if p a then max b (f a) else b)
    have hb : b ≤ (if p a then max b (f a) else b) := by
      split
      · exact le_max_left _ _
      · exact le_refl _
    refine ⟨le_trans hb h1, ?_, fun k hk hpk => ?_⟩
    · rcases h2 with h2 | ⟨k, hk, hpk, h2⟩
      · rw [h2]
        by_cases hpa : p a
        · rw [if_pos hpa]
          rcases le_total b (f a) with h | h
          · rw [max_eq_right h]
            exact Or.inr ⟨a, List.mem_cons_self _ _, hpa, rfl⟩
          · rw [max_eq_left h]
            exact Or.inl rfl
        · rw [if_neg hpa]
          exact Or.inl rfl
      · exact Or.inr ⟨k, List.mem_cons_of_mem _ hk, hpk, h2⟩
    · rcases List.mem_cons.1 hk with rfl | hk'
      · refine le_trans ?_ h1
        rw [if_pos hpk]
        exact le_max_right _ _
      · exact h3 k hk' hpk

theorem feasibleValuesMultiple_nil (C : Nat) : feasibleValuesMultiple [] C = {0} := by
  ext val
  simp only [feasibleValuesMultiple, List.length_nil, Finset.range_zero, Finset.sum_empty,
    Set.mem_setOf_eq, Set.mem_singleton_iff]
  constructor
  · rintro ⟨x, -, -, rfl⟩; rfl
  · rintro rfl; exact ⟨fun _ => 0, fun _ h => by omega, Nat.zero_le _, rfl⟩

theorem feasibleValuesMultiple_cons (it : ItemC) (rest : List ItemC) (C : Nat) :
    feasibleValuesMultiple (it :: rest) C
      = {val | ∃ k, k ≤ it.count ∧ k * it.weight ≤ C ∧
          ∃ val' ∈ feasibleValuesMultiple rest (C - k * it.weight), val = k * it.value + val'} := by
  have hsum : ∀ (x : ℕ → ℕ) (f : ItemC → ℕ),
      ∑ t in Finset.range (rest.length + 1), x t * f ((it :: rest).getD t default)
        = x 0 * f it + ∑ t in Finset.range rest.length, x (t + 1) * f (rest.getD t default) := by
    intro x f
    rw [Finset.sum_range_succ', Nat.add_comm]
    rfl
  ext val
  simp only [feasibleValuesMultiple, List.length_cons, Set.mem_setOf_eq]
  constructor
  · rintro ⟨x, hx, hw, rfl⟩
    rw [hsum x (fun i => i.weight)] at hw
    rw [hsum x (fun i => i.value)]
    refine ⟨x 0, hx 0 (by omega), by omega, _, ⟨fun t => x (t + 1), fun t ht => ?_, ?_, rfl⟩,
      rfl⟩
    · exact hx (t + 1) (by omega)
    · show ∑ t in Finset.range rest.length, x (t + 1) * (rest.getD t default).weight
        ≤ C - x 0 * it.weight
      omega
  · rintro ⟨k, hk, hkw, val', ⟨x, hx, hw, rfl⟩, rfl⟩
    obtain ⟨y, hy0, hys⟩ : ∃ y : ℕ → ℕ, y 0 = k ∧ ∀ t, y (t + 1) = x t :=
      ⟨fun t => if t = 0 then k else x (t - 1), rfl, fun t => rfl⟩
    refine ⟨y, fun t ht => ?_, ?_, ?_⟩
    · cases t with
      | zero => rw [hy0]; exact hk
      | succ t' => rw [hys]; exact hx t' (by omega)
    · rw [hsum y (fun i => i.weight), hy0]
      simp only [hys]
      omega
    · rw [hsum y (fun i => i.value), hy0]
      simp only [hys]

/-- The naive enumeration of the copies finds the greatest value of a vector of copy counts. -/
theorem naiveBestMultiple_greatest (items : List ItemC) (C : Nat) :
    IsGreatest (feasibleValuesMultiple items C) (naiveBestMultiple items C) := by
  induction items generalizing C with
  | nil =>
    rw [feasibleValuesMultiple_nil]
    exact ⟨rfl, fun _ h => le_of_eq h⟩
  | cons it rest ih =>
    rw [feasibleValuesMultiple_cons]
    unfold naiveBestMultiple
    obtain ⟨-, h2, h3⟩ := foldl_max_spec (List.range (it.count + 1))
      (fun k => k * it.weight ≤ C)
      (fun k => k * it.value + naiveBestMultiple rest (C - k * it.weight)) 0
    constructor
    · rcases h2 with h2 | ⟨k, hk, hpk, h2⟩
      · have h0 := h3 0 (by simp) (by simp)
        rw [h2] at h0
        simp only [Nat.zero_mul, Nat.zero_add, Nat.sub_zero, Nat.le_zero] at h0
        rw [h2]
        refine ⟨0, Nat.zero_le _, by simp, 0, ?_, by simp⟩
        have := (ih C).1
        rw [h0] at this
        simpa using this
      · rw [h2]
        exact ⟨k, by simpa [Nat.lt_succ_iff] using hk, hpk, _, (ih _).1, rfl⟩
    · rintro val ⟨k, hk, hkw, val', hval', rfl⟩
      have h1 := (ih (C - k * it.weight)).2 hval'
      have := h3 k (by simpa [Nat.lt_succ_iff] using hk) hkw
      simp only at this
      omega

/-- In exact arithmetic: the `max_value` of the multiple-knapsack solver (binary decomposition, then
the 0/1 rule over the pseudo-items) equals the optimum of naively enumerating the copies of
every item, and is the greatest `sum x t * value t` over vectors with `x t ≤ count t` and `sum x
t * weight t ≤ capacity`. -/
theorem knapsackMultiple_optimal (items : List ItemC) (capacity : Nat) :
    maxValueMultiple items capacity = naiveBestMultiple items capacity
    ∧ IsGreatest (feasibleValuesMultiple items capacity) (maxValueMultiple items capacity) :=
  ⟨(maxValueMultiple_greatest items capacity).unique (naiveBestMultiple_greatest items capacity),
    maxValueMultiple_greatest items capacity⟩

/-! ## Dependency knapsack -/

/-- C4 (the code departs from the claim): for the main item (weight 1, value 10) with one
attachment (weight 1, value 1) and capacity 3, the best set of items in which every item occurs
at most once and the attachment comes with its main is worth 11, while the dependency solver
reports `max_value = 21`: its 0/1 pass over the packages takes the package "main" and the
package "main + attachment" together, the main item twice. -/
theorem knapsackDepend_counts_main_twice :
    buildPackages [⟨1, 10, 0⟩, ⟨1, 1, 1⟩] = [⟨1, 10, [0]⟩, ⟨2, 11, [0, 1]⟩]
    ∧ maxValueDepend [⟨1, 10, 0⟩, ⟨1, 1, 1⟩] 3 = 21
    ∧ IsGreatest (feasibleValuesDepend [⟨1, 10, 0⟩, ⟨1, 1, 1⟩] 3) 11 := by
  refine ⟨by decide, by decide, ?_, ?_⟩
  · refine ⟨{0, 1}, by decide, ?_, by decide, by decide⟩
    intro t ht _
    simp only [Finset.mem_insert, Finset.mem_singleton] at ht
    rcases ht with rfl | rfl
    · simp
    · simp
  · rintro val ⟨S, hS, -, -, rfl⟩
    calc ∑ t in S, (([⟨1, 10, 0⟩, ⟨1, 1, 1⟩] : List ItemD).getD t default).value
        ≤ ∑ t in Finset.range ([⟨1, 10, 0⟩, ⟨1, 1, 1⟩] : List ItemD).length,
            (([⟨1, 10, 0⟩, ⟨1, 1, 1⟩] : List ItemD).getD t default).value :=
          Finset.sum_le_sum_of_subset hS
      _ = 11 := by decide

/-! ## Tree knapsack: the forest -/

theorem buildChildren_inv (items : List ItemT) (i : Nat) :
    (forLt 0 i (fun i children =>
      if (items.getD i default).parent = 0 then children
      else children.set ((items.getD i default).parent - 1)
        (children.getD ((items.getD i default).parent - 1) [] ++ [i]))
      (List.replicate items.length [])).length = items.length
    ∧ ∀ u, u < items.length →
      (forLt 0 i (fun i children =>
        if (items.getD i default).parent = 0 then children
        else children.set ((items.getD i default).parent - 1)
          (children.getD ((items.getD i default).parent - 1) [] ++ [i]))
        (List.replicate items.length [])).getD u []
        = (List.range i).filter (fun c => (items.getD c default).parent = u + 1) := by
  induction i with
  | zero =>
    refine ⟨by simp [forLt], fun u hu => ?_⟩
    simp [forLt, List.getElem?_replicate, hu]
  | succ i ih =>
    obtain ⟨h1, h2⟩ := ih
    rw [forLt_succ]
    split
    · rename_i hp
      refine ⟨h1, fun u hu => ?_⟩
      rw [h2 u hu, List.range_succ, List.filter_append]
      have : ¬ (items.getD i default).parent = u + 1 := by omega
      simp only [List.filter_cons, List.filter_nil, this, decide_False, Bool.false_eq_true,
        if_false, List.append_nil]
    · rename_i hp
      refine ⟨by rw [List.length_set, h1], fun u hu => ?_⟩
      rw [List.range_succ, List.filter_append]
      by_cases hpu : (items.getD i default).parent = u + 1
      · have e : (items.getD i default).parent - 1 = u := by omega
        rw [e]
        rw [List.getD_eq_getElem?_getD, List.getElem?_set_self (by rw [h1]; exact hu)]
        simp only [Option.getD_some]
        rw [h2 u hu]
        simp only [List.filter_cons, List.filter_nil, hpu, decide_True, if_true]
      · have e : (items.getD i default).parent - 1 ≠ u := by omega
        rw [List.getD_eq_getElem?_getD, List.getElem?_set_ne e, ← List.getD_eq_getElem?_getD,
          h2 u hu]
        simp only [List.filter_cons, List.filter_nil, hpu, decide_False, Bool.false_eq_true,
          if_false, List.append_nil]

theorem mem_buildChildren (items : List ItemT) (u c : Nat) (hu : u < items.length) :
    c ∈ (buildChildren items).getD u [] ↔ IsChild items u c := by
  unfold buildChildren
  rw [(buildChildren_inv items items.length).2 u hu]
  simp [IsChild]

theorem nodup_buildChildren (items : List ItemT) (u : Nat) (hu : u < items.length) :
    ((buildChildren items).getD u []).Nodup := by
  unfold buildChildren
  rw [(buildChildren_inv items items.length).2 u hu]
  exact (List.nodup_range _).filter _

theorem buildRoots_inv (items : List ItemT) (i : Nat) :
    forLt 0 i (fun i roots =>
      if (items.getD i default).parent = 0 then roots ++ [i] else roots) []
      = (List.range i).filter (fun c => (items.getD c default).parent = 0) := by
  induction i with
  | zero => simp [forLt]
  | succ i ih =>
    rw [forLt_succ, ih, List.range_succ, List.filter_append]
    split
    · rename_i hp
      simp only [List.filter_cons, List.filter_nil, hp, decide_True, if_true]
    · rename_i hp
      simp only [List.filter_cons, List.filter_nil, hp, decide_False, Bool.false_eq_true,
        if_false, List.append_nil]

theorem mem_buildRoots (items : List ItemT) (r : Nat) :
    r ∈ buildRoots items ↔ r < items.length ∧ (items.getD r default).parent = 0 := by
  unfold buildRoots
  rw [buildRoots_inv]
  simp

theorem nodup_buildRoots (items : List ItemT) : (buildRoots items).Nodup := by
  unfold buildRoots
  rw [buildRoots_inv]
  exact (List.nodup_range _).filter _

theorem stepsToRoot_of_reaches (items : List ItemT) (f t : Nat)
    (h : reachesRoot items f t = true) :
    stepsToRoot items f t < f ∧ ∀ f', f ≤ f' → stepsToRoot items f' t = stepsToRoot items f t := by
  induction f generalizing t with
  | zero => simp [reachesRoot] at h
  | succ f ih =>
    unfold reachesRoot at h
    by_cases hp : (items.getD t default).parent = 0
    · refine ⟨by simp only [stepsToRoot, hp, if_true]; omega, fun f' hf' => ?_⟩
      obtain ⟨g, rfl⟩ : ∃ g, f' = g + 1 := ⟨f' - 1, by omega⟩
      simp only [stepsToRoot, hp, if_true]
    · rw [if_neg hp] at h
      obtain ⟨h1, h2⟩ := ih _ h
      refine ⟨by simp only [stepsToRoot, hp, if_false]; omega, fun f' hf' => ?_⟩
      obtain ⟨g, rfl⟩ : ∃ g, f' = g + 1 := ⟨f' - 1, by omega⟩
      simp only [stepsToRoot, hp, if_false]
      rw [h2 g (by omega)]

theorem depthOf_lt (items : List ItemT) (hv : ValidForest items) (t : Nat)
    (ht : t < items.length) : depthOf items t < items.length :=
  (stepsToRoot_of_reaches items _ t (hv.2 t ht)).1

theorem depthOf_child (items : List ItemT) (hv : ValidForest items) (u c : Nat)
    (hc : IsChild items u c) : depthOf items c = depthOf items u + 1 := by
  have hr := hv.2 c hc.1
  obtain ⟨n, hn⟩ : ∃ n, items.length = n + 1 := ⟨items.length - 1, by have := hc.1; omega⟩
  unfold depthOf
  rw [hn] at hr ⊢
  have hp : ¬ (items.getD c default).parent = 0 := by rw [hc.2]; omega
  have hu : (items.getD c default).parent - 1 = u := by rw [hc.2]; omega
  unfold reachesRoot at hr
  rw [if_neg hp, hu] at hr
  conv_lhs => unfold stepsToRoot
  rw [if_neg hp, hu, (stepsToRoot_of_reaches items n u hr).2 (n + 1) (by omega)]

theorem InSub.lt (items : List ItemT) (u t : Nat) (h : InSub items u t)
    (hu : u < items.length) : t < items.length := by
  induction h with
  | refl => exact hu
  | tail _ hc _ => exact hc.1

theorem InSub.depth_le (items : List ItemT) (hv : ValidForest items) (u t : Nat)
    (h : InSub items u t) : depthOf items u ≤ depthOf items t := by
  induction h with
  | refl => exact le_refl _
  | tail _ hc ih =>
    rw [depthOf_child items hv _ _ hc]
    omega

theorem InSub.eq_of_depth_le (items : List ItemT) (hv : ValidForest items) (u t : Nat)
    (h : InSub items u t) (hd : depthOf items t ≤ depthOf items u) : u = t := by
  cases h with
  | refl => rfl
  | tail h1 hc =>
    have := InSub.depth_le items hv _ _ h1
    rw [depthOf_child items hv _ _ hc] at hd
    omega

theorem IsChild.parent_unique (items : List ItemT) (a b c : Nat) (ha : IsChild items a c)
    (hb : IsChild items b c) : a = b := by
  have := ha.2.symm.trans hb.2
  omega

/-- The ancestors of a node form a chain. -/
theorem InSub.comparable (items : List ItemT) (a b t : Nat) (ha : InSub items a t)
    (hb : InSub items b t) : InSub items a b ∨ InSub items b a := by
  induction ha with
  | refl => exact Or.inr hb
  | tail h1 hc ih =>
    cases hb with
    | refl => exact Or.inl (Relation.ReflTransGen.tail h1 hc)
    | tail h2 hc2 =>
      have := IsChild.parent_unique items _ _ _ hc hc2
      subst this
      exact ih h2

theorem antichain_children (items : List ItemT) (hv : ValidForest items) (u : Nat)
    (hu : u < items.length) : Antichain items ((buildChildren items).getD u []) := by
  refine ⟨nodup_buildChildren items u hu, fun c hc c' hc' h => ?_⟩
  rw [mem_buildChildren items u _ hu] at hc hc'
  apply InSub.eq_of_depth_le items hv c c' h
  rw [depthOf_child items hv u c hc, depthOf_child items hv u c' hc']

theorem antichain_roots (items : List ItemT) : Antichain items (buildRoots items) := by
  refine ⟨nodup_buildRoots items, fun c _ c' hc' h => ?_⟩
  rw [mem_buildRoots] at hc'
  cases h with
  | refl => rfl
  | tail _ hch =>
    have := hch.2
    omega

theorem exists_root (items : List ItemT) (hv : ValidForest items) (f t : Nat)
    (ht : t < items.length) (h : reachesRoot items f t = true) :
    ∃ r, r ∈ buildRoots items ∧ InSub items r t := by
  induction f generalizing t with
  | zero => simp [reachesRoot] at h
  | succ f ih =>
    unfold reachesRoot at h
    by_cases hp : (items.getD t default).parent = 0
    · exact ⟨t, (mem_buildRoots items t).2 ⟨ht, hp⟩, Relation.ReflTransGen.refl⟩
    · rw [if_neg hp] at h
      have hle := hv.1 t ht
      obtain ⟨r, hr, hsub⟩ := ih ((items.getD t default).parent - 1) (by omega) h
      exact ⟨r, hr, Relation.ReflTransGen.tail hsub ⟨ht, by omega⟩⟩

/-! ## Tree knapsack: forests without cycles -/

theorem ancestorAt_succ (items : List ItemT) (k t : Nat) :
    ancestorAt items (k + 1) t =
      if (items.getD t default).parent = 0 then none
      else ancestorAt items k ((items.getD t default).parent - 1) := rfl

theorem ancestorAt_add (items : List ItemT) (i d t : Nat) :
    ancestorAt items (i + d) t = (ancestorAt items i t).bind (ancestorAt items d) := by
  induction i generalizing t with
  | zero => simp [ancestorAt]
  | succ i ih =>
    rw [Nat.add_right_comm, ancestorAt_succ, ancestorAt_succ]
    split
    · rfl
    · exact ih _

/-- A parent chain that does not reach a root within `f` steps has an `f`-th ancestor. -/
theorem ancestorAt_of_not_reaches (items : List ItemT)
    (hpar : ∀ t, t < items.length → (items.getD t default).parent ≤ items.length)
    (f t : Nat) (ht : t < items.length) (h : reachesRoot items f t = false) :
    ∀ k, k ≤ f → ∃ a, a < items.length ∧ ancestorAt items k t = some a := by
  induction f generalizing t with
  | zero =>
    intro k hk
    have : k = 0 := by omega
    subst this
    exact ⟨t, ht, rfl⟩
  | succ f ih =>
    intro k hk
    unfold reachesRoot at h
    by_cases hp : (items.getD t default).parent = 0
    · rw [if_pos hp] at h
      exact absurd h (by simp)
    · rw [if_neg hp] at h
      cases k with
      | zero => exact ⟨t, ht, rfl⟩
      | succ k =>
        have hle := hpar t ht
        obtain ⟨a, ha, hk'⟩ := ih _ (by omega) h k (by omega)
        refine ⟨a, ha, ?_⟩
        rw [ancestorAt_succ, if_neg hp]
        exact hk'

theorem reaches_of_noCycle (items : List ItemT)
    (hpar : ∀ t, t < items.length → (items.getD t default).parent ≤ items.length)
    (hnc : NoCycle items) (t : Nat) (ht : t < items.length) :
    reachesRoot items items.length t = true := by
  by_contra hcon
  have hfalse : reachesRoot items items.length t = false := by simpa using hcon
  have hanc := ancestorAt_of_not_reaches items hpar items.length t ht hfalse
  obtain ⟨i, hi, j, hj, hij, heq⟩ := Finset.exists_ne_map_eq_of_card_lt_of_maps_to
    (s := Finset.range (items.length + 1)) (t := Finset.range items.length)
    (f := fun k => (ancestorAt items k t).getD 0) (by simp)
    (by
      intro k hk
      obtain ⟨a, ha, hka⟩ := hanc k (by simpa [Nat.lt_succ_iff] using hk)
      simp [hka, ha])
  simp only [Finset.mem_range, Nat.lt_succ_iff] at hi hj
  have key : ∀ i j, i < j → j ≤ items.length →
      (ancestorAt items i t).getD 0 = (ancestorAt items j t).getD 0 → False := by
    intro i j hlt hj heq
    obtain ⟨a, ha, hia⟩ := hanc i (by omega)
    obtain ⟨b, -, hjb⟩ := hanc j hj
    rw [hia, hjb] at heq
    simp only [Option.getD_some] at heq
    subst heq
    have hadd := ancestorAt_add items i (j - i) t
    have e : i + (j - i) = j := by omega
    rw [e, hia, hjb] at hadd
    simp only [Option.some_bind] at hadd
    exact hnc a ha (j - i) (by omega) hadd.symm
  rcases Nat.lt_or_gt_of_ne hij with h | h
  · exact key i j h hj heq
  · exact key j i h hi heq.symm

theorem depthOf_ancestorAt (items : List ItemT) (hv : ValidForest items) (k t a : Nat)
    (ht : t < items.length) (h : ancestorAt items k t = some a) :
    depthOf items t = depthOf items a + k := by
  induction k generalizing t with
  | zero =>
    simp only [ancestorAt, Option.some.injEq] at h
    rw [h]
    rfl
  | succ k ih =>
    rw [ancestorAt_succ] at h
    by_cases hp : (items.getD t default).parent = 0
    · rw [if_pos hp] at h
      exact absurd h (by simp)
    · rw [if_neg hp] at h
      have hle := hv.1 t ht
      have hch : IsChild items ((items.getD t default).parent - 1) t := ⟨ht, by omega⟩
      rw [depthOf_child items hv _ t hch, ih _ (by omega) h]
      omega

/-- A valid forest is one whose parent ids are in `0..n` and whose parent pointers have no
cycle. -/
theorem validForest_iff_noCycle (items : List ItemT) :
    ValidForest items ↔
      (∀ t, t < items.length → (items.getD t default).parent ≤ items.length) ∧ NoCycle items := by
  constructor
  · intro hv
    refine ⟨hv.1, fun t ht k hk h => ?_⟩
    have := depthOf_ancestorAt items hv k t t ht h
    omega
  · rintro ⟨hpar, hnc⟩
    exact ⟨hpar, fun t ht => reaches_of_noCycle items hpar hnc t ht⟩

/-! ## Tree knapsack: selections closed under parents -/

theorem inF_nil (items : List ItemT) (S : Finset Nat) : InF items [] S ↔ S = ∅ := by
  constructor
  · rintro ⟨h1, -⟩
    refine Finset.eq_empty_of_forall_not_mem (fun t ht => ?_)
    obtain ⟨c, hc, -⟩ := h1 t ht
    simp at hc
  · rintro rfl
    exact ⟨by simp, by simp⟩

theorem pairsF_nil (items : List ItemT) : pairsF items [] = {(0, 0)} := by
  ext q
  simp only [pairsF, inF_nil, Set.mem_setOf_eq, Set.mem_singleton_iff]
  constructor
  · rintro ⟨S, rfl, rfl⟩; simp
  · rintro rfl; exact ⟨∅, rfl, by simp⟩

theorem InSub.parent_of_ne (items : List ItemT) (c t : Nat) (h : InSub items c t)
    (hne : t ≠ c) : (items.getD t default).parent ≠ 0 ∧
      InSub items c ((items.getD t default).parent - 1) := by
  cases h with
  | refl => exact absurd rfl hne
  | tail h1 hc =>
    rename_i b
    have : (items.getD t default).parent - 1 = b := by rw [hc.2]; omega
    rw [this]
    exact ⟨by rw [hc.2]; omega, h1⟩

theorem inF_split (items : List ItemT) (L : List Nat) (c : Nat)
    (hL : ∀ c' ∈ L, c' < items.length) (hanti : Antichain items (L ++ [c])) (S : Finset Nat)
    (h : InF items (L ++ [c]) S) :
    ∃ S1 S2, InF items L S1 ∧ InF items [c] S2 ∧ Disjoint S1 S2 ∧ S = S1 ∪ S2 := by
  classical
  refine ⟨S.filter (fun t => ¬ InSub items c t), S.filter (fun t => InSub items c t),
    ⟨fun t ht => ?_, fun t ht htL => ?_⟩, ⟨fun t ht => ?_, fun t ht htc => ?_⟩, ?_, ?_⟩
  · rw [Finset.mem_filter] at ht
    obtain ⟨c', hc', hsub⟩ := h.1 t ht.1
    rcases List.mem_append.1 hc' with h1 | h1
    · exact ⟨c', h1, hsub⟩
    · rw [List.mem_singleton] at h1
      subst h1
      exact absurd hsub ht.2
  · rw [Finset.mem_filter] at ht
    have htc : t ≠ c := fun hh => ht.2 (hh ▸ Relation.ReflTransGen.refl)
    have hnot : t ∉ L ++ [c] := by
      rw [List.mem_append, List.mem_singleton]
      exact fun hh => hh.elim htL htc
    obtain ⟨hp, hup⟩ := h.2 t ht.1 hnot
    refine ⟨hp, ?_⟩
    rw [Finset.mem_filter]
    refine ⟨hup, fun hsub => ht.2 ?_⟩
    obtain ⟨c', hc', hsub'⟩ := h.1 t ht.1
    have hc'lt : c' < items.length := by
      rcases List.mem_append.1 hc' with h1 | h1
      · exact hL c' h1
      · rw [List.mem_singleton] at h1
        subst h1
        exact absurd hsub' ht.2
    have htlt := InSub.lt items c' t hsub' hc'lt
    exact Relation.ReflTransGen.tail hsub ⟨htlt, by omega⟩
  · rw [Finset.mem_filter] at ht
    exact ⟨c, List.mem_singleton_self c, ht.2⟩
  · rw [Finset.mem_filter] at ht
    have htc' : t ≠ c := fun hh => htc (by rw [hh]; exact List.mem_singleton_self c)
    have hnot : t ∉ L ++ [c] := by
      intro hh
      have := hanti.2 c (by simp) t hh ht.2
      exact htc' this.symm
    obtain ⟨hp, hup⟩ := h.2 t ht.1 hnot
    refine ⟨hp, ?_⟩
    rw [Finset.mem_filter]
    exact ⟨hup, (InSub.parent_of_ne items c t ht.2 htc').2⟩
  · rw [Finset.disjoint_left]
    intro t h1 h2
    rw [Finset.mem_filter] at h1 h2
    exact h1.2 h2.2
  · ext t
    simp only [Finset.mem_union, Finset.mem_filter]
    tauto

theorem inF_union (items : List ItemT) (L : List Nat) (c : Nat) (S1 S2 : Finset Nat)
    (h1 : InF items L S1) (h2 : InF items [c] S2) : InF items (L ++ [c]) (S1 ∪ S2) := by
  refine ⟨fun t ht => ?_, fun t ht hnot => ?_⟩
  · rcases Finset.mem_union.1 ht with h | h
    · obtain ⟨c', hc', hsub⟩ := h1.1 t h
      exact ⟨c', List.mem_append_left _ hc', hsub⟩
    · obtain ⟨c', hc', hsub⟩ := h2.1 t h
      exact ⟨c', List.mem_append_right _ hc', hsub⟩
  · rw [List.mem_append, not_or] at hnot
    rcases Finset.mem_union.1 ht with h | h
    · obtain ⟨hp, hup⟩ := h1.2 t h hnot.1
      exact ⟨hp, Finset.mem_union_left _ hup⟩
    · obtain ⟨hp, hup⟩ := h2.2 t h hnot.2
      exact ⟨hp, Finset.mem_union_right _ hup⟩

theorem inF_disjoint (items : List ItemT) (L : List Nat) (c : Nat)
    (hanti : Antichain items (L ++ [c])) (S1 S2 : Finset Nat)
    (h1 : InF items L S1) (h2 : InF items [c] S2) : Disjoint S1 S2 := by
  rw [Finset.disjoint_left]
  intro t ht1 ht2
  obtain ⟨c', hc', hsub'⟩ := h1.1 t ht1
  obtain ⟨c'', hc'', hsub⟩ := h2.1 t ht2
  rw [List.mem_singleton] at hc''
  subst hc''
  have hcc : c' = c'' := by
    rcases InSub.comparable items c' c'' t hsub' hsub with h | h
    · exact hanti.2 c' (List.mem_append_left _ hc') c'' (by simp) h
    · exact (hanti.2 c'' (by simp) c' (List.mem_append_left _ hc') h).symm
  subst hcc
  have := (List.nodup_append.1 hanti.1).2.2
  exact this hc' (List.mem_singleton_self _)

theorem pairsF_append (items : List ItemT) (L : List Nat) (c : Nat)
    (hL : ∀ c' ∈ L, c' < items.length) (hanti : Antichain items (L ++ [c])) :
    pairsF items (L ++ [c]) = pairsF items L + pairsF items [c] := by
  ext q
  rw [Set.mem_add]
  constructor
  · rintro ⟨S, hS, rfl⟩
    obtain ⟨S1, S2, h1, h2, hd, rfl⟩ := inF_split items L c hL hanti S hS
    refine ⟨_, ⟨S1, h1, rfl⟩, _, ⟨S2, h2, rfl⟩, ?_⟩
    rw [Prod.mk_add_mk, Finset.sum_union hd, Finset.sum_union hd]
  · rintro ⟨a, ⟨S1, h1, rfl⟩, b, ⟨S2, h2, rfl⟩, rfl⟩
    have hd := inF_disjoint items L c hanti S1 S2 h1 h2
    refine ⟨S1 ∪ S2, inF_union items L c S1 S2 h1 h2, ?_⟩
    rw [Prod.mk_add_mk, Finset.sum_union hd, Finset.sum_union hd]

theorem inF_single (items : List ItemT) (c : Nat) (hc : c < items.length)
    (S : Finset Nat) :
    InF items [c] S ↔
      S = ∅ ∨ (c ∈ S ∧ InF items ((buildChildren items).getD c []) (S.erase c)) := by
  constructor
  · intro h
    by_cases hS : S = ∅
    · exact Or.inl hS
    · right
      have hup : ∀ t, InSub items c t → t ∈ S → c ∈ S := by
        intro t ht
        induction ht with
        | refl => exact fun h => h
        | tail h1 hch ih =>
          rename_i b t'
          intro ht'
          by_cases htc : t' = c
          · subst htc; exact ht'
          · have := (h.2 t' ht' (by simpa using htc)).2
            have e : (items.getD t' default).parent - 1 = b := by rw [hch.2]; omega
            rw [e] at this
            exact ih this
      obtain ⟨t, ht⟩ := Finset.nonempty_iff_ne_empty.2 hS
      obtain ⟨c', hc', hsub⟩ := h.1 t ht
      rw [List.mem_singleton] at hc'
      subst hc'
      refine ⟨hup t hsub ht, fun s hs => ?_, fun s hs hnot => ?_⟩
      · have hsS := Finset.mem_of_mem_erase hs
        have hne := Finset.ne_of_mem_erase hs
        obtain ⟨c'', hc'', hsub'⟩ := h.1 s hsS
        rw [List.mem_singleton] at hc''
        subst hc''
        rcases Relation.ReflTransGen.cases_head hsub' with h0 | ⟨d, hd, hds⟩
        · exact absurd h0.symm hne
        · exact ⟨d, (mem_buildChildren items _ d hc).2 hd, hds⟩
      · have hsS := Finset.mem_of_mem_erase hs
        have hne := Finset.ne_of_mem_erase hs
        obtain ⟨hp, hup'⟩ := h.2 s hsS (by simpa using hne)
        refine ⟨hp, Finset.mem_erase.2 ⟨fun hh => hnot ?_, hup'⟩⟩
        obtain ⟨c'', hc'', hsub'⟩ := h.1 s hsS
        rw [List.mem_singleton] at hc''
        subst hc''
        have hslt := InSub.lt items _ s hsub' hc
        exact (mem_buildChildren items _ s hc).2 ⟨hslt, by omega⟩
  · rintro (rfl | ⟨hcS, hF⟩)
    · exact ⟨by simp, by simp⟩
    · refine ⟨fun t ht => ⟨c, List.mem_singleton_self c, ?_⟩, fun t ht hnot => ?_⟩
      · by_cases htc : t = c
        · subst htc; exact Relation.ReflTransGen.refl
        · obtain ⟨d, hd, hds⟩ := hF.1 t (Finset.mem_erase.2 ⟨htc, ht⟩)
          exact Relation.ReflTransGen.head ((mem_buildChildren items _ d hc).1 hd) hds
      · have htc : t ≠ c := by simpa using hnot
        by_cases hch : t ∈ (buildChildren items).getD c []
        · have := (mem_buildChildren items _ t hc).1 hch
          refine ⟨by rw [this.2]; omega, ?_⟩
          have e : (items.getD t default).parent - 1 = c := by rw [this.2]; omega
          rw [e]
          exact hcS
        · obtain ⟨hp, hup⟩ := hF.2 t (Finset.mem_erase.2 ⟨htc, ht⟩) hch
          exact ⟨hp, Finset.mem_of_mem_erase hup⟩

theorem not_mem_of_inF_children (items : List ItemT) (hv : ValidForest items) (c : Nat)
    (hc : c < items.length) (S : Finset Nat)
    (h : InF items ((buildChildren items).getD c []) S) : c ∉ S := by
  intro hcS
  obtain ⟨d, hd, hsub⟩ := h.1 c hcS
  have hch := (mem_buildChildren items _ d hc).1 hd
  have h1 := InSub.depth_le items hv d c hsub
  rw [depthOf_child items hv c d hch] at h1
  omega

theorem pairsF_single (items : List ItemT) (hv : ValidForest items) (c : Nat)
    (hc : c < items.length) :
    pairsF items [c] = {(0, 0)} ∪
      ({((items.getD c default).weight, (items.getD c default).value)}
        + pairsF items ((buildChildren items).getD c [])) := by
  ext q
  constructor
  · rintro ⟨S, hS, rfl⟩
    rcases (inF_single items c hc S).1 hS with rfl | ⟨hcS, hF⟩
    · left; simp
    · right
      rw [Set.mem_add]
      refine ⟨_, rfl, _, ⟨S.erase c, hF, rfl⟩, ?_⟩
      rw [Prod.mk_add_mk,
        Finset.add_sum_erase S (fun t => (items.getD t default).weight) hcS,
        Finset.add_sum_erase S (fun t => (items.getD t default).value) hcS]
  · rintro (h | h)
    · rw [Set.mem_singleton_iff] at h
      subst h
      exact ⟨∅, (inF_single items c hc ∅).2 (Or.inl rfl), by simp⟩
    · rw [Set.mem_add] at h
      obtain ⟨a, ha, b, ⟨S', hS', rfl⟩, rfl⟩ := h
      rw [Set.mem_singleton_iff] at ha
      subst ha
      have hni := not_mem_of_inF_children items hv c hc S' hS'
      refine ⟨insert c S', (inF_single items c hc _).2 (Or.inr ⟨Finset.mem_insert_self _ _, ?_⟩), ?_⟩
      · rw [Finset.erase_insert hni]
        exact hS'
      · rw [Finset.sum_insert hni, Finset.sum_insert hni, Prod.mk_add_mk]

theorem closed_iff_inF_roots (items : List ItemT) (hv : ValidForest items) (S : Finset Nat) :
    (S ⊆ Finset.range items.length ∧
      ∀ t ∈ S, (items.getD t default).parent ≠ 0 → (items.getD t default).parent - 1 ∈ S)
    ↔ InF items (buildRoots items) S := by
  constructor
  · rintro ⟨h1, h2⟩
    refine ⟨fun t ht => ?_, fun t ht hnot => ?_⟩
    · have htlt : t < items.length := Finset.mem_range.1 (h1 ht)
      exact exists_root items hv _ t htlt (hv.2 t htlt)
    · have htlt : t < items.length := Finset.mem_range.1 (h1 ht)
      have hp : (items.getD t default).parent ≠ 0 :=
        fun hh => hnot ((mem_buildRoots items t).2 ⟨htlt, hh⟩)
      exact ⟨hp, h2 t ht hp⟩
  · rintro ⟨h1, h2⟩
    refine ⟨fun t ht => ?_, fun t ht hp => ?_⟩
    · obtain ⟨r, hr, hsub⟩ := h1 t ht
      exact Finset.mem_range.2 (InSub.lt items r t hsub ((mem_buildRoots items r).1 hr).1)
    · exact (h2 t ht (fun hh => hp ((mem_buildRoots items t).1 hh).2)).2

theorem feasibleValuesTree_eq (items : List ItemT) (hv : ValidForest items) (C : Nat) :
    feasibleValuesTree items C
      = {val | ∃ wt, wt ≤ C ∧ (wt, val) ∈ pairsF items (buildRoots items)} := by
  ext val
  simp only [feasibleValuesTree, pairsF, Set.mem_setOf_eq, Prod.mk.injEq]
  constructor
  · rintro ⟨S, h1, h2, hw, rfl⟩
    exact ⟨_, hw, S, (closed_iff_inF_roots items hv S).1 ⟨h1, h2⟩, rfl, rfl⟩
  · rintro ⟨wt, hw, S, hS, rfl, rfl⟩
    obtain ⟨h1, h2⟩ := (closed_iff_inF_roots items hv S).2 hS
    exact ⟨S, h1, h2, hw, rfl⟩

/-! ## Tree knapsack: the merge loops -/

theorem forUp_induction {σ : Type} (P : ℕ → σ → Prop) (lo hi : ℕ) (body : ℕ → σ → σ) (s : σ)
    (hle : lo ≤ hi + 1) (h0 : P lo s)
    (hstep : ∀ k st, lo ≤ k → k ≤ hi → P k st → P (k + 1) (body k st)) :
    P (hi + 1) (forUp lo hi body s) := by
  unfold forUp
  have key : ∀ m, lo + m ≤ hi + 1 →
      P (lo + m) ((List.range' lo m).foldl (fun acc k => body k acc) s) := by
    intro m
    induction m with
    | zero => intro _; exact h0
    | succ m ih =>
      intro hm
      rw [List.range'_1_concat, List.foldl_append, ← Nat.add_assoc]
      exact hstep (lo + m) _ (Nat.le_add_right _ _) (by omega) (ih (by omega))
  have := key (hi + 1 - lo) (by omega)
  have e : lo + (hi + 1 - lo) = hi + 1 := by omega
  rw [e] at this
  exact this

theorem forUp_empty {σ : Type} (lo hi : ℕ) (body : ℕ → σ → σ) (s : σ) (h : hi < lo) :
    forUp lo hi body s = s := by
  unfold forUp
  have : hi + 1 - lo = 0 := by omega
  rw [this]
  rfl

theorem forDown_induction {σ : Type} (Q : ℕ → σ → Prop) (hi lo : ℕ) (body : ℕ → σ → σ) (s : σ)
    (hle : lo ≤ hi + 1) (h0 : Q (hi + 1) s)
    (hstep : ∀ j st, lo ≤ j → j ≤ hi → Q (j + 1) st → Q j (body j st)) :
    Q lo (forDown hi lo body s) := by
  unfold forDown
  have key : ∀ m l, l + m = hi + 1 → lo ≤ l →
      Q l ((List.range' l m).foldr (fun k acc => body k acc) s) := by
    intro m
    induction m with
    | zero =>
      intro l hl _
      have : l = hi + 1 := by omega
      subst this
      exact h0
    | succ m ih =>
      intro l hl hlo
      rw [List.range'_succ, List.foldr_cons]
      exact hstep _ _ hlo (by omega) (ih (l + 1) (by omega) (by omega))
  exact key (hi + 1 - lo) lo (by omega) (le_refl _)

theorem forDown_empty {σ : Type} (hi lo : ℕ) (body : ℕ → σ → σ) (s : σ) (h : hi < lo) :
    forDown hi lo body s = s := by
  unfold forDown
  have : hi + 1 - lo = 0 := by omega
  rw [this]
  rfl

/-- The merge of a child's table into its parent's: only the row of `u` changes, and its cell
`j ≥ w` becomes the greatest `dp[u][j - k] + dp[child][k]` over `k ≤ j - w`, read in the table
before the merge. -/
theorem mergeChild_spec (w C u child R : ℕ) (dp : Table ℕ) (hd : dp.Dims R (C + 1))
    (hu : u < R) (hne : child ≠ u) :
    (mergeChild w C u child dp).Dims R (C + 1)
    ∧ (∀ a b, a ≠ u → (mergeChild w C u child dp).get a b = dp.get a b)
    ∧ (∀ b, b < w → (mergeChild w C u child dp).get u b = dp.get u b)
    ∧ ∀ b, w ≤ b → b ≤ C →
        IsGreatest {x | ∃ k, k ≤ b - w ∧ x = dp.get u (b - k) + dp.get child k}
          ((mergeChild w C u child dp).get u b) := by
  by_cases hwC : C < w
  · rw [mergeChild, forDown_empty _ _ _ _ hwC]
    exact ⟨hd, fun _ _ _ => rfl, fun _ _ => rfl, fun b h1 h2 => by omega⟩
  have hQ := forDown_induction
    (fun j (st : Table ℕ) => st.Dims R (C + 1)
      ∧ (∀ a b, a ≠ u → st.get a b = dp.get a b)
      ∧ (∀ b, b < j → st.get u b = dp.get u b)
      ∧ ∀ b, j ≤ b → b ≤ C →
          IsGreatest {x | ∃ k, k ≤ b - w ∧ x = dp.get u (b - k) + dp.get child k} (st.get u b))
    C w (fun j dp =>
      forUp 0 (j - w) (fun k dp =>
        if dp.get u j < dp.get u (j - k) + dp.get child k then
          dp.set u j (dp.get u (j - k) + dp.get child k)
        else dp) dp) dp (by omega)
    ⟨hd, fun _ _ _ => rfl, fun _ _ => rfl, fun b h1 h2 => by omega⟩
    (fun j st hj1 hj2 ⟨q1, q2, q3, q4⟩ => by
      have hP := forUp_induction
        (fun m (st' : Table ℕ) => st'.Dims R (C + 1)
          ∧ (∀ a b, (a, b) ≠ (u, j) → st'.get a b = st.get a b)
          ∧ (m = 0 → st'.get u j = st.get u j)
          ∧ (0 < m → IsGreatest {x | ∃ k, k < m ∧ x = dp.get u (j - k) + dp.get child k}
              (st'.get u j)))
        0 (j - w) (fun k dp =>
          if dp.get u j < dp.get u (j - k) + dp.get child k then
            dp.set u j (dp.get u (j - k) + dp.get child k)
          else dp) st (by omega)
        ⟨q1, fun _ _ _ => rfl, fun _ => rfl, fun h => by omega⟩
        (fun k st' _ hk ⟨p1, p2, p3, p4⟩ => by
          have ha : st'.get u (j - k) = dp.get u (j - k) := by
            by_cases hk0 : k = 0
            · subst hk0
              rw [Nat.sub_zero, p3 rfl, q3 j (by omega)]
            · rw [p2 u (j - k) (by simp; omega), q3 (j - k) (by omega)]
          have hy : st'.get child k = dp.get child k := by
            rw [p2 child k (by simp [hne]), q2 child k hne]
          beta_reduce
          rw [ha, hy]
          have hnew : IsGreatest {x | ∃ k', k' < k + 1 ∧ x = dp.get u (j - k') + dp.get child k'}
              (max (st'.get u j) (dp.get u (j - k) + dp.get child k)) := by
            by_cases hk0 : k = 0
            · subst hk0
              have hcur : st'.get u j = dp.get u j := by rw [p3 rfl, q3 j (by omega)]
              rw [hcur, Nat.sub_zero, max_eq_right (by omega)]
              constructor
              · exact ⟨0, by omega, by simp⟩
              · rintro x ⟨k', hk', rfl⟩
                have : k' = 0 := by omega
                subst this
                simp
            · obtain ⟨⟨k0, hk0', hx0⟩, hub⟩ := p4 (by omega)
              constructor
              · rcases le_total (st'.get u j) (dp.get u (j - k) + dp.get child k) with h | h
                · rw [max_eq_right h]
                  exact ⟨k, by omega, rfl⟩
                · rw [max_eq_left h]
                  exact ⟨k0, by omega, hx0⟩
              · rintro x ⟨k', hk', rfl⟩
                by_cases hkk : k' = k
                · subst hkk
                  exact le_max_right _ _
                · exact le_trans (hub ⟨k', by omega, rfl⟩) (le_max_left _ _)
          split
          · rename_i hlt
            rw [max_eq_right (by omega)] at hnew
            refine ⟨Table.dims_set _ _ _ p1 _ _ _, fun a b hab => ?_, fun h => by omega,
              fun _ => ?_⟩
            · rw [Table.get_set_other _ _ _ _ _ _ hab, p2 a b hab]
            · rw [Table.get_set_same _ _ _ p1 _ _ _ hu (by omega)]
              exact hnew
          · rename_i hlt
            rw [max_eq_left (by omega)] at hnew
            exact ⟨p1, p2, fun h => by omega, fun _ => hnew⟩)
      obtain ⟨p1, p2, -, p4⟩ := hP
      refine ⟨p1, fun a b ha => ?_, fun b hb => ?_, fun b hb1 hb2 => ?_⟩
      · rw [p2 a b (by simp [ha]), q2 a b ha]
      · rw [p2 u b (by simp; omega), q3 b (by omega)]
      · by_cases hbj : b = j
        · subst hbj
          have := p4 (by omega)
          have e : {x | ∃ k, k < b - w + 1 ∧ x = dp.get u (b - k) + dp.get child k}
              = {x | ∃ k, k ≤ b - w ∧ x = dp.get u (b - k) + dp.get child k} := by
            ext x
            simp only [Set.mem_setOf_eq, Nat.lt_succ_iff]
          rw [e] at this
          exact this
        · rw [p2 u b (by simp [hbj])]
          exact q4 b (by omega) hb2)
  exact hQ

theorem getD_set_same (l : List ℕ) (j x : ℕ) (hj : j < l.length) : (l.set j x).getD j 0 = x := by
  simp [hj]

theorem getD_set_other (l : List ℕ) (j b x : ℕ) (hne : b ≠ j) :
    (l.set j x).getD b 0 = l.getD b 0 := by
  have : j ≠ b := fun h => hne h.symm
  simp [List.getElem?_set, this]

/-- The merge of a root's table into `finalDp`: cell `b` becomes the greatest
`finalDp[b - k] + dp[root][k]` over `k ≤ b`, read in the vector before the merge. -/
theorem mergeRoot_spec (C root : ℕ) (dp : Table ℕ) (fd : List ℕ) (hlen : fd.length = C + 1) :
    (mergeRoot C root dp fd).length = C + 1
    ∧ ∀ b, b ≤ C →
        IsGreatest {x | ∃ k, k ≤ b ∧ x = fd.getD (b - k) 0 + dp.get root k}
          ((mergeRoot C root dp fd).getD b 0) := by
  have hQ := forDown_induction
    (fun j (st : List ℕ) => st.length = C + 1
      ∧ (∀ b, b < j → st.getD b 0 = fd.getD b 0)
      ∧ ∀ b, j ≤ b → b ≤ C →
          IsGreatest {x | ∃ k, k ≤ b ∧ x = fd.getD (b - k) 0 + dp.get root k} (st.getD b 0))
    C 0 (fun j finalDp =>
      forUp 0 j (fun k finalDp =>
        finalDp.set j (max (finalDp.getD j 0) (finalDp.getD (j - k) 0 + dp.get root k)))
        finalDp) fd (by omega)
    ⟨hlen, fun _ _ => rfl, fun b h1 h2 => by omega⟩
    (fun j st _ hj2 ⟨q1, q3, q4⟩ => by
      have hP := forUp_induction
        (fun m (st' : List ℕ) => st'.length = C + 1
          ∧ (∀ b, b ≠ j → st'.getD b 0 = st.getD b 0)
          ∧ (m = 0 → st'.getD j 0 = st.getD j 0)
          ∧ (0 < m → IsGreatest {x | ∃ k, k < m ∧ x = fd.getD (j - k) 0 + dp.get root k}
              (st'.getD j 0)))
        0 j (fun k finalDp =>
          finalDp.set j (max (finalDp.getD j 0) (finalDp.getD (j - k) 0 + dp.get root k)))
        st (by omega)
        ⟨q1, fun _ _ => rfl, fun _ => rfl, fun h => by omega⟩
        (fun k st' _ hk ⟨p1, p2, p3, p4⟩ => by
          have ha : st'.getD (j - k) 0 = fd.getD (j - k) 0 := by
            by_cases hk0 : k = 0
            · subst hk0
              rw [Nat.sub_zero, p3 rfl, q3 j (by omega)]
            · rw [p2 (j - k) (by omega), q3 (j - k) (by omega)]
          beta_reduce
          rw [ha]
          refine ⟨by rw [List.length_set, p1], fun b hb => ?_, fun h => by omega, fun _ => ?_⟩
          · rw [getD_set_other _ _ _ _ hb, p2 b hb]
          · rw [getD_set_same _ _ _ (by omega)]
            by_cases hk0 : k = 0
            · subst hk0
              have hcur : st'.getD j 0 = fd.getD j 0 := by rw [p3 rfl, q3 j (by omega)]
              rw [hcur, Nat.sub_zero, max_eq_right (by omega)]
              constructor
              · exact ⟨0, by omega, by simp⟩
              · rintro x ⟨k', hk', rfl⟩
                have : k' = 0 := by omega
                subst this
                simp
            · obtain ⟨⟨k0, hk0', hx0⟩, hub⟩ := p4 (by omega)
              constructor
              · rcases le_total (st'.getD j 0) (fd.getD (j - k) 0 + dp.get root k) with h | h
                · rw [max_eq_right h]
                  exact ⟨k, by omega, rfl⟩
                · rw [max_eq_left h]
                  exact ⟨k0, by omega, hx0⟩
              · rintro x ⟨k', hk', rfl⟩
                by_cases hkk : k' = k
                · subst hkk
                  exact le_max_right _ _
                · exact le_trans (hub ⟨k', by omega, rfl⟩) (le_max_left _ _))
      obtain ⟨p1, p2, -, p4⟩ := hP
      refine ⟨p1, fun b hb => ?_, fun b hb1 hb2 => ?_⟩
      · rw [p2 b (by omega), q3 b (by omega)]
      · by_cases hbj : b = j
        · subst hbj
          have := p4 (by omega)
          have e : {x | ∃ k, k < b + 1 ∧ x = fd.getD (b - k) 0 + dp.get root k}
              = {x | ∃ k, k ≤ b ∧ x = fd.getD (b - k) 0 + dp.get root k} := by
            ext x
            simp only [Set.mem_setOf_eq, Nat.lt_succ_iff]
          rw [e] at this
          exact this
        · rw [p2 b hbj]
          exact q4 b (by omega) hb2)
  exact ⟨hQ.1, fun b hb => hQ.2.2 b (Nat.zero_le _) hb⟩

theorem arep_merge (X B : Set (ℕ × ℕ)) (r ch r' : ℕ → ℕ) (w C : ℕ) (hX : ARep X r w C)
    (hB : Rep B ch C) (hlow : ∀ j, j < w → r' j = r j)
    (hhigh : ∀ j, w ≤ j → j ≤ C →
      IsGreatest {x | ∃ k, k ≤ j - w ∧ x = r (j - k) + ch k} (r' j)) :
    ARep (X + B) r' w C := by
  obtain ⟨x1, x2, x3⟩ := hX
  refine ⟨fun j hj hjC => by rw [hlow j hj, x1 j hj hjC], fun j hj hjC => ?_, fun q hq => ?_⟩
  · obtain ⟨⟨k, hk, hx⟩, hub⟩ := hhigh j hj hjC
    constructor
    · obtain ⟨⟨wt1, hwt1, hm1⟩, -⟩ := x2 (j - k) (by omega) (by omega)
      obtain ⟨⟨wt2, hwt2, hm2⟩, -⟩ := hB k (by omega)
      refine ⟨wt1 + wt2, by omega, ?_⟩
      rw [hx]
      exact Set.mem_add.2 ⟨_, hm1, _, hm2, rfl⟩
    · rintro val ⟨wt, hwt, hmem⟩
      obtain ⟨a, ha, b, hb, hab⟩ := Set.mem_add.1 hmem
      have h1 : a.1 + b.1 = wt := congrArg Prod.fst hab
      have h2 : a.2 + b.2 = val := congrArg Prod.snd hab
      have haw := x3 a ha
      have h3 : a.2 ≤ r (j - b.1) := (x2 (j - b.1) (by omega) (by omega)).2 ⟨a.1, by omega, ha⟩
      have h4 : b.2 ≤ ch b.1 := (hB b.1 (by omega)).2 ⟨b.1, le_refl _, hb⟩
      have h5 : r (j - b.1) + ch b.1 ≤ r' j := hub ⟨b.1, by omega, rfl⟩
      omega
  · obtain ⟨a, ha, b, -, hab⟩ := Set.mem_add.1 hq
    have h1 : a.1 + b.1 = q.1 := congrArg Prod.fst hab
    have := x3 a ha
    omega

theorem arep_init (r : ℕ → ℕ) (w v C : ℕ) (hlow : ∀ j, j < w → j ≤ C → r j = 0)
    (hhigh : ∀ j, w ≤ j → j ≤ C → r j = v) : ARep {(w, v)} r w C := by
  refine ⟨hlow, fun j hj hjC => ?_, fun q hq => ?_⟩
  · rw [hhigh j hj hjC]
    constructor
    · exact ⟨w, hj, rfl⟩
    · rintro val ⟨wt, -, h⟩
      simp only [Set.mem_singleton_iff, Prod.mk.injEq] at h
      omega
  · rw [Set.mem_singleton_iff] at hq
    rw [hq]

theorem rep_of_arep (X : Set (ℕ × ℕ)) (r : ℕ → ℕ) (w C : ℕ) (hX : ARep X r w C) :
    Rep ({(0, 0)} ∪ X) r C := by
  obtain ⟨x1, x2, x3⟩ := hX
  intro j hj
  by_cases hjw : j < w
  · rw [x1 j hjw hj]
    constructor
    · exact ⟨0, Nat.zero_le _, Or.inl rfl⟩
    · rintro val ⟨wt, hwt, h | h⟩
      · simp only [Set.mem_singleton_iff, Prod.mk.injEq] at h
        omega
      · have := x3 _ h
        simp only at this
        omega
  · obtain ⟨⟨wt, hwt, hm⟩, hub⟩ := x2 j (by omega) hj
    constructor
    · exact ⟨wt, hwt, Or.inr hm⟩
    · rintro val ⟨wt', hwt', h | h⟩
      · simp only [Set.mem_singleton_iff, Prod.mk.injEq] at h
        omega
      · exact hub ⟨wt', hwt', h⟩

theorem rep_merge (A B : Set (ℕ × ℕ)) (r ch r' : ℕ → ℕ) (C : ℕ) (hA : Rep A r C)
    (hB : Rep B ch C)
    (h : ∀ j, j ≤ C → IsGreatest {x | ∃ k, k ≤ j ∧ x = r (j - k) + ch k} (r' j)) :
    Rep (A + B) r' C := by
  have := arep_merge A B r ch r' 0 C
    ⟨fun j hj _ => by omega, fun j _ hjC => hA j hjC, fun _ _ => Nat.zero_le _⟩ hB
    (fun j hj => by omega) (fun j _ hjC => by simpa using h j hjC)
  exact fun j hj => this.2.1 j (Nat.zero_le _) hj

/-! ## Tree knapsack: the recursion -/

theorem rowOK_congr (items : List ItemT) (C : Nat) (T T' : Table Nat) (t : Nat)
    (h : ∀ j, T'.get t j = T.get t j) (hT : RowOK items C T t) : RowOK items C T' t := by
  intro j hj
  have := hT j hj
  simp only [h j]
  exact this

theorem Antichain.tail (items : List ItemT) (c : Nat) (L : List Nat)
    (h : Antichain items (c :: L)) : Antichain items L :=
  ⟨(List.nodup_cons.1 h.1).2,
    fun a ha b hb hab => h.2 a (List.mem_cons_of_mem _ ha) b (List.mem_cons_of_mem _ hb) hab⟩

theorem Antichain.not_inSub (items : List ItemT) (c : Nat) (L : List Nat)
    (h : Antichain items (c :: L)) (c' : Nat) (hc' : c' ∈ L) (t : Nat)
    (h1 : InSub items c t) (h2 : InSub items c' t) : False := by
  have hne : c ≠ c' := fun hh => (List.nodup_cons.1 h.1).1 (hh ▸ hc')
  rcases InSub.comparable items c c' t h1 h2 with hh | hh
  · exact hne (h.2 c (List.mem_cons_self _ _) c' (List.mem_cons_of_mem _ hc') hh)
  · exact hne (h.2 c' (List.mem_cons_of_mem _ hc') c (List.mem_cons_self _ _) hh).symm

/-- A loop of calls of `run` over nodes no one of which lies below another, each call
behaving as `dfs` should. -/
theorem dfs_list_spec (items : List ItemT) (C : Nat) (run : Nat → Table Nat → Table Nat)
    (L : List Nat) (hanti : Antichain items L) (T : Table Nat)
    (hT : T.Dims items.length (C + 1))
    (hzero : ∀ c ∈ L, ∀ t, InSub items c t → ∀ j, T.get t j = 0)
    (hrun : ∀ c ∈ L, ∀ T1 : Table Nat, T1.Dims items.length (C + 1) →
      (∀ t, InSub items c t → ∀ j, T1.get t j = 0) → DfsPost items C c T1 (run c T1)) :
    (L.foldl (fun dp c => run c dp) T).Dims items.length (C + 1)
    ∧ (∀ t, (∀ c ∈ L, ¬ InSub items c t) → ∀ j, (L.foldl (fun dp c => run c dp) T).get t j
        = T.get t j)
    ∧ ∀ c ∈ L, ∀ t, InSub items c t → RowOK items C (L.foldl (fun dp c => run c dp) T) t := by
  induction L generalizing T with
  | nil => exact ⟨hT, fun _ _ _ => rfl, fun c hc => by simp at hc⟩
  | cons c L ih =>
    rw [List.foldl_cons]
    obtain ⟨d1, d2, d3⟩ := hrun c (List.mem_cons_self _ _) T hT
      (hzero c (List.mem_cons_self _ _))
    have hz' : ∀ c' ∈ L, ∀ t, InSub items c' t → ∀ j, (run c T).get t j = 0 := by
      intro c' hc' t ht j
      rw [d2 t (fun h1 => Antichain.not_inSub items c L hanti c' hc' t h1 ht) j]
      exact hzero c' (List.mem_cons_of_mem _ hc') t ht j
    obtain ⟨e1, e2, e3⟩ := ih (Antichain.tail items c L hanti) (run c T) d1 hz'
      (fun c' hc' => hrun c' (List.mem_cons_of_mem _ hc'))
    refine ⟨e1, fun t ht j => ?_, fun c' hc' t ht => ?_⟩
    · rw [e2 t (fun c' hc' => ht c' (List.mem_cons_of_mem _ hc')) j,
        d2 t (ht c (List.mem_cons_self _ _)) j]
    · rcases List.mem_cons.1 hc' with rfl | hc''
      · refine rowOK_congr items C _ _ t (fun j => e2 t (fun c'' hc'' h2 => ?_) j) (d3 t ht)
        exact Antichain.not_inSub items c' L hanti c'' hc'' t ht h2
      · exact e3 c' hc'' t ht

/-- The loop `for (j = w; j <= capacity; j++) dp[u][j] = v`. -/
theorem initRow_spec (w v C u R : ℕ) (T : Table ℕ) (hT : T.Dims R (C + 1)) (hu : u < R) :
    (forUp w C (fun j dp => dp.set u j v) T).Dims R (C + 1)
    ∧ (∀ a b, a ≠ u → (forUp w C (fun j dp => dp.set u j v) T).get a b = T.get a b)
    ∧ (∀ b, b < w → (forUp w C (fun j dp => dp.set u j v) T).get u b = T.get u b)
    ∧ ∀ b, w ≤ b → b ≤ C → (forUp w C (fun j dp => dp.set u j v) T).get u b = v := by
  by_cases hwC : C < w
  · rw [forUp_empty _ _ _ _ hwC]
    exact ⟨hT, fun _ _ _ => rfl, fun _ _ => rfl, fun b h1 h2 => by omega⟩
  have h := forUp_induction
    (fun m (st : Table ℕ) => st.Dims R (C + 1)
      ∧ (∀ a b, a ≠ u → st.get a b = T.get a b)
      ∧ (∀ b, b < w → st.get u b = T.get u b)
      ∧ ∀ b, w ≤ b → b < m → st.get u b = v)
    w C (fun j dp => dp.set u j v) T (by omega)
    ⟨hT, fun _ _ _ => rfl, fun _ _ => rfl, fun b h1 h2 => by omega⟩
    (fun k st hk1 hk2 ⟨p1, p2, p3, p4⟩ => by
      refine ⟨Table.dims_set _ _ _ p1 _ _ _, fun a b ha => ?_, fun b hb => ?_, fun b hb1 hb2 => ?_⟩
      · rw [Table.get_set_other _ _ _ _ _ _ (by simp [ha]), p2 a b ha]
      · rw [Table.get_set_other _ _ _ _ _ _ (by simp; omega), p3 b hb]
      · by_cases hbk : b = k
        · subst hbk
          exact Table.get_set_same _ _ _ p1 _ _ _ hu (by omega)
        · rw [Table.get_set_other _ _ _ _ _ _ (by simp [hbk]), p4 b hb1 (by omega)])
  exact ⟨h.1, h.2.1, h.2.2.1, fun b hb1 hb2 => h.2.2.2 b hb1 (by omega)⟩

theorem Antichain.sublist (items : List ItemT) (L L' : List Nat) (h : Antichain items L)
    (hs : L'.Sublist L) : Antichain items L' :=
  ⟨h.1.sublist hs, fun a ha b hb hab => h.2 a (hs.subset ha) b (hs.subset hb) hab⟩

/-- The loop that merges the children of `u` into its row. -/
theorem mergeAll_spec (items : List ItemT) (C u w v : Nat) (hu : u < items.length)
    (L1 L2 : List Nat) (hanti : Antichain items (L1 ++ L2))
    (hlt : ∀ c ∈ L1 ++ L2, c < items.length) (hne : ∀ c ∈ L1 ++ L2, c ≠ u)
    (T : Table Nat) (hT : T.Dims items.length (C + 1))
    (hrows : ∀ c ∈ L2, RowOK items C T c)
    (hrep : ARep ({(w, v)} + pairsF items L1) (fun j => T.get u j) w C) :
    (L2.foldl (fun dp child => mergeChild w C u child dp) T).Dims items.length (C + 1)
    ∧ (∀ a b, a ≠ u →
        (L2.foldl (fun dp child => mergeChild w C u child dp) T).get a b = T.get a b)
    ∧ ARep ({(w, v)} + pairsF items (L1 ++ L2))
        (fun j => (L2.foldl (fun dp child => mergeChild w C u child dp) T).get u j) w C := by
  induction L2 generalizing L1 T with
  | nil =>
    rw [List.append_nil]
    exact ⟨hT, fun _ _ _ => rfl, hrep⟩
  | cons c L2 ih =>
    rw [List.foldl_cons]
    have hcne : c ≠ u := hne c (by simp)
    obtain ⟨m1, m2, m3, m4⟩ := mergeChild_spec w C u c items.length T hT hu hcne
    have hassoc : L1 ++ c :: L2 = (L1 ++ [c]) ++ L2 := by simp
    have hanti1 : Antichain items (L1 ++ [c]) := by
      refine Antichain.sublist items _ _ hanti ?_
      rw [hassoc]
      exact List.sublist_append_left _ _
    have hrep' : ARep ({(w, v)} + pairsF items (L1 ++ [c]))
        (fun j => (mergeChild w C u c T).get u j) w C := by
      rw [pairsF_append items L1 c (fun c' hc' => hlt c' (List.mem_append_left _ hc')) hanti1,
        ← add_assoc]
      exact arep_merge _ _ (fun j => T.get u j) (fun j => T.get c j) _ w C hrep
        (hrows c (List.mem_cons_self _ _)) (fun j hj => m3 j hj) (fun j h1 h2 => m4 j h1 h2)
    rw [hassoc] at hanti hlt hne ⊢
    obtain ⟨e1, e2, e3⟩ := ih (L1 ++ [c]) hanti hlt hne (mergeChild w C u c T) m1
      (fun c' hc' => rowOK_congr items C T _ c'
        (fun j => m2 c' j (hne c' (List.mem_append_right _ hc')))
        (hrows c' (List.mem_cons_of_mem _ hc')))
      hrep'
    exact ⟨e1, fun a b ha => by rw [e2 a b ha, m2 a b ha], e3⟩

theorem inSub_child_of_ne (items : List ItemT) (u t : Nat) (hu : u < items.length)
    (h : InSub items u t) (hne : t ≠ u) :
    ∃ c ∈ (buildChildren items).getD u [], InSub items c t := by
  rcases Relation.ReflTransGen.cases_head h with h0 | ⟨c, hc, hct⟩
  · exact absurd h0.symm hne
  · exact ⟨c, (mem_buildChildren items u c hu).2 hc, hct⟩

/-- The call `dfs(u)` with enough fuel, on a table whose rows in the subtree of `u` are
still zero. -/
theorem dfs_spec (items : List ItemT) (hv : ValidForest items) (C : Nat) (fuel : Nat) :
    ∀ u, u < items.length → items.length ≤ fuel + depthOf items u →
    ∀ T : Table Nat, T.Dims items.length (C + 1) →
      (∀ t, InSub items u t → ∀ j, T.get t j = 0) →
      DfsPost items C u T (dfs items (buildChildren items) C fuel u T) := by
  induction fuel with
  | zero =>
    intro u hu hf
    have := depthOf_lt items hv u hu
    omega
  | succ fuel ih =>
    intro u hu hf T hT hzero
    have hL : ∀ c ∈ (buildChildren items).getD u [], IsChild items u c :=
      fun c hc => (mem_buildChildren items u c hu).1 hc
    have hLsub : ∀ c ∈ (buildChildren items).getD u [], ∀ t, InSub items c t →
        InSub items u t :=
      fun c hc t ht => Relation.ReflTransGen.head (hL c hc) ht
    have hanti := antichain_children items hv u hu
    have hunot : ∀ c ∈ (buildChildren items).getD u [], ¬ InSub items c u := by
      intro c hc hcu
      have h1 := InSub.depth_le items hv c u hcu
      rw [depthOf_child items hv u c (hL c hc)] at h1
      omega
    -- the calls for the children
    obtain ⟨a1, a2, a3⟩ := dfs_list_spec items C
      (fun c dp => dfs items (buildChildren items) C fuel c dp)
      ((buildChildren items).getD u []) hanti T hT
      (fun c hc t ht => hzero t (hLsub c hc t ht))
      (fun c hc T1 hT1 hz => ih c (hL c hc).1
        (by rw [depthOf_child items hv u c (hL c hc)]; omega) T1 hT1 hz)
    -- the row of `u` is set to its value from its weight on
    obtain ⟨b1, b2, b3, b4⟩ := initRow_spec (items.getD u default).weight
      (items.getD u default).value C u items.length _ a1 hu
    have hrow0 : ∀ j, (List.foldl (fun dp c => dfs items (buildChildren items) C fuel c dp) T
        ((buildChildren items).getD u [])).get u j = 0 := by
      intro j
      rw [a2 u hunot j]
      exact hzero u Relation.ReflTransGen.refl j
    have hrep : ARep ({((items.getD u default).weight, (items.getD u default).value)}
        + pairsF items [])
        (fun j => (forUp (items.getD u default).weight C
          (fun j dp => dp.set u j (items.getD u default).value)
          (List.foldl (fun dp c => dfs items (buildChildren items) C fuel c dp) T
            ((buildChildren items).getD u []))).get u j) (items.getD u default).weight C := by
      rw [pairsF_nil]
      have e : ({((0 : ℕ), (0 : ℕ))} : Set (ℕ × ℕ)) = 0 := rfl
      rw [e, add_zero]
      exact arep_init _ _ _ C (fun j hj _ => by rw [b3 j hj, hrow0 j]) (fun j h1 h2 => b4 j h1 h2)
    -- the merges
    obtain ⟨c1, c2, c3⟩ := mergeAll_spec items C u (items.getD u default).weight
      (items.getD u default).value hu [] ((buildChildren items).getD u [])
      (by simpa using hanti) (fun c hc => (hL c (by simpa using hc)).1)
      (fun c hc hcu => by
        have := depthOf_child items hv u c (hL c (by simpa using hc))
        rw [hcu] at this
        omega)
      _ b1
      (fun c hc => rowOK_congr items C _ _ c
        (fun j => b2 c j (fun hcu => by
          have := depthOf_child items hv u c (hL c hc)
          rw [hcu] at this
          omega))
        (a3 c hc c Relation.ReflTransGen.refl))
      hrep
    rw [List.nil_append] at c3
    have hfin := rep_of_arep _ _ _ C c3
    rw [← pairsF_single items hv u hu] at hfin
    unfold dfs
    refine ⟨c1, fun t ht j => ?_, fun t ht => ?_⟩
    · have htu : t ≠ u := fun h => ht (h ▸ Relation.ReflTransGen.refl)
      rw [c2 t j htu, b2 t j htu]
      exact a2 t (fun c hc hct => ht (hLsub c hc t hct)) j
    · by_cases htu : t = u
      · subst htu
        exact hfin
      · obtain ⟨c, hc, hct⟩ := inSub_child_of_ne items u t hu ht htu
        refine rowOK_congr items C _ _ t (fun j => ?_) (a3 c hc t hct)
        rw [c2 t j htu, b2 t j htu]

/-! ## Tree knapsack: the result -/

theorem Table.get_mk_zero (R Cc i j : Nat) : (Table.mk R Cc (0 : Nat)).get i j = 0 := by
  by_cases hi : i < R
  · by_cases hj : j < Cc
    · exact Table.get_mk _ _ _ _ _ hi hj
    · simp [Table.mk, Table.get, List.getElem?_replicate, hi, hj]
  · simp [Table.mk, Table.get, List.getElem?_replicate, hi]

theorem dfsAll_spec (items : List ItemT) (hv : ValidForest items) (C : Nat) :
    (dfsAll items C).Dims items.length (C + 1)
    ∧ ∀ r ∈ buildRoots items, RowOK items C (dfsAll items C) r := by
  obtain ⟨h1, -, h3⟩ := dfs_list_spec items C
    (fun root dp => dfs items (buildChildren items) C items.length root dp)
    (buildRoots items) (antichain_roots items) (Table.mk items.length (C + 1) 0)
    (Table.dims_mk _ _ _) (fun _ _ t _ j => Table.get_mk_zero _ _ t j)
    (fun c hc T1 hT1 hz => dfs_spec items hv C items.length c
      ((mem_buildRoots items c).1 hc).1 (by omega) T1 hT1 hz)
  exact ⟨h1, fun r hr => h3 r hr r Relation.ReflTransGen.refl⟩

/-- The loop that merges the roots into `finalDp`. -/
theorem mergeRoots_spec (items : List ItemT) (C : Nat) (dp : Table Nat)
    (L1 L2 : List Nat) (hanti : Antichain items (L1 ++ L2))
    (hlt : ∀ c ∈ L1 ++ L2, c < items.length)
    (hrows : ∀ c ∈ L2, RowOK items C dp c)
    (fd : List Nat) (hlen : fd.length = C + 1)
    (hrep : Rep (pairsF items L1) (fun j => fd.getD j 0) C) :
    Rep (pairsF items (L1 ++ L2))
      (fun j => (L2.foldl (fun finalDp root => mergeRoot C root dp finalDp) fd).getD j 0) C := by
  induction L2 generalizing L1 fd with
  | nil =>
    rw [List.append_nil]
    exact hrep
  | cons c L2 ih =>
    rw [List.foldl_cons]
    obtain ⟨m1, m2⟩ := mergeRoot_spec C c dp fd hlen
    have hassoc : L1 ++ c :: L2 = (L1 ++ [c]) ++ L2 := by simp
    have hanti1 : Antichain items (L1 ++ [c]) := by
      refine Antichain.sublist items _ _ hanti ?_
      rw [hassoc]
      exact List.sublist_append_left _ _
    have hrep' : Rep (pairsF items (L1 ++ [c]))
        (fun j => (mergeRoot C c dp fd).getD j 0) C := by
      rw [pairsF_append items L1 c (fun c' hc' => hlt c' (List.mem_append_left _ hc')) hanti1]
      exact rep_merge _ _ (fun j => fd.getD j 0) (fun j => dp.get c j) _ C hrep
        (hrows c (List.mem_cons_self _ _)) (fun j hj => m2 j hj)
    rw [hassoc] at hanti hlt ⊢
    exact ih (L1 ++ [c]) hanti hlt (fun c' hc' => hrows c' (List.mem_cons_of_mem _ hc'))
      (mergeRoot C c dp fd) m1 hrep'

theorem maxValueTree_greatest (items : List ItemT) (hv : ValidForest items) (C : Nat) :
    IsGreatest (feasibleValuesTree items C) (maxValueTree items C) := by
  rw [feasibleValuesTree_eq items hv]
  obtain ⟨-, hrows⟩ := dfsAll_spec items hv C
  unfold maxValueTree
  simp only []
  split
  · rename_i h1
    obtain ⟨r, hr⟩ := List.length_eq_one.1 h1
    have hrm : r ∈ buildRoots items := by rw [hr]; exact List.mem_singleton_self r
    have := hrows r hrm C (le_refl _)
    rw [hr]
    simpa using this
  · have hrep0 : Rep (pairsF items []) (fun j => (List.replicate (C + 1) 0).getD j 0) C := by
      rw [pairsF_nil]
      intro j hj
      have : (List.replicate (C + 1) 0).getD j 0 = 0 := by
        have hlt : j < C + 1 := by omega
        simp [List.getElem?_replicate, hlt]
      simp only [this]
      exact rep_zero C j hj
    have := mergeRoots_spec items C (dfsAll items C) [] (buildRoots items)
      (by simpa using antichain_roots items)
      (fun c hc => ((mem_buildRoots items c).1 (by simpa using hc)).1)
      hrows (List.replicate (C + 1) 0) (by simp) hrep0
    rw [List.nil_append] at this
    exact this C (le_refl _)

/-- In exact arithmetic: for a valid forest (every parent id in `0..n`, parent pointers without a
cycle) the tree solver's `max_value` is the greatest total value of a set of nodes of total
weight at most the capacity in which the parent of every non-root member is a member too,
whether the forest has one root or several; a root (1, 1) with one child (1, 1) and capacity 2
gives 2. -/
theorem knapsackTree_optimal (items : List ItemT) (capacity : Nat)
    (hpar : ∀ t, t < items.length → (items.getD t default).parent ≤ items.length)
    (hnc : NoCycle items) :
    IsGreatest (feasibleValuesTree items capacity) (maxValueTree items capacity)
    ∧ maxValueTree [⟨1, 1, 0⟩, ⟨1, 1, 1⟩] 2 = 2 :=
  ⟨maxValueTree_greatest items ((validForest_iff_noCycle items).2 ⟨hpar, hnc⟩) capacity,
    by decide⟩

theorem knapsackTree_optimal_witness :
    NoCycle [⟨2, 3, 3⟩, ⟨1, 1, 1⟩, ⟨2, 2, 0⟩, ⟨3, 10, 0⟩, ⟨1, 5, 4⟩]
    ∧ IsGreatest (feasibleValuesTree [⟨2, 3, 3⟩, ⟨1, 1, 1⟩, ⟨2, 2, 0⟩, ⟨3, 10, 0⟩, ⟨1, 5, 4⟩] 6)
        (maxValueTree [⟨2, 3, 3⟩, ⟨1, 1, 1⟩, ⟨2, 2, 0⟩, ⟨3, 10, 0⟩, ⟨1, 5, 4⟩] 6) :=
  have hv : ValidForest [⟨2, 3, 3⟩, ⟨1, 1, 1⟩, ⟨2, 2, 0⟩, ⟨3, 10, 0⟩, ⟨1, 5, 4⟩] := by
    constructor <;> decide
  ⟨((validForest_iff_noCycle _).1 hv).2,
    (knapsackTree_optimal _ 6 hv.1 ((validForest_iff_noCycle _).1 hv).2).1⟩

/-! ## Binary decomposition: reachable totals and number of pieces -/

theorem subSums_nil : subSums [] = Set.Iio 1 := by
  ext s
  simp only [subSums, Set.mem_setOf_eq, List.sublist_nil, Set.mem_Iio]
  constructor
  · rintro ⟨l, rfl, rfl⟩
    simp
  · intro h
    exact ⟨[], rfl, by simp; omega⟩

theorem subSums_concat (ms : List Nat) (x k : Nat) (h : subSums ms = Set.Iio k) (hx : x ≤ k) :
    subSums (ms ++ [x]) = Set.Iio (k + x) := by
  ext s
  simp only [subSums, Set.mem_setOf_eq, Set.mem_Iio]
  constructor
  · rintro ⟨l, hl, rfl⟩
    obtain ⟨l1, l2, rfl, h1, h2⟩ := List.sublist_append_iff.mp hl
    have hl1 : l1.sum < k := by
      have : l1.sum ∈ subSums ms := ⟨l1, h1, rfl⟩
      rw [h] at this
      exact this
    have h2len := h2.length_le
    rw [List.sum_append]
    match l2, h2, h2len with
    | [], _, _ => simp; omega
    | [y], h2, _ =>
      have : y = x := by simpa using h2
      subst this
      simp; omega
    | _ :: _ :: _, _, hlen => simp at hlen
  · intro hs
    by_cases hsk : s < k
    · have : s ∈ subSums ms := by rw [h]; exact hsk
      obtain ⟨l, hl, rfl⟩ := this
      exact ⟨l, hl.trans (List.sublist_append_left _ _), rfl⟩
    · have : s - x ∈ subSums ms := by rw [h]; show s - x < k; omega
      obtain ⟨l, hl, hsum⟩ := this
      refine ⟨l ++ [x], List.Sublist.append hl (List.Sublist.refl _), ?_⟩
      rw [List.sum_append, hsum]
      simp
      omega

/-- The doubling loop started with the `a` pieces `1, 2, .., 2 ^ (a - 1)` ends with the `b`
pieces `1, 2, .., 2 ^ (b - 1)`, whose sub-sums are `0 .. 2 ^ b - 1`, and a remainder below
`2 ^ b`. -/
theorem splitLoop_mults (it : ItemC) (i : Nat) : ∀ (fuel k cnt : Nat) (acc : List SplitItem)
    (a : Nat), k = 2 ^ a → acc.map (fun s => s.splitCount) = (List.range a).map (fun e => 2 ^ e) →
    cnt ≤ fuel → subSums (acc.map (fun s => s.splitCount)) = Set.Iio k →
    ∃ b, (splitLoop it i fuel k cnt acc).1.map (fun s => s.splitCount)
        = (List.range b).map (fun e => 2 ^ e) ∧
      subSums ((splitLoop it i fuel k cnt acc).1.map (fun s => s.splitCount)) = Set.Iio (2 ^ b) ∧
      (splitLoop it i fuel k cnt acc).2 < 2 ^ b ∧
      2 ^ b + (splitLoop it i fuel k cnt acc).2 = k + cnt := by
  intro fuel
  induction fuel with
  | zero =>
    intro k cnt acc a hk hlen hcnt hsub
    have hc : cnt = 0 := by omega
    subst hc
    have hpos : 0 < 2 ^ a := Nat.two_pow_pos a
    refine ⟨a, hlen, ?_, ?_, ?_⟩
    · simpa [splitLoop, hk] using hsub
    · simp [splitLoop, hpos]
    · simp [splitLoop, hk]
  | succ fuel ih =>
    intro k cnt acc a hk hlen hcnt hsub
    have hpos : 0 < 2 ^ a := Nat.two_pow_pos a
    by_cases hle : k ≤ cnt
    · have hstep : splitLoop it i (fuel + 1) k cnt acc
          = splitLoop it i fuel (k * 2) (cnt - k)
              (acc ++ [⟨it.weight * k, it.value * k, i, k⟩]) := by
        simp [splitLoop, hle]
      rw [hstep]
      obtain ⟨b, h1, h2, h3, h4⟩ := ih (k * 2) (cnt - k)
        (acc ++ [⟨it.weight * k, it.value * k, i, k⟩]) (a + 1)
        (by rw [hk, pow_succ])
        (by rw [List.map_append, hlen, List.range_succ, List.map_append, hk]; rfl) (by omega)
        (by
          rw [List.map_append, List.map_singleton]
          rw [subSums_concat _ k k hsub le_rfl, Nat.mul_two])
      exact ⟨b, h1, h2, h3, by omega⟩
    · have hstep : splitLoop it i (fuel + 1) k cnt acc = (acc, cnt) := by
        simp [splitLoop, hle]
      rw [hstep]
      exact ⟨a, hlen, by simpa [hk] using hsub, by simp; omega, by simp; omega⟩

/-- The multipliers of one item: the `b` doubling pieces and then the remainder `r` if it is
not zero, with `2 ^ b + r = count + 1` and `r < 2 ^ b`. -/
theorem multipliers_spec (it : ItemC) (i : Nat) :
    ∃ b r, r < 2 ^ b ∧ 2 ^ b + r = it.count + 1 ∧
      multipliers it i = (List.range b).map (fun e => 2 ^ e) ++ (if r > 0 then [r] else []) ∧
      subSums (multipliers it i) = Set.Iio (it.count + 1) := by
  obtain ⟨b, h1, h2, h3, h4⟩ := splitLoop_mults it i it.count 1 it.count [] 0 (by simp) rfl le_rfl
    (by simpa using subSums_nil)
  refine ⟨b, (splitLoop it i it.count 1 it.count []).2, h3, by omega, ?_, ?_⟩
  · unfold multipliers splitOne
    by_cases hr : (splitLoop it i it.count 1 it.count []).2 > 0
    · simp only [hr, if_true, List.map_append, List.map_singleton, h1]
    · simp only [hr, if_false, h1, List.append_nil]
  · unfold multipliers splitOne
    by_cases hr : (splitLoop it i it.count 1 it.count []).2 > 0
    · simp only [hr, if_true, List.map_append, List.map_singleton]
      rw [subSums_concat _ _ _ h2 (le_of_lt h3), h4, Nat.add_comm]
    · simp only [hr, if_false]
      have hz : (splitLoop it i it.count 1 it.count []).2 = 0 := by omega
      rw [hz, Nat.add_zero] at h4
      rw [h2, h4, Nat.add_comm]

theorem multipliers_subSums (it : ItemC) (i : Nat) :
    subSums (multipliers it i) = {s | s ≤ it.count} ∧ (multipliers it i).sum = it.count := by
  obtain ⟨b, r, _, _, _, hsub⟩ := multipliers_spec it i
  have hset : subSums (multipliers it i) = {s | s ≤ it.count} := by
    rw [hsub]
    ext s
    simp only [Set.mem_Iio, Set.mem_setOf_eq]
    omega
  refine ⟨hset, le_antisymm ?_ ?_⟩
  · have : (multipliers it i).sum ∈ subSums (multipliers it i) := ⟨_, List.Sublist.refl _, rfl⟩
    rw [hset] at this
    exact this
  · have : it.count ∈ subSums (multipliers it i) := by rw [hset]; exact Nat.le_refl it.count
    obtain ⟨l, hl, hsum⟩ := this
    rw [← hsum]
    exact List.Sublist.sum_le_sum hl (fun a _ => Nat.zero_le a)

theorem multipliers_length (it : ItemC) (i : Nat) :
    (multipliers it i).length = Nat.clog 2 (it.count + 1) := by
  obtain ⟨b, r, hr, hsum, hform, _⟩ := multipliers_spec it i
  rw [hform, ← hsum]
  by_cases h0 : r > 0
  · simp only [h0, if_true, List.length_append, List.length_map, List.length_range,
      List.length_singleton]
    apply le_antisymm
    · exact (Nat.pow_lt_iff_lt_clog (by norm_num)).mp (by omega)
    · exact (Nat.le_pow_iff_clog_le (by norm_num)).mp (by rw [pow_succ]; omega)
  · have : r = 0 := by omega
    subst this
    simp [Nat.clog_pow]

/-- The ceiling of the real logarithm in base 2 of a natural number is `Nat.clog 2`. -/
theorem ceil_logb_two (n : Nat) : ⌈Real.logb 2 (n : ℝ)⌉ = (Nat.clog 2 n : ℤ) := by
  have h := Real.ceil_logb_natCast (b := 2) (r := (n : ℝ)) (Nat.cast_nonneg n)
  rw [Int.clog_natCast] at h
  simpa using h

/-- In exact arithmetic: the multipliers that the binary decomposition emits for one item of count
`C` are `1, 2, 4, ..` followed by the non-zero remainder; the sums of their sub-collections
(each pseudo-item chosen at most once) are exactly the totals `0, 1, .., C`, and the multipliers
sum to exactly `C`. -/
theorem binarySplit_subSums (it : ItemC) (i : Nat) :
    (∃ b r, r < 2 ^ b ∧ 2 ^ b + r = it.count + 1 ∧
      multipliers it i = (List.range b).map (fun e => 2 ^ e) ++ (if r > 0 then [r] else [])) ∧
    subSums (multipliers it i) = {s | s ≤ it.count} ∧
    (multipliers it i).sum = it.count := by
  obtain ⟨b, r, h1, h2, h3, _⟩ := multipliers_spec it i
  exact ⟨⟨b, r, h1, h2, h3⟩, multipliers_subSums it i⟩

/-- C12: the binary decomposition emits exactly `ceil (log2 (C + 1))` pseudo-items for an item
of count `C`: their number is the least `e` with `C + 1 ≤ 2 ^ e`, which is the ceiling of the
real logarithm. -/
theorem binarySplit_length (it : ItemC) (i : Nat) :
    (splitOne it i []).length = Nat.clog 2 (it.count + 1) ∧
    ((splitOne it i []).length : ℤ) = ⌈Real.logb 2 ((it.count : ℝ) + 1)⌉ := by
  have h : (splitOne it i []).length = Nat.clog 2 (it.count + 1) := by
    rw [← multipliers_length it i, multipliers, List.length_map]
  refine ⟨h, ?_⟩
  have h2 := ceil_logb_two (it.count + 1)
  rw [h]
  push_cast at h2
  exact h2.symm

/-! ## Dependency knapsack: structure of the package list -/

theorem forLt_congr {σ : Type} (n : Nat) (f g : Nat → σ → σ) (s : σ)
    (h : ∀ j, j < n → ∀ st, f j st = g j st) : forLt 0 n f s = forLt 0 n g s := by
  induction n with
  | zero => rfl
  | succ n ih =>
    rw [forLt_succ, forLt_succ, ih (fun j hj => h j (by omega)), h n (by omega)]

theorem forLt_append {α : Type} (n : Nat) (f : Nat → α) (l : List α) :
    forLt 0 n (fun k acc => acc ++ [f k]) l = l ++ (List.range n).map f := by
  induction n with
  | zero => simp [forLt]
  | succ n ih => rw [forLt_succ, ih, List.range_succ, List.map_append, List.append_assoc]; rfl

theorem forLt_filter_flatMap {α : Type} (n : Nat) (p : Nat → Bool) (f : Nat → List α) :
    forLt 0 n (fun i acc => if p i = true then acc ++ f i else acc) []
      = ((List.range n).filter p).flatMap f := by
  induction n with
  | zero => simp [forLt]
  | succ n ih =>
    rw [forLt_succ, ih, List.range_succ, List.filter_append, List.flatMap_append]
    by_cases hp : p n = true
    · simp [hp]
    · simp [hp]

theorem and_shift_lo (mask k j : Nat) (hj : j < k) :
    ((2 ^ k + mask) &&& (1 <<< j) ≠ 0) ↔ (mask &&& (1 <<< j) ≠ 0) := by
  rw [Nat.one_shiftLeft, Nat.and_two_pow, Nat.and_two_pow, Nat.testBit_two_pow_add_gt hj]

theorem and_shift_self (mask k : Nat) (h : mask < 2 ^ k) :
    (2 ^ k + mask) &&& (1 <<< k) ≠ 0 ∧ mask &&& (1 <<< k) = 0 := by
  rw [Nat.one_shiftLeft, Nat.and_two_pow, Nat.and_two_pow, Nat.testBit_two_pow_add_eq,
    Nat.testBit_lt_two_pow h]
  have := Nat.two_pow_pos k
  simp

theorem mkPackage_concat_lo (items : List ItemD) (i : Nat) (atts : List Nat) (x mask : Nat)
    (h : mask < 2 ^ atts.length) :
    mkPackage items i (atts ++ [x]) mask = mkPackage items i atts mask := by
  unfold mkPackage
  rw [List.length_append, List.length_singleton, forLt_succ, if_neg (by
    rw [(and_shift_self mask atts.length h).2]; simp)]
  apply forLt_congr
  intro j hj st
  rw [List.getD_append _ _ _ _ hj]

theorem mkPackage_concat_hi (items : List ItemD) (i : Nat) (atts : List Nat) (x mask : Nat)
    (h : mask < 2 ^ atts.length) :
    mkPackage items i (atts ++ [x]) (2 ^ atts.length + mask)
      = { weight := (mkPackage items i atts mask).weight + (items.getD x default).weight
          value := (mkPackage items i atts mask).value + (items.getD x default).value
          items := (mkPackage items i atts mask).items ++ [x] } := by
  unfold mkPackage
  rw [List.length_append, List.length_singleton, forLt_succ,
    if_pos (and_shift_self mask atts.length h).1]
  have hx : (atts ++ [x]).getD atts.length 0 = x := by
    rw [List.getD_append_right _ _ _ _ (le_refl _)]
    simp
  have hc : forLt 0 atts.length (fun j pkg =>
        if (2 ^ atts.length + mask) &&& (1 <<< j) ≠ 0 then
          let attIdx := (atts ++ [x]).getD j 0
          ({ weight := pkg.weight + (items.getD attIdx default).weight
             value := pkg.value + (items.getD attIdx default).value
             items := pkg.items ++ [attIdx] } : Package)
        else pkg) ⟨(items.getD i default).weight, (items.getD i default).value, [i]⟩
      = forLt 0 atts.length (fun j pkg =>
        if mask &&& (1 <<< j) ≠ 0 then
          let attIdx := atts.getD j 0
          ({ weight := pkg.weight + (items.getD attIdx default).weight
             value := pkg.value + (items.getD attIdx default).value
             items := pkg.items ++ [attIdx] } : Package)
        else pkg) ⟨(items.getD i default).weight, (items.getD i default).value, [i]⟩ := by
    apply forLt_congr
    intro j hj st
    simp only [and_shift_lo mask atts.length j hj, List.getD_append _ _ _ _ hj]
  simp only [hx]
  rw [hc]

theorem packageOf_concat (items : List ItemD) (i : Nat) (l : List Nat) (x : Nat) :
    packageOf items i (l ++ [x])
      = { weight := (packageOf items i l).weight + (items.getD x default).weight
          value := (packageOf items i l).value + (items.getD x default).value
          items := (packageOf items i l).items ++ [x] } := by
  simp [packageOf, Nat.add_assoc]

/-- The packages of one main item, for `mask = 0 .. 2 ^ k - 1`, are the packages of the
sub-lists of its attachments, in the order of `List.sublists`. -/
theorem mkPackage_sublists (items : List ItemD) (i : Nat) (atts : List Nat) :
    (List.range (2 ^ atts.length)).map (mkPackage items i atts)
      = atts.sublists.map (packageOf items i) := by
  induction atts using List.reverseRecOn with
  | nil => rfl
  | append_singleton atts x ih =>
    have hR : atts.sublists.map (fun l => packageOf items i (l ++ [x]))
        = ((List.range (2 ^ atts.length)).map (mkPackage items i atts)).map (fun p =>
            ({ weight := p.weight + (items.getD x default).weight
               value := p.value + (items.getD x default).value
               items := p.items ++ [x] } : Package)) := by
      rw [ih, List.map_map]
      apply List.map_congr_left
      intro l _
      exact packageOf_concat items i l x
    rw [List.length_append, List.length_singleton, pow_succ, Nat.mul_two, List.range_add,
      List.map_append, List.map_map, List.sublists_concat, List.map_append, List.map_map]
    congr 1
    · rw [← ih]
      apply List.map_congr_left
      intro m hm
      exact mkPackage_concat_lo items i atts x m (List.mem_range.mp hm)
    · show _ = atts.sublists.map (fun l => packageOf items i (l ++ [x]))
      rw [hR, List.map_map]
      apply List.map_congr_left
      intro m hm
      exact mkPackage_concat_hi items i atts x m (List.mem_range.mp hm)

theorem forLt_id {σ : Type} (n : Nat) (s : σ) : forLt 0 n (fun _ st => st) s = s := by
  induction n with
  | zero => rfl
  | succ n ih => rw [forLt_succ, ih]

theorem mkPackage_zero (items : List ItemD) (i : Nat) (atts : List Nat) :
    mkPackage items i atts 0
      = ⟨(items.getD i default).weight, (items.getD i default).value, [i]⟩ := by
  unfold mkPackage
  rw [forLt_congr _ _ (fun _ st => st) _ (fun j _ st => by simp), forLt_id]

/-- The map `attachments` after the first `m` items: ascending keys, and under every key the
positions below `m` whose parent is that key plus one, in ascending order. -/
theorem buildAttachments_inv (items : List ItemD) (m : Nat) :
    (groupIdsOf (forLt 0 m (fun i atts =>
      if (items.getD i default).parent > 0 then
        groupsInsert atts (((items.getD i default).parent : Int) - 1) i
      else atts) [])).Pairwise (fun a b => a < b)
    ∧ ∀ key : Nat, groupsFind (forLt 0 m (fun i atts =>
      if (items.getD i default).parent > 0 then
        groupsInsert atts (((items.getD i default).parent : Int) - 1) i
      else atts) []) (key : Int)
      = (List.range m).filter (fun t => (items.getD t default).parent = key + 1) := by
  induction m with
  | zero => exact ⟨by simp [forLt, groupIdsOf], fun key => by simp [forLt, groupsFind]⟩
  | succ m ih =>
    obtain ⟨hs, hf⟩ := ih
    rw [forLt_succ]
    by_cases hp : (items.getD m default).parent > 0
    · rw [if_pos hp]
      refine ⟨sorted_groupIdsOf_insert _ _ _ hs, fun key => ?_⟩
      rw [groupsFind_insert _ _ _ _ hs, List.range_succ, List.filter_append]
      by_cases hk : (key : Int) = ((items.getD m default).parent : Int) - 1
      · have hk2 : (items.getD m default).parent = key + 1 := by omega
        rw [if_pos hk, ← hk, hf key, List.filter_singleton]
        simp only [hk2, decide_True, cond_true]
      · have hk2 : ¬ (items.getD m default).parent = key + 1 := by omega
        rw [if_neg hk, hf key, List.filter_singleton]
        simp only [hk2, decide_False, cond_false, List.append_nil]
    · rw [if_neg hp]
      refine ⟨hs, fun key => ?_⟩
      have hk2 : ¬ (items.getD m default).parent = key + 1 := by omega
      rw [hf key, List.range_succ, List.filter_append, List.filter_singleton]
      simp only [hk2, decide_False, cond_false, List.append_nil]

theorem groupsFind_buildAttachments (items : List ItemD) (i : Nat) :
    groupsFind (buildAttachments items) (i : Int) = attsOf items i :=
  (buildAttachments_inv items items.length).2 i

/-- The package list: for every main item in input order, the packages of the sub-lists of
its attachments. -/
theorem buildPackages_eq (items : List ItemD) :
    buildPackages items
      = (mainsOf items).flatMap (fun i => (attsOf items i).sublists.map (packageOf items i)) := by
  unfold buildPackages mainsOf
  rw [← forLt_filter_flatMap]
  apply forLt_congr
  intro i _ st
  by_cases hp : (items.getD i default).parent = 0
  · simp only [hp, if_true, decide_True]
    rw [groupsFind_buildAttachments, Nat.one_shiftLeft, forLt_append, mkPackage_sublists]
  · simp only [hp, if_false, decide_False]
    rfl

theorem packageOf_injective (items : List ItemD) (i : Nat) :
    Function.Injective (packageOf items i) := by
  intro l1 l2 h
  have := congrArg Package.items h
  simpa [packageOf] using this

theorem nodup_mainsOf (items : List ItemD) : (mainsOf items).Nodup :=
  List.Nodup.filter _ (List.nodup_range _)

theorem nodup_attsOf (items : List ItemD) (i : Nat) : (attsOf items i).Nodup :=
  List.Nodup.filter _ (List.nodup_range _)

theorem head_packages (items : List ItemD) (i : Nat) :
    ((attsOf items i).sublists.map (packageOf items i)).head?
      = some ⟨(items.getD i default).weight, (items.getD i default).value, [i]⟩ := by
  rw [← mkPackage_sublists, ← mkPackage_zero items i (attsOf items i)]
  obtain ⟨m, hm⟩ : ∃ m, 2 ^ (attsOf items i).length = m + 1 :=
    ⟨2 ^ (attsOf items i).length - 1, by have := Nat.two_pow_pos (attsOf items i).length; omega⟩
  rw [hm, List.range_succ_eq_map]
  rfl

theorem packages_block (items : List ItemD) (i : Nat) (hi : i ∈ mainsOf items) :
    ∃ pre post, buildPackages items
        = pre ++ (attsOf items i).sublists.map (packageOf items i) ++ post
      ∧ ∀ p ∈ pre ++ post, p.items.head? ≠ some i := by
  obtain ⟨l1, l2, hl⟩ := List.append_of_mem hi
  have hnd := nodup_mainsOf items
  rw [hl] at hnd
  have hnot : i ∉ l1 ∧ i ∉ l2 := by
    have := List.nodup_append.mp hnd
    refine ⟨fun h => ?_, (List.nodup_cons.mp this.2.1).1⟩
    exact this.2.2 h (List.mem_cons_self _ _)
  refine ⟨l1.flatMap (fun i => (attsOf items i).sublists.map (packageOf items i)),
    l2.flatMap (fun i => (attsOf items i).sublists.map (packageOf items i)), ?_, ?_⟩
  · rw [buildPackages_eq, hl, List.flatMap_append, List.flatMap_cons, List.append_assoc]
  · intro p hp
    have : ∃ t, (t ∈ l1 ∨ t ∈ l2) ∧ ∃ l, p = packageOf items t l := by
      rcases List.mem_append.mp hp with h | h
      · obtain ⟨t, ht, hpt⟩ := List.mem_flatMap.mp h
        obtain ⟨l, _, rfl⟩ := List.mem_map.mp hpt
        exact ⟨t, Or.inl ht, l, rfl⟩
      · obtain ⟨t, ht, hpt⟩ := List.mem_flatMap.mp h
        obtain ⟨l, _, rfl⟩ := List.mem_map.mp hpt
        exact ⟨t, Or.inr ht, l, rfl⟩
    obtain ⟨t, ht, l, rfl⟩ := this
    intro hh
    have : t = i := by simpa [packageOf] using hh
    subst this
    rcases ht with h | h
    · exact hnot.1 h
    · exact hnot.2 h

/-- In exact arithmetic: the package list is, for every main item in ascending input order, one
contiguous block of `2 ^ k` packages, `k` being the number of its attachments: the packages of
the sub-lists (subsets) of its attachments, each exactly once, in the order of the masks; a
package is the main item followed by its subset, with the main's weight and value plus the sums
over the subset; the first package of a block is the main item alone; no package outside the
block starts with that main item; the whole list has sum over mains of `2 ^ k` entries. -/
theorem dependPackages_structure (items : List ItemD) :
    buildPackages items
      = (mainsOf items).flatMap (fun i => (attsOf items i).sublists.map (packageOf items i)) ∧
    (buildPackages items).length
      = ((mainsOf items).map (fun i => 2 ^ (attsOf items i).length)).sum ∧
    ∀ i ∈ mainsOf items,
      (attsOf items i).Nodup ∧
      (List.range (2 ^ (attsOf items i).length)).map
          (mkPackage items i (groupsFind (buildAttachments items) (i : Int)))
        = (attsOf items i).sublists.map (packageOf items i) ∧
      ((attsOf items i).sublists.map (packageOf items i)).length
        = 2 ^ (attsOf items i).length ∧
      ((attsOf items i).sublists.map (packageOf items i)).Nodup ∧
      ((attsOf items i).sublists.map (packageOf items i)).head?
        = some ⟨(items.getD i default).weight, (items.getD i default).value, [i]⟩ ∧
      ∃ pre post, buildPackages items
          = pre ++ (attsOf items i).sublists.map (packageOf items i) ++ post
        ∧ ∀ p ∈ pre ++ post, p.items.head? ≠ some i := by
  refine ⟨buildPackages_eq items, ?_, fun i hi => ⟨nodup_attsOf items i, ?_, ?_, ?_,
    head_packages items i, packages_block items i hi⟩⟩
  · rw [buildPackages_eq, List.length_flatMap]
    congr 1
    apply List.map_congr_left
    intro i _
    simp only [Function.comp, List.length_map, List.length_sublists]
  · rw [groupsFind_buildAttachments, mkPackage_sublists]
  · rw [List.length_map, List.length_sublists]
  · exact List.Nodup.map (packageOf_injective items i)
      (List.nodup_sublists.mpr (nodup_attsOf items i))

/-! ## Traces: the outputs of a fill, read off the final table -/

theorem foldl_traced {κ σ ω : Type} (body : κ → σ → σ) (out : κ → σ → ω) (ws : List κ)
    (s0 : σ) (tr0 : List ω) :
    ws.foldl (fun (st : σ × List ω) k => (body k st.1, st.2 ++ [out k st.1])) (s0, tr0)
      = (ws.foldl (fun s k => body k s) s0, tr0 ++ traceOf body out ws s0) := by
  induction ws generalizing s0 tr0 with
  | nil => simp [traceOf]
  | cons k ws ih =>
    rw [List.foldl_cons, ih, List.foldl_cons]
    simp [traceOf]

/-- A fold of writes whose outputs read only cells that are not written from then on: every
output may be computed in the final store. -/
theorem traceOf_final {σ ι α κ ω : Type} (get : σ → ι → α) (set : σ → ι → α → σ)
    (ok : σ → Prop) (valid : ι → Prop)
    (hother : ∀ s c x c', ok s → valid c → c' ≠ c → get (set s c x) c' = get s c')
    (hok : ∀ s c x, ok s → valid c → ok (set s c x))
    (cellOf : κ → ι) (fn : κ → σ → α) (body : κ → σ → σ) (out : κ → σ → ω)
    (later : κ → κ → Prop) (D : κ → ι → Prop)
    (ws : List κ) (hbody : ∀ k ∈ ws, ∀ s, ok s → body k s = set s (cellOf k) (fn k s))
    (hpw : ws.Pairwise later) (hv : ∀ k ∈ ws, valid (cellOf k))
    (hloc : ∀ k ∈ ws, ∀ s s', ok s → ok s' → (∀ d, D k d → get s d = get s' d) →
      out k s = out k s')
    (hD : ∀ k ∈ ws, ∀ d, D k d → d ≠ cellOf k ∧ ∀ k' ∈ ws, later k k' → cellOf k' ≠ d)
    (s0 : σ) (h0 : ok s0) :
    traceOf body out ws s0 = ws.map (fun k => out k (ws.foldl (fun s k => body k s) s0)) := by
  induction ws generalizing s0 with
  | nil => rfl
  | cons k ws ih =>
    have hk : k ∈ k :: ws := List.mem_cons_self _ _
    have hvk := hv k hk
    have hbk := hbody k hk s0 h0
    have h1 : ok (body k s0) := by rw [hbk]; exact hok _ _ _ h0 hvk
    have hpw' := List.pairwise_cons.mp hpw
    have hfr := writes_frame get set ok valid hother hok cellOf fn body (k :: ws) hbody hv s0 h0
    rw [traceOf, List.map_cons, List.foldl_cons]
    congr 1
    · apply hloc k hk s0 _ h0 (by have := hfr.1; rwa [List.foldl_cons] at this)
      intro d hd
      obtain ⟨hd1, hd2⟩ := hD k hk d hd
      have := hfr.2 d (fun k' hk' => by
        rcases List.mem_cons.mp hk' with rfl | hk''
        · exact fun h => hd1 h.symm
        · exact hd2 k' hk' (hpw'.1 k' hk''))
      rw [List.foldl_cons] at this
      exact this.symm
    · exact ih (fun k' hk' => hbody k' (List.mem_cons_of_mem _ hk')) hpw'.2
        (fun k' hk' => hv k' (List.mem_cons_of_mem _ hk'))
        (fun k' hk' => hloc k' (List.mem_cons_of_mem _ hk'))
        (fun k' hk' d hd => ⟨(hD k' (List.mem_cons_of_mem _ hk') d hd).1,
          fun k'' hk'' hl => (hD k' (List.mem_cons_of_mem _ hk') d hd).2 k''
            (List.mem_cons_of_mem _ hk'') hl⟩)
        (body k s0) h1

/-- The trace of a row-major fill of the rows `1..n` of a table: one output per cell, in
row-major order, each computed in the final table, when the output of a cell reads only the
rows above its own. -/
theorem trace2D_spec {α ω : Type} [Inhabited α] (n C : Nat)
    (body : Nat × Nat → Table α → Table α) (fn : Nat × Nat → Table α → α)
    (out : Nat × Nat → Table α → ω)
    (hbody : ∀ c ∈ cellsOf 1 n C, ∀ T : Table α, T.Dims (n + 1) (C + 1) →
      body c T = T.set c.1 c.2 (fn c T))
    (hloc : ∀ c ∈ cellsOf 1 n C, ∀ T T' : Table α, T.Dims (n + 1) (C + 1) →
      T'.Dims (n + 1) (C + 1) → (∀ d : Nat × Nat, d.1 < c.1 → T.get d.1 d.2 = T'.get d.1 d.2) →
      out c T = out c T')
    (T0 : Table α) (h0 : T0.Dims (n + 1) (C + 1)) (tr0 : List ω) :
    forUp 1 n (fun i (st : Table α × List ω) => forUp 0 C (fun j st =>
        (body (i, j) st.1, st.2 ++ [out (i, j) st.1])) st) (T0, tr0)
      = (forUp 1 n (fun i acc => forUp 0 C (fun j acc => body (i, j) acc) acc) T0,
          tr0 ++ (cellsOf 1 n C).map (fun c => out c
            (forUp 1 n (fun i acc => forUp 0 C (fun j acc => body (i, j) acc) acc) T0))) := by
  have e1 := forUp_forUp_eq 1 n C
    (fun c (st : Table α × List ω) => (body c st.1, st.2 ++ [out c st.1])) (T0, tr0)
  have e2 := forUp_forUp_eq 1 n C body T0
  rw [e1, e2, foldl_traced]
  congr 1
  congr 1
  have hother : ∀ (s : Table α) (c : Nat × Nat) (x : α) (c' : Nat × Nat),
      s.Dims (n + 1) (C + 1) → (c.1 < n + 1 ∧ c.2 < C + 1) → c' ≠ c →
      (s.set c.1 c.2 x).get c'.1 c'.2 = s.get c'.1 c'.2 :=
    fun s c x c' _ _ hne => Table.get_set_other s c.1 c.2 x c'.1 c'.2 hne
  have hok : ∀ (s : Table α) (c : Nat × Nat) (x : α), s.Dims (n + 1) (C + 1) →
      (c.1 < n + 1 ∧ c.2 < C + 1) → (s.set c.1 c.2 x).Dims (n + 1) (C + 1) :=
    fun s c x hs _ => Table.dims_set s _ _ hs c.1 c.2 x
  have hv : ∀ k ∈ cellsOf 1 n C, (id k).1 < n + 1 ∧ (id k).2 < C + 1 := by
    intro k hk
    rw [mem_cellsOf] at hk
    exact ⟨by simp only [id]; omega, by simp only [id]; omega⟩
  exact traceOf_final (fun (s : Table α) (c : Nat × Nat) => s.get c.1 c.2)
    (fun s c x => s.set c.1 c.2 x) (fun s => s.Dims (n + 1) (C + 1))
    (fun c => c.1 < n + 1 ∧ c.2 < C + 1) hother hok id fn body out cellLt
    (fun c d => d.1 < c.1) (cellsOf 1 n C) hbody (pairwise_cellsOf 1 n C) hv
    (fun c hc T T' hT hT' h => hloc c hc T T' hT hT' h)
    (fun c _ d hd => ⟨fun h => by simp only [id] at h; rw [h] at hd; omega,
      fun k' _ hl h => by
        simp only [id] at h
        rw [← h] at hd
        unfold cellLt at hl
        omega⟩)
    T0 h0

/-! ## The 0/1 backtracking walk -/

/-- Column 0 of a table filled by the 0/1 rule over positive weights is zero. -/
theorem col_zero_of_rec (w v : Nat → Nat) (T : Table Nat) (n C : Nat)
    (hw : ∀ i, i < n → 0 < w i)
    (h0 : ∀ j, j ≤ C → T.get 0 j = 0)
    (hrec : ∀ i j, i < n → j ≤ C → T.get (i + 1) j =
      if j < w i then T.get i j else max (T.get i j) (T.get i (j - w i) + v i)) :
    ∀ i, i ≤ n → T.get i 0 = 0 := by
  intro i
  induction i with
  | zero => intro _; exact h0 0 (Nat.zero_le _)
  | succ i ih =>
    intro hi
    rw [hrec i 0 (by omega) (Nat.zero_le _), if_pos (hw i (by omega))]
    exact ih (by omega)

/-- The walk from the cell `(i, j)` of a table filled by the 0/1 rule over positive weights
lists strictly decreasing positions below `i`, of total weight at most `j` and of total value
`dp[i][j]`. -/
theorem backtrackFrom_spec (w v : Nat → Nat) (T : Table Nat) (n C : Nat)
    (hw : ∀ i, i < n → 0 < w i)
    (h0 : ∀ j, j ≤ C → T.get 0 j = 0)
    (hrec : ∀ i j, i < n → j ≤ C → T.get (i + 1) j =
      if j < w i then T.get i j else max (T.get i j) (T.get i (j - w i) + v i)) :
    ∀ i j, i ≤ n → j ≤ C →
      ((backtrackFrom w T i j).map (fun e => e.item)).Pairwise (fun a b => a > b) ∧
      (∀ e ∈ backtrackFrom w T i j, e.item < i ∧ e.r = e.item + 1 ∧ 0 < e.c ∧ e.c ≤ j) ∧
      ((backtrackFrom w T i j).map (fun e => w e.item)).sum ≤ j ∧
      ((backtrackFrom w T i j).map (fun e => v e.item)).sum = T.get i j := by
  have hcol := col_zero_of_rec w v T n C hw h0 hrec
  intro i
  induction i with
  | zero =>
    intro j _ hj
    simp [backtrackFrom, h0 j hj]
  | succ i ih =>
    intro j hi hj
    unfold backtrackFrom
    by_cases hj0 : j > 0
    · rw [if_pos hj0]
      have hr := hrec i j (by omega) hj
      by_cases hne : T.get (i + 1) j ≠ T.get i j
      · rw [if_pos hne]
        have hfit : ¬ j < w i := by
          intro hlt
          rw [if_pos hlt] at hr
          exact hne hr
        rw [if_neg hfit] at hr
        have hval : T.get (i + 1) j = T.get i (j - w i) + v i := by
          rcases le_total (T.get i j) (T.get i (j - w i) + v i) with h | h
          · rw [hr, max_eq_right h]
          · rw [max_eq_left h] at hr
            exact absurd hr hne
        obtain ⟨h1, h2, h3, h4⟩ := ih (j - w i) (by omega) (by omega)
        refine ⟨?_, ?_, ?_, ?_⟩
        · rw [List.map_cons, List.pairwise_cons]
          refine ⟨fun a ha => ?_, h1⟩
          obtain ⟨e, he, rfl⟩ := List.mem_map.mp ha
          exact (h2 e he).1
        · intro e he
          rcases List.mem_cons.mp he with rfl | he
          · exact ⟨by simp, rfl, hj0, le_refl _⟩
          · obtain ⟨a, b, c, d⟩ := h2 e he
            exact ⟨by omega, b, c, by omega⟩
        · rw [List.map_cons, List.sum_cons]
          simp only
          omega
        · rw [List.map_cons, List.sum_cons, h4, hval]
          simp only
          omega
      · rw [if_neg hne]
        have heq : T.get (i + 1) j = T.get i j := not_not.mp hne
        obtain ⟨h1, h2, h3, h4⟩ := ih j (by omega) hj
        refine ⟨h1, fun e he => ?_, h3, by rw [h4, heq]⟩
        obtain ⟨a, b, c, d⟩ := h2 e he
        exact ⟨by omega, b, c, d⟩
    · rw [if_neg hj0]
      have : j = 0 := by omega
      subst this
      simp [hcol (i + 1) hi]

theorem getD_mem_of_lt {α : Type} [Inhabited α] (l : List α) (i : Nat) (h : i < l.length) :
    l.getD i default ∈ l := by
  rw [List.getD_eq_getElem _ _ h]
  exact List.getElem_mem h

theorem path01_spec (items : List Item) (capacity : Nat) (hw : ∀ it ∈ items, 0 < it.weight) :
    ((path01 items capacity).map (fun e => e.item)).Pairwise (fun a b => a > b) ∧
    (∀ e ∈ path01 items capacity,
      e.item < items.length ∧ e.r = e.item + 1 ∧ 0 < e.c ∧ e.c ≤ capacity) ∧
    ((path01 items capacity).map (fun e => (items.getD e.item default).weight)).sum ≤ capacity ∧
    ((path01 items capacity).map (fun e => (items.getD e.item default).value)).sum
      = maxValue01 items capacity := by
  obtain ⟨h0, hrec⟩ := fill01_rec items capacity
  exact backtrackFrom_spec (fun t => (items.getD t default).weight)
    (fun t => (items.getD t default).value) (fill01 items capacity) items.length capacity
    (fun i hi => hw _ (getD_mem_of_lt items i hi)) h0 hrec items.length capacity (le_refl _)
    (le_refl _)

/-- In exact arithmetic: for a 0/1 instance with positive weights the backtracked path is one
optimal selection: its item indices are strictly decreasing (so pairwise distinct) positions of
the input, the total weight of the listed items is at most the capacity, and their total value
is `max_value = dp[n][C]`, the greatest value of a subset of the items within the capacity. -/
theorem path01_optimal (items : List Item) (capacity : Nat)
    (hw : ∀ it ∈ items, 0 < it.weight) :
    ((path01 items capacity).map (fun e => e.item)).Pairwise (fun a b => a > b) ∧
    (∀ e ∈ path01 items capacity, e.item < items.length) ∧
    ((path01 items capacity).map (fun e => (items.getD e.item default).weight)).sum ≤ capacity ∧
    ((path01 items capacity).map (fun e => (items.getD e.item default).value)).sum
      = maxValue01 items capacity ∧
    IsGreatest (feasibleValues01 items items.length capacity)
      ((path01 items capacity).map (fun e => (items.getD e.item default).value)).sum := by
  obtain ⟨h1, h2, h3, h4⟩ := path01_spec items capacity hw
  refine ⟨h1, fun e he => (h2 e he).1, h3, h4, ?_⟩
  rw [h4]
  exact fill01_greatest items capacity _ _ (le_refl _) (le_refl _)

theorem path01_optimal_witness :
    (∀ it ∈ [(⟨1, 1⟩ : Item), ⟨2, 3⟩, ⟨3, 4⟩], 0 < it.weight) ∧
    path01 [⟨1, 1⟩, ⟨2, 3⟩, ⟨3, 4⟩] 5 = [⟨3, 5, 2⟩, ⟨2, 2, 1⟩] ∧
    ((path01 [⟨1, 1⟩, ⟨2, 3⟩, ⟨3, 4⟩] 5).map
      (fun e => (([⟨1, 1⟩, ⟨2, 3⟩, ⟨3, 4⟩] : List Item).getD e.item default).value)).sum
      = maxValue01 [⟨1, 1⟩, ⟨2, 3⟩, ⟨3, 4⟩] 5 :=
  ⟨by decide, by decide, (path01_optimal [⟨1, 1⟩, ⟨2, 3⟩, ⟨3, 4⟩] 5 (by decide)).2.2.2.1⟩

/-! ## The backtracking walk of the complete knapsack -/

theorem colComplete_zero (items : List Item) (C : Nat) (hw : ∀ it ∈ items, 0 < it.weight) :
    ∀ i, i ≤ items.length → (fillComplete items C).get i 0 = 0 := by
  obtain ⟨h0, hrec⟩ := fillComplete_rec items C hw
  intro i
  induction i with
  | zero => intro _; exact h0 0 (Nat.zero_le _)
  | succ i ih =>
    intro hi
    rw [hrec i 0 (by omega) (Nat.zero_le _), if_pos (hw _ (getD_mem_of_lt items i (by omega)))]
    exact ih (by omega)

/-- A take step of the complete walk: the cell differs from the one above only when the item
fits and the cell is the cell `w` to the left, in the same row, plus the value. -/
theorem takeComplete (items : List Item) (C : Nat) (hw : ∀ it ∈ items, 0 < it.weight)
    (i j : Nat) (hi : i < items.length) (hj : j ≤ C)
    (hne : (fillComplete items C).get (i + 1) j ≠ (fillComplete items C).get i j) :
    (items.getD i default).weight ≤ j ∧ 0 < (items.getD i default).weight ∧
    (fillComplete items C).get (i + 1) j
      = (fillComplete items C).get (i + 1) (j - (items.getD i default).weight)
        + (items.getD i default).value := by
  have hr := (fillComplete_rec items C hw).2 i j hi hj
  have hfit : ¬ j < (items.getD i default).weight := by
    intro hlt
    rw [if_pos hlt] at hr
    exact hne hr
  rw [if_neg hfit] at hr
  refine ⟨by omega, hw _ (getD_mem_of_lt items i hi), ?_⟩
  rcases le_total ((fillComplete items C).get i j)
      ((fillComplete items C).get (i + 1) (j - (items.getD i default).weight)
        + (items.getD i default).value) with h | h
  · rw [hr, max_eq_right h]
  · rw [max_eq_left h] at hr
    exact absurd hr hne

/-- One more iteration than `i + j` changes nothing: the loop has ended. -/
theorem backtrackComplete_stable (items : List Item) (C : Nat)
    (hw : ∀ it ∈ items, 0 < it.weight) :
    ∀ fuel i j, i ≤ items.length → j ≤ C → i + j ≤ fuel →
      backtrackComplete items (fillComplete items C) (fuel + 1) i j
        = backtrackComplete items (fillComplete items C) fuel i j := by
  intro fuel
  induction fuel with
  | zero =>
    intro i j _ _ h
    have hi0 : i = 0 := by omega
    subst hi0
    simp [backtrackComplete]
  | succ fuel ih =>
    intro i j hi hj h
    rw [backtrackComplete]
    conv_rhs => rw [backtrackComplete]
    by_cases hc : i > 0 ∧ j > 0
    · rw [if_pos hc, if_pos hc]
      obtain ⟨i', rfl⟩ : ∃ i', i = i' + 1 := ⟨i - 1, by omega⟩
      by_cases hne : (fillComplete items C).get (i' + 1) j
          ≠ (fillComplete items C).get (i' + 1 - 1) j
      · rw [if_pos hne, if_pos hne]
        have ht := takeComplete items C hw i' j (by omega) hj hne
        rw [ih (i' + 1) _ hi (by omega) (by simp only [Nat.add_sub_cancel]; omega)]
      · rw [if_neg hne, if_neg hne]
        rw [ih _ j (by omega) hj (by omega)]
    · rw [if_neg hc, if_neg hc]

theorem backtrackComplete_fuel (items : List Item) (C : Nat)
    (hw : ∀ it ∈ items, 0 < it.weight) (i j : Nat) (hi : i ≤ items.length) (hj : j ≤ C) :
    ∀ extra, backtrackComplete items (fillComplete items C) (i + j + extra) i j
      = backtrackComplete items (fillComplete items C) (i + j) i j := by
  intro extra
  induction extra with
  | zero => rfl
  | succ e ih =>
    rw [← Nat.add_assoc, backtrackComplete_stable items C hw _ i j hi hj (by omega), ih]

/-- The complete walk from the cell `(i, j)` with at least `i + j` iterations: every entry
accounts for one copy of its item, the columns go down by the weight of the entry before, the
total weight is at most `j` and the total value is `dp[i][j]`. -/
theorem backtrackComplete_spec (items : List Item) (C : Nat)
    (hw : ∀ it ∈ items, 0 < it.weight) :
    ∀ fuel i j, i ≤ items.length → j ≤ C → i + j ≤ fuel →
      (∀ e ∈ backtrackComplete items (fillComplete items C) fuel i j,
        e.item < i ∧ e.r = e.item + 1 ∧ 0 < e.c) ∧
      (∀ e ∈ (backtrackComplete items (fillComplete items C) fuel i j).head?, e.c = j) ∧
      (backtrackComplete items (fillComplete items C) fuel i j).Chain'
        (fun e1 e2 => e2.r ≤ e1.r ∧ e2.c + (items.getD e1.item default).weight = e1.c) ∧
      ((backtrackComplete items (fillComplete items C) fuel i j).map
        (fun e => (items.getD e.item default).weight)).sum ≤ j ∧
      ((backtrackComplete items (fillComplete items C) fuel i j).map
        (fun e => (items.getD e.item default).value)).sum = (fillComplete items C).get i j := by
  have hcol := colComplete_zero items C hw
  have h0 := (fillComplete_rec items C hw).1
  intro fuel
  induction fuel with
  | zero =>
    intro i j _ _ h
    have hi0 : i = 0 := by omega
    have hj0 : j = 0 := by omega
    subst hi0 hj0
    simp [backtrackComplete, h0 0 (Nat.zero_le _)]
  | succ fuel ih =>
    intro i j hi hj h
    rw [backtrackComplete]
    by_cases hc : i > 0 ∧ j > 0
    · rw [if_pos hc]
      obtain ⟨i', rfl⟩ : ∃ i', i = i' + 1 := ⟨i - 1, by omega⟩
      by_cases hne : (fillComplete items C).get (i' + 1) j
          ≠ (fillComplete items C).get (i' + 1 - 1) j
      · rw [if_pos hne]
        obtain ⟨hfit, hpos, hval⟩ := takeComplete items C hw i' j (by omega) hj hne
        simp only [Nat.add_sub_cancel]
        obtain ⟨h1, h2, h3, h4, h5⟩ := ih (i' + 1) (j - (items.getD i' default).weight) hi
          (by omega) (by omega)
        refine ⟨?_, ?_, ?_, ?_, ?_⟩
        · intro e he
          rcases List.mem_cons.mp he with rfl | he
          · exact ⟨by simp, rfl, hc.2⟩
          · exact h1 e he
        · intro e he
          simp only [List.head?_cons, Option.mem_def, Option.some.injEq] at he
          subst he
          rfl
        · rw [List.chain'_cons']
          refine ⟨fun e he => ?_, h3⟩
          have hc2 := h2 e he
          have hr := h1 e (List.mem_of_mem_head? he)
          simp only
          omega
        · rw [List.map_cons, List.sum_cons]
          simp only
          omega
        · rw [List.map_cons, List.sum_cons, h5, hval]
          simp only
          omega
      · rw [if_neg hne]
        simp only [Nat.add_sub_cancel] at hne ⊢
        have heq : (fillComplete items C).get (i' + 1) j = (fillComplete items C).get i' j :=
          not_not.mp hne
        obtain ⟨h1, h2, h3, h4, h5⟩ := ih i' j (by omega) hj (by omega)
        refine ⟨fun e he => ?_, h2, h3, h4, by rw [h5, heq]⟩
        obtain ⟨a, b, c⟩ := h1 e he
        exact ⟨by omega, b, c⟩
    · rw [if_neg hc]
      have hz : (fillComplete items C).get i j = 0 := by
        by_cases hi0 : i = 0
        · subst hi0
          exact h0 j hj
        · have hj0 : j = 0 := by omega
          subst hj0
          exact hcol i hi
      simp [hz]

/-- In exact arithmetic: for a complete (unbounded) instance with positive weights the backtracking
loop ends within `n + C` iterations, and its path has one tuple per selected copy: a take step
stays in its row (the next tuple is in the same row or above, its column lower by exactly the
weight of the item taken), so an item recurs once per copy; read as a multiset of items the path
has total weight at most the capacity and total value `max_value = dp[n][C]`, the optimum. -/
theorem pathComplete_optimal (items : List Item) (capacity : Nat)
    (hw : ∀ it ∈ items, 0 < it.weight) :
    (∀ fuel, items.length + capacity ≤ fuel →
      pathComplete items capacity fuel
        = pathComplete items capacity (items.length + capacity)) ∧
    (∀ e ∈ pathComplete items capacity (items.length + capacity),
      e.item < items.length ∧ e.r = e.item + 1) ∧
    (pathComplete items capacity (items.length + capacity)).Chain'
      (fun e1 e2 => e2.r ≤ e1.r ∧ e2.c + (items.getD e1.item default).weight = e1.c) ∧
    ((pathComplete items capacity (items.length + capacity)).map
      (fun e => (items.getD e.item default).weight)).sum ≤ capacity ∧
    ((pathComplete items capacity (items.length + capacity)).map
      (fun e => (items.getD e.item default).value)).sum = maxValueComplete items capacity ∧
    IsGreatest (feasibleValuesComplete items items.length capacity)
      ((pathComplete items capacity (items.length + capacity)).map
        (fun e => (items.getD e.item default).value)).sum := by
  obtain ⟨h1, _, h3, h4, h5⟩ := backtrackComplete_spec items capacity hw
    (items.length + capacity) items.length capacity (le_refl _) (le_refl _) (le_refl _)
  refine ⟨fun fuel hf => ?_, fun e he => ⟨(h1 e he).1, (h1 e he).2.1⟩, h3, h4, h5, ?_⟩
  · obtain ⟨extra, rfl⟩ := Nat.exists_eq_add_of_le hf
    exact backtrackComplete_fuel items capacity hw _ _ (le_refl _) (le_refl _) extra
  · unfold pathComplete
    rw [h5]
    exact fillComplete_greatest items capacity hw _ _ (le_refl _) (le_refl _)

theorem pathComplete_optimal_witness :
    (∀ it ∈ [(⟨1, 1⟩ : Item), ⟨2, 3⟩], 0 < it.weight) ∧
    pathComplete [⟨1, 1⟩, ⟨2, 3⟩] 5 7 = [⟨2, 5, 1⟩, ⟨2, 3, 1⟩, ⟨1, 1, 0⟩] ∧
    ((pathComplete [⟨1, 1⟩, ⟨2, 3⟩] 5 (2 + 5)).map
      (fun e => (([⟨1, 1⟩, ⟨2, 3⟩] : List Item).getD e.item default).value)).sum
      = maxValueComplete [⟨1, 1⟩, ⟨2, 3⟩] 5 :=
  ⟨by decide, by decide, (pathComplete_optimal [⟨1, 1⟩, ⟨2, 3⟩] 5 (by decide)).2.2.2.2.1⟩

/-! ## The backtracking walk of the multiple knapsack -/

theorem splitOne_append (it : ItemC) (i : Nat) (acc : List SplitItem) :
    splitOne it i acc = acc ++ splitOne it i [] := by
  unfold splitOne
  rw [splitLoop_append]
  by_cases h : (splitLoop it i it.count 1 it.count []).2 > 0
  · simp [h]
  · simp [h]

theorem splitAll_eq (items : List ItemC) :
    splitAll items
      = (List.range items.length).flatMap (fun i => splitOne (items.getD i default) i []) := by
  unfold splitAll
  have h := forLt_filter_flatMap items.length (fun _ => true)
    (fun i => splitOne (items.getD i default) i [])
  rw [List.filter_true] at h
  rw [← h]
  apply forLt_congr
  intro i _ st
  rw [if_pos rfl, splitOne_append]

/-- Every piece of the doubling loop names its item and carries a positive multiplier and the
weight and value of that many copies. -/
theorem splitLoop_pieces (it : ItemC) (i : Nat) : ∀ (fuel k cnt : Nat) (acc : List SplitItem),
    0 < k →
    (∀ s ∈ acc, s.originalIndex = i ∧ 0 < s.splitCount ∧ s.weight = it.weight * s.splitCount ∧
      s.value = it.value * s.splitCount) →
    ∀ s ∈ (splitLoop it i fuel k cnt acc).1, s.originalIndex = i ∧ 0 < s.splitCount ∧
      s.weight = it.weight * s.splitCount ∧ s.value = it.value * s.splitCount := by
  intro fuel
  induction fuel with
  | zero => intro k cnt acc _ h; simpa [splitLoop] using h
  | succ fuel ih =>
    intro k cnt acc hk h
    unfold splitLoop
    by_cases hle : k ≤ cnt
    · rw [if_pos hle]
      apply ih (k * 2) (cnt - k) _ (by omega)
      intro s hs
      rcases List.mem_append.mp hs with hs | hs
      · exact h s hs
      · rw [List.mem_singleton] at hs
        subst hs
        exact ⟨rfl, hk, rfl, rfl⟩
    · rw [if_neg hle]
      exact h

theorem splitOne_pieces (it : ItemC) (i : Nat) :
    ∀ s ∈ splitOne it i [], s.originalIndex = i ∧ 0 < s.splitCount ∧
      s.weight = it.weight * s.splitCount ∧ s.value = it.value * s.splitCount := by
  have h := splitLoop_pieces it i it.count 1 it.count [] (by omega) (by simp)
  unfold splitOne
  by_cases hr : (splitLoop it i it.count 1 it.count []).2 > 0
  · simp only [hr, if_true]
    intro s hs
    rcases List.mem_append.mp hs with hs | hs
    · exact h s hs
    · rw [List.mem_singleton] at hs
      subst hs
      exact ⟨rfl, hr, rfl, rfl⟩
  · simp only [hr, if_false]
    exact h

theorem splitAll_pieces (items : List ItemC) :
    ∀ s ∈ splitAll items, s.originalIndex < items.length ∧ 0 < s.splitCount ∧
      s.weight = (items.getD s.originalIndex default).weight * s.splitCount ∧
      s.value = (items.getD s.originalIndex default).value * s.splitCount := by
  intro s hs
  rw [splitAll_eq] at hs
  obtain ⟨i, hi, hsi⟩ := List.mem_flatMap.mp hs
  obtain ⟨h1, h2, h3, h4⟩ := splitOne_pieces _ i s hsi
  rw [h1]
  exact ⟨List.mem_range.mp hi, h2, h3, h4⟩

/-- The multipliers of the pieces of one original item sum to its count. -/
theorem splitAll_count (items : List ItemC) (i : Nat) (hi : i < items.length) :
    (((splitAll items).filter (fun s => s.originalIndex = i)).map (fun s => s.splitCount)).sum
      = (items.getD i default).count := by
  rw [splitAll_eq]
  have key : ∀ m, (((List.range m).flatMap (fun i => splitOne (items.getD i default) i [])).filter
      (fun s => s.originalIndex = i)).map (fun s => s.splitCount)
      = if i < m then multipliers (items.getD i default) i else [] := by
    intro m
    induction m with
    | zero => simp
    | succ m ih =>
      rw [List.range_succ, List.flatMap_append, List.filter_append, List.map_append, ih]
      simp only [List.flatMap_cons, List.flatMap_nil, List.append_nil]
      by_cases hm : m = i
      · subst hm
        have hall : (splitOne (items.getD m default) m []).filter
            (fun s => s.originalIndex = m) = splitOne (items.getD m default) m [] := by
          rw [List.filter_eq_self]
          intro s hs
          simpa using (splitOne_pieces _ m s hs).1
        rw [hall, if_neg (lt_irrefl _), if_pos (Nat.lt_succ_self _), List.nil_append]
        rfl
      · have hnone : (splitOne (items.getD m default) m []).filter
            (fun s => s.originalIndex = i) = [] := by
          rw [List.filter_eq_nil_iff]
          intro s hs
          have := (splitOne_pieces _ m s hs).1
          simp only [decide_eq_true_eq]
          omega
        rw [hnone, List.map_nil, List.append_nil]
        by_cases him : i < m
        · rw [if_pos him, if_pos (by omega)]
        · rw [if_neg him, if_neg (by omega)]
  rw [key items.length, if_pos hi]
  exact (multipliers_subSums _ i).2

theorem fillMultiple_rec (items : List ItemC) (C : Nat) :
    (∀ j, j ≤ C → (fillMultiple items C).get 0 j = 0) ∧
    ∀ i j, i < (splitAll items).length → j ≤ C →
      (fillMultiple items C).get (i + 1) j =
        if j < ((splitAll items).getD i default).weight then (fillMultiple items C).get i j
        else max ((fillMultiple items C).get i j)
          ((fillMultiple items C).get i (j - ((splitAll items).getD i default).weight)
            + ((splitAll items).getD i default).value) := by
  have h := fillBy01_rec (fun i => ((splitAll items).getD (i - 1) default).weight)
    (fun i => ((splitAll items).getD (i - 1) default).value) (splitAll items).length C
    (Table.mk ((splitAll items).length + 1) (C + 1) 0) (Table.dims_mk _ _ _)
  have hf : fillMultiple items C = forUp 1 (splitAll items).length (fun i dp =>
      forUp 0 C (fun j dp => cell01 ((splitAll items).getD (i - 1) default).weight
        ((splitAll items).getD (i - 1) default).value i j dp) dp)
      (Table.mk ((splitAll items).length + 1) (C + 1) 0) := rfl
  rw [← hf] at h
  constructor
  · intro j hj
    have := h.1 j
    rw [Table.get_mk _ _ _ _ _ (by omega) (by omega)] at this
    exact this
  · intro i j hi hj
    have := h.2 (i + 1) j (by omega) (by omega) hj
    simpa only [rule01, Nat.add_sub_cancel] using this

/-- Sums over a list grouped by a key below `n`. -/
theorem sum_by_key {α : Type} (L : List α) (key g : α → Nat) (f : Nat → Nat) (n : Nat)
    (hk : ∀ e ∈ L, key e < n) :
    ∑ i in Finset.range n, ((L.filter (fun e => key e = i)).map g).sum * f i
      = (L.map (fun e => g e * f (key e))).sum := by
  induction L with
  | nil => simp
  | cons e L ih =>
    have he := hk e (List.mem_cons_self _ _)
    rw [List.map_cons, List.sum_cons, ← ih (fun e' he' => hk e' (List.mem_cons_of_mem _ he'))]
    have : ∀ i, (((e :: L).filter (fun e => key e = i)).map g).sum * f i
        = (if key e = i then g e * f (key e) else 0)
          + ((L.filter (fun e => key e = i)).map g).sum * f i := by
      intro i
      by_cases h : key e = i
      · subst h
        simp [List.filter_cons, Nat.add_mul]
      · simp [List.filter_cons, h]
    simp only [this]
    rw [Finset.sum_add_distrib, Finset.sum_ite_eq]
    simp [he]

theorem map_getD_range {α : Type} [Inhabited α] (l : List α) :
    (List.range l.length).map (fun t => l.getD t default) = l := by
  apply List.ext_getElem
  · simp
  · intro i h1 h2
    simp only [List.getElem_map, List.getElem_range]
    exact List.getD_eq_getElem _ _ h2

/-- Entries of a vector at strictly decreasing positions: their filtered sum is at most the
filtered sum over the whole vector. -/
theorem sum_le_of_decreasing {α : Type} [Inhabited α] (S : List α) (idx : List Nat)
    (hp : idx.Pairwise (fun a b => a > b)) (hlt : ∀ t ∈ idx, t < S.length)
    (p : α → Bool) (g : α → Nat) :
    (((idx.map (fun t => S.getD t default)).filter p).map g).sum
      ≤ ((S.filter p).map g).sum := by
  have hs : idx.reverse.Sorted (fun a b => a < b) := by
    rw [List.Sorted, List.pairwise_reverse]
    exact hp
  have hnd : idx.reverse.Nodup := hs.imp (fun h => Nat.ne_of_lt h)
  have hsub : idx.reverse.Sublist (List.range S.length) := by
    apply List.sublist_of_subperm_of_sorted _ hs (List.pairwise_lt_range _)
    apply hnd.subperm
    intro t ht
    exact List.mem_range.mpr (hlt t (List.mem_reverse.mp ht))
  have h2 := ((hsub.map (fun t => S.getD t default)).filter p).map g
  rw [map_getD_range] at h2
  have h3 := List.Sublist.sum_le_sum h2 (fun a _ => Nat.zero_le a)
  rw [List.map_reverse, List.filter_reverse, List.map_reverse, List.sum_reverse] at h3
  exact h3

theorem pathMultiple_spec (items : List ItemC) (capacity : Nat)
    (hw : ∀ it ∈ items, 0 < it.weight) :
    (∀ e ∈ pathMultiple items capacity, e.item < items.length ∧ 0 < e.splitCnt ∧
      0 < e.r ∧ (splitAll items).getD (e.r - 1) default
        = ⟨(items.getD e.item default).weight * e.splitCnt,
            (items.getD e.item default).value * e.splitCnt, e.item, e.splitCnt⟩) ∧
    ((pathMultiple items capacity).map (fun e => e.r)).Pairwise (fun a b => a > b) ∧
    (∀ i, i < items.length →
      repeatCount (pathMultiple items capacity) i ≤ (items.getD i default).count) ∧
    (∑ i in Finset.range items.length,
      repeatCount (pathMultiple items capacity) i * (items.getD i default).weight) ≤ capacity ∧
    (∑ i in Finset.range items.length,
      repeatCount (pathMultiple items capacity) i * (items.getD i default).value)
        = maxValueMultiple items capacity := by
  obtain ⟨h0, hrec⟩ := fillMultiple_rec items capacity
  have hpc := splitAll_pieces items
  have hmem : ∀ t, t < (splitAll items).length → (splitAll items).getD t default ∈ splitAll items :=
    fun t ht => getD_mem_of_lt _ t ht
  obtain ⟨h1, h2, h3, h4⟩ := backtrackFrom_spec
    (fun t => ((splitAll items).getD t default).weight)
    (fun t => ((splitAll items).getD t default).value) (fillMultiple items capacity)
    (splitAll items).length capacity
    (fun t ht => by
      obtain ⟨a, b, c, _⟩ := hpc _ (hmem t ht)
      simp only [c]
      exact Nat.mul_pos (hw _ (getD_mem_of_lt items _ a)) b)
    h0 hrec (splitAll items).length capacity (le_refl _) (le_refl _)
  have hrc : ∀ i, repeatCount (pathMultiple items capacity) i
      = (((backtrackFrom (fun t => ((splitAll items).getD t default).weight)
          (fillMultiple items capacity) (splitAll items).length capacity).filter
            (fun e => ((splitAll items).getD e.item default).originalIndex = i)).map
          (fun e => ((splitAll items).getD e.item default).splitCount)).sum := by
    intro i
    unfold repeatCount pathMultiple
    simp only [List.filter_map, List.map_map]
    rfl
  refine ⟨?_, ?_, ?_, ?_, ?_⟩
  · intro e he
    unfold pathMultiple at he
    obtain ⟨e0, he0, rfl⟩ := List.mem_map.mp he
    obtain ⟨a, b, _, _⟩ := h2 e0 he0
    obtain ⟨p1, p2, p3, p4⟩ := hpc _ (hmem e0.item a)
    refine ⟨p1, p2, by simp only; omega, ?_⟩
    simp only
    rw [b, Nat.add_sub_cancel, ← p3, ← p4]
  · unfold pathMultiple
    simp only [List.map_map]
    have : ((fun e : PathEntryC => e.r) ∘ fun e : PathEntry =>
        (⟨e.r, e.c, ((splitAll items).getD e.item default).originalIndex,
          ((splitAll items).getD e.item default).splitCount⟩ : PathEntryC))
        = fun e => e.r := rfl
    rw [this]
    rw [List.pairwise_map] at h1 ⊢
    refine h1.imp_of_mem ?_
    intro a b ha hb hab
    rw [(h2 a ha).2.1, (h2 b hb).2.1]
    omega
  · intro i hi
    rw [hrc i, ← splitAll_count items i hi]
    have := sum_le_of_decreasing (splitAll items) _ h1
      (fun t ht => by
        obtain ⟨e, he, rfl⟩ := List.mem_map.mp ht
        exact (h2 e he).1)
      (fun s => decide (s.originalIndex = i)) (fun s => s.splitCount)
    simpa only [List.map_map, List.filter_map, Function.comp] using this
  · simp only [hrc]
    rw [sum_by_key _ (fun e => ((splitAll items).getD e.item default).originalIndex)
      (fun e => ((splitAll items).getD e.item default).splitCount)
      (fun i => (items.getD i default).weight) items.length
      (fun e he => (hpc _ (hmem e.item (h2 e he).1)).1)]
    have : ∀ e ∈ backtrackFrom (fun t => ((splitAll items).getD t default).weight)
        (fillMultiple items capacity) (splitAll items).length capacity,
        ((splitAll items).getD e.item default).splitCount
          * (items.getD ((splitAll items).getD e.item default).originalIndex default).weight
        = ((splitAll items).getD e.item default).weight := by
      intro e he
      rw [(hpc _ (hmem e.item (h2 e he).1)).2.2.1, Nat.mul_comm]
    rw [List.map_congr_left this]
    exact h3
  · simp only [hrc]
    rw [sum_by_key _ (fun e => ((splitAll items).getD e.item default).originalIndex)
      (fun e => ((splitAll items).getD e.item default).splitCount)
      (fun i => (items.getD i default).value) items.length
      (fun e he => (hpc _ (hmem e.item (h2 e he).1)).1)]
    have : ∀ e ∈ backtrackFrom (fun t => ((splitAll items).getD t default).weight)
        (fillMultiple items capacity) (splitAll items).length capacity,
        ((splitAll items).getD e.item default).splitCount
          * (items.getD ((splitAll items).getD e.item default).originalIndex default).value
        = ((splitAll items).getD e.item default).value := by
      intro e he
      rw [(hpc _ (hmem e.item (h2 e he).1)).2.2.2, Nat.mul_comm]
    rw [List.map_congr_left this]
    exact h4

/-- In exact arithmetic: for a multiple-knapsack instance with positive weights the backtracked path
maps every selected pseudo-item back to its original item and multiplier (the pseudo-item of row
`r` is `splitCnt` copies of item `item`, the rows strictly decreasing), and the repeat counts it
reports are true: for every original item `i` the multipliers of the entries naming `i` sum to
some `r i ≤ count i`, with `sum r i * w i ≤ C` and `sum r i * v i = max_value`, the optimum over
the vectors of copy counts. -/
theorem pathMultiple_counts (items : List ItemC) (capacity : Nat)
    (hw : ∀ it ∈ items, 0 < it.weight) :
    (∀ e ∈ pathMultiple items capacity, e.item < items.length ∧ 0 < e.splitCnt ∧
      0 < e.r ∧ (splitAll items).getD (e.r - 1) default
        = ⟨(items.getD e.item default).weight * e.splitCnt,
            (items.getD e.item default).value * e.splitCnt, e.item, e.splitCnt⟩) ∧
    ((pathMultiple items capacity).map (fun e => e.r)).Pairwise (fun a b => a > b) ∧
    (∀ i, i < items.length →
      repeatCount (pathMultiple items capacity) i ≤ (items.getD i default).count) ∧
    (∑ i in Finset.range items.length,
      repeatCount (pathMultiple items capacity) i * (items.getD i default).weight) ≤ capacity ∧
    (∑ i in Finset.range items.length,
      repeatCount (pathMultiple items capacity) i * (items.getD i default).value)
        = maxValueMultiple items capacity ∧
    IsGreatest (feasibleValuesMultiple items capacity)
      (∑ i in Finset.range items.length,
        repeatCount (pathMultiple items capacity) i * (items.getD i default).value) := by
  obtain ⟨h1, h2, h3, h4, h5⟩ := pathMultiple_spec items capacity hw
  refine ⟨h1, h2, h3, h4, h5, ?_⟩
  rw [h5]
  exact maxValueMultiple_greatest items capacity

theorem pathMultiple_counts_witness :
    (∀ it ∈ [(⟨1, 1, 3⟩ : ItemC), ⟨2, 3, 1⟩], 0 < it.weight) ∧
    pathMultiple [⟨1, 1, 3⟩, ⟨2, 3, 1⟩] 4 = [⟨3, 4, 1, 1⟩, ⟨2, 2, 0, 2⟩] ∧
    (∑ i in Finset.range ([(⟨1, 1, 3⟩ : ItemC), ⟨2, 3, 1⟩]).length,
      repeatCount (pathMultiple [⟨1, 1, 3⟩, ⟨2, 3, 1⟩] 4) i
        * (([⟨1, 1, 3⟩, ⟨2, 3, 1⟩] : List ItemC).getD i default).value)
      = maxValueMultiple [⟨1, 1, 3⟩, ⟨2, 3, 1⟩] 4 :=
  ⟨by decide, by decide, (pathMultiple_counts [⟨1, 1, 3⟩, ⟨2, 3, 1⟩] 4 (by decide)).2.2.2.2.1⟩

/-! ## The backtracking walk of the mixed knapsack -/

/-- What a difference from the row above means in the mixed table, for the types 0 and 1. -/
theorem takeMixed (items : List ItemM) (C : Nat) (hw : ∀ it ∈ items, 0 < it.weight)
    (i j : Nat) (hi : i < items.length) (hj : j ≤ C) :
    ((items.getD i default).type = 0 →
      (fillMixed items C).get (i + 1) j ≠ (fillMixed items C).get i j →
      (items.getD i default).weight ≤ j ∧
      (fillMixed items C).get (i + 1) j
        = (fillMixed items C).get i (j - (items.getD i default).weight)
          + (items.getD i default).value) ∧
    ((items.getD i default).type = 1 →
      ((fillMixed items C).get (i + 1) j ≠ (fillMixed items C).get i j →
        (items.getD i default).weight ≤ j ∧
        (fillMixed items C).get (i + 1) j
          = (fillMixed items C).get (i + 1) (j - (items.getD i default).weight)
            + (items.getD i default).value) ∧
      (¬ ((items.getD i default).weight ≤ j ∧
          (fillMixed items C).get (i + 1) j
            = (fillMixed items C).get (i + 1) (j - (items.getD i default).weight)
              + (items.getD i default).value) →
        (fillMixed items C).get (i + 1) j = (fillMixed items C).get i j)) := by
  have hr := (fillMixed_rec items C hw).2 i j hi hj
  unfold ruleMixed at hr
  simp only [Nat.add_sub_cancel] at hr
  constructor
  · intro ht hne
    rw [if_pos ht] at hr
    by_cases hc : j ≥ (items.getD i default).weight ∧
        (fillMixed items C).get i (j - (items.getD i default).weight)
          + (items.getD i default).value > (fillMixed items C).get i j
    · rw [if_pos hc] at hr
      exact ⟨hc.1, hr⟩
    · rw [if_neg hc] at hr
      exact absurd hr hne
  · intro ht
    rw [if_neg (by omega), if_pos ht] at hr
    by_cases hc : j ≥ (items.getD i default).weight ∧
        (fillMixed items C).get (i + 1) (j - (items.getD i default).weight)
          + (items.getD i default).value > (fillMixed items C).get i j
    · rw [if_pos hc] at hr
      exact ⟨fun _ => ⟨hc.1, hr⟩, fun hnot => absurd ⟨hc.1, hr⟩ hnot⟩
    · rw [if_neg hc] at hr
      exact ⟨fun hne => absurd hr hne, fun _ => hr⟩

theorem colMixed_zero (items : List ItemM) (C : Nat) (hw : ∀ it ∈ items, 0 < it.weight)
    (hty : ∀ it ∈ items, it.type ≤ 1) :
    ∀ i, i ≤ items.length → (fillMixed items C).get i 0 = 0 := by
  intro i
  induction i with
  | zero => intro _; exact (fillMixed_rec items C hw).1 0 (Nat.zero_le _)
  | succ i ih =>
    intro hi
    have hpos := hw _ (getD_mem_of_lt items i (by omega))
    have ht := hty _ (getD_mem_of_lt items i (by omega))
    obtain ⟨h0, h1⟩ := takeMixed items C hw i 0 (by omega) (Nat.zero_le _)
    by_contra hne
    have hne' : (fillMixed items C).get (i + 1) 0 ≠ (fillMixed items C).get i 0 := by
      rw [ih (by omega)]
      exact hne
    by_cases h : (items.getD i default).type = 0
    · have := (h0 h hne').1
      omega
    · have := ((h1 (by omega)).1 hne').1
      omega

/-- The while loop of the walk removes `c` copies: it ends at `j - c * w`, the table going
down by `c * v`, where the loop condition fails. -/
theorem whileMixed_spec (T : Table Nat) (i w v : Nat) (hw : 0 < w) :
    ∀ fuel j, j ≤ fuel →
      ∃ c, whileMixed T i w v fuel j = j - c * w ∧ c * w ≤ j ∧
        T.get i j = T.get i (j - c * w) + c * v ∧
        ¬ (w ≤ j - c * w ∧ T.get i (j - c * w) = T.get i (j - c * w - w) + v) ∧
        ((w ≤ j ∧ T.get i j = T.get i (j - w) + v) → 1 ≤ c) := by
  intro fuel
  induction fuel with
  | zero =>
    intro j hj
    have : j = 0 := by omega
    subst this
    exact ⟨0, by simp [whileMixed], by simp, by simp, by simp; omega, by intro h; omega⟩
  | succ fuel ih =>
    intro j hj
    unfold whileMixed
    by_cases hc : j ≥ w ∧ T.get i j = T.get i (j - w) + v
    · rw [if_pos hc]
      obtain ⟨c, h1, h2, h3, h4, _⟩ := ih (j - w) (by omega)
      have e : (c + 1) * w = c * w + w := Nat.succ_mul c w
      have e2 : (c + 1) * v = c * v + v := Nat.succ_mul c v
      have e3 : j - w - c * w = j - (c + 1) * w := by omega
      refine ⟨c + 1, by rw [h1, e3], by omega, ?_, ?_, fun _ => by omega⟩
      · rw [← e3, hc.2, h3, e2]
        omega
      · rw [← e3]
        exact h4
    · rw [if_neg hc]
      refine ⟨0, by simp, by simp, by simp, ?_, fun h => absurd h hc⟩
      simpa using hc

theorem sum_update_zero (x f : Nat → Nat) (n i c : Nat) (hi : i < n) (hx : x i = 0) :
    ∑ t in Finset.range n, Function.update x i c t * f t
      = c * f i + ∑ t in Finset.range n, x t * f t := by
  have : ∀ t, Function.update x i c t * f t = (if t = i then c * f i else 0) + x t * f t := by
    intro t
    by_cases h : t = i
    · subst h
      simp [hx]
    · simp [Function.update_noteq h, h]
  simp only [this]
  rw [Finset.sum_add_distrib, Finset.sum_ite_eq']
  simp [hi]

/-- The mixed walk from the cell `(i, j)`, types 0 and 1 only: strictly decreasing positions
below `i`, and copy counts `x`, positive exactly at the listed positions and at most 1 at
type 0, of total weight at most `j` and total value `dp[i][j]`. -/
theorem backtrackMixed_spec (items : List ItemM) (C : Nat) (hw : ∀ it ∈ items, 0 < it.weight)
    (hty : ∀ it ∈ items, it.type ≤ 1) :
    ∀ i j, i ≤ items.length → j ≤ C →
      ((backtrackMixed items (fillMixed items C) i j).map (fun e => e.item)).Pairwise
        (fun a b => a > b) ∧
      (∀ e ∈ backtrackMixed items (fillMixed items C) i j, e.item < i ∧ e.r = e.item + 1) ∧
      ∃ x : Nat → Nat,
        (∀ t, 0 < x t ↔ t ∈ (backtrackMixed items (fillMixed items C) i j).map
          (fun e => e.item)) ∧
        (∀ t, (items.getD t default).type = 0 → x t ≤ 1) ∧
        (∑ t in Finset.range items.length, x t * (items.getD t default).weight) ≤ j ∧
        (∑ t in Finset.range items.length, x t * (items.getD t default).value)
          = (fillMixed items C).get i j := by
  have hcol := colMixed_zero items C hw hty
  have h0 := (fillMixed_rec items C hw).1
  intro i
  induction i with
  | zero =>
    intro j _ hj
    refine ⟨by simp [backtrackMixed], by simp [backtrackMixed], fun _ => 0, ?_, ?_, ?_, ?_⟩
    · simp [backtrackMixed]
    · intro t _; exact Nat.zero_le _
    · simp
    · simp [h0 j hj]
  | succ i ih =>
    intro j hi hj
    unfold backtrackMixed
    by_cases hj0 : j > 0
    · rw [if_pos hj0]
      by_cases hne : (fillMixed items C).get (i + 1) j ≠ (fillMixed items C).get i j
      · rw [if_pos hne]
        have hpos := hw _ (getD_mem_of_lt items i (by omega))
        have htyi := hty _ (getD_mem_of_lt items i (by omega))
        obtain ⟨ht0, ht1⟩ := takeMixed items C hw i j (by omega) hj
        -- the number of copies removed and the column reached
        have hstep : ∃ c j', 1 ≤ c ∧ c * (items.getD i default).weight + j' ≤ j ∧
            ((items.getD i default).type = 0 → c ≤ 1) ∧
            (fillMixed items C).get (i + 1) j
              = (fillMixed items C).get i j' + c * (items.getD i default).value ∧
            (if (items.getD i default).type = 1 then
              whileMixed (fillMixed items C) (i + 1) (items.getD i default).weight
                (items.getD i default).value j j
             else j - (items.getD i default).weight) = j' := by
          by_cases ht : (items.getD i default).type = 1
          · obtain ⟨c, h1, h2, h3, h4, h5⟩ := whileMixed_spec (fillMixed items C) (i + 1)
              (items.getD i default).weight (items.getD i default).value hpos j j (le_refl _)
            have hrow := (takeMixed items C hw i (j - c * (items.getD i default).weight)
              (by omega) (by omega)).2 ht
            refine ⟨c, j - c * (items.getD i default).weight, h5 ((ht1 ht).1 hne),
              by omega, fun h => by omega, ?_, by rw [if_pos ht, h1]⟩
            rw [h3, hrow.2 h4]
          · have ht' : (items.getD i default).type = 0 := by omega
            obtain ⟨hfit, hval⟩ := ht0 ht' hne
            exact ⟨1, j - (items.getD i default).weight, le_refl _, by omega, fun _ => le_refl _,
              by rw [hval]; omega, by rw [if_neg ht]⟩
        obtain ⟨c, j', hc1, hcw, hc0, hval, hj'⟩ := hstep
        simp only [hj']
        obtain ⟨h1, h2, x, hx1, hx2, hx3, hx4⟩ := ih j' (by omega) (by omega)
        have hxi : x i = 0 := by
          by_contra hne0
          have : i ∈ (backtrackMixed items (fillMixed items C) i j').map (fun e => e.item) :=
            (hx1 i).mp (by omega)
          obtain ⟨e, he, hei⟩ := List.mem_map.mp this
          have := (h2 e he).1
          omega
        refine ⟨?_, ?_, Function.update x i c, ?_, ?_, ?_, ?_⟩
        · rw [List.map_cons, List.pairwise_cons]
          refine ⟨fun a ha => ?_, h1⟩
          obtain ⟨e, he, rfl⟩ := List.mem_map.mp ha
          exact (h2 e he).1
        · intro e he
          rcases List.mem_cons.mp he with rfl | he
          · exact ⟨by simp, rfl⟩
          · exact ⟨by have := (h2 e he).1; omega, (h2 e he).2⟩
        · intro t
          rw [List.map_cons, List.mem_cons]
          by_cases hti : t = i
          · subst hti
            simp only [Function.update_same, true_or, iff_true]
            omega
          · rw [Function.update_noteq hti, hx1 t]
            simp [hti]
        · intro t htt
          by_cases hti : t = i
          · subst hti
            rw [Function.update_same]
            exact hc0 htt
          · rw [Function.update_noteq hti]
            exact hx2 t htt
        · rw [sum_update_zero x _ items.length i c (by omega) hxi]
          omega
        · rw [sum_update_zero x _ items.length i c (by omega) hxi, hx4, hval]
          omega
      · rw [if_neg hne]
        have heq : (fillMixed items C).get (i + 1) j = (fillMixed items C).get i j :=
          not_not.mp hne
        obtain ⟨h1, h2, x, hx1, hx2, hx3, hx4⟩ := ih j (by omega) hj
        exact ⟨h1, fun e he => ⟨by have := (h2 e he).1; omega, (h2 e he).2⟩, x, hx1, hx2, hx3,
          by rw [hx4, heq]⟩
    · rw [if_neg hj0]
      have : j = 0 := by omega
      subst this
      refine ⟨by simp, by simp, fun _ => 0, by simp, fun t _ => Nat.zero_le _, by simp, ?_⟩
      simp [hcol (i + 1) hi]

/-- In exact arithmetic: the path of the mixed solver has one tuple per item, not one per
copy. With capacity 3 and the one unbounded item `(w, v, type) = (1, 1, 1)` three copies are
taken, `max_value = 3`, and the path is the single tuple of item 0, whose items have total
value 1. (For a type-2 item the walk moreover lowers the column by one weight only, whatever the
number of copies: with capacity 3 and the items `(1, 1, 0), (1, 5, 2)` the path lists items 1
and 0 though `max_value = 15` is three copies of item 1.) -/
theorem pathMixed_one_tuple_per_item :
    pathMixed [(1, 1, 1)] 3 = [⟨1, 3, 0⟩] ∧ maxValueMixed [(1, 1, 1)] 3 = 3 ∧
    ((pathMixed [(1, 1, 1)] 3).map
      (fun e => ((parseMixed [(1, 1, 1)]).getD e.item default).value)).sum = 1 ∧
    pathMixed [(1, 1, 0), (1, 5, 2)] 3 = [⟨2, 3, 1⟩, ⟨1, 2, 0⟩] ∧
    maxValueMixed [(1, 1, 0), (1, 5, 2)] 3 = 15 := by
  decide

/-- In exact arithmetic: for a mixed instance with types 0 and 1 only and positive weights the
backtracked path has one tuple per selected item, at strictly decreasing positions of the
input, the tuple of a type-1 item standing for all the copies the while loop removes: there
are copy counts `x`, positive exactly at the listed items and at most 1 at a type-0 item, with
`sum x t * w t ≤ C` and `sum x t * v t = max_value = dp[n][C]`, the optimum. -/
theorem pathMixed_items (args : List (Nat × Nat × Nat)) (capacity : Nat)
    (hty : ∀ a ∈ args, a.2.2 ≤ 1) (hw : ∀ a ∈ args, 0 < a.1) :
    ((pathMixed args capacity).map (fun e => e.item)).Pairwise (fun a b => a > b) ∧
    (∀ e ∈ pathMixed args capacity, e.item < args.length ∧ e.r = e.item + 1) ∧
    ∃ x : Nat → Nat,
      (∀ t, 0 < x t ↔ t ∈ (pathMixed args capacity).map (fun e => e.item)) ∧
      (∀ t, ((parseMixed args).getD t default).type = 0 → x t ≤ 1) ∧
      (∑ t in Finset.range args.length, x t * ((parseMixed args).getD t default).weight)
        ≤ capacity ∧
      (∑ t in Finset.range args.length, x t * ((parseMixed args).getD t default).value)
        = maxValueMixed args capacity ∧
      IsGreatest (feasibleValuesMixed args args.length capacity)
        (∑ t in Finset.range args.length, x t * ((parseMixed args).getD t default).value) := by
  have hlen : (parseMixed args).length = args.length := by simp [parseMixed]
  have hw' : ∀ it ∈ parseMixed args, 0 < it.weight := by
    intro it hit
    unfold parseMixed at hit
    obtain ⟨a, ha, rfl⟩ := List.mem_map.1 hit
    exact hw a ha
  have hty' : ∀ it ∈ parseMixed args, it.type ≤ 1 := by
    intro it hit
    unfold parseMixed at hit
    obtain ⟨a, ha, rfl⟩ := List.mem_map.1 hit
    exact hty a ha
  obtain ⟨h1, h2, x, hx1, hx2, hx3, hx4⟩ := backtrackMixed_spec (parseMixed args) capacity hw'
    hty' (parseMixed args).length capacity (le_refl _) (le_refl _)
  rw [hlen] at hx3 hx4
  refine ⟨h1, fun e he => ?_, x, hx1, hx2, hx3, hx4, ?_⟩
  · have := h2 e he
    rw [hlen] at this
    exact this
  · rw [hx4]
    exact fillMixed_greatest args capacity (fun a ha => by have := hty a ha; omega) hw _ _
      (le_refl _) (le_refl _)

theorem pathMixed_items_witness :
    (∀ a ∈ [((1 : Nat), (1 : Nat), (1 : Nat)), (2, 5, 0)], a.2.2 ≤ 1) ∧
    (∀ a ∈ [((1 : Nat), (1 : Nat), (1 : Nat)), (2, 5, 0)], 0 < a.1) ∧
    pathMixed [(1, 1, 1), (2, 5, 0)] 4 = [⟨2, 4, 1⟩, ⟨1, 2, 0⟩] ∧
    maxValueMixed [(1, 1, 1), (2, 5, 0)] 4 = 7 ∧
    ((pathMixed [(1, 1, 1), (2, 5, 0)] 4).map (fun e => e.item)).Pairwise (fun a b => a > b) :=
  ⟨by decide, by decide, by decide, by decide,
    (pathMixed_items [(1, 1, 1), (2, 5, 0)] 4 (by decide) (by decide)).1⟩

/-! ## The backtracking walk of the two-resource knapsack -/

/-- With positive weights column `j = 0` of the two-resource table is zero, and with positive
secondary costs so is column `k = 0`. -/
theorem col2D_zero (items : List Item2D) (C M : Nat) :
    ((∀ it ∈ items, 0 < it.weight) →
      ∀ i k, i ≤ items.length → k ≤ M → (fill2D items C M).get i 0 k = 0) ∧
    ((∀ it ∈ items, 0 < it.volume) →
      ∀ i j, i ≤ items.length → j ≤ C → (fill2D items C M).get i j 0 = 0) := by
  obtain ⟨h0, hrec⟩ := fill2D_rec items C M
  constructor
  · intro hw i
    induction i with
    | zero => intro k _ hk; exact h0 0 k (Nat.zero_le _) hk
    | succ i ih =>
      intro k hi hk
      have := hw _ (getD_mem_of_lt items i (by omega))
      rw [hrec i 0 k (by omega) (Nat.zero_le _) hk, if_neg (by omega)]
      exact ih k (by omega) hk
  · intro hm i
    induction i with
    | zero => intro j _ hj; exact h0 j 0 hj (Nat.zero_le _)
    | succ i ih =>
      intro j hi hj
      have := hm _ (getD_mem_of_lt items i (by omega))
      rw [hrec i j 0 (by omega) hj (Nat.zero_le _), if_neg (by omega)]
      exact ih j (by omega) hj

/-- The two-resource walk from the cell `(i, j, k)`, weights and secondary costs positive:
strictly decreasing positions below `i`, of total weight at most `j`, total secondary cost at
most `k` and total value `dp[i][j][k]`. -/
theorem backtrack2D_spec (items : List Item2D) (C M : Nat)
    (hw : ∀ it ∈ items, 0 < it.weight) (hm : ∀ it ∈ items, 0 < it.volume) :
    ∀ i j k, i ≤ items.length → j ≤ C → k ≤ M →
      ((backtrack2D items (fill2D items C M) i j k).map (fun e => e.item)).Pairwise
        (fun a b => a > b) ∧
      (∀ e ∈ backtrack2D items (fill2D items C M) i j k, e.item < i ∧ e.r = e.item + 1) ∧
      ((backtrack2D items (fill2D items C M) i j k).map
        (fun e => (items.getD e.item default).weight)).sum ≤ j ∧
      ((backtrack2D items (fill2D items C M) i j k).map
        (fun e => (items.getD e.item default).volume)).sum ≤ k ∧
      ((backtrack2D items (fill2D items C M) i j k).map
        (fun e => (items.getD e.item default).value)).sum = (fill2D items C M).get i j k := by
  obtain ⟨h0, hrec⟩ := fill2D_rec items C M
  have hcj := (col2D_zero items C M).1 hw
  have hck := (col2D_zero items C M).2 hm
  intro i
  induction i with
  | zero =>
    intro j k _ hj hk
    simp [backtrack2D, h0 j k hj hk]
  | succ i ih =>
    intro j k hi hj hk
    unfold backtrack2D
    by_cases hc : j > 0 ∧ k > 0
    · rw [if_pos hc]
      have hr := hrec i j k (by omega) hj hk
      by_cases hne : (fill2D items C M).get (i + 1) j k ≠ (fill2D items C M).get i j k
      · rw [if_pos hne]
        have hfit : j ≥ (items.getD i default).weight ∧ k ≥ (items.getD i default).volume := by
          by_contra hnot
          rw [if_neg hnot] at hr
          exact hne hr
        rw [if_pos hfit] at hr
        have hval : (fill2D items C M).get (i + 1) j k
            = (fill2D items C M).get i (j - (items.getD i default).weight)
                (k - (items.getD i default).volume) + (items.getD i default).value := by
          rcases le_total ((fill2D items C M).get i j k)
              ((fill2D items C M).get i (j - (items.getD i default).weight)
                (k - (items.getD i default).volume) + (items.getD i default).value) with h | h
          · rw [hr, max_eq_right h]
          · rw [max_eq_left h] at hr
            exact absurd hr hne
        obtain ⟨h1, h2, h3, h4, h5⟩ := ih (j - (items.getD i default).weight)
          (k - (items.getD i default).volume) (by omega) (by omega) (by omega)
        refine ⟨?_, ?_, ?_, ?_, ?_⟩
        · rw [List.map_cons, List.pairwise_cons]
          refine ⟨fun a ha => ?_, h1⟩
          obtain ⟨e, he, rfl⟩ := List.mem_map.mp ha
          exact (h2 e he).1
        · intro e he
          rcases List.mem_cons.mp he with rfl | he
          · exact ⟨by simp, rfl⟩
          · exact ⟨by have := (h2 e he).1; omega, (h2 e he).2⟩
        · rw [List.map_cons, List.sum_cons]
          simp only
          omega
        · rw [List.map_cons, List.sum_cons]
          simp only
          omega
        · rw [List.map_cons, List.sum_cons, h5, hval]
          simp only
          omega
      · rw [if_neg hne]
        have heq : (fill2D items C M).get (i + 1) j k = (fill2D items C M).get i j k :=
          not_not.mp hne
        obtain ⟨h1, h2, h3, h4, h5⟩ := ih j k (by omega) hj hk
        exact ⟨h1, fun e he => ⟨by have := (h2 e he).1; omega, (h2 e he).2⟩, h3, h4,
          by rw [h5, heq]⟩
    · rw [if_neg hc]
      have hz : (fill2D items C M).get (i + 1) j k = 0 := by
        by_cases hj0 : j = 0
        · subst hj0
          exact hcj (i + 1) k hi hk
        · have hk0 : k = 0 := by omega
          subst hk0
          exact hck (i + 1) j hi hj
      simp [hz]

/-- In exact arithmetic: an item of secondary cost 0 is left out of the path when the
secondary capacity is 0, or has reached 0 on the way: the loop runs only while `k > 0`. With
`C = 1, M = 0` and the one item `(w, m, v) = (1, 0, 5)` the path is empty though
`max_value = 5`; with `C = 2, M = 1` and the items `(1, 0, 5), (1, 1, 7)` the path lists only
item 1, of value 7, though `max_value = 12`. -/
theorem path2D_misses_free_items :
    path2D [⟨1, 0, 5⟩] 1 0 = [] ∧ maxValue2D [⟨1, 0, 5⟩] 1 0 = 5 ∧
    path2D [⟨1, 0, 5⟩, ⟨1, 1, 7⟩] 2 1 = [⟨2, 2, 1⟩] ∧
    maxValue2D [⟨1, 0, 5⟩, ⟨1, 1, 7⟩] 2 1 = 12 := by
  decide

/-- In exact arithmetic: for a two-resource instance with positive weights and positive secondary
costs the backtracked path is one optimal selection: its item indices are strictly decreasing
(so pairwise distinct) positions of the input, their total weight is at most `C`, their total
secondary cost at most `M`, and their total value is `max_value = dp[n][C][M]`, the optimum. -/
theorem path2D_optimal (items : List Item2D) (capacity capacity2 : Nat)
    (hw : ∀ it ∈ items, 0 < it.weight) (hm : ∀ it ∈ items, 0 < it.volume) :
    ((path2D items capacity capacity2).map (fun e => e.item)).Pairwise (fun a b => a > b) ∧
    (∀ e ∈ path2D items capacity capacity2, e.item < items.length) ∧
    ((path2D items capacity capacity2).map
      (fun e => (items.getD e.item default).weight)).sum ≤ capacity ∧
    ((path2D items capacity capacity2).map
      (fun e => (items.getD e.item default).volume)).sum ≤ capacity2 ∧
    ((path2D items capacity capacity2).map
      (fun e => (items.getD e.item default).value)).sum = maxValue2D items capacity capacity2 ∧
    IsGreatest (feasibleValues2D items items.length capacity capacity2)
      ((path2D items capacity capacity2).map (fun e => (items.getD e.item default).value)).sum := by
  obtain ⟨h1, h2, h3, h4, h5⟩ := backtrack2D_spec items capacity capacity2 hw hm
    items.length capacity capacity2 (le_refl _) (le_refl _) (le_refl _)
  refine ⟨h1, fun e he => (h2 e he).1, h3, h4, h5, ?_⟩
  unfold path2D
  rw [h5]
  exact fill2D_greatest items capacity capacity2 _ _ _ (le_refl _) (le_refl _) (le_refl _)

theorem path2D_optimal_witness :
    (∀ it ∈ [(⟨1, 1, 5⟩ : Item2D), ⟨1, 2, 7⟩], 0 < it.weight) ∧
    (∀ it ∈ [(⟨1, 1, 5⟩ : Item2D), ⟨1, 2, 7⟩], 0 < it.volume) ∧
    path2D [⟨1, 1, 5⟩, ⟨1, 2, 7⟩] 2 2 = [⟨2, 2, 1⟩] ∧
    ((path2D [⟨1, 1, 5⟩, ⟨1, 2, 7⟩] 2 2).map
      (fun e => (([⟨1, 1, 5⟩, ⟨1, 2, 7⟩] : List Item2D).getD e.item default).value)).sum
      = maxValue2D [⟨1, 1, 5⟩, ⟨1, 2, 7⟩] 2 2 :=
  ⟨by decide, by decide, by decide,
    (path2D_optimal [⟨1, 1, 5⟩, ⟨1, 2, 7⟩] 2 2 (by decide) (by decide)).2.2.2.2.1⟩

/-! ## The path of the dependency knapsack -/

/-- C17 (refuted): the path can hold two packages of the same main item. With capacity 3, the
main item `(w, v) = (1, 10)` and its attachment `(1, 1)`, the packages are `[0]` and `[0, 1]`;
the table, filled by the 0/1 rule over all packages, takes both (`max_value = 21`), and the
path lists the package `[0, 1]` at row 2 and the package `[0]` at row 1: item 0 occurs in two
path entries. -/
theorem pathDepend_repeats_main :
    pathDepend [⟨1, 10, 0⟩, ⟨1, 1, 1⟩] 3 = [⟨2, 3, [0, 1]⟩, ⟨1, 1, [0]⟩] ∧
    maxValueDepend [⟨1, 10, 0⟩, ⟨1, 1, 1⟩] 3 = 21 ∧
    ¬ ((pathDepend [⟨1, 10, 0⟩, ⟨1, 1, 1⟩] 3).flatMap (fun e => e.items)).Nodup := by
  decide

/-! ## Group knapsack: the recorded `bestChoice` and the backtracker -/

/-- The loop over the members of a group, as a function of the row of the previous group. -/
theorem cellGroup_eq (items : List ItemG) (groupItems : List Nat) (g j : Nat) (T : Table Nat)
    (R Cc : Nat) (hT : T.Dims R Cc) (hg : g + 1 < R) (hj : j < Cc) :
    cellGroup items groupItems g j T
      = (T.set (g + 1) j (choiceOfGroup items groupItems (fun b => T.get g b) j).1,
          (choiceOfGroup items groupItems (fun b => T.get g b) j).2) := by
  unfold cellGroup choiceOfGroup
  have key : ∀ (l : List Nat) (best : Nat) (bc : Int),
      l.foldl (fun (st : Table Nat × Int) idx =>
        if j ≥ (items.getD idx default).weight ∧
            st.1.get g (j - (items.getD idx default).weight) + (items.getD idx default).value
              > st.1.get (g + 1) j then
          (st.1.set (g + 1) j (st.1.get g (j - (items.getD idx default).weight)
            + (items.getD idx default).value), (idx : Int))
        else st) (T.set (g + 1) j best, bc)
      = (T.set (g + 1) j (l.foldl (fun (st : Nat × Int) idx =>
          if j ≥ (items.getD idx default).weight ∧
              T.get g (j - (items.getD idx default).weight) + (items.getD idx default).value
                > st.1 then
            (T.get g (j - (items.getD idx default).weight) + (items.getD idx default).value,
              (idx : Int))
          else st) (best, bc)).1,
        (l.foldl (fun (st : Nat × Int) idx =>
          if j ≥ (items.getD idx default).weight ∧
              T.get g (j - (items.getD idx default).weight) + (items.getD idx default).value
                > st.1 then
            (T.get g (j - (items.getD idx default).weight) + (items.getD idx default).value,
              (idx : Int))
          else st) (best, bc)).2) := by
    intro l
    induction l with
    | nil => intro best bc; rfl
    | cons idx l ih =>
      intro best bc
      rw [List.foldl_cons, List.foldl_cons]
      have e1 : ∀ b, (T.set (g + 1) j best).get g b = T.get g b :=
        fun b => Table.get_set_other _ _ _ _ _ _ (by simp)
      have e2 : (T.set (g + 1) j best).get (g + 1) j = best :=
        Table.get_set_same _ _ _ hT _ _ _ hg hj
      simp only [e1, e2]
      split
      · rw [Table.set_set, ih]
      · rw [ih]
  exact key groupItems _ _

theorem choiceOfGroup_fst (items : List ItemG) (groupItems : List Nat) (prev : Nat → Nat)
    (j : Nat) :
    (choiceOfGroup items groupItems prev j).1 = bestOfGroup items groupItems prev j := by
  unfold choiceOfGroup bestOfGroup
  have key : ∀ (l : List Nat) (best : Nat) (bc : Int),
      (l.foldl (fun (st : Nat × Int) idx =>
        if j ≥ (items.getD idx default).weight ∧
            prev (j - (items.getD idx default).weight) + (items.getD idx default).value
              > st.1 then
          (prev (j - (items.getD idx default).weight) + (items.getD idx default).value,
            (idx : Int))
        else st) (best, bc)).1
      = l.foldl (fun best idx =>
          if j ≥ (items.getD idx default).weight ∧
              prev (j - (items.getD idx default).weight) + (items.getD idx default).value
                > best then
            prev (j - (items.getD idx default).weight) + (items.getD idx default).value
          else best) best := by
    intro l
    induction l with
    | nil => intro best bc; rfl
    | cons idx l ih =>
      intro best bc
      rw [List.foldl_cons, List.foldl_cons]
      split
      · rw [ih]
      · rw [ih]
  exact key groupItems _ _

/-- The `bestChoice` of a cell: -1 when no member gives strictly more than the row above, and
otherwise the first member of the group, in its order, that fits and attains the value of the
cell. -/
theorem choiceOfGroup_spec (items : List ItemG) (groupItems : List Nat) (prev : Nat → Nat)
    (j : Nat) :
    ((choiceOfGroup items groupItems prev j).2 = -1 ∧
      (choiceOfGroup items groupItems prev j).1 = prev j) ∨
    (prev j < (choiceOfGroup items groupItems prev j).1 ∧
      ∃ idx : Nat, (choiceOfGroup items groupItems prev j).2 = (idx : Int) ∧
        groupItems.find? (fun y => decide (j ≥ (items.getD y default).weight ∧
          (choiceOfGroup items groupItems prev j).1
            = prev (j - (items.getD y default).weight) + (items.getD y default).value))
          = some idx) := by
  unfold choiceOfGroup
  have key : ∀ (l2 l1 : List Nat) (best : Nat) (bc : Int),
      (prev j ≤ best ∧
        (∀ y ∈ l1, j ≥ (items.getD y default).weight →
          prev (j - (items.getD y default).weight) + (items.getD y default).value ≤ best) ∧
        ((bc = -1 ∧ best = prev j) ∨ (prev j < best ∧ ∃ idx : Nat, bc = (idx : Int) ∧
          l1.find? (fun y => decide (j ≥ (items.getD y default).weight ∧
            best = prev (j - (items.getD y default).weight) + (items.getD y default).value))
            = some idx))) →
      (fun (r : Nat × Int) => (r.2 = -1 ∧ r.1 = prev j) ∨ (prev j < r.1 ∧
        ∃ idx : Nat, r.2 = (idx : Int) ∧
          (l1 ++ l2).find? (fun y => decide (j ≥ (items.getD y default).weight ∧
            r.1 = prev (j - (items.getD y default).weight) + (items.getD y default).value))
            = some idx))
        (l2.foldl (fun (st : Nat × Int) idx =>
          if j ≥ (items.getD idx default).weight ∧
              prev (j - (items.getD idx default).weight) + (items.getD idx default).value
                > st.1 then
            (prev (j - (items.getD idx default).weight) + (items.getD idx default).value,
              (idx : Int))
          else st) (best, bc)) := by
    intro l2
    induction l2 with
    | nil =>
      intro l1 best bc h
      simpa using h.2.2
    | cons y l2 ih =>
      intro l1 best bc ⟨h1, h2, h3⟩
      rw [List.foldl_cons]
      have happ : l1 ++ y :: l2 = (l1 ++ [y]) ++ l2 := by simp
      rw [happ]
      by_cases hc : j ≥ (items.getD y default).weight ∧
          prev (j - (items.getD y default).weight) + (items.getD y default).value > best
      · rw [if_pos hc]
        apply ih
        refine ⟨by omega, ?_, Or.inr ⟨by omega, y, rfl, ?_⟩⟩
        · intro z hz hfit
          rcases List.mem_append.mp hz with hz | hz
          · have := h2 z hz hfit
            omega
          · rw [List.mem_singleton] at hz
            subst hz
            exact le_refl _
        · rw [List.find?_append]
          have hnone : l1.find? (fun z => decide (j ≥ (items.getD z default).weight ∧
              prev (j - (items.getD y default).weight) + (items.getD y default).value
                = prev (j - (items.getD z default).weight) + (items.getD z default).value))
              = none := by
            rw [List.find?_eq_none]
            intro z hz
            simp only [decide_eq_true_eq, not_and]
            intro hfit
            have := h2 z hz hfit
            omega
          rw [hnone, Option.none_or]
          exact List.find?_cons_of_pos _ (decide_eq_true ⟨hc.1, rfl⟩)
      · rw [if_neg hc]
        apply ih
        refine ⟨h1, ?_, ?_⟩
        · intro z hz hfit
          rcases List.mem_append.mp hz with hz | hz
          · exact h2 z hz hfit
          · rw [List.mem_singleton] at hz
            subst hz
            by_contra hlt
            exact hc ⟨hfit, by omega⟩
        · rcases h3 with h3 | ⟨h3, idx, h4, h5⟩
          · exact Or.inl h3
          · refine Or.inr ⟨h3, idx, h4, ?_⟩
            rw [List.find?_append, h5]
            rfl
  have := key groupItems [] (prev j) (-1) ⟨le_refl _, by simp, Or.inl ⟨rfl, rfl⟩⟩
  simpa using this

theorem find?_unique {α : Type} (l : List α) (q : α → Bool) (x : α) (hx : x ∈ l)
    (hq : q x = true) (hu : ∀ y, q y = true → y = x) : l.find? q = some x := by
  have hs : (l.find? q).isSome := List.find?_isSome.mpr ⟨x, hx, hq⟩
  obtain ⟨z, hz⟩ := Option.isSome_iff_exists.mp hs
  rw [hz, hu z (List.find?_some hz)]

theorem fillGroup_eq_forUp (items : List ItemG) (C : Nat) :
    fillGroup items C = forUp 1 (numGroupsOf items) (fun i dp => forUp 0 C (fun j dp =>
      (cellGroup items
        (groupsFind (buildGroups items) ((groupIdsOf (buildGroups items)).getD (i - 1) 0))
        (i - 1) j dp).1) dp) (Table.mk (numGroupsOf items + 1) (C + 1) 0) := by
  unfold fillGroup
  simp only []
  rw [forLt_eq_forUp]
  rfl

theorem cellGroup_body (items : List ItemG) (C : Nat) :
    ∀ c ∈ cellsOf 1 (numGroupsOf items) C, ∀ T : Table Nat,
      T.Dims (numGroupsOf items + 1) (C + 1) →
      (cellGroup items
        (groupsFind (buildGroups items) ((groupIdsOf (buildGroups items)).getD (c.1 - 1) 0))
        (c.1 - 1) c.2 T).1
      = T.set c.1 c.2 (bestOfGroup items
        (groupsFind (buildGroups items) ((groupIdsOf (buildGroups items)).getD (c.1 - 1) 0))
        (fun b => T.get (c.1 - 1) b) c.2) := by
  intro c hc T hT
  rw [mem_cellsOf] at hc
  have := cellGroup_fst items
    (groupsFind (buildGroups items) ((groupIdsOf (buildGroups items)).getD (c.1 - 1) 0))
    (c.1 - 1) c.2 T _ _ hT (by omega) (by omega)
  rw [this]
  congr 1
  omega

theorem fillGroup_dims (items : List ItemG) (C : Nat) :
    (fillGroup items C).Dims (numGroupsOf items + 1) (C + 1) := by
  have h := fill2D_spec (numGroupsOf items) C
    (fun c dp => (cellGroup items
      (groupsFind (buildGroups items) ((groupIdsOf (buildGroups items)).getD (c.1 - 1) 0))
      (c.1 - 1) c.2 dp).1)
    (fun c T => bestOfGroup items
      (groupsFind (buildGroups items) ((groupIdsOf (buildGroups items)).getD (c.1 - 1) 0))
      (fun b => T.get (c.1 - 1) b) c.2)
    (cellGroup_body items C)
    (fun c hc T T' hTT => by
      rw [mem_cellsOf] at hc
      have e1 : (fun b => T.get (c.1 - 1) b) = (fun b => T'.get (c.1 - 1) b) :=
        funext (fun b => hTT (c.1 - 1, b) (Or.inl (by simp only; omega)))
      simp only [e1])
    (Table.mk (numGroupsOf items + 1) (C + 1) 0) (Table.dims_mk _ _ _)
  rw [fillGroup_eq_forUp]
  exact h.1

/-- The step a cell of the group fill emits, computed from a table of the right dimensions. -/
theorem stepGroup_eq (items : List ItemG) (C : Nat) (c : Nat × Nat)
    (hc : c ∈ cellsOf 1 (numGroupsOf items) C) (T : Table Nat)
    (hT : T.Dims (numGroupsOf items + 1) (C + 1)) :
    (⟨c.1 - 1 + 1, c.2, (groupIdsOf (buildGroups items)).getD (c.1 - 1) 0,
      (cellGroup items
        (groupsFind (buildGroups items) ((groupIdsOf (buildGroups items)).getD (c.1 - 1) 0))
        (c.1 - 1) c.2 T).1.get (c.1 - 1 + 1) c.2,
      (cellGroup items
        (groupsFind (buildGroups items) ((groupIdsOf (buildGroups items)).getD (c.1 - 1) 0))
        (c.1 - 1) c.2 T).2⟩ : StepG)
    = ⟨c.1, c.2, (groupIdsOf (buildGroups items)).getD (c.1 - 1) 0,
        (choiceOfGroup items
          (groupsFind (buildGroups items) ((groupIdsOf (buildGroups items)).getD (c.1 - 1) 0))
          (fun b => T.get (c.1 - 1) b) c.2).1,
        (choiceOfGroup items
          (groupsFind (buildGroups items) ((groupIdsOf (buildGroups items)).getD (c.1 - 1) 0))
          (fun b => T.get (c.1 - 1) b) c.2).2⟩ := by
  rw [mem_cellsOf] at hc
  have h1 : c.1 - 1 + 1 = c.1 := by omega
  rw [cellGroup_eq items _ (c.1 - 1) c.2 T _ _ hT (by omega) (by omega)]
  simp only [h1]
  rw [Table.get_set_same _ _ _ hT _ _ _ (by omega) (by omega)]

/-- The array `steps` of the group solver: one step per cell, in row-major order, with the
value of the cell in the final table and the `bestChoice` computed from the row above. -/
theorem stepsGroup_eq (items : List ItemG) (C : Nat) :
    stepsGroup items C = (cellsOf 1 (numGroupsOf items) C).map (fun c =>
      (⟨c.1, c.2, (groupIdsOf (buildGroups items)).getD (c.1 - 1) 0,
        (fillGroup items C).get c.1 c.2,
        (choiceOfGroup items
          (groupsFind (buildGroups items) ((groupIdsOf (buildGroups items)).getD (c.1 - 1) 0))
          (fun b => (fillGroup items C).get (c.1 - 1) b) c.2).2⟩ : StepG)) := by
  have h := trace2D_spec (numGroupsOf items) C
    (fun c dp => (cellGroup items
      (groupsFind (buildGroups items) ((groupIdsOf (buildGroups items)).getD (c.1 - 1) 0))
      (c.1 - 1) c.2 dp).1)
    (fun c T => bestOfGroup items
      (groupsFind (buildGroups items) ((groupIdsOf (buildGroups items)).getD (c.1 - 1) 0))
      (fun b => T.get (c.1 - 1) b) c.2)
    (fun c T => (⟨c.1 - 1 + 1, c.2, (groupIdsOf (buildGroups items)).getD (c.1 - 1) 0,
      (cellGroup items
        (groupsFind (buildGroups items) ((groupIdsOf (buildGroups items)).getD (c.1 - 1) 0))
        (c.1 - 1) c.2 T).1.get (c.1 - 1 + 1) c.2,
      (cellGroup items
        (groupsFind (buildGroups items) ((groupIdsOf (buildGroups items)).getD (c.1 - 1) 0))
        (c.1 - 1) c.2 T).2⟩ : StepG))
    (cellGroup_body items C)
    (fun c hc T T' hT hT' hTT => by
      simp only []
      rw [stepGroup_eq items C c hc T hT, stepGroup_eq items C c hc T' hT']
      rw [mem_cellsOf] at hc
      have e1 : (fun b => T.get (c.1 - 1) b) = (fun b => T'.get (c.1 - 1) b) :=
        funext (fun b => hTT (c.1 - 1, b) (by simp only; omega))
      rw [e1])
    (Table.mk (numGroupsOf items + 1) (C + 1) 0) (Table.dims_mk _ _ _) []
  have hs : fillGroupSteps items C
      = forUp 1 (numGroupsOf items) (fun i (st : Table Nat × List StepG) =>
          forUp 0 C (fun j st =>
            ((cellGroup items (groupsFind (buildGroups items)
                ((groupIdsOf (buildGroups items)).getD (i - 1) 0)) (i - 1) j st.1).1,
              st.2 ++ [(⟨i - 1 + 1, j, (groupIdsOf (buildGroups items)).getD (i - 1) 0,
                (cellGroup items (groupsFind (buildGroups items)
                  ((groupIdsOf (buildGroups items)).getD (i - 1) 0)) (i - 1) j st.1).1.get
                    (i - 1 + 1) j,
                (cellGroup items (groupsFind (buildGroups items)
                  ((groupIdsOf (buildGroups items)).getD (i - 1) 0)) (i - 1) j st.1).2⟩
                  : StepG)])) st)
          (Table.mk (numGroupsOf items + 1) (C + 1) 0, []) := by
    unfold fillGroupSteps
    simp only []
    rw [forLt_eq_forUp]
    rfl
  unfold stepsGroup
  rw [hs]
  rw [h, ← fillGroup_eq_forUp]
  simp only [List.nil_append]
  apply List.map_congr_left
  intro c hc
  rw [stepGroup_eq items C c hc _ (fillGroup_dims items C), choiceOfGroup_fst]
  have hc' := (mem_cellsOf _ _ _ _).mp hc
  have hrec := (fillGroup_rec items C).2 (c.1 - 1) c.2 (by omega) hc'.2.2
  rw [← groupIdsOf_buildGroups] at hrec
  have h1 : c.1 - 1 + 1 = c.1 := by omega
  rw [h1] at hrec
  rw [hrec]

theorem recordedChoice_eq (items : List ItemG) (C g j : Nat) (hg : g < numGroupsOf items)
    (hj : j ≤ C) :
    recordedChoice (stepsGroup items C) (g + 1) j
      = some (choiceOfGroup items
          (groupsFind (buildGroups items) ((groupIdsOf (buildGroups items)).getD g 0))
          (fun b => (fillGroup items C).get g b) j).2 := by
  unfold recordedChoice
  rw [stepsGroup_eq, List.find?_map]
  have hmem : (g + 1, j) ∈ cellsOf 1 (numGroupsOf items) C :=
    (mem_cellsOf _ _ _ _).mpr ⟨by simp, by simp only; omega, hj⟩
  rw [find?_unique _ _ (g + 1, j) hmem (by simp) (by
    intro y hy
    simp only [Function.comp, decide_eq_true_eq] at hy
    exact Prod.ext hy.1 hy.2)]
  simp

theorem sumsFrom_perm (A : Set (ℕ × ℕ)) (L L' : List (ℕ × ℕ)) (h : L.Perm L') :
    sumsFrom A L = sumsFrom A L' := by
  unfold sumsFrom
  have hc : ∀ x ∈ L, ∀ y ∈ L, ∀ z : Set (ℕ × ℕ),
      (z + {(0, 0), x}) + {(0, 0), y} = (z + {(0, 0), y}) + {(0, 0), x} :=
    fun x _ y _ z => add_right_comm z _ _
  exact h.foldl_eq' hc A

/-- The final row of the 0/1 table holds the optima over the pairs reachable from the list of
the items. -/
theorem fill01_sumsFrom (items : List Item) (C : Nat) :
    Rep (sumsFrom {(0, 0)} (items.map (fun it => (it.weight, it.value))))
      (fun j => (fill01 items C).get items.length j) C := by
  obtain ⟨h0, hrec⟩ := fill01_rec items C
  have hget : ∀ i, i < items.length →
      (items.map (fun it => (it.weight, it.value))).getD i default
        = ((items.getD i default).weight, (items.getD i default).value) := by
    intro i hi
    rw [List.getD_eq_getElem _ _ (by simpa using hi), List.getD_eq_getElem _ _ hi,
      List.getElem_map]
  have h := rep01_list (items.map (fun it => (it.weight, it.value)))
    (fun a b => (fill01 items C).get a b) C h0
    (fun i j hi hj => by
      have hi' : i < items.length := by simpa using hi
      rw [hget i hi']
      exact hrec i j hi' hj)
    items.length (by simp)
  rw [List.take_of_length_le (by simp)] at h
  exact h

theorem maxValue01_perm (items items' : List Item) (C : Nat) (h : items.Perm items') :
    maxValue01 items C = maxValue01 items' C := by
  have h1 := fill01_sumsFrom items C C (le_refl _)
  have h2 := fill01_sumsFrom items' C C (le_refl _)
  rw [sumsFrom_perm _ _ _ (h.map (fun it => (it.weight, it.value)))] at h1
  exact h1.unique h2

/-- In exact arithmetic: the final cell `dp[n][C]` (`max_value`) of the 0/1 solver is the same for
every permutation of the item list. -/
theorem knapsack01_perm_invariant (items items' : List Item) (capacity : Nat)
    (h : items.Perm items') :
    maxValue01 items capacity = maxValue01 items' capacity ∧
    (fill01 items capacity).get items.length capacity
      = (fill01 items' capacity).get items'.length capacity :=
  ⟨maxValue01_perm items items' capacity h, maxValue01_perm items items' capacity h⟩

theorem knapsack01_perm_invariant_witness :
    ([(⟨2, 3⟩ : Item), ⟨3, 4⟩, ⟨4, 5⟩]).Perm [⟨4, 5⟩, ⟨2, 3⟩, ⟨3, 4⟩] ∧
    maxValue01 [⟨2, 3⟩, ⟨3, 4⟩, ⟨4, 5⟩] 6 = maxValue01 [⟨4, 5⟩, ⟨2, 3⟩, ⟨3, 4⟩] 6 :=
  ⟨by decide, (knapsack01_perm_invariant _ _ 6 (by decide)).1⟩

/-- The complete table dominates the 0/1 table cell by cell. -/
theorem fillComplete_ge_fill01 (items : List Item) (C : Nat)
    (hw : ∀ it ∈ items, 0 < it.weight) :
    ∀ i, i ≤ items.length → ∀ j, j ≤ C →
      (fill01 items C).get i j ≤ (fillComplete items C).get i j := by
  obtain ⟨a0, arec⟩ := fill01_rec items C
  obtain ⟨c0, crec⟩ := fillComplete_rec items C hw
  intro i
  induction i with
  | zero =>
    intro _ j hj
    rw [a0 j hj, c0 j hj]
  | succ i ih =>
    intro hi j hj
    have hmono : ∀ b, b ≤ C → (fillComplete items C).get i b
        ≤ (fillComplete items C).get (i + 1) b := by
      intro b hb
      rw [crec i b (by omega) hb]
      split
      · exact le_refl _
      · exact le_max_left _ _
    rw [arec i j (by omega) hj, crec i j (by omega) hj]
    by_cases hlt : j < (items.getD i default).weight
    · rw [if_pos hlt, if_pos hlt]
      exact ih (by omega) j hj
    · rw [if_neg hlt, if_neg hlt]
      have h1 := ih (by omega) j hj
      have h2 := ih (by omega) (j - (items.getD i default).weight) (by omega)
      have h3 := hmono (j - (items.getD i default).weight) (by omega)
      exact max_le_max h1 (by omega)

/-- In exact arithmetic: for items of positive weight the complete (unbounded) table is at least the
0/1 table in every cell `(i, j)` with `i ≤ n`, `j ≤ C`, and so is `max_value`. -/
theorem complete_ge_01 (items : List Item) (capacity : Nat)
    (hw : ∀ it ∈ items, 0 < it.weight) :
    (∀ i j, i ≤ items.length → j ≤ capacity →
      (fill01 items capacity).get i j ≤ (fillComplete items capacity).get i j) ∧
    maxValue01 items capacity ≤ maxValueComplete items capacity :=
  ⟨fun i j hi hj => fillComplete_ge_fill01 items capacity hw i hi j hj,
    fillComplete_ge_fill01 items capacity hw _ (le_refl _) _ (le_refl _)⟩

theorem complete_ge_01_witness :
    (∀ it ∈ [(⟨2, 3⟩ : Item), ⟨3, 4⟩], 0 < it.weight) ∧
    maxValue01 [⟨2, 3⟩, ⟨3, 4⟩] 6 = 7 ∧ maxValueComplete [⟨2, 3⟩, ⟨3, 4⟩] 6 = 9 ∧
    maxValue01 [⟨2, 3⟩, ⟨3, 4⟩] 6 ≤ maxValueComplete [⟨2, 3⟩, ⟨3, 4⟩] 6 :=
  ⟨by decide, by decide, by decide, (complete_ge_01 [⟨2, 3⟩, ⟨3, 4⟩] 6 (by decide)).2⟩

/-! ## K-th best: shape of the cells, and a scenario -/

theorem fillKth_sorted (items : List ItemK) (C K : Nat) (hK : 1 ≤ K) (i j : Nat)
    (hi : i ≤ items.length) (hj : j ≤ C) :
    ((fillKth items C K).get i j).Sorted (fun a b => a ≥ b) ∧
    ((fillKth items C K).get i j).length ≤ K := by
  rw [fillKth_correct items C K hK i j hi hj]
  exact ⟨(sortedDesc_insertionSort _).sublist (List.take_sublist _ _), List.length_take_le _ _⟩

/-- In exact arithmetic: for `K ≥ 1` every cell `dp[i][j]` of the k-th-best table with `0 ≤ i ≤ n`
and `0 ≤ j ≤ C`, row 0 included, holds a sequence that is non-increasing and has at most `K`
elements. -/
theorem kth_cells_shape (items : List ItemK) (capacity K : Nat) (hK : 1 ≤ K) :
    ∀ i j, i ≤ items.length → j ≤ capacity →
      ((fillKth items capacity K).get i j).Sorted (fun a b => a ≥ b) ∧
      ((fillKth items capacity K).get i j).length ≤ K :=
  fun i j hi hj => fillKth_sorted items capacity K hK i j hi hj

theorem kth_cells_shape_witness :
    1 ≤ 2 ∧ (fillKth [⟨1, 1⟩, ⟨1, 1⟩, ⟨1, 2⟩] 3 2).get 2 3 = [2, 1] ∧
    ((fillKth [⟨1, 1⟩, ⟨1, 1⟩, ⟨1, 2⟩] 3 2).get 2 3).Sorted (fun a b => a ≥ b) :=
  ⟨by decide, by decide,
    (kth_cells_shape [⟨1, 1⟩, ⟨1, 1⟩, ⟨1, 2⟩] 3 2 (by decide) 2 3 (by decide) (by decide)).1⟩

/-- C25 (as stated, refuted): for capacity 3, `K = 2` and the items `(1,1), (1,1), (1,2)` the
reported list is not `[3, 2]`. -/
theorem kth_scenario_not_3_2 : topK [⟨1, 1⟩, ⟨1, 1⟩, ⟨1, 2⟩] 3 2 ≠ [3, 2] := by
  decide

/-- C25 (amended): for capacity 3, `K = 2` and the items `(1,1), (1,1), (1,2)` the k-th-best
solver reports the top-2 list `[4, 3]`: all three items fit together (weight 3, value 4), and
the values of the sub-selections within the capacity are, sorted, `4, 3, 3, 2, 2, 1, 1, 0`. -/
theorem kth_scenario_top2 :
    topK [⟨1, 1⟩, ⟨1, 1⟩, ⟨1, 2⟩] 3 2 = [4, 3] ∧
    sortedSubsetValues [⟨1, 1⟩, ⟨1, 1⟩, ⟨1, 2⟩] 3 = [4, 3, 3, 2, 2, 1, 1, 0] := by
  decide

/-! ## Tree knapsack: the rows of the nodes, and the path -/

/-- A row that holds the optima of the subtree of `u`: zero below the weight of `u`, and from
there on the greatest value of a parent-closed set of the subtree that contains `u`, which is
at least the value of `u`. -/
theorem rowOK_subtree (items : List ItemT) (C : Nat) (T : Table Nat) (u : Nat)
    (hu : u < items.length) (h : RowOK items C T u) :
    (∀ j, j ≤ C → j < (items.getD u default).weight → T.get u j = 0) ∧
    (∀ j, j ≤ C → (items.getD u default).weight ≤ j →
      IsGreatest (subtreeValues items u j) (T.get u j) ∧
      (items.getD u default).value ≤ T.get u j) := by
  have hsingle : InF items [u] {u} := by
    constructor
    · intro t ht
      rw [Finset.mem_singleton] at ht
      subst ht
      exact ⟨t, List.mem_singleton_self t, Relation.ReflTransGen.refl⟩
    · intro t ht hnot
      rw [Finset.mem_singleton] at ht
      subst ht
      exact absurd (List.mem_singleton_self t) hnot
  have hto : ∀ S : Finset Nat, u ∈ S → InF items [u] S →
      (∀ t ∈ S, InSub items u t) ∧ (∀ t ∈ S, t ≠ u → (items.getD t default).parent ≠ 0 ∧
        (items.getD t default).parent - 1 ∈ S) := by
    intro S _ hS
    refine ⟨fun t ht => ?_, fun t ht hne => hS.2 t ht (by simpa using hne)⟩
    obtain ⟨c, hc, hsub⟩ := hS.1 t ht
    rw [List.mem_singleton] at hc
    subst hc
    exact hsub
  have hfrom : ∀ S : Finset Nat, (∀ t ∈ S, InSub items u t) →
      (∀ t ∈ S, t ≠ u → (items.getD t default).parent ≠ 0 ∧
        (items.getD t default).parent - 1 ∈ S) → InF items [u] S := by
    intro S h1 h2
    exact ⟨fun t ht => ⟨u, List.mem_singleton_self u, h1 t ht⟩,
      fun t ht hnot => h2 t ht (by simpa using hnot)⟩
  constructor
  · intro j hj hlt
    obtain ⟨⟨wt, hwt, S, hS, hq⟩, -⟩ := h j hj
    simp only [Prod.mk.injEq] at hq
    rcases (inF_single items u hu S).1 hS with rfl | ⟨huS, -⟩
    · simpa using hq.2
    · have := Finset.single_le_sum (f := fun t => (items.getD t default).weight)
        (fun _ _ => Nat.zero_le _) huS
      simp only at this
      omega
  · intro j hj hle
    obtain ⟨⟨wt, hwt, S, hS, hq⟩, hub⟩ := h j hj
    simp only [Prod.mk.injEq] at hq
    have hv : (items.getD u default).value ≤ T.get u j :=
      hub ⟨(items.getD u default).weight, hle, {u}, hsingle, by simp⟩
    refine ⟨⟨?_, ?_⟩, hv⟩
    · rcases (inF_single items u hu S).1 hS with rfl | ⟨huS, -⟩
      · have h0 : T.get u j = 0 := by simpa using hq.2
        refine ⟨{u}, Finset.mem_singleton_self u, (hto {u} (Finset.mem_singleton_self u) hsingle).1,
          (hto {u} (Finset.mem_singleton_self u) hsingle).2, by simpa using hle, ?_⟩
        simp only [Finset.sum_singleton]
        omega
      · obtain ⟨a, b⟩ := hto S huS hS
        exact ⟨S, huS, a, b, by omega, hq.2.symm⟩
    · rintro val ⟨S, _, h1, h2, hw', rfl⟩
      exact hub ⟨_, hw', S, hfrom S h1 h2, rfl⟩

/-- In the table the solver ends with, the row of every node of a valid forest holds the
optima of its subtree. -/
theorem dfsAll_rows (items : List ItemT) (hv : ValidForest items) (C : Nat) (u : Nat)
    (hu : u < items.length) : RowOK items C (dfsAll items C) u := by
  obtain ⟨-, -, h3⟩ := dfs_list_spec items C
    (fun root dp => dfs items (buildChildren items) C items.length root dp)
    (buildRoots items) (antichain_roots items) (Table.mk items.length (C + 1) 0)
    (Table.dims_mk _ _ _) (fun _ _ t _ j => Table.get_mk_zero _ _ t j)
    (fun c hc T1 hT1 hz => dfs_spec items hv C items.length c
      ((mem_buildRoots items c).1 hc).1 (by omega) T1 hT1 hz)
  obtain ⟨r, hr, hsub⟩ := exists_root items hv _ u hu (hv.2 u hu)
  exact h3 r hr u hsub

/-- In exact arithmetic: in a valid forest, after `dfs(u)` (called on a table whose rows of the
subtree of `u` are still zero, with fuel for the depth below `u`) the row of `u` is 0 below
`weight(u)`, and for `weight(u) ≤ j ≤ C` it is the greatest total value of a set of nodes of the
subtree of `u` that contains `u`, contains the parent of each of its members other than `u`, and
has total weight at most `j`; the same holds, for every node, in the table the solver ends with. -/
theorem tree_row_optimal (items : List ItemT) (hv : ValidForest items) (capacity : Nat) :
    (∀ u, u < items.length → ∀ fuel, items.length ≤ fuel + depthOf items u →
      ∀ T : Table Nat, T.Dims items.length (capacity + 1) →
      (∀ t, InSub items u t → ∀ j, T.get t j = 0) →
      (∀ j, j ≤ capacity → j < (items.getD u default).weight →
        (dfs items (buildChildren items) capacity fuel u T).get u j = 0) ∧
      (∀ j, (items.getD u default).weight ≤ j → j ≤ capacity →
        IsGreatest (subtreeValues items u j)
          ((dfs items (buildChildren items) capacity fuel u T).get u j))) ∧
    (∀ u, u < items.length →
      (∀ j, j ≤ capacity → j < (items.getD u default).weight →
        (dfsAll items capacity).get u j = 0) ∧
      (∀ j, (items.getD u default).weight ≤ j → j ≤ capacity →
        IsGreatest (subtreeValues items u j) ((dfsAll items capacity).get u j))) := by
  constructor
  · intro u hu fuel hf T hT hz
    obtain ⟨-, -, h3⟩ := dfs_spec items hv capacity fuel u hu hf T hT hz
    obtain ⟨a, b⟩ := rowOK_subtree items capacity _ u hu (h3 u Relation.ReflTransGen.refl)
    exact ⟨a, fun j hwj hj => (b j hj hwj).1⟩
  · intro u hu
    obtain ⟨a, b⟩ := rowOK_subtree items capacity _ u hu (dfsAll_rows items hv capacity u hu)
    exact ⟨a, fun j hwj hj => (b j hj hwj).1⟩

theorem tree_row_optimal_witness :
    ValidForest [⟨2, 5, 0⟩, ⟨1, 2, 1⟩, ⟨2, 4, 0⟩] ∧
    (dfsAll [⟨2, 5, 0⟩, ⟨1, 2, 1⟩, ⟨2, 4, 0⟩] 3).get 0 1 = 0 ∧
    IsGreatest (subtreeValues [⟨2, 5, 0⟩, ⟨1, 2, 1⟩, ⟨2, 4, 0⟩] 0 3)
      ((dfsAll [⟨2, 5, 0⟩, ⟨1, 2, 1⟩, ⟨2, 4, 0⟩] 3).get 0 3) :=
  have hv : ValidForest [⟨2, 5, 0⟩, ⟨1, 2, 1⟩, ⟨2, 4, 0⟩] := by
    constructor <;> decide
  ⟨hv, by decide, ((tree_row_optimal _ hv 3).2 0 (by decide)).2 3 (by decide) (by decide)⟩

/-- With a single root the `val` figures of the path add up to `max_value`. -/
theorem pathTree_single_root (items : List ItemT) (capacity r : Nat)
    (hr : buildRoots items = [r]) :
    ((pathTree items capacity).map (fun e => e.val)).sum = maxValueTree items capacity := by
  unfold pathTree maxValueTree
  simp only [hr, List.length_singleton, if_true, List.getD_cons_zero]
  by_cases h : (dfsAll items capacity).get r capacity > 0
  · simp [List.filter_cons, h]
  · have h0 : (dfsAll items capacity).get r capacity = 0 := by omega
    simp [List.filter_cons, h0]

/-- C21 (refuted): with several roots the path lists every root whose own row is positive at
the full capacity, with that value. With capacity 2 and the two roots `(w, v) = (2, 5)`,
`(2, 5)` the path is `[{node 0, val 5}, {node 1, val 5}]`: the `val` figures add up to 10,
though `max_value = 5` is the optimum (only one root fits): the two selections do not fit
together within the capacity. -/
theorem pathTree_lists_every_root :
    ValidForest [⟨2, 5, 0⟩, ⟨2, 5, 0⟩] ∧
    pathTree [⟨2, 5, 0⟩, ⟨2, 5, 0⟩] 2 = [⟨0, 5⟩, ⟨1, 5⟩] ∧
    ((pathTree [⟨2, 5, 0⟩, ⟨2, 5, 0⟩] 2).map (fun e => e.val)).sum = 10 ∧
    maxValueTree [⟨2, 5, 0⟩, ⟨2, 5, 0⟩] 2 = 5 ∧
    IsGreatest (feasibleValuesTree [⟨2, 5, 0⟩, ⟨2, 5, 0⟩] 2) 5 := by
  have hv : ValidForest [⟨2, 5, 0⟩, ⟨2, 5, 0⟩] := by
    constructor <;> decide
  have hm : maxValueTree [⟨2, 5, 0⟩, ⟨2, 5, 0⟩] 2 = 5 := by decide
  refine ⟨hv, by decide, by decide, hm, ?_⟩
  have := maxValueTree_greatest _ hv 2
  rw [hm] at this
  exact this

/-! ## The trace of the two-resource solver -/

/-- The vector `items` after the first `p` rounds of the input loop. -/
theorem readItems_inv (n : Nat) (tuples : List Item) (p : Nat) (hp : p ≤ n) :
    (forLt 0 p (fun i items =>
      if i < tuples.length then items.set i (tuples.getD i default) else items)
      (List.replicate n (⟨0, 0⟩ : Item))).length = n ∧
    ∀ i, i < n → (forLt 0 p (fun i items =>
      if i < tuples.length then items.set i (tuples.getD i default) else items)
      (List.replicate n (⟨0, 0⟩ : Item)))[i]?
      = some (if i < p ∧ i < tuples.length then tuples.getD i default else ⟨0, 0⟩) := by
  induction p with
  | zero =>
    refine ⟨by simp [forLt], fun i hi => ?_⟩
    simp [forLt, List.getElem?_replicate, hi]
  | succ p ih =>
    obtain ⟨h1, h2⟩ := ih (by omega)
    rw [forLt_succ]
    by_cases hm : p < tuples.length
    · rw [if_pos hm]
      refine ⟨by rw [List.length_set, h1], fun i hi => ?_⟩
      rw [List.getElem?_set]
      by_cases hip : p = i
      · subst hip
        rw [if_pos rfl, if_pos (by rw [h1]; exact hi), if_pos ⟨by omega, hm⟩]
      · rw [if_neg hip, h2 i hi]
        congr 1
        by_cases hc : i < p ∧ i < tuples.length
        · rw [if_pos hc, if_pos ⟨by omega, hc.2⟩]
        · rw [if_neg hc, if_neg (by omega)]
    · rw [if_neg hm]
      refine ⟨h1, fun i hi => ?_⟩
      rw [h2 i hi]
      congr 1
      by_cases hc : i < p ∧ i < tuples.length
      · rw [if_pos hc, if_pos ⟨by omega, hc.2⟩]
      · rw [if_neg hc, if_neg (by omega)]

/-- The items the solver works on: the tuples supplied, cut at the declared count, followed by
items of weight 0 and value 0 up to the declared count. -/
theorem readItems_eq (n : Nat) (tuples : List Item) :
    readItems n tuples = tuples.take n ++ List.replicate (n - tuples.length) ⟨0, 0⟩ := by
  obtain ⟨h1, h2⟩ := readItems_inv n tuples n (le_refl _)
  apply List.ext_getElem?
  intro i
  unfold readItems
  by_cases hi : i < n
  · rw [h2 i hi]
    by_cases him : i < tuples.length
    · rw [if_pos ⟨hi, him⟩, List.getElem?_append_left (by simp; omega), List.getElem?_take,
        if_pos hi, List.getD_eq_getElem _ _ him, List.getElem?_eq_getElem him]
    · rw [if_neg (by omega), List.getElem?_append_right (by simp; omega),
        List.getElem?_replicate, if_pos (by simp; omega)]
  · rw [List.getElem?_eq_none (by omega), List.getElem?_eq_none (by simp; omega)]

/-- The rows of the counting table depend only on the weights of the items before them. -/
theorem fillCount_prefix (L L' : List Item) (C p : Nat) (hL : p ≤ L.length)
    (hL' : p ≤ L'.length)
    (hw : ∀ i, i < p → (L.getD i default).weight = (L'.getD i default).weight) :
    ∀ i, i ≤ p → ∀ j, j ≤ C → (fillCount L C).get i j = (fillCount L' C).get i j := by
  obtain ⟨a0, arec⟩ := fillCount_rec L C
  obtain ⟨b0, brec⟩ := fillCount_rec L' C
  intro i
  induction i with
  | zero => intro _ j hj; rw [a0 j hj, b0 j hj]
  | succ i ih =>
    intro hi j hj
    rw [arec i j (by omega) hj, brec i j (by omega) hj, hw i (by omega), ih (by omega) j hj]
    by_cases hfit : j ≥ (L'.getD i default).weight
    · rw [if_pos hfit, if_pos hfit, ih (by omega) _ (by omega)]
    · rw [if_neg hfit, if_neg hfit]

/-- Every item of weight 0 doubles the row of the counting table. -/
theorem fillCount_zero_rows (L : List Item) (C m : Nat)
    (hz : ∀ i, m ≤ i → i < L.length → (L.getD i default).weight = 0) :
    ∀ t, m + t ≤ L.length → ∀ j, j ≤ C →
      (fillCount L C).get (m + t) j = 2 ^ t * (fillCount L C).get m j := by
  obtain ⟨-, hrec⟩ := fillCount_rec L C
  intro t
  induction t with
  | zero => intro _ j _; simp
  | succ t ih =>
    intro ht j hj
    rw [← Nat.add_assoc, hrec (m + t) j (by omega) hj, hz (m + t) (by omega) (by omega),
      if_pos (Nat.zero_le _), Nat.sub_zero, ih (by omega) j hj, pow_succ]
    ring

theorem resultCountDeclared_eq (n : Nat) (tuples : List Item) (C : Nat)
    (hn : tuples.length ≤ n) :
    resultCountDeclared n tuples C = 2 ^ (n - tuples.length) * resultCount tuples C := by
  unfold resultCountDeclared resultCount
  have hlen : (readItems n tuples).length = n := by
    rw [readItems_eq]
    simp
    omega
  have hget : ∀ i, i < n → (readItems n tuples).getD i default
      = if i < tuples.length then tuples.getD i default else ⟨0, 0⟩ := by
    intro i hi
    rw [readItems_eq, List.take_of_length_le hn]
    by_cases him : i < tuples.length
    · rw [if_pos him, List.getD_append _ _ _ _ him]
    · rw [if_neg him, List.getD_append_right _ _ _ _ (by omega),
        List.getD_eq_getElem _ _ (by simp; omega)]
      simp
  have h1 := fillCount_zero_rows (readItems n tuples) C tuples.length
    (fun i hi1 hi2 => by rw [hget i (by omega), if_neg (by omega)])
    (n - tuples.length) (by omega) C (le_refl _)
  have e : tuples.length + (n - tuples.length) = n := by omega
  rw [e] at h1
  rw [hlen, h1, fillCount_prefix (readItems n tuples) tuples C tuples.length (by omega)
    (le_refl _) (fun i hi => by rw [hget i (by omega), if_pos hi]) _ (le_refl _) C (le_refl _)]

/-- In exact arithmetic: a missing tuple is not dropped but read as an item of weight 0
and value 0, which doubles the count. With capacity 1 and the one tuple `(1, 5)`, declaring
`n = 2` gives the count 2 and declaring `n = 3` gives 4, where the run that declares exactly
that one item gives 1. -/
theorem count_missing_tuples_double :
    readItems 2 [⟨1, 5⟩] = [⟨1, 5⟩, ⟨0, 0⟩] ∧
    resultCountDeclared 1 [⟨1, 5⟩] 1 = 1 ∧ resultCountDeclared 2 [⟨1, 5⟩] 1 = 2 ∧
    resultCountDeclared 3 [⟨1, 5⟩] 1 = 4 := by
  decide

/-- In exact arithmetic: when the declared count `n` is larger than the number `m` of tuples
supplied, the solver works on the `m` supplied items followed by `n - m` items of weight 0 and
value 0, and the count `dp[n][C]` it reports is `2 ^ (n - m)` times the count reported by the
run that declares exactly those `m` items. -/
theorem count_missing_tuples (n : Nat) (tuples : List Item) (capacity : Nat)
    (hn : tuples.length ≤ n) :
    readItems n tuples = tuples ++ List.replicate (n - tuples.length) ⟨0, 0⟩ ∧
    readItems tuples.length tuples = tuples ∧
    resultCountDeclared n tuples capacity
      = 2 ^ (n - tuples.length) * resultCountDeclared tuples.length tuples capacity := by
  refine ⟨by rw [readItems_eq, List.take_of_length_le hn], by simp [readItems_eq], ?_⟩
  rw [resultCountDeclared_eq n tuples capacity hn,
    resultCountDeclared_eq tuples.length tuples capacity (le_refl _)]
  simp

theorem count_missing_tuples_witness :
    ([(⟨1, 5⟩ : Item)]).length ≤ 3 ∧
    resultCountDeclared 3 [⟨1, 5⟩] 1
      = 2 ^ (3 - ([(⟨1, 5⟩ : Item)]).length)
        * resultCountDeclared ([(⟨1, 5⟩ : Item)]).length [⟨1, 5⟩] 1 :=
  ⟨by decide, (count_missing_tuples 3 [⟨1, 5⟩] 1 (by decide)).2.2⟩

/-- C31: for non-increasing integer sequences `a` and `b` and every `k`, `mergeTopK a b k` has
length `min(k, |a| + |b|)`, is non-increasing, and is the first `min(k, |a| + |b|)` elements of
the non-increasing sort of `a ++ b`; as a multiset it is a part of `a` and `b` together that no
element left out exceeds. -/
theorem mergeTopK_sorted_prefix (a b : List Int) (k : Nat)
    (ha : a.Sorted (fun x y => x ≥ y)) (hb : b.Sorted (fun x y => x ≥ y)) :
    (mergeTopK a b k).length = min k (a.length + b.length)
    ∧ (mergeTopK a b k).Sorted (fun x y => x ≥ y)
    ∧ mergeTopK a b k
        = ((a ++ b).insertionSort (fun x y => x ≥ y)).take (min k (a.length + b.length))
    ∧ ∃ rest : List Int, (mergeTopK a b k ++ rest).Perm (a ++ b)
        ∧ ∀ x ∈ mergeTopK a b k, ∀ y ∈ rest, x ≥ y := by
  have hm := merge_sorted_eq a b a b (List.Perm.refl a) (List.Perm.refl b) ha hb
  have hs := sortedDesc_insertionSort (a ++ b)
  have hlen : ((a ++ b).insertionSort (fun x y => x ≥ y)).length = a.length + b.length := by
    rw [List.length_insertionSort, List.length_append]
  have he : mergeTopK a b k = ((a ++ b).insertionSort (fun x y => x ≥ y)).take k := by
    rw [mergeTopK_eq_take_merge, hm]
  refine ⟨?_, ?_, ?_, ((a ++ b).insertionSort (fun x y => x ≥ y)).drop k, ?_, ?_⟩
  · rw [he, List.length_take, hlen]
  · rw [he]
    exact List.Pairwise.sublist (List.take_sublist _ _) hs
  · rw [he, ← hlen, take_min_length]
  · rw [he, List.take_append_drop]
    exact List.perm_insertionSort _ _
  · intro x hx y hy
    rw [he] at hx
    have h := hs
    rw [← List.take_append_drop k ((a ++ b).insertionSort (fun x y => x ≥ y))] at h
    exact (List.pairwise_append.1 h).2.2 x hx y hy

/-- An instance of `mergeTopK_sorted_prefix`: the two sequences `[5, 3, 3]` and `[4, 3]` and
`k = 4`. -/
theorem mergeTopK_sorted_prefix_witness :
    ([5, 3, 3] : List Int).Sorted (fun x y => x ≥ y)
    ∧ ([4, 3] : List Int).Sorted (fun x y => x ≥ y)
    ∧ mergeTopK [5, 3, 3] [4, 3] 4 = [5, 4, 3, 3]
    ∧ (mergeTopK [5, 3, 3] [4, 3] 4).length = min 4 (([5, 3, 3] : List Int).length + ([4, 3] : List Int).length)
    ∧ mergeTopK [5, 3, 3] [4, 3] 4
        = ((([5, 3, 3] : List Int) ++ [4, 3]).insertionSort (fun x y => x ≥ y)).take
            (min 4 (([5, 3, 3] : List Int).length + ([4, 3] : List Int).length)) :=
  have h := mergeTopK_sorted_prefix [5, 3, 3] [4, 3] 4 (by decide) (by decide)
  ⟨by decide, by decide, by decide, h.1, h.2.2.1⟩

/-- The subsets that fit in two budgets fit in larger ones. -/
theorem feasibleValues2D_mono (items : List Item2D) (i j k j' k' : Nat) (hj : j ≤ j')
    (hk : k ≤ k') : feasibleValues2D items i j k ⊆ feasibleValues2D items i j' k' := by
  rintro val ⟨S, hS, hw, hm, hv⟩
  exact ⟨S, hS, le_trans hw hj, le_trans hm hk, hv⟩

/-- In exact arithmetic: the table of `knapsack_2d.cpp` (weights, secondary costs and values are
natural numbers) has `dp[0][j][k] = 0` for all `j ≤ C`, `k ≤ M`, and for every prefix `i ≤ n` it
is non-decreasing in each capacity: `dp[i][j][k] ≤ dp[i][j+1][k]` for `j < C` and `dp[i][j][k] ≤
dp[i][j][k+1]` for `k < M`. -/
theorem fill2D_zero_row_and_monotone (items : List Item2D) (C M : Nat) :
    (∀ j k, j ≤ C → k ≤ M → (fill2D items C M).get 0 j k = 0)
    ∧ (∀ i j k, i ≤ items.length → j < C → k ≤ M →
        (fill2D items C M).get i j k ≤ (fill2D items C M).get i (j + 1) k)
    ∧ ∀ i j k, i ≤ items.length → j ≤ C → k < M →
        (fill2D items C M).get i j k ≤ (fill2D items C M).get i j (k + 1) := by
  refine ⟨(fill2D_rec items C M).1, fun i j k hi hj hk => ?_, fun i j k hi hj hk => ?_⟩
  · exact (fill2D_greatest items C M i (j + 1) k hi (by omega) hk).2
      (feasibleValues2D_mono items i j k (j + 1) k (by omega) (le_refl k)
        (fill2D_greatest items C M i j k hi (by omega) hk).1)
  · exact (fill2D_greatest items C M i j (k + 1) hi hj (by omega)).2
      (feasibleValues2D_mono items i j k j (k + 1) (le_refl j) (by omega)
        (fill2D_greatest items C M i j k hi hj (by omega)).1)

/-- C35: the vector `groupIds` built from the map `groups` is strictly ascending, so it holds
every id once; it holds exactly the group ids of the supplied items; the read `groups[k]` is
the list of the positions of the items that carry the id `k`, in ascending input order; and
every supplied item is listed under exactly one id of `groupIds`. -/
theorem groups_ascending_partition (items : List ItemG) :
    (groupIdsOf (buildGroups items)).Pairwise (fun a b => a < b)
    ∧ (groupIdsOf (buildGroups items)).Nodup
    ∧ (∀ k, k ∈ groupIdsOf (buildGroups items)
        ↔ ∃ t, t < items.length ∧ (items.getD t default).group = k)
    ∧ (∀ k, groupsFind (buildGroups items) k
        = (List.range items.length).filter (fun t => (items.getD t default).group = k))
    ∧ ∀ t, t < items.length →
        ∃! k, k ∈ groupIdsOf (buildGroups items) ∧ t ∈ groupsFind (buildGroups items) k := by
  obtain ⟨h1, h2, h3⟩ := buildGroups_inv items items.length
  refine ⟨h1, h1.imp (fun h => ne_of_lt h), h2, h3, fun t ht => ?_⟩
  refine ⟨(items.getD t default).group, ⟨(h2 _).2 ⟨t, ht, rfl⟩, ?_⟩, ?_⟩
  · exact (mem_groupsFind_buildGroups items _ t).2 ⟨ht, rfl⟩
  · rintro k ⟨-, hk⟩
    exact ((mem_groupsFind_buildGroups items k t).1 hk).2.symm

/-- In exact arithmetic: for group index `g < numGroups` and column `j ≤ capacity` the step of cell
`(g + 1, j)` records a `bestChoice` `b`; `b = -1` exactly when no member of the group with
weight at most `j` gives `dp[g][j - w] + v` strictly greater than `dp[g][j]`; otherwise `b` is
the first member, in the order of the group's list, with weight at most `j` and
`dp[g][j - w] + v = dp[g + 1][j]`. -/
theorem bestChoice_first_maximiser (items : List ItemG) (capacity g j : Nat)
    (hg : g < numGroupsOf items) (hj : j ≤ capacity) :
    ∃ b : Int, recordedChoice (stepsGroup items capacity) (g + 1) j = some b
      ∧ (b = -1 ↔ ∀ idx ∈ groupsFind (buildGroups items)
            ((groupIdsOf (buildGroups items)).getD g 0),
          ¬ ((items.getD idx default).weight ≤ j
            ∧ (fillGroup items capacity).get g j
              < (fillGroup items capacity).get g (j - (items.getD idx default).weight)
                + (items.getD idx default).value))
      ∧ (b ≠ -1 → ∃ idx : Nat, b = (idx : Int)
          ∧ (groupsFind (buildGroups items) ((groupIdsOf (buildGroups items)).getD g 0)).find?
              (fun y => decide (j ≥ (items.getD y default).weight
                ∧ (fillGroup items capacity).get (g + 1) j
                  = (fillGroup items capacity).get g (j - (items.getD y default).weight)
                    + (items.getD y default).value)) = some idx) := by
  have hrow : (fillGroup items capacity).get (g + 1) j
      = (choiceOfGroup items
          (groupsFind (buildGroups items) ((groupIdsOf (buildGroups items)).getD g 0))
          (fun b => (fillGroup items capacity).get g b) j).1 := by
    rw [(fillGroup_rec items capacity).2 g j hg hj, choiceOfGroup_fst, groupIdsOf_buildGroups]
  have hgr := bestOfGroup_greatest items
    (groupsFind (buildGroups items) ((groupIdsOf (buildGroups items)).getD g 0))
    (fun b => (fillGroup items capacity).get g b) j
  rw [← choiceOfGroup_fst] at hgr
  have hsp := choiceOfGroup_spec items
    (groupsFind (buildGroups items) ((groupIdsOf (buildGroups items)).getD g 0))
    (fun b => (fillGroup items capacity).get g b) j
  rw [← hrow] at hsp hgr
  refine ⟨_, recordedChoice_eq items capacity g j hg hj, ⟨fun hb idx hidx hc => ?_, fun hno => ?_⟩,
    fun hb => ?_⟩
  · rcases hsp with ⟨-, h2⟩ | ⟨-, idx', h2, -⟩
    · have := hgr.2 ⟨((items.getD idx default).weight, (items.getD idx default).value),
        Or.inr ⟨idx, hidx, rfl⟩, hc.1, rfl⟩
      simp only at this
      omega
    · rw [h2] at hb
      omega
  · rcases hsp with ⟨h1, -⟩ | ⟨h1, idx', -, h3⟩
    · exact h1
    · exfalso
      have hm := List.mem_of_find?_eq_some h3
      have hp := List.find?_some h3
      simp only [decide_eq_true_eq] at hp
      exact hno idx' hm ⟨hp.1, by omega⟩
  · rcases hsp with ⟨h1, -⟩ | ⟨-, idx', h2, h3⟩
    · exact absurd h1 hb
    · exact ⟨idx', h2, h3⟩

/-- An instance of `bestChoice_first_maximiser`: two groups of one item each, capacity 1. -/
theorem bestChoice_first_maximiser_witness :
    0 < numGroupsOf [⟨1, 1, 1⟩, ⟨1, 1, 2⟩] ∧ 1 ≤ 1
    ∧ recordedChoice (stepsGroup [⟨1, 1, 1⟩, ⟨1, 1, 2⟩] 1) 1 1 = some 0
    ∧ ∃ b : Int, recordedChoice (stepsGroup [⟨1, 1, 1⟩, ⟨1, 1, 2⟩] 1) (0 + 1) 1 = some b
      ∧ (b ≠ -1 → ∃ idx : Nat, b = (idx : Int)
          ∧ (groupsFind (buildGroups [⟨1, 1, 1⟩, ⟨1, 1, 2⟩])
              ((groupIdsOf (buildGroups [⟨1, 1, 1⟩, ⟨1, 1, 2⟩])).getD 0 0)).find?
              (fun y => decide (1 ≥ (([⟨1, 1, 1⟩, ⟨1, 1, 2⟩] : List ItemG).getD y default).weight
                ∧ (fillGroup [⟨1, 1, 1⟩, ⟨1, 1, 2⟩] 1).get (0 + 1) 1
                  = (fillGroup [⟨1, 1, 1⟩, ⟨1, 1, 2⟩] 1).get 0
                      (1 - (([⟨1, 1, 1⟩, ⟨1, 1, 2⟩] : List ItemG).getD y default).weight)
                    + (([⟨1, 1, 1⟩, ⟨1, 1, 2⟩] : List ItemG).getD y default).value)) = some idx) :=
  have h := bestChoice_first_maximiser [⟨1, 1, 1⟩, ⟨1, 1, 2⟩] 1 0 1 (by decide) (by decide)
  ⟨by decide, by decide, by decide, h.choose, h.choose_spec.1, h.choose_spec.2.2⟩

/-- In exact arithmetic: the in-place merge of a child's row `Ch = dp[child]` into the parent's row
`P = dp[u]` (rows of length `C + 1` of natural numbers, `child ≠ u`, any weight `w`) gives the
merge computed from the rows before the loop: `P'[j]` is the greatest `P[j - k] + Ch[k]` over
`k ≤ j - w` for `w ≤ j ≤ C`, `P'[j] = P[j]` for `j < w`, and no other row changes. -/
theorem mergeChild_snapshot (w C u child R : ℕ) (dp : Table ℕ) (hd : dp.Dims R (C + 1))
    (hu : u < R) (hne : child ≠ u) :
    (∀ j, w ≤ j → j ≤ C →
        IsGreatest {x | ∃ k, k ≤ j - w ∧ x = dp.get u (j - k) + dp.get child k}
          ((mergeChild w C u child dp).get u j))
    ∧ (∀ j, j < w → (mergeChild w C u child dp).get u j = dp.get u j)
    ∧ ∀ a j, a ≠ u → (mergeChild w C u child dp).get a j = dp.get a j := by
  obtain ⟨-, h2, h3, h4⟩ := mergeChild_spec w C u child R dp hd hu hne
  exact ⟨h4, h3, h2⟩

/-- An instance of `mergeChild_snapshot`: `C = 3`, `w = 1`, `P = [0, 5, 5, 5]` and
`Ch = [0, 4, 7, 7]` give `P' = [0, 5, 9, 12]`. -/
theorem mergeChild_snapshot_witness :
    Table.Dims ([[0, 5, 5, 5], [0, 4, 7, 7]] : Table ℕ) 2 (3 + 1) ∧ 0 < 2 ∧ 1 ≠ 0
    ∧ mergeChild 1 3 0 1 [[0, 5, 5, 5], [0, 4, 7, 7]] = [[0, 5, 9, 12], [0, 4, 7, 7]]
    ∧ IsGreatest {x | ∃ k, k ≤ 3 - 1 ∧ x = Table.get ([[0, 5, 5, 5], [0, 4, 7, 7]] : Table ℕ) 0 (3 - k)
            + Table.get ([[0, 5, 5, 5], [0, 4, 7, 7]] : Table ℕ) 1 k}
          ((mergeChild 1 3 0 1 [[0, 5, 5, 5], [0, 4, 7, 7]]).get 0 3) :=
  ⟨⟨rfl, by decide⟩, by decide, by decide, by decide,
    (mergeChild_snapshot 1 3 0 1 2 [[0, 5, 5, 5], [0, 4, 7, 7]] ⟨rfl, by decide⟩ (by decide)
      (by decide)).1 3 (by decide) (by decide)⟩

/-- A row that holds optima within the capacity is non-decreasing. -/
theorem rep_mono_row {A : Set (ℕ × ℕ)} {r : ℕ → ℕ} {C : ℕ} (h : Rep A r C) (j j' : ℕ)
    (hjj : j ≤ j') (hj : j' ≤ C) : r j ≤ r j' := by
  obtain ⟨wt, hwt, hmem⟩ := (h j (by omega)).1
  exact (h j' hj).2 ⟨wt, by omega, hmem⟩

/-- In exact arithmetic: in a valid forest with exactly one root `r`, the `max_value` the solver
reports by its shortcut is `dp[r][C]`, and this is the `finalDp[C]` that the merge loop of the
general branch gives when `dp[r]` is merged into the all-zero array; the row `dp[r]` is
non-decreasing in the capacity. -/
theorem single_root_shortcut (items : List ItemT) (hv : ValidForest items) (C : Nat)
    (h1 : (buildRoots items).length = 1) :
    maxValueTree items C = (dfsAll items C).get ((buildRoots items).getD 0 0) C
    ∧ ((buildRoots items).foldl (fun finalDp root => mergeRoot C root (dfsAll items C) finalDp)
        (List.replicate (C + 1) 0)).getD C 0
        = (dfsAll items C).get ((buildRoots items).getD 0 0) C
    ∧ ∀ j j', j ≤ j' → j' ≤ C →
        (dfsAll items C).get ((buildRoots items).getD 0 0) j
          ≤ (dfsAll items C).get ((buildRoots items).getD 0 0) j' := by
  obtain ⟨r, hr⟩ := List.length_eq_one.1 h1
  have hrm : r ∈ buildRoots items := by rw [hr]; exact List.mem_singleton_self r
  have hrow : RowOK items C (dfsAll items C) r := (dfsAll_spec items hv C).2 r hrm
  have hmono : ∀ j j', j ≤ j' → j' ≤ C →
      (dfsAll items C).get r j ≤ (dfsAll items C).get r j' :=
    fun j j' hjj hj => rep_mono_row hrow j j' hjj hj
  have hget : (buildRoots items).getD 0 0 = r := by rw [hr]; rfl
  rw [hget]
  refine ⟨?_, ?_, hmono⟩
  · unfold maxValueTree
    simp only []
    rw [if_pos h1, hget]
  · rw [hr]
    simp only [List.foldl_cons, List.foldl_nil]
    have hm := (mergeRoot_spec C r (dfsAll items C) (List.replicate (C + 1) 0)
      (List.length_replicate _ _)).2 C (le_refl C)
    have hz : ∀ b, (List.replicate (C + 1) 0).getD b 0 = 0 := by
      intro b
      rw [List.getD_eq_getElem?_getD, List.getElem?_replicate]
      split <;> rfl
    refine hm.unique ⟨⟨C, le_refl C, ?_⟩, ?_⟩
    · rw [hz, Nat.zero_add]
    · rintro x ⟨k, hk, rfl⟩
      rw [hz, Nat.zero_add]
      exact hmono k C hk (le_refl C)

/-- An instance of `single_root_shortcut`: the root `(2, 5)` with the child `(1, 2)`,
capacity 3: `dp[0][3] = 7` either way. -/
theorem single_root_shortcut_witness :
    ValidForest [⟨2, 5, 0⟩, ⟨1, 2, 1⟩] ∧ (buildRoots [⟨2, 5, 0⟩, ⟨1, 2, 1⟩]).length = 1
    ∧ (dfsAll [⟨2, 5, 0⟩, ⟨1, 2, 1⟩] 3).get 0 3 = 7
    ∧ maxValueTree [⟨2, 5, 0⟩, ⟨1, 2, 1⟩] 3
        = (dfsAll [⟨2, 5, 0⟩, ⟨1, 2, 1⟩] 3).get ((buildRoots [⟨2, 5, 0⟩, ⟨1, 2, 1⟩]).getD 0 0) 3
    ∧ ((buildRoots [⟨2, 5, 0⟩, ⟨1, 2, 1⟩]).foldl
          (fun finalDp root => mergeRoot 3 root (dfsAll [⟨2, 5, 0⟩, ⟨1, 2, 1⟩] 3) finalDp)
          (List.replicate (3 + 1) 0)).getD 3 0
        = (dfsAll [⟨2, 5, 0⟩, ⟨1, 2, 1⟩] 3).get ((buildRoots [⟨2, 5, 0⟩, ⟨1, 2, 1⟩]).getD 0 0) 3 :=
  have hv : ValidForest [⟨2, 5, 0⟩, ⟨1, 2, 1⟩] := by
    constructor <;> decide
  have h := single_root_shortcut [⟨2, 5, 0⟩, ⟨1, 2, 1⟩] hv 3 (by decide)
  ⟨hv, by decide, by decide, h.1, h.2.1⟩

/-- Two merges in a row take the greatest sum over the splits of the budget in three. -/
theorem conv_conv (f g A B : ℕ → ℕ) (j : ℕ)
    (hg : ∀ m, m ≤ j → IsGreatest {x | ∃ k, k ≤ m ∧ x = f (m - k) + B k} (g m)) (x : ℕ)
    (hx : IsGreatest {x | ∃ k, k ≤ j ∧ x = g (j - k) + A k} x) :
    IsGreatest {y | ∃ k k', k + k' ≤ j ∧ y = f (j - k - k') + B k' + A k} x := by
  constructor
  · obtain ⟨k, hk, rfl⟩ := hx.1
    obtain ⟨k', hk', he⟩ := (hg (j - k) (Nat.sub_le _ _)).1
    exact ⟨k, k', by omega, by rw [he]⟩
  · rintro y ⟨k, k', hkk, rfl⟩
    have h1 := (hg (j - k) (Nat.sub_le _ _)).2 ⟨k', by omega, rfl⟩
    have h2 := hx.2 ⟨k, by omega, rfl⟩
    omega

/-- Two lists of the same length with the same reads are equal. -/
theorem ext_getD (l1 l2 : List ℕ) (n : ℕ) (h1 : l1.length = n) (h2 : l2.length = n)
    (h : ∀ b, b < n → l1.getD b 0 = l2.getD b 0) : l1 = l2 := by
  refine List.ext_getElem (by rw [h1, h2]) (fun i hi1 hi2 => ?_)
  have := h i (by omega)
  rwa [List.getD_eq_getElem _ _ hi1, List.getD_eq_getElem _ _ hi2] at this

/-- The merges of two roots into `finalDp` commute. -/
theorem mergeRoot_comm (C a b : ℕ) (dp : Table ℕ) (fd : List ℕ) (hlen : fd.length = C + 1) :
    mergeRoot C a dp (mergeRoot C b dp fd) = mergeRoot C b dp (mergeRoot C a dp fd) := by
  obtain ⟨lb, hb⟩ := mergeRoot_spec C b dp fd hlen
  obtain ⟨la, ha⟩ := mergeRoot_spec C a dp fd hlen
  obtain ⟨lab, hab⟩ := mergeRoot_spec C a dp (mergeRoot C b dp fd) lb
  obtain ⟨lba, hba⟩ := mergeRoot_spec C b dp (mergeRoot C a dp fd) la
  refine ext_getD _ _ (C + 1) lab lba (fun j hj => ?_)
  have h1 := conv_conv (fun m => fd.getD m 0) (fun m => (mergeRoot C b dp fd).getD m 0)
    (fun k => dp.get a k) (fun k => dp.get b k) j (fun m hm => hb m (by omega)) _
    (hab j (by omega))
  have h2 := conv_conv (fun m => fd.getD m 0) (fun m => (mergeRoot C a dp fd).getD m 0)
    (fun k => dp.get b k) (fun k => dp.get a k) j (fun m hm => ha m (by omega)) _
    (hba j (by omega))
  refine h1.unique ?_
  have hset : {y | ∃ k k', k + k' ≤ j ∧ y = fd.getD (j - k - k') 0 + dp.get b k' + dp.get a k}
      = {y | ∃ k k', k + k' ≤ j ∧ y = fd.getD (j - k - k') 0 + dp.get a k' + dp.get b k} := by
    ext y
    constructor
    · rintro ⟨k, k', h, rfl⟩
      exact ⟨k', k, by omega, by rw [Nat.sub_right_comm]; omega⟩
    · rintro ⟨k, k', h, rfl⟩
      exact ⟨k', k, by omega, by rw [Nat.sub_right_comm]; omega⟩
  simp only [] at h1 h2 ⊢
  rw [hset]
  exact h2

/-- The merge loop over a list of roots, from a `finalDp` of length `C + 1`, gives the same
`finalDp` for every order of the list. -/
theorem mergeRoots_perm (C : ℕ) (dp : Table ℕ) (L L' : List ℕ) (h : L.Perm L') :
    ∀ fd : List ℕ, fd.length = C + 1 →
      L.foldl (fun finalDp root => mergeRoot C root dp finalDp) fd
        = L'.foldl (fun finalDp root => mergeRoot C root dp finalDp) fd := by
  induction h with
  | nil => intro fd _; rfl
  | cons x _ ih =>
    intro fd hlen
    simp only [List.foldl_cons]
    exact ih _ (mergeRoot_spec C x dp fd hlen).1
  | swap x y l =>
    intro fd hlen
    simp only [List.foldl_cons]
    rw [mergeRoot_comm C x y dp fd hlen]
  | trans _ _ ih1 ih2 =>
    intro fd hlen
    rw [ih1 fd hlen, ih2 fd hlen]

/-- In exact arithmetic: the final merge of the roots, `finalDp` starting as `C + 1` zeros and the
value array of the root `r` being the row `dp[r]` (any natural numbers), gives the same
`finalDp[C]`, and the same whole `finalDp`, for every permutation of the list of roots. -/
theorem mergeRoots_order_irrelevant (C : ℕ) (dp : Table ℕ) (L L' : List ℕ) (h : L.Perm L') :
    (L.foldl (fun finalDp root => mergeRoot C root dp finalDp)
        (List.replicate (C + 1) 0)).getD C 0
      = (L'.foldl (fun finalDp root => mergeRoot C root dp finalDp)
        (List.replicate (C + 1) 0)).getD C 0
    ∧ L.foldl (fun finalDp root => mergeRoot C root dp finalDp) (List.replicate (C + 1) 0)
      = L'.foldl (fun finalDp root => mergeRoot C root dp finalDp)
          (List.replicate (C + 1) 0) := by
  have := mergeRoots_perm C dp L L' h (List.replicate (C + 1) 0) (List.length_replicate _ _)
  exact ⟨by rw [this], this⟩

/-- An instance of `mergeRoots_order_irrelevant`: three value arrays for `C = 3`, merged in
the orders 0, 1, 2 and 2, 0, 1: `finalDp[3] = 9` both times. -/
theorem mergeRoots_order_irrelevant_witness :
    ([0, 1, 2] : List ℕ).Perm [2, 0, 1]
    ∧ (([0, 1, 2] : List ℕ).foldl (fun finalDp root =>
          mergeRoot 3 root [[0, 0, 5, 5], [0, 4, 4, 6], [0, 0, 0, 8]] finalDp)
        (List.replicate (3 + 1) 0)).getD 3 0 = 9
    ∧ (([0, 1, 2] : List ℕ).foldl (fun finalDp root =>
          mergeRoot 3 root [[0, 0, 5, 5], [0, 4, 4, 6], [0, 0, 0, 8]] finalDp)
        (List.replicate (3 + 1) 0)).getD 3 0
      = (([2, 0, 1] : List ℕ).foldl (fun finalDp root =>
          mergeRoot 3 root [[0, 0, 5, 5], [0, 4, 4, 6], [0, 0, 0, 8]] finalDp)
        (List.replicate (3 + 1) 0)).getD 3 0 :=
  ⟨by decide, by decide,
    (mergeRoots_order_irrelevant 3 [[0, 0, 5, 5], [0, 4, 4, 6], [0, 0, 0, 8]] [0, 1, 2] [2, 0, 1]
      (by decide)).1⟩

/-- For a node that fits (`w ≤ C`) the best column lies in `w..C`. -/
theorem bestJ_in_range (w C u : ℕ) (dp : Table ℕ) (hw : w ≤ C) :
    w ≤ bestJ w C u dp ∧ bestJ w C u dp ≤ C := by
  have h := forUp_induction (fun k (b : ℕ) => w ≤ b ∧ b ≤ C) w C
    (fun j bestJ => if dp.get u j > dp.get u bestJ then j else bestJ) w (by omega)
    ⟨le_refl w, hw⟩ (fun k st h1 h2 h3 => by
      simp only []
      split
      · exact ⟨h1, h2⟩
      · exact h3)
  exact h

/-- For a node heavier than the capacity the loop does not run and the best column stays
`w`, which is outside every row of `C + 1` cells. -/
theorem bestJ_heavy (w C u R : ℕ) (dp : Table ℕ) (hd : dp.Dims R (C + 1)) (hw : C < w) :
    bestJ w C u dp = w ∧ dp.read? u (bestJ w C u dp) = none := by
  have hb : bestJ w C u dp = w := forUp_empty _ _ _ _ hw
  refine ⟨hb, ?_⟩
  rw [hb]
  unfold Table.read?
  cases hrow : dp.get? u with
  | none => rfl
  | some row =>
    have hmem : row ∈ dp := List.get?_mem hrow
    have hlen := hd.2 row hmem
    simp only [Option.some_bind]
    exact List.get?_eq_none.2 (by omega)

/-- C37 (refuted): the valid forest of the single root `(w, v) = (2, 5)` with capacity 1. The
table has the one row `[0, 0]`; the loop that looks for the best column does not run, so
`bestJ` stays `w = 2`, and the read `dp[0][bestJ]` of the "complete" step has the column
index 2, outside `0..1`. -/
theorem completeStep_reads_past_row :
    ValidForest [⟨2, 5, 0⟩]
    ∧ (∀ it ∈ ([⟨2, 5, 0⟩] : List ItemT), 0 < it.weight)
    ∧ dfsAll [⟨2, 5, 0⟩] 1 = [[0, 0]]
    ∧ bestJ 2 1 0 (dfsAll [⟨2, 5, 0⟩] 1) = 2
    ∧ (dfsAll [⟨2, 5, 0⟩] 1).read? 0 (bestJ 2 1 0 (dfsAll [⟨2, 5, 0⟩] 1)) = none
    ∧ completeStep [⟨2, 5, 0⟩] 1 0 (dfsAll [⟨2, 5, 0⟩] 1) = none := by
  refine ⟨?_, by decide, by decide, by decide, by decide, by decide⟩
  constructor <;> decide

/-- A chain of parent steps passes through a node at each shorter length. -/
theorem ancestorAt_prefix (items : List ItemT) (k d t a : Nat) (hk : k ≤ d)
    (h : ancestorAt items d t = some a) :
    ∃ b, ancestorAt items k t = some b ∧ ancestorAt items (d - k) b = some a := by
  have hadd := ancestorAt_add items k (d - k) t
  have e : k + (d - k) = d := by omega
  rw [e, h] at hadd
  cases hb : ancestorAt items k t with
  | none =>
    rw [hb] at hadd
    exact absurd hadd (by simp)
  | some b =>
    rw [hb] at hadd
    exact ⟨b, rfl, hadd.symm⟩

theorem ancestorAt_lt (items : List ItemT)
    (hpar : ∀ t, t < items.length → (items.getD t default).parent ≤ items.length) :
    ∀ k t a, t < items.length → ancestorAt items k t = some a → a < items.length := by
  intro k
  induction k with
  | zero =>
    intro t a ht h
    have : t = a := by simpa [ancestorAt] using h
    omega
  | succ k ih =>
    intro t a ht h
    rw [ancestorAt_succ] at h
    by_cases hp : (items.getD t default).parent = 0
    · rw [if_pos hp] at h
      exact absurd h (by simp)
    · rw [if_neg hp] at h
      have := hpar t ht
      exact ih _ a (by omega) h

/-- The distance of a node to its root is determined. -/
theorem rootAt_unique (items : List ItemT) (d d' t : Nat) (h : RootAt items d t)
    (h' : RootAt items d' t) : d = d' := by
  have key : ∀ d d', d < d' → RootAt items d t → RootAt items d' t → False := by
    intro d d' hlt h h'
    obtain ⟨r, hr, hp⟩ := h
    obtain ⟨r', hr', -⟩ := h'
    have hadd := ancestorAt_add items d (d' - d) t
    have e : d + (d' - d) = d' := by omega
    rw [e, hr, hr'] at hadd
    obtain ⟨m, hm⟩ : ∃ m, d' - d = m + 1 := ⟨d' - d - 1, by omega⟩
    rw [hm] at hadd
    simp only [Option.some_bind] at hadd
    rw [ancestorAt_succ, if_pos hp] at hadd
    exact absurd hadd (by simp)
  rcases Nat.lt_trichotomy d d' with hlt | heq | hgt
  · exact (key d d' hlt h h').elim
  · exact heq
  · exact (key d' d hgt h' h).elim

/-- A node below a root is fewer than `n` parent steps below it. -/
theorem rootAt_lt (items : List ItemT)
    (hpar : ∀ t, t < items.length → (items.getD t default).parent ≤ items.length)
    (d t : Nat) (ht : t < items.length) (h : RootAt items d t) : d < items.length := by
  by_contra hcon
  have hn : items.length ≤ d := by omega
  obtain ⟨r, hr, hp⟩ := h
  have hanc : ∀ k, k ≤ items.length → ∃ b, b < items.length ∧ ancestorAt items k t = some b
      ∧ RootAt items (d - k) b := by
    intro k hk
    obtain ⟨b, hb, hb'⟩ := ancestorAt_prefix items k d t r (by omega) hr
    exact ⟨b, ancestorAt_lt items hpar k t b ht hb, hb, r, hb', hp⟩
  obtain ⟨i, hi, j, hj, hij, heq⟩ := Finset.exists_ne_map_eq_of_card_lt_of_maps_to
    (s := Finset.range (items.length + 1)) (t := Finset.range items.length)
    (f := fun k => (ancestorAt items k t).getD 0) (by simp)
    (by
      intro k hk
      obtain ⟨a, ha, hka, -⟩ := hanc k (by simpa [Nat.lt_succ_iff] using hk)
      simp [hka, ha])
  simp only [Finset.mem_range, Nat.lt_succ_iff] at hi hj
  obtain ⟨a, -, hia, hra⟩ := hanc i hi
  obtain ⟨b, -, hjb, hrb⟩ := hanc j hj
  rw [hia, hjb] at heq
  simp only [Option.getD_some] at heq
  subst heq
  have := rootAt_unique items _ _ _ hra hrb
  omega

theorem rootAt_child (items : List ItemT) (d u c : Nat) (h : RootAt items d u)
    (hc : IsChild items u c) : RootAt items (d + 1) c := by
  obtain ⟨r, hr, hp⟩ := h
  refine ⟨r, ?_, hp⟩
  rw [ancestorAt_succ, if_neg (by rw [hc.2]; omega), hc.2]
  exact hr

theorem inSub_ancestor (items : List ItemT) (u t : Nat) (h : InSub items u t) :
    ∃ e, ancestorAt items e t = some u := by
  induction h with
  | refl => exact ⟨0, rfl⟩
  | tail _ hc ih =>
    obtain ⟨e, he⟩ := ih
    refine ⟨e + 1, ?_⟩
    rw [ancestorAt_succ, if_neg (by rw [hc.2]; omega), hc.2]
    exact he

theorem rootAt_of_ancestor (items : List ItemT) (d e u t : Nat) (h : RootAt items d u)
    (he : ancestorAt items e t = some u) : RootAt items (e + d) t := by
  obtain ⟨r, hr, hp⟩ := h
  refine ⟨r, ?_, hp⟩
  rw [ancestorAt_add, he]
  exact hr

/-- Below a node that hangs from a root, the subtree of a child does not come back to the
node, and the subtrees of two children share no node. -/
theorem inSub_eq_of_rootAt (items : List ItemT) (d a b : Nat) (ha : RootAt items d a)
    (hb : RootAt items d b) (h : InSub items a b) : a = b := by
  obtain ⟨e, he⟩ := inSub_ancestor items a b h
  have h2 := rootAt_of_ancestor items d e a b ha he
  have he0 : e = 0 := by
    have := rootAt_unique items _ _ _ h2 hb
    omega
  subst he0
  simpa [ancestorAt] using he.symm

theorem inSub_not_above (items : List ItemT) (d u c : Nat) (hu : RootAt items d u)
    (hc : IsChild items u c) : ¬ InSub items c u := by
  intro h
  obtain ⟨e, he⟩ := inSub_ancestor items c u h
  have h2 := rootAt_of_ancestor items (d + 1) e c u (rootAt_child items d u c hu hc) he
  have := rootAt_unique items _ _ _ h2 hu
  omega

/-- A node on a cycle of the parent pointers hangs from no root. -/
theorem not_rootAt_of_cycle (items : List ItemT) (t k : Nat) (hk : 0 < k)
    (hc : ancestorAt items k t = some t) : ∀ d, ¬ RootAt items d t := by
  intro d hd
  have h2 := rootAt_of_ancestor items d k t t hd hc
  have := rootAt_unique items _ _ _ h2 hd
  omega

theorem dfsVisits_step (children : List (List Nat)) (fuel u : Nat) :
    dfsVisits children (fuel + 1) u
      = (children.getD u []).foldl (fun acc child =>
          acc.bind (fun l => (dfsVisits children fuel child).map (fun l' => l ++ l')))
          (some [u]) := rfl

theorem foldVisits_none (g : Nat → Option (List Nat)) (cs : List Nat) :
    cs.foldl (fun acc c => acc.bind (fun l => (g c).map (fun l' => l ++ l'))) none = none := by
  induction cs with
  | nil => rfl
  | cons c cs ih => exact ih

/-- A run of calls that returns keeps its result when the calls are replaced by calls that
return the same where the first ones return. -/
theorem foldVisits_congr (g g' : Nat → Option (List Nat)) (cs : List Nat)
    (hg : ∀ c ∈ cs, ∀ l, g c = some l → g' c = some l) :
    ∀ acc L, cs.foldl (fun acc c => acc.bind (fun l => (g c).map (fun l' => l ++ l'))) acc
        = some L →
      cs.foldl (fun acc c => acc.bind (fun l => (g' c).map (fun l' => l ++ l'))) acc
        = some L := by
  induction cs with
  | nil => intro acc L h; exact h
  | cons c cs ih =>
    intro acc L h
    simp only [List.foldl_cons] at h ⊢
    cases acc with
    | none =>
      simp only [Option.none_bind] at h
      rw [foldVisits_none] at h
      exact absurd h (by simp)
    | some l =>
      cases hgc : g c with
      | none =>
        rw [hgc] at h
        simp only [Option.some_bind, Option.map_none'] at h
        rw [foldVisits_none] at h
        exact absurd h (by simp)
      | some l' =>
        rw [hgc] at h
        rw [hg c (List.mem_cons_self _ _) l' hgc]
        exact ih (fun c' hc' => hg c' (List.mem_cons_of_mem _ hc')) _ L h

/-- A run of calls whose results are duplicate-free and pairwise disjoint gives a
duplicate-free list of all their results. -/
theorem foldVisits_spec (g : Nat → Option (List Nat)) (Q : Nat → Nat → Prop) :
    ∀ (cs l0 : List Nat),
      (∀ c ∈ cs, ∃ Lc, g c = some Lc ∧ Lc.Nodup ∧ ∀ t, t ∈ Lc ↔ Q c t) →
      cs.Pairwise (fun c c' => ∀ t, Q c t → Q c' t → False) →
      l0.Nodup → (∀ c ∈ cs, ∀ t ∈ l0, ¬ Q c t) →
      ∃ L, cs.foldl (fun acc c => acc.bind (fun l => (g c).map (fun l' => l ++ l')))
            (some l0) = some L
        ∧ L.Nodup ∧ ∀ t, t ∈ L ↔ t ∈ l0 ∨ ∃ c ∈ cs, Q c t := by
  intro cs
  induction cs with
  | nil =>
    intro l0 _ _ hnd _
    exact ⟨l0, rfl, hnd, fun t => by simp⟩
  | cons c cs ih =>
    intro l0 hg hpw hnd hdis
    obtain ⟨Lc, hc1, hc2, hc3⟩ := hg c (List.mem_cons_self _ _)
    rw [List.pairwise_cons] at hpw
    have hnd' : (l0 ++ Lc).Nodup := by
      rw [List.nodup_append]
      refine ⟨hnd, hc2, fun t ht ht' => ?_⟩
      exact hdis c (List.mem_cons_self _ _) t ht ((hc3 t).1 ht')
    obtain ⟨L, h1, h2, h3⟩ := ih (l0 ++ Lc)
      (fun c' hc' => hg c' (List.mem_cons_of_mem _ hc')) hpw.2 hnd'
      (fun c' hc' t ht => by
        rcases List.mem_append.1 ht with ht | ht
        · exact hdis c' (List.mem_cons_of_mem _ hc') t ht
        · exact fun hq => hpw.1 c' hc' t ((hc3 t).1 ht) hq)
    refine ⟨L, ?_, h2, fun t => ?_⟩
    · simp only [List.foldl_cons, Option.some_bind, hc1, Option.map_some']
      exact h1
    · rw [h3, List.mem_append, hc3]
      constructor
      · rintro ((h | h) | ⟨c', hc', h⟩)
        · exact Or.inl h
        · exact Or.inr ⟨c, List.mem_cons_self _ _, h⟩
        · exact Or.inr ⟨c', List.mem_cons_of_mem _ hc', h⟩
      · rintro (h | ⟨c', hc', h⟩)
        · exact Or.inl (Or.inl h)
        · rcases List.mem_cons.1 hc' with rfl | hc'
          · exact Or.inl (Or.inr h)
          · exact Or.inr ⟨c', hc', h⟩

/-- A call of `dfs` that returns within a depth returns the same within a greater one. -/
theorem dfsVisits_succ (children : List (List Nat)) :
    ∀ fuel u L, dfsVisits children fuel u = some L →
      dfsVisits children (fuel + 1) u = some L := by
  intro fuel
  induction fuel with
  | zero =>
    intro u L h
    exact absurd h (by simp [dfsVisits])
  | succ fuel ih =>
    intro u L h
    rw [dfsVisits_step] at h ⊢
    exact foldVisits_congr _ _ _ (fun c _ l hl => ih c l hl) _ L h

/-- The call `dfs(u)` on a node `d` steps below a root, the recursion being allowed the depth
`n - d`: it returns, and it has been called once on every node of the subtree of `u` and on
no other. -/
theorem dfsVisits_spec (items : List ItemT)
    (hpar : ∀ t, t < items.length → (items.getD t default).parent ≤ items.length) :
    ∀ fuel u d, u < items.length → RootAt items d u → items.length ≤ fuel + d →
      ∃ L, dfsVisits (buildChildren items) fuel u = some L ∧ L.Nodup
        ∧ ∀ t, t ∈ L ↔ InSub items u t := by
  intro fuel
  induction fuel with
  | zero =>
    intro u d hu hd hn
    have := rootAt_lt items hpar d u hu hd
    omega
  | succ fuel ih =>
    intro u d hu hd hn
    have hch : ∀ c, c ∈ (buildChildren items).getD u [] → IsChild items u c :=
      fun c hc => (mem_buildChildren items u c hu).1 hc
    obtain ⟨L, h1, h2, h3⟩ := foldVisits_spec (dfsVisits (buildChildren items) fuel)
      (InSub items) ((buildChildren items).getD u []) [u]
      (fun c hc => ih c (d + 1) (hch c hc).1 (rootAt_child items d u c hd (hch c hc))
        (by omega))
      ((nodup_buildChildren items u hu).imp_of_mem (fun {c c'} hc hc' hne t ht ht' => by
        have hrc := rootAt_child items d u c hd (hch c hc)
        have hrc' := rootAt_child items d u c' hd (hch c' hc')
        rcases InSub.comparable items c c' t ht ht' with h | h
        · exact hne (inSub_eq_of_rootAt items (d + 1) c c' hrc hrc' h)
        · exact hne (inSub_eq_of_rootAt items (d + 1) c' c hrc' hrc h).symm))
      (List.nodup_singleton u)
      (fun c hc t ht => by
        rw [List.mem_singleton] at ht
        subst ht
        exact inSub_not_above items d t c hd (hch c hc))
    refine ⟨L, by rw [dfsVisits_step]; exact h1, h2, fun t => ?_⟩
    rw [h3]
    constructor
    · rintro (h | ⟨c, hc, h⟩)
      · rw [List.mem_singleton] at h
        subst h
        exact Relation.ReflTransGen.refl
      · exact Relation.ReflTransGen.head (hch c hc) h
    · intro h
      rcases Relation.ReflTransGen.cases_head h with h | ⟨c, hc, h⟩
      · exact Or.inl (by rw [List.mem_singleton]; exact h.symm)
      · exact Or.inr ⟨c, (mem_buildChildren items u c hu).2 hc, h⟩

theorem dfsVisitsAll_add (items : List ItemT) (fuel : Nat) (L : List Nat)
    (h : dfsVisitsAll items fuel = some L) :
    ∀ extra, dfsVisitsAll items (fuel + extra) = some L := by
  intro extra
  induction extra with
  | zero => exact h
  | succ e ih =>
    exact foldVisits_congr _ _ _
      (fun c _ l hl => dfsVisits_succ (buildChildren items) (fuel + e) c l hl) _ L ih

/-- C38: for parent ids in `0..n`, cycles and self-loops of the parent pointers allowed, the
calls `dfs(root)` made for the roots all return, the recursion never being deeper than `n`
(and a greater allowance changes nothing); `dfs` has then been called exactly once on every
node that lies in the subtree of a root and on no other node, so on no node that lies on a
cycle of the parent pointers. -/
theorem dfs_terminates_with_cycles (items : List ItemT)
    (hpar : ∀ t, t < items.length → (items.getD t default).parent ≤ items.length) :
    ∃ L, (∀ extra, dfsVisitsAll items (items.length + extra) = some L)
      ∧ L.Nodup
      ∧ (∀ t, t ∈ L ↔ ∃ r ∈ buildRoots items, InSub items r t)
      ∧ ∀ t k, 0 < k → ancestorAt items k t = some t → t ∉ L := by
  have hroot : ∀ r, r ∈ buildRoots items → r < items.length ∧ RootAt items 0 r :=
    fun r hr => ⟨((mem_buildRoots items r).1 hr).1, r, rfl, ((mem_buildRoots items r).1 hr).2⟩
  obtain ⟨L, h1, h2, h3⟩ := foldVisits_spec (dfsVisits (buildChildren items) items.length)
    (InSub items) (buildRoots items) []
    (fun r hr => dfsVisits_spec items hpar items.length r 0 (hroot r hr).1 (hroot r hr).2
      (by omega))
    ((nodup_buildRoots items).imp_of_mem (fun {c c'} hc hc' hne t ht ht' => by
      rcases InSub.comparable items c c' t ht ht' with h | h
      · exact hne (inSub_eq_of_rootAt items 0 c c' (hroot c hc).2 (hroot c' hc').2 h)
      · exact hne (inSub_eq_of_rootAt items 0 c' c (hroot c' hc').2 (hroot c hc).2 h).symm))
    List.nodup_nil (fun _ _ t ht => absurd ht (List.not_mem_nil t))
  have hmem : ∀ t, t ∈ L ↔ ∃ r ∈ buildRoots items, InSub items r t := by
    intro t
    rw [h3]
    simp
  refine ⟨L, dfsVisitsAll_add items items.length L h1, h2, hmem, fun t k hk hc ht => ?_⟩
  obtain ⟨r, hr, hsub⟩ := (hmem t).1 ht
  obtain ⟨e, he⟩ := inSub_ancestor items r t hsub
  have := rootAt_of_ancestor items 0 e r t (hroot r hr).2 he
  exact not_rootAt_of_cycle items t k hk hc _ this

/-- An instance of `dfs_terminates_with_cycles`: node 0 is a root with the child 1, the nodes
2 and 3 are each other's parent and node 4 is its own parent; `dfs` is called on 0 and 1. -/
theorem dfs_terminates_with_cycles_witness :
    (∀ t, t < ([⟨1, 5, 0⟩, ⟨1, 2, 1⟩, ⟨1, 1, 4⟩, ⟨1, 1, 3⟩, ⟨1, 1, 5⟩] : List ItemT).length →
      (([⟨1, 5, 0⟩, ⟨1, 2, 1⟩, ⟨1, 1, 4⟩, ⟨1, 1, 3⟩, ⟨1, 1, 5⟩] : List ItemT).getD t
        default).parent
        ≤ ([⟨1, 5, 0⟩, ⟨1, 2, 1⟩, ⟨1, 1, 4⟩, ⟨1, 1, 3⟩, ⟨1, 1, 5⟩] : List ItemT).length)
    ∧ dfsVisitsAll [⟨1, 5, 0⟩, ⟨1, 2, 1⟩, ⟨1, 1, 4⟩, ⟨1, 1, 3⟩, ⟨1, 1, 5⟩] 5 = some [0, 1]
    ∧ ancestorAt [⟨1, 5, 0⟩, ⟨1, 2, 1⟩, ⟨1, 1, 4⟩, ⟨1, 1, 3⟩, ⟨1, 1, 5⟩] 2 2 = some 2
    ∧ ancestorAt [⟨1, 5, 0⟩, ⟨1, 2, 1⟩, ⟨1, 1, 4⟩, ⟨1, 1, 3⟩, ⟨1, 1, 5⟩] 1 4 = some 4
    ∧ ∃ L, (∀ extra, dfsVisitsAll [⟨1, 5, 0⟩, ⟨1, 2, 1⟩, ⟨1, 1, 4⟩, ⟨1, 1, 3⟩, ⟨1, 1, 5⟩]
          (([⟨1, 5, 0⟩, ⟨1, 2, 1⟩, ⟨1, 1, 4⟩, ⟨1, 1, 3⟩, ⟨1, 1, 5⟩] : List ItemT).length
            + extra) = some L)
        ∧ L.Nodup :=
  have hpar : ∀ t, t < ([⟨1, 5, 0⟩, ⟨1, 2, 1⟩, ⟨1, 1, 4⟩, ⟨1, 1, 3⟩, ⟨1, 1, 5⟩] : List ItemT).length →
      (([⟨1, 5, 0⟩, ⟨1, 2, 1⟩, ⟨1, 1, 4⟩, ⟨1, 1, 3⟩, ⟨1, 1, 5⟩] : List ItemT).getD t
        default).parent
        ≤ ([⟨1, 5, 0⟩, ⟨1, 2, 1⟩, ⟨1, 1, 4⟩, ⟨1, 1, 3⟩, ⟨1, 1, 5⟩] : List ItemT).length := by
    decide
  have h := dfs_terminates_with_cycles _ hpar
  ⟨hpar, by decide, by decide, by decide, h.choose, h.choose_spec.1, h.choose_spec.2.1⟩

/-- An `int` sum that stays in the range is exact. -/
theorem wrap32_eq (x : Int) (h1 : -2147483648 ≤ x) (h2 : x < 2147483648) : wrap32 x = x := by
  unfold wrap32
  omega

/-- The `int` sum of two natural numbers whose exact sum is below `2^31` is exact. -/
theorem wrap32_add_cast (a b : Nat) (h : a + b < 2147483648) :
    wrap32 ((a : Int) + (b : Int)) = ((a + b : Nat) : Int) := by
  rw [wrap32_eq _ (by omega) (by omega)]
  push_cast
  rfl

theorem castT_get (T : Table Nat) (i j : Nat) : (castT T).get i j = ((T.get i j : Nat) : Int) := by
  unfold castT Table.get
  rw [List.getD_eq_getElem?_getD, List.getD_eq_getElem?_getD, List.getD_eq_getElem?_getD,
    List.getD_eq_getElem?_getD, List.getElem?_map]
  cases T[i]? with
  | none => rfl
  | some row =>
    simp only [Option.map_some', Option.getD_some, List.getElem?_map]
    cases row[j]? with
    | none => rfl
    | some x => rfl

theorem castT_set (T : Table Nat) (i j x : Nat) :
    castT (T.set i j x) = (castT T).set i j (x : Int) := by
  unfold castT Table.set
  rw [List.map_set, List.map_set]
  congr 2
  rw [List.getD_eq_getElem?_getD, List.getD_eq_getElem?_getD, List.getElem?_map]
  cases T[i]? with
  | none => rfl
  | some row => rfl

theorem castT_mk (R Cc : Nat) : castT (Table.mk R Cc 0) = Table.mk R Cc 0 := by
  unfold castT Table.mk
  rw [List.map_replicate, List.map_replicate]
  rfl

theorem castT_injective (T T' : Table Nat) (h : castT T = castT T') : T = T' := by
  unfold castT at h
  refine List.map_injective_iff.2 (List.map_injective_iff.2 ?_) h
  exact fun a b hab => Int.ofNat.inj hab

/-- A write changes the cell written, when it is in the table, and no other. -/
theorem Table.get_set_cases {α : Type} [Inhabited α] (T : Table α) (i j : Nat) (x : α)
    (a b : Nat) :
    (T.set i j x).get a b = T.get a b ∨ ((a, b) = (i, j) ∧ (T.set i j x).get a b = x) := by
  by_cases h : (a, b) = (i, j)
  · obtain ⟨rfl, rfl⟩ := Prod.mk.inj h
    unfold Table.set Table.get
    simp only [List.getD_eq_getElem?_getD]
    by_cases ha : a < T.length
    · rw [List.getElem?_set_self ha]
      simp only [Option.getD_some]
      by_cases hb : b < (T[a]?.getD []).length
      · right
        refine ⟨trivial, ?_⟩
        rw [List.getElem?_set_self hb]
        rfl
      · left
        rw [List.set_eq_of_length_le (by omega)]
    · left
      rw [List.set_eq_of_length_le (by omega)]
  · exact Or.inl (Table.get_set_other T i j x a b h)

theorem tableMk_get_zero (R Cc r j : Nat) : (Table.mk R Cc (0 : Nat)).get r j = 0 := by
  unfold Table.mk Table.get
  rw [List.getD_eq_getElem?_getD, List.getD_eq_getElem?_getD, List.getElem?_replicate]
  split
  · simp only [Option.getD_some, List.getElem?_replicate]
    split <;> rfl
  · rfl

theorem boundJ_mk (V R Cc : Nat) : BoundJ V (Table.mk R Cc 0) := by
  intro r j
  rw [tableMk_get_zero]
  exact Nat.zero_le _

theorem boundJ_set (V : Nat) (T : Table Nat) (h : BoundJ V T) (i j x : Nat) (hx : x ≤ j * V) :
    BoundJ V (T.set i j x) := by
  intro a b
  rcases Table.get_set_cases T i j x a b with h1 | ⟨h1, h2⟩
  · rw [h1]
    exact h a b
  · obtain ⟨rfl, rfl⟩ := Prod.mk.inj h1
    rw [h2]
    exact hx

/-- Adding a value of at most `V` for a positive weight `w ≤ j` to a cell of column `j - w`
stays within `j * V`. -/
theorem bound_step (a v j w V : Nat) (ha : a ≤ (j - w) * V) (hv : v ≤ V) (hw : 0 < w)
    (hwj : w ≤ j) : a + v ≤ j * V := by
  have h1 : (j - w) * V + V ≤ j * V := by
    rw [← Nat.succ_mul]
    exact Nat.mul_le_mul_right V (by omega)
  omega

/-- Adding a value of at most `w * V`, for a weight `w ≤ j`, to a cell of column `j - w` stays
within `j * V`. -/
theorem bound_step_mul (a v j w V : Nat) (ha : a ≤ (j - w) * V) (hvw : v ≤ w * V)
    (hwj : w ≤ j) : a + v ≤ j * V := by
  have h1 : (j - w) * V + w * V = j * V := by
    rw [← Nat.add_mul, Nat.sub_add_cancel hwj]
  omega

/-- A value of at most `V` is at most `w * V` for a positive weight `w`. -/
theorem le_weight_mul (v w V : Nat) (hv : v ≤ V) (hw : 0 < w) : v ≤ w * V :=
  calc v ≤ 1 * V := by omega
    _ ≤ w * V := Nat.mul_le_mul_right V hw

theorem bound_cap (j C V : Nat) (hj : j ≤ C) : j * V ≤ C * V := Nat.mul_le_mul_right V hj

/-- Two folds over the same list that correspond step by step, on the states that satisfy an
invariant, correspond at the end. -/
theorem foldl_sim {κ σ τ : Type} (c : σ → τ) (Inv : σ → Prop) (f : κ → σ → σ) (g : κ → τ → τ)
    (l : List κ) (h : ∀ k ∈ l, ∀ s, Inv s → g k (c s) = c (f k s) ∧ Inv (f k s)) :
    ∀ s0, Inv s0 →
      l.foldl (fun acc k => g k acc) (c s0) = c (l.foldl (fun acc k => f k acc) s0)
      ∧ Inv (l.foldl (fun acc k => f k acc) s0) := by
  induction l with
  | nil => intro s0 h0; exact ⟨rfl, h0⟩
  | cons k l ih =>
    intro s0 h0
    obtain ⟨h1, h2⟩ := h k (List.mem_cons_self _ _) s0 h0
    simp only [List.foldl_cons]
    rw [h1]
    exact ih (fun k' hk' => h k' (List.mem_cons_of_mem _ hk')) _ h2

theorem foldr_sim {κ σ τ : Type} (c : σ → τ) (Inv : σ → Prop) (f : κ → σ → σ) (g : κ → τ → τ)
    (l : List κ) (h : ∀ k ∈ l, ∀ s, Inv s → g k (c s) = c (f k s) ∧ Inv (f k s)) :
    ∀ s0, Inv s0 →
      l.foldr (fun k acc => g k acc) (c s0) = c (l.foldr (fun k acc => f k acc) s0)
      ∧ Inv (l.foldr (fun k acc => f k acc) s0) := by
  induction l with
  | nil => intro s0 h0; exact ⟨rfl, h0⟩
  | cons k l ih =>
    intro s0 h0
    obtain ⟨h1, h2⟩ := ih (fun k' hk' => h k' (List.mem_cons_of_mem _ hk')) s0 h0
    simp only [List.foldr_cons]
    rw [h1]
    exact h k (List.mem_cons_self _ _) _ h2

theorem forUp_sim {σ τ : Type} (c : σ → τ) (Inv : σ → Prop) (lo hi : Nat) (f : Nat → σ → σ)
    (g : Nat → τ → τ)
    (h : ∀ k, lo ≤ k → k ≤ hi → ∀ s, Inv s → g k (c s) = c (f k s) ∧ Inv (f k s))
    (s0 : σ) (h0 : Inv s0) :
    forUp lo hi g (c s0) = c (forUp lo hi f s0) ∧ Inv (forUp lo hi f s0) := by
  unfold forUp
  exact foldl_sim c Inv f g _ (fun k hk => by
    rw [List.mem_range'_1] at hk
    exact h k hk.1 (by omega)) s0 h0

theorem forLt_sim {σ τ : Type} (c : σ → τ) (Inv : σ → Prop) (lo hi : Nat) (f : Nat → σ → σ)
    (g : Nat → τ → τ)
    (h : ∀ k, lo ≤ k → k < hi → ∀ s, Inv s → g k (c s) = c (f k s) ∧ Inv (f k s))
    (s0 : σ) (h0 : Inv s0) :
    forLt lo hi g (c s0) = c (forLt lo hi f s0) ∧ Inv (forLt lo hi f s0) := by
  unfold forLt
  exact foldl_sim c Inv f g _ (fun k hk => by
    rw [List.mem_range'_1] at hk
    exact h k hk.1 (by omega)) s0 h0

theorem forDown_sim {σ τ : Type} (c : σ → τ) (Inv : σ → Prop) (hi lo : Nat) (f : Nat → σ → σ)
    (g : Nat → τ → τ)
    (h : ∀ k, lo ≤ k → k ≤ hi → ∀ s, Inv s → g k (c s) = c (f k s) ∧ Inv (f k s))
    (s0 : σ) (h0 : Inv s0) :
    forDown hi lo g (c s0) = c (forDown hi lo f s0) ∧ Inv (forDown hi lo f s0) := by
  unfold forDown
  exact foldr_sim c Inv f g _ (fun k hk => by
    rw [List.mem_range'_1] at hk
    exact h k hk.1 (by omega)) s0 h0

/-- The walk of `backtrackFrom` reads the same path off the `int` table. -/
theorem backtrackFromW_cast (weight : Nat → Nat) (T : Table Nat) :
    ∀ i j, backtrackFromW weight (castT T) i j = backtrackFrom weight T i j := by
  intro i
  induction i with
  | zero => intro j; rfl
  | succ i ih =>
    intro j
    unfold backtrackFromW backtrackFrom
    simp only [castT_get, ne_eq, Nat.cast_inj, ih]

/-- One cell of the 0/1 rule: on a table whose cells are within `j * V`, for an item whose
value is at most `V` times its weight, the `int` computation is the exact one. -/
theorem cell01W_cast (w v i j V C : Nat) (T : Table Nat) (hT : BoundJ V T) (hvw : v ≤ w * V)
    (hj : j ≤ C) (hb : C * V < 2147483648) :
    cell01W w (v : Int) i j (castT T) = castT (cell01 w v i j T)
      ∧ BoundJ V (cell01 w v i j T) := by
  unfold cell01W cell01
  by_cases hjw : j < w
  · rw [if_pos hjw, if_pos hjw, castT_get, castT_set]
    exact ⟨rfl, boundJ_set V T hT i j _ (hT (i - 1) j)⟩
  · rw [if_neg hjw, if_neg hjw]
    have hs : T.get (i - 1) (j - w) + v ≤ j * V :=
      bound_step_mul _ v j w V (hT (i - 1) (j - w)) hvw (by omega)
    have hc := bound_cap j C V hj
    simp only [castT_get]
    rw [wrap32_add_cast _ _ (by omega), ← Nat.cast_max, ← castT_set]
    exact ⟨rfl, boundJ_set V T hT i j _ (max_le (hT (i - 1) j) hs)⟩

/-- The 0/1 fill over a list of (weight, value) pairs whose values are at most `V` times their
weights, when `C * V < 2^31`: the `int` table is the exact table. -/
theorem fillBy01W_cast (m C V : Nat) (wt vl : Nat → Nat)
    (hvw : ∀ t, t < m → vl t ≤ wt t * V) (hb : C * V < 2147483648) :
    forUp 1 m (fun i dp => forUp 0 C (fun j dp =>
        cell01W (wt (i - 1)) ((vl (i - 1) : Nat) : Int) i j dp) dp) (Table.mk (m + 1) (C + 1) 0)
      = castT (forUp 1 m (fun i dp => forUp 0 C (fun j dp =>
        cell01 (wt (i - 1)) (vl (i - 1)) i j dp) dp) (Table.mk (m + 1) (C + 1) 0))
    ∧ BoundJ V (forUp 1 m (fun i dp => forUp 0 C (fun j dp =>
        cell01 (wt (i - 1)) (vl (i - 1)) i j dp) dp) (Table.mk (m + 1) (C + 1) 0)) := by
  rw [← castT_mk]
  exact forUp_sim castT (BoundJ V) 1 m _ _ (fun i hi1 hi2 T hT =>
    forUp_sim castT (BoundJ V) 0 C _ _ (fun j _ hj T' hT' =>
      cell01W_cast _ _ i j V C T' hT' (hvw (i - 1) (by omega)) hj hb)
      T hT) _ (boundJ_mk V _ _)

theorem fill01W_eq (items : List Item) (C V : Nat) (hw : ∀ it ∈ items, 0 < it.weight)
    (hV : ∀ it ∈ items, it.value ≤ V) (hb : C * V < 2147483648) :
    fill01W items C = castT (fill01 items C) :=
  (fillBy01W_cast items.length C V (fun t => (items.getD t default).weight)
    (fun t => (items.getD t default).value)
    (fun t ht => le_weight_mul _ _ V (hV _ (getD_mem_of_lt items t ht))
      (hw _ (getD_mem_of_lt items t ht))) hb).1

theorem maxValue01W_eq (items : List Item) (C V : Nat) (hw : ∀ it ∈ items, 0 < it.weight)
    (hV : ∀ it ∈ items, it.value ≤ V) (hb : C * V < 2147483648) :
    maxValue01W items C = ((maxValue01 items C : Nat) : Int) := by
  unfold maxValue01W maxValue01
  rw [fill01W_eq items C V hw hV hb, castT_get]

theorem path01W_eq (items : List Item) (C V : Nat) (hw : ∀ it ∈ items, 0 < it.weight)
    (hV : ∀ it ∈ items, it.value ≤ V) (hb : C * V < 2147483648) :
    path01W items C = path01 items C := by
  unfold path01W path01
  rw [fill01W_eq items C V hw hV hb, backtrackFromW_cast]

/-- C1 (refuted as stated): capacity 2 and the two items `(1, 2000000000)`. The `int` sum
`2000000000 + 2000000000` wraps to `-294967296`, so the program keeps `max_value =
2000000000`, while both items fit and the optimum is `4000000000`. -/
theorem knapsack01_int_overflow :
    (∀ it ∈ [(⟨1, 2000000000⟩ : Item), ⟨1, 2000000000⟩], 0 < it.weight)
    ∧ wrap32 (2000000000 + 2000000000) = -294967296
    ∧ fill01W [⟨1, 2000000000⟩, ⟨1, 2000000000⟩] 2
        = [[0, 0, 0], [0, 2000000000, 2000000000], [0, 2000000000, 2000000000]]
    ∧ maxValue01W [⟨1, 2000000000⟩, ⟨1, 2000000000⟩] 2 = 2000000000
    ∧ IsGreatest (feasibleValues01 [⟨1, 2000000000⟩, ⟨1, 2000000000⟩] 2 2) 4000000000 := by
  refine ⟨by decide, by decide, by decide, by decide, ?_⟩
  have h := fill01_greatest [⟨1, 2000000000⟩, ⟨1, 2000000000⟩] 2 2 2 (by decide) (by decide)
  have e : (fill01 [⟨1, 2000000000⟩, ⟨1, 2000000000⟩] 2).get 2 2 = 4000000000 := by decide
  rw [e] at h
  exact h

/-- C1 (amended): for items with positive weights and values at most `V`, when `capacity * V < 2^31`
(then no sum of the program leaves the range of `int`), every cell `dp[i][j]` of the `int` table
of the 0/1 solver (`i ≤ n`, `j ≤ capacity`) is the greatest total value of a subset of the first
`i` items whose total weight is at most `j`; `max_value` is the optimum of the instance; for
capacity 10 and items (2,3),(3,4),(4,5),(5,6) it is 13. The capacity is an `int` below `2^31 -
1`, so that `capacity + 1`, the length of a row, is an `int` too. -/
theorem knapsack01_optimal_int (items : List Item) (capacity V : Nat)
    (hw : ∀ it ∈ items, 0 < it.weight) (hV : ∀ it ∈ items, it.value ≤ V)
    (hb : capacity * V < 2147483648)
    (hcap : capacity < 2147483647) :
    (∀ i j, i ≤ items.length → j ≤ capacity →
      ∃ m : Nat, (fill01W items capacity).get i j = (m : Int)
        ∧ IsGreatest (feasibleValues01 items i j) m)
    ∧ (∃ m : Nat, maxValue01W items capacity = (m : Int)
        ∧ IsGreatest (feasibleValues01 items items.length capacity) m)
    ∧ maxValue01W [⟨2, 3⟩, ⟨3, 4⟩, ⟨4, 5⟩, ⟨5, 6⟩] 10 = 13 := by
  refine ⟨fun i j hi hj => ⟨(fill01 items capacity).get i j, ?_,
    fill01_greatest items capacity i j hi hj⟩,
    ⟨maxValue01 items capacity, maxValue01W_eq items capacity V hw hV hb,
      fill01_greatest items capacity _ _ (le_refl _) (le_refl _)⟩, by decide⟩
  rw [fill01W_eq items capacity V hw hV hb, castT_get]

/-- An instance of `knapsack01_optimal_int`: the items (2,3), (3,4) and capacity 5, with
`V = 4`. -/
theorem knapsack01_optimal_int_witness :
    (∀ it ∈ [(⟨2, 3⟩ : Item), ⟨3, 4⟩], 0 < it.weight)
    ∧ (∀ it ∈ [(⟨2, 3⟩ : Item), ⟨3, 4⟩], it.value ≤ 4)
    ∧ 5 * 4 < 2147483648
    ∧ maxValue01W [⟨2, 3⟩, ⟨3, 4⟩] 5 = 7
    ∧ ∃ m : Nat, maxValue01W [⟨2, 3⟩, ⟨3, 4⟩] 5 = (m : Int)
        ∧ IsGreatest (feasibleValues01 [⟨2, 3⟩, ⟨3, 4⟩] ([⟨2, 3⟩, ⟨3, 4⟩] : List Item).length 5)
          m :=
  ⟨by decide, by decide, by decide, by decide,
    (knapsack01_optimal_int [⟨2, 3⟩, ⟨3, 4⟩] 5 4 (by decide) (by decide) (by decide) (by decide)).2.1⟩

/-- C14 (refuted as stated): capacity 2 and the two items `(1, 2000000000)`. The table of the
program has `dp[2][2] = dp[1][2] = 2000000000` (the `int` sum of the two values wraps), so
the path lists item 0 alone, worth `2000000000`; the optimal selection is both items, worth
`4000000000`. -/
theorem path01_int_overflow :
    (∀ it ∈ [(⟨1, 2000000000⟩ : Item), ⟨1, 2000000000⟩], 0 < it.weight)
    ∧ path01W [⟨1, 2000000000⟩, ⟨1, 2000000000⟩] 2 = [⟨1, 2, 0⟩]
    ∧ ((path01W [⟨1, 2000000000⟩, ⟨1, 2000000000⟩] 2).map
        (fun e => (([⟨1, 2000000000⟩, ⟨1, 2000000000⟩] : List Item).getD e.item default).value)).sum
        = 2000000000
    ∧ IsGreatest (feasibleValues01 [⟨1, 2000000000⟩, ⟨1, 2000000000⟩] 2 2) 4000000000 := by
  refine ⟨by decide, by decide, by decide, ?_⟩
  have h := fill01_greatest [⟨1, 2000000000⟩, ⟨1, 2000000000⟩] 2 2 2 (by decide) (by decide)
  have e : (fill01 [⟨1, 2000000000⟩, ⟨1, 2000000000⟩] 2).get 2 2 = 4000000000 := by decide
  rw [e] at h
  exact h

/-- C14 (amended): for a 0/1 instance with positive weights and values at most `V`, when `capacity *
V < 2^31`, the path backtracked from the `int` table is one optimal selection: its item indices
are strictly decreasing (so pairwise distinct) positions of the input, the total weight of the
listed items is at most the capacity, and their total value is `max_value = dp[n][C]`, the
greatest value of a subset of the items within the capacity. The capacity is an `int` below
`2^31 - 1`, so that `capacity + 1`, the length of a row, is an `int` too. -/
theorem path01_optimal_int (items : List Item) (capacity V : Nat)
    (hw : ∀ it ∈ items, 0 < it.weight) (hV : ∀ it ∈ items, it.value ≤ V)
    (hb : capacity * V < 2147483648)
    (hcap : capacity < 2147483647) :
    ((path01W items capacity).map (fun e => e.item)).Pairwise (fun a b => a > b) ∧
    (∀ e ∈ path01W items capacity, e.item < items.length) ∧
    ((path01W items capacity).map (fun e => (items.getD e.item default).weight)).sum
      ≤ capacity ∧
    ((((path01W items capacity).map (fun e => (items.getD e.item default).value)).sum : Nat)
        : Int) = maxValue01W items capacity ∧
    IsGreatest (feasibleValues01 items items.length capacity)
      ((path01W items capacity).map (fun e => (items.getD e.item default).value)).sum := by
  rw [path01W_eq items capacity V hw hV hb, maxValue01W_eq items capacity V hw hV hb]
  obtain ⟨h1, h2, h3, h4⟩ := path01_spec items capacity hw
  refine ⟨h1, fun e he => (h2 e he).1, h3, by rw [h4], ?_⟩
  rw [h4]
  exact fill01_greatest items capacity _ _ (le_refl _) (le_refl _)

/-- An instance of `path01_optimal_int`: the items (1,1), (2,3), (3,4), capacity 5, `V = 4`. -/
theorem path01_optimal_int_witness :
    (∀ it ∈ [(⟨1, 1⟩ : Item), ⟨2, 3⟩, ⟨3, 4⟩], 0 < it.weight) ∧
    (∀ it ∈ [(⟨1, 1⟩ : Item), ⟨2, 3⟩, ⟨3, 4⟩], it.value ≤ 4) ∧
    5 * 4 < 2147483648 ∧
    path01W [⟨1, 1⟩, ⟨2, 3⟩, ⟨3, 4⟩] 5 = [⟨3, 5, 2⟩, ⟨2, 2, 1⟩] ∧
    ((((path01W [⟨1, 1⟩, ⟨2, 3⟩, ⟨3, 4⟩] 5).map
      (fun e => (([⟨1, 1⟩, ⟨2, 3⟩, ⟨3, 4⟩] : List Item).getD e.item default).value)).sum : Nat)
        : Int) = maxValue01W [⟨1, 1⟩, ⟨2, 3⟩, ⟨3, 4⟩] 5 :=
  ⟨by decide, by decide, by decide, by decide,
    (path01_optimal_int [⟨1, 1⟩, ⟨2, 3⟩, ⟨3, 4⟩] 5 4 (by decide) (by decide)
      (by decide) (by decide)).2.2.2.1⟩

/-- C22 (refuted as stated): capacity 2 and the items `(1, 2000000000)`, `(1, 1500000000)`,
`(1, 600000000)`. In this order the program reports `2000000000`; in the order
`(1, 1500000000)`, `(1, 600000000)`, `(1, 2000000000)` it reports `2100000000`: which `int`
sums wrap depends on the order. -/
theorem knapsack01_perm_int_overflow :
    ([(⟨1, 2000000000⟩ : Item), ⟨1, 1500000000⟩, ⟨1, 600000000⟩]).Perm
      [⟨1, 1500000000⟩, ⟨1, 600000000⟩, ⟨1, 2000000000⟩]
    ∧ maxValue01W [⟨1, 2000000000⟩, ⟨1, 1500000000⟩, ⟨1, 600000000⟩] 2 = 2000000000
    ∧ maxValue01W [⟨1, 1500000000⟩, ⟨1, 600000000⟩, ⟨1, 2000000000⟩] 2 = 2100000000 := by
  refine ⟨by decide, by decide, by decide⟩

/-- C22 (amended): for items with positive weights and values at most `V`, when `capacity * V <
2^31`, the final cell `dp[n][C]` (`max_value`) of the `int` table of the 0/1 solver is the same
for every permutation of the item list. The capacity is an `int` below `2^31 - 1`, so that
`capacity + 1`, the length of a row, is an `int` too. -/
theorem knapsack01_perm_invariant_int (items items' : List Item) (capacity V : Nat)
    (h : items.Perm items') (hw : ∀ it ∈ items, 0 < it.weight)
    (hV : ∀ it ∈ items, it.value ≤ V) (hb : capacity * V < 2147483648)
    (hcap : capacity < 2147483647) :
    maxValue01W items capacity = maxValue01W items' capacity ∧
    (fill01W items capacity).get items.length capacity
      = (fill01W items' capacity).get items'.length capacity := by
  have e : maxValue01W items capacity = maxValue01W items' capacity := by
    rw [maxValue01W_eq items capacity V hw hV hb,
      maxValue01W_eq items' capacity V (fun it hit => hw it (h.mem_iff.2 hit))
        (fun it hit => hV it (h.mem_iff.2 hit)) hb,
      maxValue01_perm items items' capacity h]
  exact ⟨e, e⟩

/-- An instance of `knapsack01_perm_invariant_int`: three items in two orders, capacity 6. -/
theorem knapsack01_perm_invariant_int_witness :
    ([(⟨2, 3⟩ : Item), ⟨3, 4⟩, ⟨4, 5⟩]).Perm [⟨4, 5⟩, ⟨2, 3⟩, ⟨3, 4⟩] ∧
    (∀ it ∈ [(⟨2, 3⟩ : Item), ⟨3, 4⟩, ⟨4, 5⟩], 0 < it.weight) ∧
    (∀ it ∈ [(⟨2, 3⟩ : Item), ⟨3, 4⟩, ⟨4, 5⟩], it.value ≤ 5) ∧
    6 * 5 < 2147483648 ∧
    maxValue01W [⟨2, 3⟩, ⟨3, 4⟩, ⟨4, 5⟩] 6 = 8 ∧
    maxValue01W [⟨2, 3⟩, ⟨3, 4⟩, ⟨4, 5⟩] 6 = maxValue01W [⟨4, 5⟩, ⟨2, 3⟩, ⟨3, 4⟩] 6 :=
  ⟨by decide, by decide, by decide, by decide, by decide,
    (knapsack01_perm_invariant_int _ _ 6 5 (by decide) (by decide) (by decide)
      (by decide) (by decide)).1⟩

/-- One cell of the complete rule: on a table whose cells are within `j * V`, for an item of
positive weight and value at most `V`, the `int` computation is the exact one. -/
theorem cellCompleteW_cast (w v i j V C : Nat) (T : Table Nat) (hT : BoundJ V T) (hv : v ≤ V)
    (hw : 0 < w) (hj : j ≤ C) (hb : C * V < 2147483648) :
    cellCompleteW w (v : Int) i j (castT T) = castT (cellComplete w v i j T)
      ∧ BoundJ V (cellComplete w v i j T) := by
  unfold cellCompleteW cellComplete
  by_cases hjw : j < w
  · rw [if_pos hjw, if_pos hjw, castT_get, castT_set]
    exact ⟨rfl, boundJ_set V T hT i j _ (hT (i - 1) j)⟩
  · rw [if_neg hjw, if_neg hjw]
    have hs : T.get i (j - w) + v ≤ j * V :=
      bound_step _ v j w V (hT i (j - w)) hv hw (by omega)
    have hc := bound_cap j C V hj
    simp only [castT_get]
    rw [wrap32_add_cast _ _ (by omega), ← Nat.cast_max, ← castT_set]
    exact ⟨rfl, boundJ_set V T hT i j _ (max_le (hT (i - 1) j) hs)⟩

theorem fillCompleteW_eq (items : List Item) (C V : Nat) (hw : ∀ it ∈ items, 0 < it.weight)
    (hV : ∀ it ∈ items, it.value ≤ V) (hb : C * V < 2147483648) :
    fillCompleteW items C = castT (fillComplete items C) := by
  unfold fillCompleteW fillComplete
  simp only []
  rw [← castT_mk]
  exact (forUp_sim castT (BoundJ V) 1 items.length _ _ (fun i hi1 hi2 T hT =>
    forUp_sim castT (BoundJ V) 0 C _ _ (fun j _ hj T' hT' =>
      cellCompleteW_cast _ _ i j V C T' hT'
        (hV _ (getD_mem_of_lt items (i - 1) (by omega)))
        (hw _ (getD_mem_of_lt items (i - 1) (by omega))) hj hb)
      T hT) _ (boundJ_mk V _ _)).1

theorem maxValueCompleteW_eq (items : List Item) (C V : Nat)
    (hw : ∀ it ∈ items, 0 < it.weight) (hV : ∀ it ∈ items, it.value ≤ V)
    (hb : C * V < 2147483648) :
    maxValueCompleteW items C = ((maxValueComplete items C : Nat) : Int) := by
  unfold maxValueCompleteW maxValueComplete
  rw [fillCompleteW_eq items C V hw hV hb, castT_get]

/-- C2 (refuted as stated): capacity 2 and the single item `(1, 2000000000)`. The `int` sum
`dp[1][1] + v = 2000000000 + 2000000000` wraps to a negative number, so the program leaves
`dp[1][2] = 0` and reports `max_value = 0`; two copies fit and the optimum is `4000000000`. -/
theorem knapsackComplete_int_overflow :
    (∀ it ∈ [(⟨1, 2000000000⟩ : Item)], 0 < it.weight)
    ∧ fillCompleteW [⟨1, 2000000000⟩] 2 = [[0, 0, 0], [0, 2000000000, 0]]
    ∧ maxValueCompleteW [⟨1, 2000000000⟩] 2 = 0
    ∧ IsGreatest (feasibleValuesComplete [⟨1, 2000000000⟩] 1 2) 4000000000 := by
  refine ⟨by decide, by decide, by decide, ?_⟩
  have h := fillComplete_greatest [⟨1, 2000000000⟩] 2 (by decide) 1 2 (by decide) (by decide)
  have e : (fillComplete [⟨1, 2000000000⟩] 2).get 1 2 = 4000000000 := by decide
  rw [e] at h
  exact h

/-- C2 (amended): for items with positive weights and values at most `V`, when `capacity * V < 2^31`
(then no sum of the program leaves the range of `int`), every cell `dp[i][j]` of the `int` table
of the complete solver is the greatest `sum x t * value t` over the vectors of copy counts for
the first `i` items with `sum x t * weight t ≤ j`; `max_value` is the unbounded optimum;
capacity 5 with the single item (2,3) gives 6. The capacity is an `int` below `2^31 - 1`, so
that `capacity + 1`, the length of a row, is an `int` too. -/
theorem knapsackComplete_optimal_int (items : List Item) (capacity V : Nat)
    (hw : ∀ it ∈ items, 0 < it.weight) (hV : ∀ it ∈ items, it.value ≤ V)
    (hb : capacity * V < 2147483648)
    (hcap : capacity < 2147483647) :
    (∀ i j, i ≤ items.length → j ≤ capacity →
      ∃ m : Nat, (fillCompleteW items capacity).get i j = (m : Int)
        ∧ IsGreatest (feasibleValuesComplete items i j) m)
    ∧ (∃ m : Nat, maxValueCompleteW items capacity = (m : Int)
        ∧ IsGreatest (feasibleValuesComplete items items.length capacity) m)
    ∧ maxValueCompleteW [⟨2, 3⟩] 5 = 6 := by
  refine ⟨fun i j hi hj => ⟨(fillComplete items capacity).get i j, ?_,
    fillComplete_greatest items capacity hw i j hi hj⟩,
    ⟨maxValueComplete items capacity, maxValueCompleteW_eq items capacity V hw hV hb,
      fillComplete_greatest items capacity hw _ _ (le_refl _) (le_refl _)⟩, by decide⟩
  rw [fillCompleteW_eq items capacity V hw hV hb, castT_get]

/-- An instance of `knapsackComplete_optimal_int`: the item (2,3), capacity 5, `V = 3`. -/
theorem knapsackComplete_optimal_int_witness :
    (∀ it ∈ [(⟨2, 3⟩ : Item)], 0 < it.weight) ∧ (∀ it ∈ [(⟨2, 3⟩ : Item)], it.value ≤ 3)
    ∧ 5 * 3 < 2147483648
    ∧ ∃ m : Nat, maxValueCompleteW [⟨2, 3⟩] 5 = (m : Int)
        ∧ IsGreatest (feasibleValuesComplete [⟨2, 3⟩] ([⟨2, 3⟩] : List Item).length 5) m :=
  ⟨by decide, by decide, by decide,
    (knapsackComplete_optimal_int [⟨2, 3⟩] 5 3 (by decide) (by decide) (by decide) (by decide)).2.1⟩

/-- C23 (refuted as stated): capacity 2 and the single item `(1, 2000000000)`. The complete
solver reports `max_value = 0` (its `int` sum `dp[1][1] + v` wraps), the 0/1 solver reports
`2000000000`. -/
theorem complete_lt_01_int_overflow :
    (∀ it ∈ [(⟨1, 2000000000⟩ : Item)], 0 < it.weight)
    ∧ maxValueCompleteW [⟨1, 2000000000⟩] 2 = 0
    ∧ maxValue01W [⟨1, 2000000000⟩] 2 = 2000000000
    ∧ maxValueCompleteW [⟨1, 2000000000⟩] 2 < maxValue01W [⟨1, 2000000000⟩] 2 := by
  refine ⟨by decide, by decide, by decide, by decide⟩

/-- C23 (amended): for items of positive weight and values at most `V`, when `capacity * V < 2^31`,
the `int` table of the complete solver is at least the `int` table of the 0/1 solver in every
cell `(i, j)` with `i ≤ n`, `j ≤ C`, and so is `max_value`. The capacity is an `int` below `2^31
- 1`, so that `capacity + 1`, the length of a row, is an `int` too. -/
theorem complete_ge_01_int (items : List Item) (capacity V : Nat)
    (hw : ∀ it ∈ items, 0 < it.weight) (hV : ∀ it ∈ items, it.value ≤ V)
    (hb : capacity * V < 2147483648)
    (hcap : capacity < 2147483647) :
    (∀ i j, i ≤ items.length → j ≤ capacity →
      (fill01W items capacity).get i j ≤ (fillCompleteW items capacity).get i j) ∧
    maxValue01W items capacity ≤ maxValueCompleteW items capacity := by
  rw [maxValue01W_eq items capacity V hw hV hb, maxValueCompleteW_eq items capacity V hw hV hb,
    fill01W_eq items capacity V hw hV hb, fillCompleteW_eq items capacity V hw hV hb]
  refine ⟨fun i j hi hj => ?_, ?_⟩
  · rw [castT_get, castT_get]
    exact_mod_cast fillComplete_ge_fill01 items capacity hw i hi j hj
  · exact_mod_cast fillComplete_ge_fill01 items capacity hw _ (le_refl _) _ (le_refl _)

/-- An instance of `complete_ge_01_int`: the items (2,3), (3,4), capacity 6, `V = 4`. -/
theorem complete_ge_01_int_witness :
    (∀ it ∈ [(⟨2, 3⟩ : Item), ⟨3, 4⟩], 0 < it.weight) ∧
    (∀ it ∈ [(⟨2, 3⟩ : Item), ⟨3, 4⟩], it.value ≤ 4) ∧ 6 * 4 < 2147483648 ∧
    maxValue01W [⟨2, 3⟩, ⟨3, 4⟩] 6 = 7 ∧ maxValueCompleteW [⟨2, 3⟩, ⟨3, 4⟩] 6 = 9 ∧
    maxValue01W [⟨2, 3⟩, ⟨3, 4⟩] 6 ≤ maxValueCompleteW [⟨2, 3⟩, ⟨3, 4⟩] 6 :=
  ⟨by decide, by decide, by decide, by decide, by decide,
    (complete_ge_01_int [⟨2, 3⟩, ⟨3, 4⟩] 6 4 (by decide) (by decide) (by decide) (by decide)).2⟩

theorem castT_nil : castT [] = [] := rfl

theorem castT3_get (T : Table3) (i j k : Nat) :
    (castT3 T).get i j k = ((T.get i j k : Nat) : Int) := by
  unfold castT3 Table3W.get Table3.get
  rw [← castT_nil, List.getD_map, castT_get]

theorem castT3_set (T : Table3) (i j k x : Nat) :
    castT3 (T.set i j k x) = (castT3 T).set i j k (x : Int) := by
  unfold castT3 Table3W.set Table3.set
  rw [List.map_set, castT_set]
  congr 2
  rw [← castT_nil, List.getD_map]

theorem castT3_mk (n1 n2 n3 : Nat) : castT3 (Table3.mk n1 n2 n3) = Table3W.mk n1 n2 n3 := by
  unfold castT3 Table3.mk Table3W.mk
  rw [List.map_replicate, castT_mk]

theorem getD_set_cases {α : Type} (l : List α) (i a : Nat) (x d : α) :
    (l.set i x).getD a d = l.getD a d ∨ (a = i ∧ (l.set i x).getD a d = x) := by
  simp only [List.getD_eq_getElem?_getD]
  by_cases h : a = i
  · subst h
    by_cases ha : a < l.length
    · right
      rw [List.getElem?_set_self ha]
      exact ⟨rfl, rfl⟩
    · left
      rw [List.set_eq_of_length_le (by omega)]
  · left
    rw [List.getElem?_set_ne (fun e => h e.symm)]

theorem Table3.get3_set_cases (T : Table3) (i j k x a b c : Nat) :
    (T.set i j k x).get a b c = T.get a b c
      ∨ ((a, b, c) = (i, j, k) ∧ (T.set i j k x).get a b c = x) := by
  unfold Table3.set Table3.get
  rcases getD_set_cases T i a ((T.getD i []).set j k x) [] with h | ⟨rfl, h⟩
  · rw [h]
    exact Or.inl rfl
  · rw [h]
    rcases Table.get_set_cases (T.getD a []) j k x b c with h' | ⟨h1, h'⟩
    · exact Or.inl h'
    · obtain ⟨rfl, rfl⟩ := Prod.mk.inj h1
      exact Or.inr ⟨rfl, h'⟩

theorem boundJ3_mk (V n1 n2 n3 : Nat) : BoundJ3 V (Table3.mk n1 n2 n3) := by
  intro i j k
  unfold Table3.mk Table3.get
  rw [List.getD_eq_getElem?_getD, List.getElem?_replicate]
  split
  · rw [Option.getD_some, tableMk_get_zero]
    exact Nat.zero_le _
  · exact Nat.zero_le _

theorem boundJ3_set (V : Nat) (T : Table3) (h : BoundJ3 V T) (i j k x : Nat) (hx : x ≤ j * V) :
    BoundJ3 V (T.set i j k x) := by
  intro a b c
  rcases Table3.get3_set_cases T i j k x a b c with h1 | ⟨h1, h2⟩
  · rw [h1]
    exact h a b c
  · obtain ⟨rfl, h3⟩ := Prod.mk.inj h1
    obtain ⟨rfl, rfl⟩ := Prod.mk.inj h3
    rw [h2]
    exact hx

/-- One cell of the two-resource rule: on a table whose cells are within `j * V`, for an item
of positive weight and value at most `V`, the `int` computation is the exact one. -/
theorem cell2DW_cast (w m v i j k V C : Nat) (T : Table3) (hT : BoundJ3 V T) (hv : v ≤ V)
    (hw : 0 < w) (hj : j ≤ C) (hb : C * V < 2147483648) :
    cell2DW w m (v : Int) i j k (castT3 T) = castT3 (cell2D w m v i j k T)
      ∧ BoundJ3 V (cell2D w m v i j k T) := by
  unfold cell2DW cell2D
  simp only [castT3_get]
  by_cases hfit : j ≥ w ∧ k ≥ m
  · rw [if_pos hfit, if_pos hfit]
    have hs : T.get (i - 1) (j - w) (k - m) + v ≤ j * V :=
      bound_step _ v j w V (hT (i - 1) (j - w) (k - m)) hv hw hfit.1
    have hc := bound_cap j C V hj
    rw [wrap32_add_cast _ _ (by omega)]
    by_cases hgt : T.get (i - 1) (j - w) (k - m) + v > T.get (i - 1) j k
    · rw [if_pos hgt, if_pos (by exact_mod_cast hgt), ← castT3_set]
      exact ⟨rfl, boundJ3_set V T hT i j k _ hs⟩
    · rw [if_neg hgt, if_neg (by exact_mod_cast hgt), ← castT3_set]
      exact ⟨rfl, boundJ3_set V T hT i j k _ (hT (i - 1) j k)⟩
  · rw [if_neg hfit, if_neg hfit, ← castT3_set]
    exact ⟨rfl, boundJ3_set V T hT i j k _ (hT (i - 1) j k)⟩

theorem fill2DW_eq (items : List Item2D) (C M V : Nat) (hw : ∀ it ∈ items, 0 < it.weight)
    (hV : ∀ it ∈ items, it.value ≤ V) (hb : C * V < 2147483648) :
    fill2DW items C M = castT3 (fill2D items C M) := by
  unfold fill2DW fill2D
  simp only []
  rw [← castT3_mk]
  exact (forUp_sim castT3 (BoundJ3 V) 1 items.length _ _ (fun i hi1 hi2 T hT =>
    forUp_sim castT3 (BoundJ3 V) 0 C _ _ (fun j _ hj T' hT' =>
      forUp_sim castT3 (BoundJ3 V) 0 M _ _ (fun k _ _ T'' hT'' =>
        cell2DW_cast _ _ _ i j k V C T'' hT''
          (hV _ (getD_mem_of_lt items (i - 1) (by omega)))
          (hw _ (getD_mem_of_lt items (i - 1) (by omega))) hj hb)
        T' hT') T hT) _ (boundJ3_mk V _ _ _)).1

/-- One cell of the two-resource rule on a table whose cells of row `r` are within `r * V`,
for an item of any weight and value at most `V`, when `i * V < 2^31`: the `int` computation
is the exact one. -/
theorem cell2DW_cast_row (w m v i j k V : Nat) (T : Table3)
    (hT : ∀ a b c, T.get a b c ≤ a * V) (hv : v ≤ V) (hi : 1 ≤ i)
    (hb : i * V < 2147483648) :
    cell2DW w m (v : Int) i j k (castT3 T) = castT3 (cell2D w m v i j k T)
      ∧ ∀ a b c, (cell2D w m v i j k T).get a b c ≤ a * V := by
  obtain ⟨i, rfl⟩ : ∃ i', i = i' + 1 := ⟨i - 1, by omega⟩
  have hstep : (i + 1) * V = i * V + V := by ring
  have hset : ∀ x, x ≤ (i + 1) * V → ∀ a b c, (T.set (i + 1) j k x).get a b c ≤ a * V := by
    intro x hx a b c
    rcases Table3.get3_set_cases T (i + 1) j k x a b c with h1 | ⟨h1, h2⟩
    · rw [h1]
      exact hT a b c
    · obtain ⟨rfl, -⟩ := Prod.mk.inj h1
      rw [h2]
      exact hx
  unfold cell2DW cell2D
  simp only [castT3_get, Nat.add_sub_cancel]
  have h1 := hT i j k
  by_cases hfit : j ≥ w ∧ k ≥ m
  · rw [if_pos hfit, if_pos hfit]
    have h2 := hT i (j - w) (k - m)
    rw [wrap32_add_cast _ _ (by omega)]
    by_cases hgt : T.get i (j - w) (k - m) + v > T.get i j k
    · rw [if_pos hgt, if_pos (by exact_mod_cast hgt), ← castT3_set]
      exact ⟨rfl, hset _ (by omega)⟩
    · rw [if_neg hgt, if_neg (by exact_mod_cast hgt), ← castT3_set]
      exact ⟨rfl, hset _ (by omega)⟩
  · rw [if_neg hfit, if_neg hfit, ← castT3_set]
    exact ⟨rfl, hset _ (by omega)⟩

/-- The two-resource table for items of any weight and values at most `V`, when
`n * V < 2^31`: the `int` table is the exact table. -/
theorem fill2DW_eq_row (items : List Item2D) (C M V : Nat)
    (hV : ∀ it ∈ items, it.value ≤ V) (hb : items.length * V < 2147483648) :
    fill2DW items C M = castT3 (fill2D items C M) := by
  unfold fill2DW fill2D
  simp only []
  rw [← castT3_mk]
  exact (forUp_sim castT3 (fun T : Table3 => ∀ a b c, T.get a b c ≤ a * V) 1 items.length _ _
    (fun i hi1 hi2 T hT =>
      forUp_sim castT3 (fun T : Table3 => ∀ a b c, T.get a b c ≤ a * V) 0 C _ _
        (fun j _ _ T' hT' =>
          forUp_sim castT3 (fun T : Table3 => ∀ a b c, T.get a b c ≤ a * V) 0 M _ _
            (fun k _ _ T'' hT'' =>
              cell2DW_cast_row _ _ _ i j k V T'' hT''
                (hV _ (getD_mem_of_lt items (i - 1) (by omega))) hi1
                (lt_of_le_of_lt (Nat.mul_le_mul_right V hi2) hb))
            T' hT') T hT) _ (fun a b c => by
      have := boundJ3_mk 0 (items.length + 1) (C + 1) (M + 1) a b c
      omega)).1

theorem maxValue2DW_eq (items : List Item2D) (C M V : Nat) (hw : ∀ it ∈ items, 0 < it.weight)
    (hV : ∀ it ∈ items, it.value ≤ V) (hb : C * V < 2147483648) :
    maxValue2DW items C M = ((maxValue2D items C M : Nat) : Int) := by
  unfold maxValue2DW maxValue2D
  rw [fill2DW_eq items C M V hw hV hb, castT3_get]

theorem backtrack2DW_cast (items : List Item2D) (T : Table3) :
    ∀ i j k, backtrack2DW items (castT3 T) i j k = backtrack2D items T i j k := by
  intro i
  induction i with
  | zero => intro j k; rfl
  | succ i ih =>
    intro j k
    unfold backtrack2DW backtrack2D
    simp only [castT3_get, ne_eq, Nat.cast_inj, ih]

theorem path2DW_eq (items : List Item2D) (C M V : Nat) (hw : ∀ it ∈ items, 0 < it.weight)
    (hV : ∀ it ∈ items, it.value ≤ V) (hb : C * V < 2147483648) :
    path2DW items C M = path2D items C M := by
  unfold path2DW path2D
  rw [fill2DW_eq items C M V hw hV hb, backtrack2DW_cast]

/-- C9 (refuted as stated): capacities 2, 2 and the two items `(1, 1, 2000000000)`. The `int`
sum of the two values wraps, so the program reports `max_value = 2000000000`, while both
items fit and the optimum is `4000000000`. -/
theorem knapsack2D_int_overflow :
    (∀ it ∈ [(⟨1, 1, 2000000000⟩ : Item2D), ⟨1, 1, 2000000000⟩], 0 < it.weight)
    ∧ maxValue2DW [⟨1, 1, 2000000000⟩, ⟨1, 1, 2000000000⟩] 2 2 = 2000000000
    ∧ IsGreatest (feasibleValues2D [⟨1, 1, 2000000000⟩, ⟨1, 1, 2000000000⟩] 2 2 2)
        4000000000 := by
  refine ⟨by decide, by decide, ?_⟩
  have h := fill2D_greatest [⟨1, 1, 2000000000⟩, ⟨1, 1, 2000000000⟩] 2 2 2 2 2 (by decide)
    (by decide) (by decide)
  have e : (fill2D [⟨1, 1, 2000000000⟩, ⟨1, 1, 2000000000⟩] 2 2).get 2 2 2 = 4000000000 := by
    decide
  rw [e] at h
  exact h

/-- C9 (amended): for items with positive weights and values at most `V`, when `capacity * V < 2^31`
(then no sum of the program leaves the range of `int`), every cell `dp[i][j][k]` of the `int`
table of the two-resource solver (`i ≤ n`, `j ≤ capacity`, `k ≤ capacity2`) is the greatest
total value of a subset of the first `i` items whose total weight is at most `j` and whose total
secondary cost is at most `k`; `max_value` is `dp[n][capacity][capacity2]`, the optimum of the
instance. The capacities are `int`s below `2^31 - 1`, so that `capacity + 1` and `capacity2 +
1`, the lengths of the rows, are `int`s too. -/
theorem knapsack2D_optimal_int (items : List Item2D) (capacity capacity2 V : Nat)
    (hw : ∀ it ∈ items, 0 < it.weight) (hV : ∀ it ∈ items, it.value ≤ V)
    (hb : capacity * V < 2147483648)
    (hcap : capacity < 2147483647)
    (hcap2 : capacity2 < 2147483647) :
    (∀ i j k, i ≤ items.length → j ≤ capacity → k ≤ capacity2 →
      ∃ m : Nat, (fill2DW items capacity capacity2).get i j k = (m : Int)
        ∧ IsGreatest (feasibleValues2D items i j k) m)
    ∧ maxValue2DW items capacity capacity2
        = (fill2DW items capacity capacity2).get items.length capacity capacity2
    ∧ ∃ m : Nat, maxValue2DW items capacity capacity2 = (m : Int)
        ∧ IsGreatest (feasibleValues2D items items.length capacity capacity2) m := by
  refine ⟨fun i j k hi hj hk => ⟨(fill2D items capacity capacity2).get i j k, ?_,
    fill2D_greatest items capacity capacity2 i j k hi hj hk⟩, rfl,
    ⟨maxValue2D items capacity capacity2, maxValue2DW_eq items capacity capacity2 V hw hV hb,
      fill2D_greatest items capacity capacity2 _ _ _ (le_refl _) (le_refl _) (le_refl _)⟩⟩
  rw [fill2DW_eq items capacity capacity2 V hw hV hb, castT3_get]

/-- An instance of `knapsack2D_optimal_int`: the items (2,1,3), (1,2,4), capacities 3 and 3,
`V = 4`. -/
theorem knapsack2D_optimal_int_witness :
    (∀ it ∈ [(⟨2, 1, 3⟩ : Item2D), ⟨1, 2, 4⟩], 0 < it.weight)
    ∧ (∀ it ∈ [(⟨2, 1, 3⟩ : Item2D), ⟨1, 2, 4⟩], it.value ≤ 4)
    ∧ 3 * 4 < 2147483648
    ∧ maxValue2DW [⟨2, 1, 3⟩, ⟨1, 2, 4⟩] 3 3 = 7
    ∧ ∃ m : Nat, maxValue2DW [⟨2, 1, 3⟩, ⟨1, 2, 4⟩] 3 3 = (m : Int)
        ∧ IsGreatest (feasibleValues2D [⟨2, 1, 3⟩, ⟨1, 2, 4⟩]
            ([⟨2, 1, 3⟩, ⟨1, 2, 4⟩] : List Item2D).length 3 3) m :=
  ⟨by decide, by decide, by decide, by decide,
    (knapsack2D_optimal_int [⟨2, 1, 3⟩, ⟨1, 2, 4⟩] 3 3 4 (by decide) (by decide)
      (by decide) (by decide) (by decide)).2.2⟩

/-- C36 (refuted as stated): capacities 3, 2 and the items `(1, 1, 1000000000)`,
`(2, 1, 2000000000)`. At `j = 2` the second item alone gives `dp[2][2][2] = 2000000000`; at
`j = 3` the `int` sum `1000000000 + 2000000000` wraps to a negative number and the cell keeps
`dp[2][3][2] = 1000000000`: the table is not non-decreasing in `j`. -/
theorem fill2D_int_overflow_not_monotone :
    (∀ it ∈ [(⟨1, 1, 1000000000⟩ : Item2D), ⟨2, 1, 2000000000⟩], 0 < it.weight)
    ∧ (fill2DW [⟨1, 1, 1000000000⟩, ⟨2, 1, 2000000000⟩] 3 2).get 2 2 2 = 2000000000
    ∧ (fill2DW [⟨1, 1, 1000000000⟩, ⟨2, 1, 2000000000⟩] 3 2).get 2 3 2 = 1000000000
    ∧ ¬ ((fill2DW [⟨1, 1, 1000000000⟩, ⟨2, 1, 2000000000⟩] 3 2).get 2 2 2
        ≤ (fill2DW [⟨1, 1, 1000000000⟩, ⟨2, 1, 2000000000⟩] 3 2).get 2 (2 + 1) 2) := by
  refine ⟨by decide, by decide, by decide, by decide⟩

/-- C36 (amended): for items with weights and secondary costs of at least 0 and values at most `V`,
when `n * V < 2^31`, or when all weights are positive and `C * V < 2^31` (in both cases no sum
of the program leaves the range of `int`), the `int` table of `knapsack_2d.cpp` has `dp[0][j][k]
= 0` for all `j ≤ C`, `k ≤ M`, and for every prefix `i ≤ n` it is non-decreasing in each
capacity: `dp[i][j][k] ≤ dp[i][j+1][k]` for `j < C` and `dp[i][j][k] ≤ dp[i][j][k+1]` for `k <
M`. The capacities are `int`s below `2^31 - 1`, so that `capacity + 1` and `capacity2 + 1`, the
lengths of the rows, are `int`s too. -/
theorem fill2D_zero_row_and_monotone_int (items : List Item2D) (C M V : Nat)
    (hV : ∀ it ∈ items, it.value ≤ V)
    (hb : items.length * V < 2147483648
      ∨ ((∀ it ∈ items, 0 < it.weight) ∧ C * V < 2147483648))
    (hcap : C < 2147483647)
    (hcap2 : M < 2147483647) :
    (∀ j k, j ≤ C → k ≤ M → (fill2DW items C M).get 0 j k = 0)
    ∧ (∀ i j k, i ≤ items.length → j < C → k ≤ M →
        (fill2DW items C M).get i j k ≤ (fill2DW items C M).get i (j + 1) k)
    ∧ ∀ i j k, i ≤ items.length → j ≤ C → k < M →
        (fill2DW items C M).get i j k ≤ (fill2DW items C M).get i j (k + 1) := by
  have hE : fill2DW items C M = castT3 (fill2D items C M) := by
    rcases hb with hb | ⟨hw, hb⟩
    · exact fill2DW_eq_row items C M V hV hb
    · exact fill2DW_eq items C M V hw hV hb
  rw [hE]
  simp only [castT3_get]
  refine ⟨fun j k hj hk => ?_, fun i j k hi hj hk => ?_, fun i j k hi hj hk => ?_⟩
  · rw [(fill2D_rec items C M).1 j k hj hk]
    rfl
  · exact_mod_cast (fill2D_greatest items C M i (j + 1) k hi (by omega) hk).2
      ⟨_, (fill2D_greatest items C M i j k hi (by omega) hk).1.choose_spec.1,
        le_trans (fill2D_greatest items C M i j k hi (by omega) hk).1.choose_spec.2.1
          (Nat.le_succ j),
        (fill2D_greatest items C M i j k hi (by omega) hk).1.choose_spec.2.2⟩
  · exact_mod_cast (fill2D_greatest items C M i j (k + 1) hi hj (by omega)).2
      ⟨_, (fill2D_greatest items C M i j k hi hj (by omega)).1.choose_spec.1,
        (fill2D_greatest items C M i j k hi hj (by omega)).1.choose_spec.2.1,
        le_trans (fill2D_greatest items C M i j k hi hj (by omega)).1.choose_spec.2.2.1
          (Nat.le_succ k),
        (fill2D_greatest items C M i j k hi hj (by omega)).1.choose_spec.2.2.2⟩

/-- An instance of `fill2D_zero_row_and_monotone_int`: the items (0,1,3), (1,0,4), one of
weight 0 and one of secondary cost 0, capacities 3 and 3, `V = 4`, at the cell `(2, 0, 3)`. -/
theorem fill2D_zero_row_and_monotone_int_witness :
    (∀ it ∈ [(⟨0, 1, 3⟩ : Item2D), ⟨1, 0, 4⟩], it.value ≤ 4)
    ∧ ([(⟨0, 1, 3⟩ : Item2D), ⟨1, 0, 4⟩]).length * 4 < 2147483648
    ∧ (fill2DW [⟨0, 1, 3⟩, ⟨1, 0, 4⟩] 3 3).get 2 0 3 = 3
    ∧ (fill2DW [⟨0, 1, 3⟩, ⟨1, 0, 4⟩] 3 3).get 2 (0 + 1) 3 = 7
    ∧ (fill2DW [⟨0, 1, 3⟩, ⟨1, 0, 4⟩] 3 3).get 2 0 3
        ≤ (fill2DW [⟨0, 1, 3⟩, ⟨1, 0, 4⟩] 3 3).get 2 (0 + 1) 3 :=
  ⟨by decide, by decide, by decide, by decide,
    (fill2D_zero_row_and_monotone_int [⟨0, 1, 3⟩, ⟨1, 0, 4⟩] 3 3 4 (by decide)
      (Or.inl (by decide)) (by decide) (by decide)).2.1 2 0 3 (by decide) (by decide) (by decide)⟩

/-- C18 (refuted): the loop of the backtracker runs only while `k > 0`, so an item of
secondary cost 0 that the fill has taken is left out of the path when the secondary capacity
is 0, or has reached 0 on the way. With `C = 1, M = 0` and the one item `(w, m, v) =
(1, 0, 5)` the fill takes the item (`dp[1][1][0] = 5 ≠ dp[0][1][0] = 0`, `max_value = 5`) and
the path is empty; with `C = 2, M = 1` and the items `(1, 0, 5), (1, 1, 7)` the path lists
only item 1, of value 7, though `max_value = 12`. -/
theorem path2D_drops_free_items :
    (∀ it ∈ [(⟨1, 0, 5⟩ : Item2D)], 0 < it.weight)
    ∧ (fill2DW [⟨1, 0, 5⟩] 1 0).get 1 1 0 = 5 ∧ (fill2DW [⟨1, 0, 5⟩] 1 0).get 0 1 0 = 0
    ∧ path2DW [⟨1, 0, 5⟩] 1 0 = [] ∧ maxValue2DW [⟨1, 0, 5⟩] 1 0 = 5
    ∧ path2DW [⟨1, 0, 5⟩, ⟨1, 1, 7⟩] 2 1 = [⟨2, 2, 1⟩]
    ∧ maxValue2DW [⟨1, 0, 5⟩, ⟨1, 1, 7⟩] 2 1 = 12 := by
  decide

theorem castL_getD (l : List Nat) (j : Nat) : (castL l).getD j 0 = ((l.getD j 0 : Nat) : Int) := by
  unfold castL
  exact List.getD_map l 0 (fun x : Nat => (x : Int))

theorem castL_set (l : List Nat) (j x : Nat) : castL (l.set j x) = (castL l).set j (x : Int) := by
  unfold castL
  rw [List.map_set]

theorem castL_replicate (n : Nat) : castL (List.replicate n 0) = List.replicate n 0 := by
  unfold castL
  rw [List.map_replicate]
  rfl

theorem boundL_replicate (V n : Nat) : BoundL V (List.replicate n 0) := by
  intro j
  rw [List.getD_eq_getElem?_getD, List.getElem?_replicate]
  split
  · exact Nat.zero_le _
  · exact Nat.zero_le _

theorem boundL_set (V : Nat) (l : List Nat) (h : BoundL V l) (j x : Nat) (hx : x ≤ j * V) :
    BoundL V (l.set j x) := by
  intro a
  rcases getD_set_cases l j a x 0 with h1 | ⟨rfl, h1⟩
  · rw [h1]
    exact h a
  · rw [h1]
    exact hx

/-- Splitting a column between two cells within `j * V` stays within `j * V`. -/
theorem bound_split (a b j k V : Nat) (ha : a ≤ (j - k) * V) (hb : b ≤ k * V) (hk : k ≤ j) :
    a + b ≤ j * V := by
  have : (j - k) * V + k * V = j * V := by
    rw [← Nat.add_mul, Nat.sub_add_cancel hk]
  omega

/-- The merge of a child's row on a table whose cells are within `j * V`, when
`C * V < 2^31`: the `int` computation is the exact one. -/
theorem mergeChildW_cast (w C u child V : Nat) (T : Table Nat) (hT : BoundJ V T)
    (hb : C * V < 2147483648) :
    mergeChildW w C u child (castT T) = castT (mergeChild w C u child T)
      ∧ BoundJ V (mergeChild w C u child T) := by
  unfold mergeChildW mergeChild
  exact forDown_sim castT (BoundJ V) C w _ _ (fun j hj1 hj2 T1 hT1 =>
    forUp_sim castT (BoundJ V) 0 (j - w) _ _ (fun k _ hk T2 hT2 => by
      have hs : T2.get u (j - k) + T2.get child k ≤ j * V :=
        bound_split _ _ j k V (hT2 u (j - k)) (hT2 child k) (by omega)
      have hc := bound_cap j C V hj2
      simp only [castT_get]
      rw [wrap32_add_cast _ _ (by omega)]
      by_cases hlt : T2.get u j < T2.get u (j - k) + T2.get child k
      · rw [if_pos hlt, if_pos (by exact_mod_cast hlt), ← castT_set]
        exact ⟨rfl, boundJ_set V T2 hT2 u j _ hs⟩
      · rw [if_neg hlt, if_neg (by exact_mod_cast hlt)]
        exact ⟨rfl, hT2⟩) T1 hT1) T hT

/-- The call `dfs(u)` on a table whose cells are within `j * V`, for items whose value is at
most `V` times their weight, when `C * V < 2^31`: the `int` computation is the exact one. -/
theorem dfsW_cast (items : List ItemT) (children : List (List Nat)) (C V : Nat)
    (hwv : ∀ u, (items.getD u default).value ≤ (items.getD u default).weight * V)
    (hb : C * V < 2147483648) :
    ∀ fuel u (T : Table Nat), BoundJ V T →
      dfsW items children C fuel u (castT T) = castT (dfs items children C fuel u T)
        ∧ BoundJ V (dfs items children C fuel u T) := by
  intro fuel
  induction fuel with
  | zero => intro u T hT; exact ⟨rfl, hT⟩
  | succ fuel ih =>
    intro u T hT
    unfold dfsW dfs
    simp only []
    obtain ⟨h1, h2⟩ := foldl_sim castT (BoundJ V)
      (fun child dp => dfs items children C fuel child dp)
      (fun child dp => dfsW items children C fuel child dp) (children.getD u [])
      (fun child _ s hs => ih child s hs) T hT
    rw [h1]
    obtain ⟨h3, h4⟩ := forUp_sim castT (BoundJ V) (items.getD u default).weight C
      (fun j dp => dp.set u j (items.getD u default).value)
      (fun j dp => dp.set u j ((items.getD u default).value : Int))
      (fun j hj1 _ s hs => ⟨(castT_set s u j _).symm,
        boundJ_set V s hs u j _ (le_trans (hwv u) (Nat.mul_le_mul_right V hj1))⟩) _ h2
    rw [h3]
    exact foldl_sim castT (BoundJ V)
      (fun child dp => mergeChild (items.getD u default).weight C u child dp)
      (fun child dp => mergeChildW (items.getD u default).weight C u child dp)
      (children.getD u []) (fun child _ s hs => mergeChildW_cast _ C u child V s hs hb) _ h4

/-- Positive weights and values at most `V` give values at most `V` times the weight, also
for the default item read outside the list. -/
theorem value_le_weight_mul (items : List ItemT) (V : Nat)
    (hw : ∀ it ∈ items, 0 < it.weight) (hV : ∀ it ∈ items, it.value ≤ V) :
    ∀ u, (items.getD u default).value ≤ (items.getD u default).weight * V := by
  intro u
  by_cases hu : u < items.length
  · have h1 := hw _ (getD_mem_of_lt items u hu)
    have h2 := hV _ (getD_mem_of_lt items u hu)
    calc (items.getD u default).value ≤ 1 * V := by omega
      _ ≤ (items.getD u default).weight * V := Nat.mul_le_mul_right V h1
  · rw [List.getD_eq_default _ _ (by omega)]
    exact Nat.zero_le _

theorem dfsAllW_eq (items : List ItemT) (C V : Nat) (hw : ∀ it ∈ items, 0 < it.weight)
    (hV : ∀ it ∈ items, it.value ≤ V) (hb : C * V < 2147483648) :
    dfsAllW items C = castT (dfsAll items C) ∧ BoundJ V (dfsAll items C) := by
  unfold dfsAllW dfsAll
  rw [← castT_mk]
  exact foldl_sim castT (BoundJ V)
    (fun root dp => dfs items (buildChildren items) C items.length root dp)
    (fun root dp => dfsW items (buildChildren items) C items.length root dp) (buildRoots items)
    (fun root _ s hs => dfsW_cast items _ C V (value_le_weight_mul items V hw hV) hb _ root s hs)
    _ (boundJ_mk V _ _)

/-- The merge of a root's row into `finalDp`, both within `j * V`, when `C * V < 2^31`: the
`int` computation is the exact one. -/
theorem mergeRootW_cast (C root V : Nat) (T : Table Nat) (hT : BoundJ V T)
    (hb : C * V < 2147483648) (fd : List Nat) (hfd : BoundL V fd) :
    mergeRootW C root (castT T) (castL fd) = castL (mergeRoot C root T fd)
      ∧ BoundL V (mergeRoot C root T fd) := by
  unfold mergeRootW mergeRoot
  exact forDown_sim castL (BoundL V) C 0 _ _ (fun j _ hj2 l1 hl1 =>
    forUp_sim castL (BoundL V) 0 j _ _ (fun k _ hk l2 hl2 => by
      have hs : l2.getD (j - k) 0 + T.get root k ≤ j * V :=
        bound_split _ _ j k V (hl2 (j - k)) (hT root k) hk
      have hc := bound_cap j C V hj2
      simp only [castT_get, castL_getD]
      rw [wrap32_add_cast _ _ (by omega), ← Nat.cast_max, ← castL_set]
      exact ⟨rfl, boundL_set V l2 hl2 j _ (max_le (hl2 j) hs)⟩) l1 hl1) fd hfd

theorem mergeRootsW_cast (C V : Nat) (T : Table Nat) (hT : BoundJ V T)
    (hb : C * V < 2147483648) (L : List Nat) (fd : List Nat) (hfd : BoundL V fd) :
    L.foldl (fun finalDp root => mergeRootW C root (castT T) finalDp) (castL fd)
      = castL (L.foldl (fun finalDp root => mergeRoot C root T finalDp) fd) :=
  (foldl_sim castL (BoundL V) (fun root finalDp => mergeRoot C root T finalDp)
    (fun root finalDp => mergeRootW C root (castT T) finalDp) L
    (fun root _ s hs => mergeRootW_cast C root V T hT hb s hs) fd hfd).1

theorem maxValueTreeW_eq (items : List ItemT) (C V : Nat) (hw : ∀ it ∈ items, 0 < it.weight)
    (hV : ∀ it ∈ items, it.value ≤ V) (hb : C * V < 2147483648) :
    maxValueTreeW items C = ((maxValueTree items C : Nat) : Int) := by
  obtain ⟨h1, h2⟩ := dfsAllW_eq items C V hw hV hb
  unfold maxValueTreeW maxValueTree
  simp only []
  rw [h1]
  split
  · rw [castT_get]
  · rw [← castL_replicate, mergeRootsW_cast C V _ h2 hb _ _ (boundL_replicate V _), castL_getD]

/-- C3 (refuted as stated): capacity 2, the root `(1, 2000000000)` with one child
`(1, 2000000000)`. The `int` sum of the two values wraps in the merge of the child, so the
program reports `max_value = 2000000000`; root and child fit together and the optimum is
`4000000000`. -/
theorem knapsackTree_int_overflow :
    ValidForest [⟨1, 2000000000, 0⟩, ⟨1, 2000000000, 1⟩]
    ∧ (∀ it ∈ [(⟨1, 2000000000, 0⟩ : ItemT), ⟨1, 2000000000, 1⟩], 0 < it.weight)
    ∧ dfsAllW [⟨1, 2000000000, 0⟩, ⟨1, 2000000000, 1⟩] 2
        = [[0, 2000000000, 2000000000], [0, 2000000000, 2000000000]]
    ∧ maxValueTreeW [⟨1, 2000000000, 0⟩, ⟨1, 2000000000, 1⟩] 2 = 2000000000
    ∧ IsGreatest (feasibleValuesTree [⟨1, 2000000000, 0⟩, ⟨1, 2000000000, 1⟩] 2)
        4000000000 := by
  have hv : ValidForest [⟨1, 2000000000, 0⟩, ⟨1, 2000000000, 1⟩] := by
    constructor <;> decide
  refine ⟨hv, by decide, by decide, by decide, ?_⟩
  have h := maxValueTree_greatest [⟨1, 2000000000, 0⟩, ⟨1, 2000000000, 1⟩] hv 2
  have e : maxValueTree [⟨1, 2000000000, 0⟩, ⟨1, 2000000000, 1⟩] 2 = 4000000000 := by decide
  rw [e] at h
  exact h

/-- C3 (amended): for a valid forest (every parent id in `0..n`, parent pointers without a cycle)
with positive weights and values at most `V`, when `capacity * V < 2^31` (then no sum of the
program leaves the range of `int`), the tree solver's `max_value` is the greatest total value of
a set of nodes of total weight at most the capacity in which the parent of every non-root member
is a member too, whether the forest has one root or several; a root (1, 1) with one child (1, 1)
and capacity 2 gives 2. The capacity is an `int` below `2^31 - 1`, so that `capacity + 1`, the
length of a row, is an `int` too. -/
theorem knapsackTree_optimal_int (items : List ItemT) (capacity V : Nat)
    (hpar : ∀ t, t < items.length → (items.getD t default).parent ≤ items.length)
    (hnc : NoCycle items) (hw : ∀ it ∈ items, 0 < it.weight)
    (hV : ∀ it ∈ items, it.value ≤ V) (hb : capacity * V < 2147483648)
    (hcap : capacity < 2147483647) :
    (∃ m : Nat, maxValueTreeW items capacity = (m : Int)
      ∧ IsGreatest (feasibleValuesTree items capacity) m)
    ∧ maxValueTreeW [⟨1, 1, 0⟩, ⟨1, 1, 1⟩] 2 = 2 :=
  ⟨⟨maxValueTree items capacity, maxValueTreeW_eq items capacity V hw hV hb,
    maxValueTree_greatest items ((validForest_iff_noCycle items).2 ⟨hpar, hnc⟩) capacity⟩,
    by decide⟩

/-- An instance of `knapsackTree_optimal_int`: a forest of five nodes with two roots,
capacity 6, `V = 10`. -/
theorem knapsackTree_optimal_int_witness :
    NoCycle [⟨2, 3, 3⟩, ⟨1, 1, 1⟩, ⟨2, 2, 0⟩, ⟨3, 10, 0⟩, ⟨1, 5, 4⟩]
    ∧ (∀ it ∈ [(⟨2, 3, 3⟩ : ItemT), ⟨1, 1, 1⟩, ⟨2, 2, 0⟩, ⟨3, 10, 0⟩, ⟨1, 5, 4⟩], 0 < it.weight)
    ∧ (∀ it ∈ [(⟨2, 3, 3⟩ : ItemT), ⟨1, 1, 1⟩, ⟨2, 2, 0⟩, ⟨3, 10, 0⟩, ⟨1, 5, 4⟩], it.value ≤ 10)
    ∧ 6 * 10 < 2147483648
    ∧ ∃ m : Nat, maxValueTreeW [⟨2, 3, 3⟩, ⟨1, 1, 1⟩, ⟨2, 2, 0⟩, ⟨3, 10, 0⟩, ⟨1, 5, 4⟩] 6 = (m : Int)
      ∧ IsGreatest (feasibleValuesTree [⟨2, 3, 3⟩, ⟨1, 1, 1⟩, ⟨2, 2, 0⟩, ⟨3, 10, 0⟩, ⟨1, 5, 4⟩] 6)
          m :=
  have hv : ValidForest [⟨2, 3, 3⟩, ⟨1, 1, 1⟩, ⟨2, 2, 0⟩, ⟨3, 10, 0⟩, ⟨1, 5, 4⟩] := by
    constructor <;> decide
  ⟨((validForest_iff_noCycle _).1 hv).2, by decide, by decide, by decide,
    (knapsackTree_optimal_int _ 6 10 hv.1 ((validForest_iff_noCycle _).1 hv).2 (by decide)
      (by decide) (by decide) (by decide)).1⟩

/-- C30 (refuted as stated): capacity 2, the root `(1, 2000000000)` with one child
`(1, 2000000000)`. After `dfs(0)` the program has `dp[0][2] = 2000000000` (the `int` sum
wraps in the merge), while the subtree of the root holds the set of both nodes, of weight 2
and value `4000000000`. -/
theorem tree_row_int_overflow :
    ValidForest [⟨1, 2000000000, 0⟩, ⟨1, 2000000000, 1⟩]
    ∧ (∀ it ∈ [(⟨1, 2000000000, 0⟩ : ItemT), ⟨1, 2000000000, 1⟩], 0 < it.weight)
    ∧ (dfsW [⟨1, 2000000000, 0⟩, ⟨1, 2000000000, 1⟩]
        (buildChildren [⟨1, 2000000000, 0⟩, ⟨1, 2000000000, 1⟩]) 2 2 0
        (Table.mk 2 3 0)).get 0 2 = 2000000000
    ∧ (dfsAllW [⟨1, 2000000000, 0⟩, ⟨1, 2000000000, 1⟩] 2).get 0 2 = 2000000000
    ∧ IsGreatest (subtreeValues [⟨1, 2000000000, 0⟩, ⟨1, 2000000000, 1⟩] 0 2) 4000000000 := by
  have hv : ValidForest [⟨1, 2000000000, 0⟩, ⟨1, 2000000000, 1⟩] := by
    constructor <;> decide
  refine ⟨hv, by decide, by decide, by decide, ?_⟩
  have h := ((rowOK_subtree [⟨1, 2000000000, 0⟩, ⟨1, 2000000000, 1⟩] 2 _ 0 (by decide)
    (dfsAll_rows _ hv 2 0 (by decide))).2 2 (by decide) (by decide)).1
  have e : (dfsAll [⟨1, 2000000000, 0⟩, ⟨1, 2000000000, 1⟩] 2).get 0 2 = 4000000000 := by
    decide
  rw [e] at h
  exact h

/-- C30 (amended): in a valid forest with positive weights and values at most `V`, when `capacity *
V < 2^31`: after `dfs(u)` (called on an `int` table whose cells are natural numbers within `j *
V` and whose rows of the subtree of `u` are still zero, with fuel for the depth below `u`) the
row of `u` is 0 below `weight(u)`, and for `weight(u) ≤ j ≤ C` it is the greatest total value of
a set of nodes of the subtree of `u` that contains `u`, contains the parent of each of its
members other than `u`, and has total weight at most `j`; the same holds, for every node, in the
table the solver ends with. The capacity is an `int` below `2^31 - 1`, so that `capacity + 1`,
the length of a row, is an `int` too. -/
theorem tree_row_optimal_int (items : List ItemT) (hv : ValidForest items) (capacity V : Nat)
    (hw : ∀ it ∈ items, 0 < it.weight) (hV : ∀ it ∈ items, it.value ≤ V)
    (hb : capacity * V < 2147483648)
    (hcap : capacity < 2147483647) :
    (∀ u, u < items.length → ∀ fuel, items.length ≤ fuel + depthOf items u →
      ∀ T : Table Nat, T.Dims items.length (capacity + 1) → BoundJ V T →
      (∀ t, InSub items u t → ∀ j, T.get t j = 0) →
      (∀ j, j ≤ capacity → j < (items.getD u default).weight →
        (dfsW items (buildChildren items) capacity fuel u (castT T)).get u j = 0) ∧
      (∀ j, (items.getD u default).weight ≤ j → j ≤ capacity →
        ∃ m : Nat, (dfsW items (buildChildren items) capacity fuel u (castT T)).get u j = (m : Int)
          ∧ IsGreatest (subtreeValues items u j) m)) ∧
    (∀ u, u < items.length →
      (∀ j, j ≤ capacity → j < (items.getD u default).weight →
        (dfsAllW items capacity).get u j = 0) ∧
      (∀ j, (items.getD u default).weight ≤ j → j ≤ capacity →
        ∃ m : Nat, (dfsAllW items capacity).get u j = (m : Int)
          ∧ IsGreatest (subtreeValues items u j) m)) := by
  constructor
  · intro u hu fuel hf T hT hB hz
    rw [(dfsW_cast items _ capacity V (value_le_weight_mul items V hw hV) hb fuel u T hB).1]
    obtain ⟨-, -, h3⟩ := dfs_spec items hv capacity fuel u hu hf T hT hz
    obtain ⟨a, b⟩ := rowOK_subtree items capacity _ u hu (h3 u Relation.ReflTransGen.refl)
    refine ⟨fun j hj hjw => ?_, fun j hwj hj => ⟨_, castT_get _ u j, (b j hj hwj).1⟩⟩
    rw [castT_get, a j hj hjw]
    rfl
  · intro u hu
    rw [(dfsAllW_eq items capacity V hw hV hb).1]
    obtain ⟨a, b⟩ := rowOK_subtree items capacity _ u hu (dfsAll_rows items hv capacity u hu)
    refine ⟨fun j hj hjw => ?_, fun j hwj hj => ⟨_, castT_get _ u j, (b j hj hwj).1⟩⟩
    rw [castT_get, a j hj hjw]
    rfl

/-- An instance of `tree_row_optimal_int`: the forest (2,5) with child (1,2) and a second
root (2,4), capacity 3, `V = 5`, at node 0 and column 3. -/
theorem tree_row_optimal_int_witness :
    ValidForest [⟨2, 5, 0⟩, ⟨1, 2, 1⟩, ⟨2, 4, 0⟩]
    ∧ (∀ it ∈ [(⟨2, 5, 0⟩ : ItemT), ⟨1, 2, 1⟩, ⟨2, 4, 0⟩], 0 < it.weight)
    ∧ (∀ it ∈ [(⟨2, 5, 0⟩ : ItemT), ⟨1, 2, 1⟩, ⟨2, 4, 0⟩], it.value ≤ 5)
    ∧ 3 * 5 < 2147483648
    ∧ (dfsAllW [⟨2, 5, 0⟩, ⟨1, 2, 1⟩, ⟨2, 4, 0⟩] 3).get 0 3 = 7
    ∧ ∃ m : Nat, (dfsAllW [⟨2, 5, 0⟩, ⟨1, 2, 1⟩, ⟨2, 4, 0⟩] 3).get 0 3 = (m : Int)
        ∧ IsGreatest (subtreeValues [⟨2, 5, 0⟩, ⟨1, 2, 1⟩, ⟨2, 4, 0⟩] 0 3) m :=
  have hv : ValidForest [⟨2, 5, 0⟩, ⟨1, 2, 1⟩, ⟨2, 4, 0⟩] := by
    constructor <;> decide
  ⟨hv, by decide, by decide, by decide, by decide,
    ((tree_row_optimal_int _ hv 3 5 (by decide) (by decide) (by decide) (by decide)).2 0 (by decide)).2 3
      (by decide) (by decide)⟩

/-- C32 (refuted as stated): `C = 3`, `w = 1`, `P = Ch = [0, 1000000000, 1200000000,
1200000000]`. At `j = 3` the `int` sums `P[2] + Ch[1]` and `P[1] + Ch[2]` (both
`2200000000`) wrap to negative numbers, so the loop leaves `P'[3] = 1200000000`, while the
greatest `P[3 - k] + Ch[k]` over `k ≤ 2` is `2200000000`. -/
theorem mergeChild_int_overflow :
    mergeChildW 1 3 0 1 [[0, 1000000000, 1200000000, 1200000000],
        [0, 1000000000, 1200000000, 1200000000]]
      = [[0, 1000000000, 2000000000, 1200000000], [0, 1000000000, 1200000000, 1200000000]]
    ∧ IsGreatest {x | ∃ k, k ≤ 3 - 1 ∧ x
          = Table.get ([[0, 1000000000, 1200000000, 1200000000],
              [0, 1000000000, 1200000000, 1200000000]] : Table ℕ) 0 (3 - k)
            + Table.get ([[0, 1000000000, 1200000000, 1200000000],
              [0, 1000000000, 1200000000, 1200000000]] : Table ℕ) 1 k} 2200000000 := by
  refine ⟨by decide, ?_⟩
  have h := (mergeChild_spec 1 3 0 1 2 [[0, 1000000000, 1200000000, 1200000000],
    [0, 1000000000, 1200000000, 1200000000]] ⟨rfl, by decide⟩ (by decide) (by decide)).2.2.2 3
    (by decide) (by decide)
  have e : (mergeChild 1 3 0 1 [[0, 1000000000, 1200000000, 1200000000],
      [0, 1000000000, 1200000000, 1200000000]]).get 0 3 = 2200000000 := by decide
  rw [e] at h
  exact h

/-- C33 (refuted as stated): `C = 2` and the three value arrays `[0, 2000000000,
2000000000]`, `[0, 1500000000, 1500000000]`, `[0, 600000000, 600000000]` (three leaf roots of
weight 1). Merged in this order the program gets `finalDp[2] = 2000000000`; merged in the
order 1, 2, 0 it gets `2100000000`: which `int` sums wrap depends on the order. -/
theorem mergeRoots_int_overflow_order :
    ([0, 1, 2] : List ℕ).Perm [1, 2, 0]
    ∧ (([0, 1, 2] : List ℕ).foldl (fun finalDp root =>
          mergeRootW 2 root [[0, 2000000000, 2000000000], [0, 1500000000, 1500000000],
            [0, 600000000, 600000000]] finalDp) (List.replicate (2 + 1) 0)).getD 2 0
        = 2000000000
    ∧ (([1, 2, 0] : List ℕ).foldl (fun finalDp root =>
          mergeRootW 2 root [[0, 2000000000, 2000000000], [0, 1500000000, 1500000000],
            [0, 600000000, 600000000]] finalDp) (List.replicate (2 + 1) 0)).getD 2 0
        = 2100000000
    ∧ maxValueTreeW [⟨1, 2000000000, 0⟩, ⟨1, 1500000000, 0⟩, ⟨1, 600000000, 0⟩] 2 = 2000000000
    ∧ maxValueTreeW [⟨1, 1500000000, 0⟩, ⟨1, 600000000, 0⟩, ⟨1, 2000000000, 0⟩] 2
        = 2100000000 := by
  refine ⟨by decide, by decide, by decide, by decide, by decide⟩

/-- C33 (amended): when the value arrays of the roots are rows of natural numbers whose entry `j` is
within `j * V` (as the rows of the solver are for positive weights and values at most `V`) and
`C * V < 2^31`, the final merge of the roots into the `int` vector `finalDp`, starting as `C +
1` zeros, gives the same `finalDp[C]`, and the same whole `finalDp`, for every permutation of
the list of roots. The capacity is an `int` below `2^31 - 1`, so that `capacity + 1`, the length
of a row, is an `int` too. -/
theorem mergeRoots_order_irrelevant_int (C V : ℕ) (dp : Table ℕ) (hB : BoundJ V dp)
    (hb : C * V < 2147483648) (L L' : List ℕ) (h : L.Perm L')
    (hcap : C < 2147483647) :
    (L.foldl (fun finalDp root => mergeRootW C root (castT dp) finalDp)
        (List.replicate (C + 1) 0)).getD C 0
      = (L'.foldl (fun finalDp root => mergeRootW C root (castT dp) finalDp)
        (List.replicate (C + 1) 0)).getD C 0
    ∧ L.foldl (fun finalDp root => mergeRootW C root (castT dp) finalDp)
        (List.replicate (C + 1) 0)
      = L'.foldl (fun finalDp root => mergeRootW C root (castT dp) finalDp)
          (List.replicate (C + 1) 0) := by
  have e : L.foldl (fun finalDp root => mergeRootW C root (castT dp) finalDp)
        (List.replicate (C + 1) 0)
      = L'.foldl (fun finalDp root => mergeRootW C root (castT dp) finalDp)
          (List.replicate (C + 1) 0) := by
    rw [← castL_replicate, mergeRootsW_cast C V dp hB hb L _ (boundL_replicate V _),
      mergeRootsW_cast C V dp hB hb L' _ (boundL_replicate V _),
      mergeRoots_perm C dp L L' h _ (List.length_replicate _ _)]
  exact ⟨by rw [e], e⟩

/-- An instance of `mergeRoots_order_irrelevant_int`: three value arrays for `C = 3`,
`V = 3`, merged in the orders 0, 1, 2 and 2, 0, 1: `finalDp[3] = 8` both times. -/
theorem mergeRoots_order_irrelevant_int_witness :
    ([0, 1, 2] : List ℕ).Perm [2, 0, 1] ∧ 3 * 3 < 2147483648
    ∧ (([0, 1, 2] : List ℕ).foldl (fun finalDp root =>
          mergeRootW 3 root (castT [[0, 0, 5, 5], [0, 3, 4, 6], [0, 0, 0, 8]]) finalDp)
        (List.replicate (3 + 1) 0)).getD 3 0 = 8
    ∧ (([0, 1, 2] : List ℕ).foldl (fun finalDp root =>
          mergeRootW 3 root (castT [[0, 0, 5, 5], [0, 3, 4, 6], [0, 0, 0, 8]]) finalDp)
        (List.replicate (3 + 1) 0)).getD 3 0
      = (([2, 0, 1] : List ℕ).foldl (fun finalDp root =>
          mergeRootW 3 root (castT [[0, 0, 5, 5], [0, 3, 4, 6], [0, 0, 0, 8]]) finalDp)
        (List.replicate (3 + 1) 0)).getD 3 0 :=
  have hB : BoundJ 3 [[0, 0, 5, 5], [0, 3, 4, 6], [0, 0, 0, 8]] := by
    intro r j
    match r, j with
    | 0, 0 | 0, 1 | 0, 2 | 0, 3 | 1, 0 | 1, 1 | 1, 2 | 1, 3
    | 2, 0 | 2, 1 | 2, 2 | 2, 3 => decide
    | 0, j + 4 | 1, j + 4 | 2, j + 4 | r + 3, j => exact Nat.zero_le _
  ⟨by decide, by decide, by decide,
    (mergeRoots_order_irrelevant_int 3 3 [[0, 0, 5, 5], [0, 3, 4, 6], [0, 0, 0, 8]] hB
      (by decide) [0, 1, 2] [2, 0, 1] (by decide) (by decide)).1⟩

set_option maxRecDepth 100000 in
/-- C39 (refuted as stated): capacity 3 and the valid forest of the single root
`(1, 1000000000)` with the children `(1, 200000000)` and `(1, 1000000000)`, the latter with
the child `(1, 200000000)`. The `int` sum `1000000000 + 1200000000` wraps in the merge of the
second child, so the program ends with `dp[0] = [0, 1000000000, 2000000000, 1200000000]`: the
row is not non-decreasing, the shortcut reports `dp[0][3] = 1200000000`, and the general
merge loop would give `finalDp[3] = 2000000000`. -/
theorem single_root_int_overflow :
    ValidForest [⟨1, 1000000000, 0⟩, ⟨1, 200000000, 1⟩, ⟨1, 1000000000, 1⟩, ⟨1, 200000000, 3⟩]
    ∧ (buildRoots [⟨1, 1000000000, 0⟩, ⟨1, 200000000, 1⟩, ⟨1, 1000000000, 1⟩,
        ⟨1, 200000000, 3⟩]).length = 1
    ∧ (dfsAllW [⟨1, 1000000000, 0⟩, ⟨1, 200000000, 1⟩, ⟨1, 1000000000, 1⟩,
        ⟨1, 200000000, 3⟩] 3).get 0 2 = 2000000000
    ∧ (dfsAllW [⟨1, 1000000000, 0⟩, ⟨1, 200000000, 1⟩, ⟨1, 1000000000, 1⟩,
        ⟨1, 200000000, 3⟩] 3).get 0 3 = 1200000000
    ∧ maxValueTreeW [⟨1, 1000000000, 0⟩, ⟨1, 200000000, 1⟩, ⟨1, 1000000000, 1⟩,
        ⟨1, 200000000, 3⟩] 3 = 1200000000
    ∧ ((buildRoots [⟨1, 1000000000, 0⟩, ⟨1, 200000000, 1⟩, ⟨1, 1000000000, 1⟩,
          ⟨1, 200000000, 3⟩]).foldl (fun finalDp root => mergeRootW 3 root
            (dfsAllW [⟨1, 1000000000, 0⟩, ⟨1, 200000000, 1⟩, ⟨1, 1000000000, 1⟩,
              ⟨1, 200000000, 3⟩] 3) finalDp) (List.replicate (3 + 1) 0)).getD 3 0
        = 2000000000 := by
  refine ⟨?_, by decide, by decide, by decide, by decide, by decide⟩
  constructor <;> decide

/-- C39 (amended): in a valid forest with exactly one root `r`, positive weights and values at most
`V`, when `C * V < 2^31`: the `max_value` the solver reports by its shortcut is the `int`
`dp[r][C]`, and this is the `finalDp[C]` that the merge loop of the general branch gives when
`dp[r]` is merged into the all-zero array; the row `dp[r]` is non-decreasing in the capacity.
The capacity is an `int` below `2^31 - 1`, so that `capacity + 1`, the length of a row, is an
`int` too. -/
theorem single_root_shortcut_int (items : List ItemT) (hv : ValidForest items) (C V : Nat)
    (h1 : (buildRoots items).length = 1) (hw : ∀ it ∈ items, 0 < it.weight)
    (hV : ∀ it ∈ items, it.value ≤ V) (hb : C * V < 2147483648)
    (hcap : C < 2147483647) :
    maxValueTreeW items C = (dfsAllW items C).get ((buildRoots items).getD 0 0) C
    ∧ ((buildRoots items).foldl
          (fun finalDp root => mergeRootW C root (dfsAllW items C) finalDp)
          (List.replicate (C + 1) 0)).getD C 0
        = (dfsAllW items C).get ((buildRoots items).getD 0 0) C
    ∧ ∀ j j', j ≤ j' → j' ≤ C →
        (dfsAllW items C).get ((buildRoots items).getD 0 0) j
          ≤ (dfsAllW items C).get ((buildRoots items).getD 0 0) j' := by
  obtain ⟨e1, e2, e3⟩ := single_root_shortcut items hv C h1
  obtain ⟨hd, hB⟩ := dfsAllW_eq items C V hw hV hb
  refine ⟨?_, ?_, fun j j' hjj hj => ?_⟩
  · unfold maxValueTreeW
    simp only []
    rw [if_pos h1]
  · rw [hd, ← castL_replicate, mergeRootsW_cast C V _ hB hb _ _ (boundL_replicate V _),
      castL_getD, castT_get, e2]
  · rw [hd, castT_get, castT_get]
    exact_mod_cast e3 j j' hjj hj

/-- An instance of `single_root_shortcut_int`: the root `(2, 5)` with the child `(1, 2)`,
capacity 3, `V = 5`: `dp[0][3] = 7` either way. -/
theorem single_root_shortcut_int_witness :
    ValidForest [⟨2, 5, 0⟩, ⟨1, 2, 1⟩] ∧ (buildRoots [⟨2, 5, 0⟩, ⟨1, 2, 1⟩]).length = 1
    ∧ (∀ it ∈ [(⟨2, 5, 0⟩ : ItemT), ⟨1, 2, 1⟩], 0 < it.weight)
    ∧ (∀ it ∈ [(⟨2, 5, 0⟩ : ItemT), ⟨1, 2, 1⟩], it.value ≤ 5)
    ∧ 3 * 5 < 2147483648
    ∧ (dfsAllW [⟨2, 5, 0⟩, ⟨1, 2, 1⟩] 3).get 0 3 = 7
    ∧ maxValueTreeW [⟨2, 5, 0⟩, ⟨1, 2, 1⟩] 3
        = (dfsAllW [⟨2, 5, 0⟩, ⟨1, 2, 1⟩] 3).get ((buildRoots [⟨2, 5, 0⟩, ⟨1, 2, 1⟩]).getD 0 0) 3
    ∧ ((buildRoots [⟨2, 5, 0⟩, ⟨1, 2, 1⟩]).foldl
          (fun finalDp root => mergeRootW 3 root (dfsAllW [⟨2, 5, 0⟩, ⟨1, 2, 1⟩] 3) finalDp)
          (List.replicate (3 + 1) 0)).getD 3 0
        = (dfsAllW [⟨2, 5, 0⟩, ⟨1, 2, 1⟩] 3).get ((buildRoots [⟨2, 5, 0⟩, ⟨1, 2, 1⟩]).getD 0 0) 3 :=
  have hv : ValidForest [⟨2, 5, 0⟩, ⟨1, 2, 1⟩] := by
    constructor <;> decide
  have h := single_root_shortcut_int [⟨2, 5, 0⟩, ⟨1, 2, 1⟩] hv 3 5 (by decide) (by decide)
    (by decide) (by decide) (by decide)
  ⟨hv, by decide, by decide, by decide, by decide, by decide, h.1, h.2.1⟩

theorem wrap32_mul_cast (a b : Nat) (h : a * b < 2147483648) :
    wrap32 ((a : Int) * (b : Int)) = ((a * b : Nat) : Int) := by
  have h2 : ((a : Int) * (b : Int)) = ((a * b : Nat) : Int) := by push_cast; rfl
  rw [h2, wrap32_eq _ (by omega) (by omega)]

theorem wrap32_sub_cast (a b : Nat) (hba : b ≤ a) (ha : a < 2147483648) :
    wrap32 ((a : Int) - (b : Int)) = ((a - b : Nat) : Int) := by
  rw [wrap32_eq _ (by omega) (by omega)]
  omega

/-- The doubling loop for a count of at most `N`, when `N + 1`, `weight * N` and `value * N`
are below `2^31`: the `int` computation is the exact one. -/
theorem splitLoopW_cast (it : ItemC) (i N : Nat) (hN : N + 1 < 2147483648)
    (hwN : it.weight * N < 2147483648) (hvN : it.value * N < 2147483648) :
    ∀ (fuel k cnt : Nat) (acc : List SplitItem), cnt ≤ N → k + cnt ≤ N + 1 →
      splitLoopW (it.weight : Int) (it.value : Int) i fuel (k : Int) (cnt : Int)
          (acc.map castSplit)
        = ((splitLoop it i fuel k cnt acc).1.map castSplit,
            (((splitLoop it i fuel k cnt acc).2 : Nat) : Int))
      ∧ (splitLoop it i fuel k cnt acc).2 ≤ N := by
  intro fuel
  induction fuel with
  | zero => intro k cnt acc h1 _; exact ⟨rfl, h1⟩
  | succ fuel ih =>
    intro k cnt acc h1 h2
    unfold splitLoopW splitLoop
    by_cases hle : k ≤ cnt
    · rw [if_pos hle, if_pos (by exact_mod_cast hle)]
      have hk2 : wrap32 ((k : Int) * 2) = ((k * 2 : Nat) : Int) := by
        rw [wrap32_eq _ (by omega) (by omega)]
        push_cast
        rfl
      have hwk : it.weight * k ≤ it.weight * N := Nat.mul_le_mul_left _ (by omega)
      have hvk : it.value * k ≤ it.value * N := Nat.mul_le_mul_left _ (by omega)
      rw [hk2, wrap32_sub_cast cnt k hle (by omega), wrap32_mul_cast _ _ (by omega),
        wrap32_mul_cast _ _ (by omega)]
      have happ : acc.map castSplit ++ [(⟨((it.weight * k : Nat) : Int),
          ((it.value * k : Nat) : Int), i, (k : Int)⟩ : SplitItemW)]
          = (acc ++ [(⟨it.weight * k, it.value * k, i, k⟩ : SplitItem)]).map castSplit := by
        rw [List.map_append]
        rfl
      rw [happ]
      exact ih (k * 2) (cnt - k) _ (by omega) (by omega)
    · rw [if_neg hle, if_neg (by exact_mod_cast hle)]
      exact ⟨rfl, h1⟩

theorem splitOneW_cast (it : ItemC) (i : Nat) (hN : it.count + 1 < 2147483648)
    (hwN : it.weight * it.count < 2147483648) (hvN : it.value * it.count < 2147483648)
    (acc : List SplitItem) :
    splitOneW it i (acc.map castSplit) = (splitOne it i acc).map castSplit := by
  obtain ⟨h1, h2⟩ := splitLoopW_cast it i it.count hN hwN hvN it.count 1 it.count acc
    (le_refl _) (by omega)
  unfold splitOneW splitOne
  simp only []
  have h1' : splitLoopW (it.weight : Int) (it.value : Int) i it.count 1 (it.count : Int)
      (acc.map castSplit)
      = ((splitLoop it i it.count 1 it.count acc).1.map castSplit,
          (((splitLoop it i it.count 1 it.count acc).2 : Nat) : Int)) := by
    have := h1
    simpa using this
  rw [h1']
  simp only []
  by_cases hr : (splitLoop it i it.count 1 it.count acc).2 > 0
  · rw [if_pos hr, if_pos (by exact_mod_cast hr)]
    have hwk : it.weight * (splitLoop it i it.count 1 it.count acc).2
        ≤ it.weight * it.count := Nat.mul_le_mul_left _ h2
    have hvk : it.value * (splitLoop it i it.count 1 it.count acc).2
        ≤ it.value * it.count := Nat.mul_le_mul_left _ h2
    rw [wrap32_mul_cast _ _ (by omega), wrap32_mul_cast _ _ (by omega), List.map_append]
    rfl
  · rw [if_neg hr, if_neg (by exact_mod_cast hr)]

/-- The counts, weights and values for which the binary decomposition stays within `int`:
`count ≤ 2^31 - 2`, `weight * count < 2^31` and `value * count < 2^31` for every item. -/
theorem splitAllW_eq (items : List ItemC)
    (hc : ∀ it ∈ items, it.count + 1 < 2147483648 ∧ it.weight * it.count < 2147483648
      ∧ it.value * it.count < 2147483648) :
    splitAllW items = (splitAll items).map castSplit := by
  unfold splitAllW splitAll
  exact (forLt_sim (List.map castSplit) (fun _ => True) 0 items.length _ _
    (fun i _ hi acc _ => by
      obtain ⟨a, b, c⟩ := hc _ (getD_mem_of_lt items i hi)
      exact ⟨splitOneW_cast _ i a b c acc, trivial⟩) [] trivial).1

theorem getD_map_castSplit (l : List SplitItem) (t : Nat) :
    (l.map castSplit).getD t default = castSplit (l.getD t default) := by
  have : (default : SplitItemW) = castSplit default := rfl
  rw [this, List.getD_map]

/-- For a weight that is a natural number the rule with `int` weight is the rule of
`cell01W`. -/
theorem cell01ZW_nat (w : Nat) (v : Int) (i j : Nat) (dp : Table Int) (hj : j < 2147483648) :
    cell01ZW (w : Int) v i j dp = cell01W w v i j dp := by
  unfold cell01ZW cell01W
  by_cases hjw : j < w
  · rw [if_pos hjw, if_pos (by exact_mod_cast hjw)]
  · rw [if_neg hjw, if_neg (by exact_mod_cast hjw)]
    simp only []
    rw [wrap32_sub_cast j w (by omega) hj]
    unfold getI
    rw [if_neg (by omega), Int.toNat_ofNat]

theorem forUp_congr {σ : Type} (lo hi : Nat) (f g : Nat → σ → σ)
    (h : ∀ k, lo ≤ k → k ≤ hi → ∀ s, f k s = g k s) (s : σ) :
    forUp lo hi f s = forUp lo hi g s :=
  (forUp_sim id (fun _ => True) lo hi g f (fun k h1 h2 s _ => ⟨h k h1 h2 s, trivial⟩) s
    trivial).1

/-- Every pseudo-item has a value of at most `V` times its weight. -/
theorem split_value_le (items : List ItemC) (V : Nat) (hw : ∀ it ∈ items, 0 < it.weight)
    (hV : ∀ it ∈ items, it.value ≤ V) (t : Nat) (ht : t < (splitAll items).length) :
    ((splitAll items).getD t default).value ≤ ((splitAll items).getD t default).weight * V := by
  obtain ⟨h1, -, h3, h4⟩ := splitAll_pieces items _ (getD_mem_of_lt (splitAll items) t ht)
  rw [h3, h4]
  have a := hw _ (getD_mem_of_lt items _ h1)
  have b := hV _ (getD_mem_of_lt items _ h1)
  calc (items.getD ((splitAll items).getD t default).originalIndex default).value
        * ((splitAll items).getD t default).splitCount
      ≤ ((items.getD ((splitAll items).getD t default).originalIndex default).weight * V)
        * ((splitAll items).getD t default).splitCount :=
        Nat.mul_le_mul_right _ (le_weight_mul _ _ V b a)
    _ = _ := by ring

theorem fillMultipleW_eq (items : List ItemC) (C V : Nat) (hw : ∀ it ∈ items, 0 < it.weight)
    (hV : ∀ it ∈ items, it.value ≤ V)
    (hc : ∀ it ∈ items, it.count + 1 < 2147483648 ∧ it.weight * it.count < 2147483648
      ∧ it.value * it.count < 2147483648)
    (hC : C < 2147483648) (hb : C * V < 2147483648) :
    fillMultipleW items C = castT (fillMultiple items C) := by
  unfold fillMultipleW fillMultiple
  simp only []
  rw [splitAllW_eq items hc, List.length_map]
  rw [← (fillBy01W_cast (splitAll items).length C V
    (fun t => ((splitAll items).getD t default).weight)
    (fun t => ((splitAll items).getD t default).value)
    (fun t ht => split_value_le items V hw hV t ht) hb).1]
  apply forUp_congr
  intro i _ _ T
  apply forUp_congr
  intro j _ hj T'
  rw [getD_map_castSplit]
  exact cell01ZW_nat _ _ i j T' (by omega)

theorem maxValueMultipleW_eq (items : List ItemC) (C V : Nat)
    (hw : ∀ it ∈ items, 0 < it.weight) (hV : ∀ it ∈ items, it.value ≤ V)
    (hc : ∀ it ∈ items, it.count + 1 < 2147483648 ∧ it.weight * it.count < 2147483648
      ∧ it.value * it.count < 2147483648)
    (hC : C < 2147483648) (hb : C * V < 2147483648) :
    maxValueMultipleW items C = ((maxValueMultiple items C : Nat) : Int) := by
  unfold maxValueMultipleW maxValueMultiple
  rw [fillMultipleW_eq items C V hw hV hc hC hb, splitAllW_eq items hc, List.length_map,
    castT_get]

theorem getI_cast (T : Table Nat) (a : Nat) (j : Int) (hj : 0 ≤ j) :
    getI (castT T) a j = ((T.get a j.toNat : Nat) : Int) := by
  unfold getI
  rw [if_neg (by omega), castT_get]

/-- The walk over `int` split items that are natural numbers below `2^31`, from an `int`
column below `2^31`, is the walk of `backtrackFrom`. -/
theorem backtrackMultipleW_cast (split : List SplitItem) (T : Table Nat)
    (hwt : ∀ t, (split.getD t default).weight < 2147483648) :
    ∀ i (j : Int), j < 2147483648 →
      backtrackMultipleW (split.map castSplit) (castT T) i j
        = (backtrackFrom (fun t => (split.getD t default).weight) T i j.toNat).map (fun e =>
            castEntryC ⟨e.r, e.c, (split.getD e.item default).originalIndex,
              (split.getD e.item default).splitCount⟩) := by
  intro i
  induction i with
  | zero => intro j _; rfl
  | succ i ih =>
    intro j hj
    unfold backtrackMultipleW backtrackFrom
    by_cases hj0 : j > 0
    · have hjn : j.toNat > 0 := by omega
      rw [if_pos hj0, if_pos hjn, getI_cast T _ j (by omega), getI_cast T _ j (by omega)]
      by_cases hne : T.get (i + 1) j.toNat ≠ T.get i j.toNat
      · rw [if_pos hne, if_pos (by exact_mod_cast hne), List.map_cons, getD_map_castSplit]
        have hw := hwt i
        have e1 : wrap32 (j - (castSplit (split.getD i default)).weight)
            = j - ((split.getD i default).weight : Int) := by
          unfold castSplit
          simp only []
          rw [wrap32_eq _ (by omega) (by omega)]
        rw [e1, ih _ (by omega)]
        have e2 : (j - ((split.getD i default).weight : Int)).toNat
            = j.toNat - (split.getD i default).weight := by omega
        rw [e2]
        congr 1
        unfold castEntryC castSplit
        simp only [PathEntryCW.mk.injEq, true_and, and_true]
        omega
      · rw [if_neg hne, if_neg (by exact_mod_cast hne)]
        exact ih j hj
    · have hjn : ¬ j.toNat > 0 := by omega
      rw [if_neg hj0, if_neg hjn]
      rfl

theorem pathMultipleW_eq (items : List ItemC) (C V : Nat) (hw : ∀ it ∈ items, 0 < it.weight)
    (hV : ∀ it ∈ items, it.value ≤ V)
    (hc : ∀ it ∈ items, it.count + 1 < 2147483648 ∧ it.weight * it.count < 2147483648
      ∧ it.value * it.count < 2147483648)
    (hC : C < 2147483648) (hb : C * V < 2147483648) :
    pathMultipleW items C = (pathMultiple items C).map castEntryC := by
  unfold pathMultipleW pathMultiple
  simp only []
  have hwt : ∀ t, ((splitAll items).getD t default).weight < 2147483648 := by
    intro t
    by_cases ht : t < (splitAll items).length
    · obtain ⟨h1, -, h3, -⟩ := splitAll_pieces items _ (getD_mem_of_lt (splitAll items) t ht)
      obtain ⟨-, b, -⟩ := hc _ (getD_mem_of_lt items _ h1)
      rw [h3]
      have hle : ((splitAll items).getD t default).splitCount
          ≤ (items.getD ((splitAll items).getD t default).originalIndex default).count := by
        have hs := splitAll_count items _ h1
        rw [← hs]
        exact List.single_le_sum (fun _ _ => Nat.zero_le _) _
          (List.mem_map.2 ⟨_, List.mem_filter.2
            ⟨getD_mem_of_lt (splitAll items) t ht, by simp⟩, rfl⟩)
      exact lt_of_le_of_lt (Nat.mul_le_mul_left _ hle) b
    · rw [List.getD_eq_default _ _ (by omega)]
      decide
  rw [fillMultipleW_eq items C V hw hV hc hC hb, splitAllW_eq items hc, List.length_map,
    backtrackMultipleW_cast (splitAll items) (fillMultiple items C) hwt _ (C : Int) (by omega),
    Int.toNat_ofNat, List.map_map]
  rfl

/-- C5 (refuted as stated): capacity 2 and the one item `(1, 2000000000)` with count 2. The
decomposition gives two pseudo-items `(1, 2000000000)`; the `int` sum of their values wraps,
so the program reports `max_value = 2000000000`, while enumerating the copies gives
`4000000000`. -/
theorem knapsackMultiple_int_overflow :
    (∀ it ∈ [(⟨1, 2000000000, 2⟩ : ItemC)], 0 < it.weight)
    ∧ splitAllW [⟨1, 2000000000, 2⟩] = [⟨1, 2000000000, 0, 1⟩, ⟨1, 2000000000, 0, 1⟩]
    ∧ maxValueMultipleW [⟨1, 2000000000, 2⟩] 2 = 2000000000
    ∧ naiveBestMultiple [⟨1, 2000000000, 2⟩] 2 = 4000000000 := by
  refine ⟨by decide, by decide, by decide, by decide⟩

/-- C5 (amended): for items with positive weights, values at most `V`, counts at most
`2^31 - 2` and `weight * count`, `value * count` below `2^31`, and a capacity below `2^31 - 1`
with `capacity * V < 2^31` (then no product or sum of the program leaves the range of
`int`), the `max_value` of the multiple-knapsack solver (binary decomposition, then the 0/1
rule over the pseudo-items) equals the optimum of naively enumerating the copies of every
item, and is the greatest `sum x t * value t` over vectors with `x t ≤ count t` and
`sum x t * weight t ≤ capacity`. -/
theorem knapsackMultiple_optimal_int (items : List ItemC) (capacity V : Nat)
    (hw : ∀ it ∈ items, 0 < it.weight) (hV : ∀ it ∈ items, it.value ≤ V)
    (hc : ∀ it ∈ items, it.count + 1 < 2147483648 ∧ it.weight * it.count < 2147483648
      ∧ it.value * it.count < 2147483648)
    (hC : capacity < 2147483647) (hb : capacity * V < 2147483648) :
    maxValueMultipleW items capacity = ((naiveBestMultiple items capacity : Nat) : Int)
    ∧ ∃ m : Nat, maxValueMultipleW items capacity = (m : Int)
        ∧ IsGreatest (feasibleValuesMultiple items capacity) m := by
  rw [maxValueMultipleW_eq items capacity V hw hV hc (by omega) hb]
  exact ⟨by rw [(maxValueMultiple_greatest items capacity).unique
      (naiveBestMultiple_greatest items capacity)],
    _, rfl, maxValueMultiple_greatest items capacity⟩

/-- An instance of `knapsackMultiple_optimal_int`: the items (1,1) with count 3 and (2,3)
with count 1, capacity 4, `V = 3`. -/
theorem knapsackMultiple_optimal_int_witness :
    (∀ it ∈ [(⟨1, 1, 3⟩ : ItemC), ⟨2, 3, 1⟩], 0 < it.weight)
    ∧ (∀ it ∈ [(⟨1, 1, 3⟩ : ItemC), ⟨2, 3, 1⟩], it.value ≤ 3)
    ∧ (∀ it ∈ [(⟨1, 1, 3⟩ : ItemC), ⟨2, 3, 1⟩], it.count + 1 < 2147483648
        ∧ it.weight * it.count < 2147483648 ∧ it.value * it.count < 2147483648)
    ∧ 4 < 2147483648 ∧ 4 * 3 < 2147483648
    ∧ maxValueMultipleW [⟨1, 1, 3⟩, ⟨2, 3, 1⟩] 4 = 5
    ∧ maxValueMultipleW [⟨1, 1, 3⟩, ⟨2, 3, 1⟩] 4
        = ((naiveBestMultiple [⟨1, 1, 3⟩, ⟨2, 3, 1⟩] 4 : Nat) : Int) :=
  ⟨by decide, by decide, by decide, by decide, by decide, by decide,
    (knapsackMultiple_optimal_int [⟨1, 1, 3⟩, ⟨2, 3, 1⟩] 4 3 (by decide) (by decide)
      (by decide) (by decide) (by decide)).1⟩

/-- The multipliers do not depend on the weight and the value of the item. -/
theorem splitLoopW_counts (w v w' v' : Int) (i : Nat) :
    ∀ (fuel : Nat) (k cnt : Int) (acc acc' : List SplitItemW),
      acc.map (fun s => s.splitCount) = acc'.map (fun s => s.splitCount) →
      (splitLoopW w v i fuel k cnt acc).1.map (fun s => s.splitCount)
        = (splitLoopW w' v' i fuel k cnt acc').1.map (fun s => s.splitCount)
      ∧ (splitLoopW w v i fuel k cnt acc).2 = (splitLoopW w' v' i fuel k cnt acc').2 := by
  intro fuel
  induction fuel with
  | zero => intro k cnt acc acc' h; exact ⟨h, rfl⟩
  | succ fuel ih =>
    intro k cnt acc acc' h
    unfold splitLoopW
    by_cases hle : k ≤ cnt
    · rw [if_pos hle, if_pos hle]
      exact ih _ _ _ _ (by rw [List.map_append, List.map_append, h]; rfl)
    · rw [if_neg hle, if_neg hle]
      exact ⟨h, rfl⟩

theorem multipliersW_eq (it : ItemC) (i : Nat) (hN : it.count + 1 < 2147483648) :
    multipliersW it i = (multipliers ⟨0, 0, it.count⟩ i).map (fun k : Nat => (k : Int)) := by
  have h0 : multipliersW it i = multipliersW ⟨0, 0, it.count⟩ i := by
    unfold multipliersW splitOneW
    simp only []
    obtain ⟨h1, h2⟩ := splitLoopW_counts (it.weight : Int) (it.value : Int) ((0 : Nat) : Int)
      ((0 : Nat) : Int) i it.count 1 (it.count : Int) [] [] rfl
    rw [h2]
    split
    · rw [List.map_append, List.map_append, h1]
      rfl
    · exact h1
  rw [h0]
  unfold multipliersW multipliers
  have := splitOneW_cast ⟨0, 0, it.count⟩ i hN (by simp) (by simp) []
  rw [List.map_nil] at this
  rw [this, List.map_map, List.map_map]
  rfl

/-- C11 (refuted as stated): the count `2147483647`. The loop emits the multipliers `1, 2, ..,
2^30`, which use up the count; then `k *= 2` wraps to `-2147483648`, which is still at most
the remaining count 0, and a 32nd pseudo-item with the multiplier `-2147483648` is emitted.
The multipliers no longer sum to the count. -/
theorem binarySplit_int_overflow :
    (multipliersW ⟨1, 1, 2147483647⟩ 0).length = 32
    ∧ (multipliersW ⟨1, 1, 2147483647⟩ 0).getLast? = some (-2147483648)
    ∧ (multipliersW ⟨1, 1, 2147483647⟩ 0).sum = -1 := by
  refine ⟨by decide, by decide, by decide⟩

/-- C11 (amended): for a count of at most `2^31 - 2` the multipliers that the binary
decomposition on `int`s emits for one item are natural numbers, `1, 2, 4, ..` followed by the
non-zero remainder; the sums of their sub-collections (each pseudo-item chosen at most once)
are exactly the totals `0, 1, .., C`, and the multipliers sum to exactly `C`. -/
theorem binarySplit_subSums_int (it : ItemC) (i : Nat) (hN : it.count + 1 < 2147483648) :
    ∃ ms : List Nat, multipliersW it i = ms.map (fun k : Nat => (k : Int))
      ∧ (∃ b r, r < 2 ^ b ∧ 2 ^ b + r = it.count + 1 ∧
          ms = (List.range b).map (fun e => 2 ^ e) ++ (if r > 0 then [r] else []))
      ∧ subSums ms = {s | s ≤ it.count}
      ∧ ms.sum = it.count := by
  refine ⟨multipliers ⟨0, 0, it.count⟩ i, multipliersW_eq it i hN, ?_, ?_⟩
  · obtain ⟨b, r, h1, h2, h3, _⟩ := multipliers_spec ⟨0, 0, it.count⟩ i
    exact ⟨b, r, h1, h2, h3⟩
  · exact multipliers_subSums ⟨0, 0, it.count⟩ i

/-- An instance of `binarySplit_subSums_int`: the count 10 gives the multipliers 1, 2, 4, 3. -/
theorem binarySplit_subSums_int_witness :
    (⟨2, 3, 10⟩ : ItemC).count + 1 < 2147483648
    ∧ multipliersW ⟨2, 3, 10⟩ 0 = [1, 2, 4, 3]
    ∧ ∃ ms : List Nat, multipliersW ⟨2, 3, 10⟩ 0 = ms.map (fun k : Nat => (k : Int))
      ∧ (∃ b r, r < 2 ^ b ∧ 2 ^ b + r = (⟨2, 3, 10⟩ : ItemC).count + 1 ∧
          ms = (List.range b).map (fun e => 2 ^ e) ++ (if r > 0 then [r] else []))
      ∧ subSums ms = {s | s ≤ (⟨2, 3, 10⟩ : ItemC).count}
      ∧ ms.sum = (⟨2, 3, 10⟩ : ItemC).count :=
  ⟨by decide, by decide, binarySplit_subSums_int ⟨2, 3, 10⟩ 0 (by decide)⟩

/-- C19 (refuted as stated): capacity 4 and the one item `(1, 1500000000)` with count 7. The
pseudo-items have the `int` values `1500000000`, `-1294967296` (for `3000000000`) and
`1705032704` (for `6000000000`); the program reports `max_value = 1705032704` and the path
has the one entry of multiplier 4, so the repeat count of the item is 4 and
`4 * 1500000000 = 6000000000` is not `max_value`. -/
theorem pathMultiple_int_overflow :
    (∀ it ∈ [(⟨1, 1500000000, 7⟩ : ItemC)], 0 < it.weight)
    ∧ splitAllW [⟨1, 1500000000, 7⟩]
        = [⟨1, 1500000000, 0, 1⟩, ⟨2, -1294967296, 0, 2⟩, ⟨4, 1705032704, 0, 4⟩]
    ∧ maxValueMultipleW [⟨1, 1500000000, 7⟩] 4 = 1705032704
    ∧ pathMultipleW [⟨1, 1500000000, 7⟩] 4 = [⟨3, 4, 0, 4⟩]
    ∧ (4 : Int) * 1500000000 ≠ maxValueMultipleW [⟨1, 1500000000, 7⟩] 4 := by
  refine ⟨by decide, by decide, by decide, by decide, by decide⟩

/-- C19 (amended): for a multiple-knapsack instance with positive weights, values at most `V`,
counts at most `2^31 - 2`, `weight * count` and `value * count` below `2^31`, and a capacity
below `2^31 - 1` with `capacity * V < 2^31`, the path backtracked from the `int` table is a list
of entries of natural numbers that maps every selected pseudo-item back to its original item and
multiplier (the pseudo-item of row `r` is `splitCnt` copies of item `item`, the rows strictly
decreasing), and the repeat counts it reports are true: for every original item `i` the
multipliers of the entries naming `i` sum to some `r i ≤ count i`, with `sum r i * w i ≤ C` and
`sum r i * v i = max_value`, the optimum over the vectors of copy counts. -/
theorem pathMultiple_counts_int (items : List ItemC) (capacity V : Nat)
    (hw : ∀ it ∈ items, 0 < it.weight) (hV : ∀ it ∈ items, it.value ≤ V)
    (hc : ∀ it ∈ items, it.count + 1 < 2147483648 ∧ it.weight * it.count < 2147483648
      ∧ it.value * it.count < 2147483648)
    (hC : capacity < 2147483647) (hb : capacity * V < 2147483648) :
    ∃ path : List PathEntryC, pathMultipleW items capacity = path.map castEntryC ∧
    (∀ e ∈ path, e.item < items.length ∧ 0 < e.splitCnt ∧
      0 < e.r ∧ (splitAllW items).getD (e.r - 1) default
        = castSplit ⟨(items.getD e.item default).weight * e.splitCnt,
            (items.getD e.item default).value * e.splitCnt, e.item, e.splitCnt⟩) ∧
    (path.map (fun e => e.r)).Pairwise (fun a b => a > b) ∧
    (∀ i, i < items.length → repeatCount path i ≤ (items.getD i default).count) ∧
    (∑ i in Finset.range items.length,
      repeatCount path i * (items.getD i default).weight) ≤ capacity ∧
    (((∑ i in Finset.range items.length,
      repeatCount path i * (items.getD i default).value : Nat) : Int)
        = maxValueMultipleW items capacity) ∧
    IsGreatest (feasibleValuesMultiple items capacity)
      (∑ i in Finset.range items.length,
        repeatCount path i * (items.getD i default).value) := by
  obtain ⟨h1, h2, h3, h4, h5⟩ := pathMultiple_spec items capacity hw
  refine ⟨pathMultiple items capacity, pathMultipleW_eq items capacity V hw hV hc (by omega) hb,
    fun e he => ?_, h2, h3, h4, ?_, ?_⟩
  · obtain ⟨a, b, c, d⟩ := h1 e he
    refine ⟨a, b, c, ?_⟩
    rw [splitAllW_eq items hc, getD_map_castSplit, d]
  · rw [maxValueMultipleW_eq items capacity V hw hV hc (by omega) hb, h5]
  · rw [h5]
    exact maxValueMultiple_greatest items capacity

/-- An instance of `pathMultiple_counts_int`: the items (1,1) with count 3 and (2,3) with
count 1, capacity 4, `V = 3`. -/
theorem pathMultiple_counts_int_witness :
    (∀ it ∈ [(⟨1, 1, 3⟩ : ItemC), ⟨2, 3, 1⟩], 0 < it.weight)
    ∧ (∀ it ∈ [(⟨1, 1, 3⟩ : ItemC), ⟨2, 3, 1⟩], it.value ≤ 3)
    ∧ (∀ it ∈ [(⟨1, 1, 3⟩ : ItemC), ⟨2, 3, 1⟩], it.count + 1 < 2147483648
        ∧ it.weight * it.count < 2147483648 ∧ it.value * it.count < 2147483648)
    ∧ 4 < 2147483648 ∧ 4 * 3 < 2147483648
    ∧ pathMultipleW [⟨1, 1, 3⟩, ⟨2, 3, 1⟩] 4 = [⟨3, 4, 1, 1⟩, ⟨2, 2, 0, 2⟩]
    ∧ ∃ path : List PathEntryC,
        pathMultipleW [⟨1, 1, 3⟩, ⟨2, 3, 1⟩] 4 = path.map castEntryC
        ∧ (path.map (fun e => e.r)).Pairwise (fun a b => a > b) :=
  have h := pathMultiple_counts_int [⟨1, 1, 3⟩, ⟨2, 3, 1⟩] 4 3 (by decide) (by decide)
    (by decide) (by decide) (by decide)
  ⟨by decide, by decide, by decide, by decide, by decide, by decide,
    h.choose, h.choose_spec.1, h.choose_spec.2.2.1⟩

/-- Two loops that correspond step by step, on the states that satisfy an invariant that may
depend on the position, correspond at the end. -/
theorem forLt_sim_pos {σ τ : Type} (c : σ → τ) (Inv : Nat → σ → Prop) (f : Nat → σ → σ)
    (g : Nat → τ → τ) (s0 : σ) (h0 : Inv 0 s0) :
    ∀ n, (∀ k, k < n → ∀ s, Inv k s → g k (c s) = c (f k s) ∧ Inv (k + 1) (f k s)) →
      forLt 0 n g (c s0) = c (forLt 0 n f s0) ∧ Inv n (forLt 0 n f s0) := by
  intro n
  induction n with
  | zero => intro _; exact ⟨rfl, h0⟩
  | succ n ih =>
    intro h
    obtain ⟨h1, h2⟩ := ih (fun k hk => h k (by omega))
    rw [forLt_succ, forLt_succ, h1]
    exact h n (by omega) _ h2

/-- The package of a main item and a subset of its `k` attachments, when `(k + 1)` times the
largest weight and `(k + 1)` times the largest value are below `2^31`: the `int` sums are the
exact ones. -/
theorem mkPackageW_cast (items : List ItemD) (i : Nat) (atts : List Nat) (mask Wm Vm : Nat)
    (hW : ∀ t, (items.getD t default).weight ≤ Wm) (hV : ∀ t, (items.getD t default).value ≤ Vm)
    (hbW : (atts.length + 1) * Wm < 2147483648) (hbV : (atts.length + 1) * Vm < 2147483648) :
    mkPackageW items i atts mask = castPackage (mkPackage items i atts mask) := by
  unfold mkPackageW mkPackage
  have h := forLt_sim_pos castPackage
    (fun j (pkg : Package) => pkg.weight ≤ (j + 1) * Wm ∧ pkg.value ≤ (j + 1) * Vm)
    (fun j pkg =>
      if mask &&& (1 <<< j) ≠ 0 then
        { weight := pkg.weight + (items.getD (atts.getD j 0) default).weight
          value := pkg.value + (items.getD (atts.getD j 0) default).value
          items := pkg.items ++ [atts.getD j 0] }
      else pkg)
    (fun j pkg =>
      if mask &&& (1 <<< j) ≠ 0 then
        { weight := wrap32 (pkg.weight + ((items.getD (atts.getD j 0) default).weight : Int))
          value := wrap32 (pkg.value + ((items.getD (atts.getD j 0) default).value : Int))
          items := pkg.items ++ [atts.getD j 0] }
      else pkg)
    ⟨(items.getD i default).weight, (items.getD i default).value, [i]⟩
    ⟨by simpa using hW i, by simpa using hV i⟩ atts.length
    (fun j hj pkg hpkg => by
      have a := hW (atts.getD j 0)
      have b := hV (atts.getD j 0)
      have cW : (j + 1 + 1) * Wm ≤ (atts.length + 1) * Wm := Nat.mul_le_mul_right _ (by omega)
      have cV : (j + 1 + 1) * Vm ≤ (atts.length + 1) * Vm := Nat.mul_le_mul_right _ (by omega)
      have dW : (j + 1 + 1) * Wm = (j + 1) * Wm + Wm := by ring
      have dV : (j + 1 + 1) * Vm = (j + 1) * Vm + Vm := by ring
      by_cases hm : mask &&& (1 <<< j) ≠ 0
      · simp only [if_pos hm]
        refine ⟨?_, by show _ + _ ≤ _; omega, by show _ + _ ≤ _; omega⟩
        unfold castPackage
        simp only []
        rw [wrap32_add_cast _ _ (by omega), wrap32_add_cast _ _ (by omega)]
      · simp only [if_neg hm]
        exact ⟨trivial, by omega, by omega⟩)
  exact h.1

theorem getD_le_of_forall {α : Type} [Inhabited α] (l : List α) (f : α → Nat) (B : Nat)
    (h0 : f default = 0) (h : ∀ x ∈ l, f x ≤ B) : ∀ t, f (l.getD t default) ≤ B := by
  intro t
  by_cases ht : t < l.length
  · exact h _ (getD_mem_of_lt l t ht)
  · rw [List.getD_eq_default _ _ (by omega), h0]
    exact Nat.zero_le _

/-- The package list when every main item has fewer than 31 attachments and, with `k`
attachments, `(k + 1)` times the largest weight and value are below `2^31`: the list of the
program is the exact list. -/
theorem buildPackagesW_eq (items : List ItemD) (Wm Vm : Nat)
    (hW : ∀ it ∈ items, it.weight ≤ Wm) (hV : ∀ it ∈ items, it.value ≤ Vm)
    (hk : ∀ i, (attsOf items i).length < 31)
    (hbW : ∀ i, ((attsOf items i).length + 1) * Wm < 2147483648)
    (hbV : ∀ i, ((attsOf items i).length + 1) * Vm < 2147483648) :
    buildPackagesW items = (buildPackages items).map castPackage := by
  unfold buildPackagesW buildPackages
  simp only []
  exact (forLt_sim (List.map castPackage) (fun _ => True) 0 items.length _ _
    (fun i _ _ acc _ => by
      refine ⟨?_, trivial⟩
      by_cases hp : (items.getD i default).parent = 0
      · simp only [if_pos hp]
        rw [groupsFind_buildAttachments]
        have hlt : 2 ^ (attsOf items i).length < 2147483648 := by
          calc 2 ^ (attsOf items i).length ≤ 2 ^ 30 :=
                Nat.pow_le_pow_right (by omega) (by have := hk i; omega)
            _ < 2147483648 := by norm_num
        have hsh : (wrap32 ((1 <<< (attsOf items i).length : Nat) : Int)).toNat
            = 1 <<< (attsOf items i).length := by
          rw [Nat.shiftLeft_eq, Nat.one_mul,
            wrap32_eq _ (by have := Nat.zero_le (2 ^ (attsOf items i).length); omega)
              (by exact_mod_cast hlt)]
          exact Int.toNat_ofNat _
        rw [hsh]
        exact (forLt_sim (List.map castPackage) (fun _ => True) 0 _ _ _
          (fun mask _ _ acc' _ => by
            refine ⟨?_, trivial⟩
            rw [List.map_append, List.map_singleton,
              mkPackageW_cast items i (attsOf items i) mask Wm Vm
                (getD_le_of_forall items (fun it => it.weight) Wm rfl hW)
                (getD_le_of_forall items (fun it => it.value) Vm rfl hV) (hbW i) (hbV i)])
          acc trivial).1
      · simp only [if_neg hp]) [] trivial).1

/-- C13 (refuted as stated): the main item `(2000000000, 1)` with the one attachment
`(2000000000, 1)`. The package of the main item with its attachment has the `int` weight
`-294967296`: the sum `4000000000` of the two weights wraps. -/
theorem dependPackages_int_overflow :
    (attsOf [⟨2000000000, 1, 0⟩, ⟨2000000000, 1, 1⟩] 0).length = 1
    ∧ buildPackagesW [⟨2000000000, 1, 0⟩, ⟨2000000000, 1, 1⟩]
        = [⟨2000000000, 1, [0]⟩, ⟨-294967296, 2, [0, 1]⟩]
    ∧ (packageOf [⟨2000000000, 1, 0⟩, ⟨2000000000, 1, 1⟩] 0 [1]).weight = 4000000000 := by
  refine ⟨by decide, by decide, by decide⟩

/-- C13 (amended): when every main item has `k < 31` attachments and `(k + 1)` times the
largest weight and `(k + 1)` times the largest value are below `2^31` (then no sum of the
program leaves the range of `int`), the package list of the program is, for every main item
in ascending input order, one contiguous block of `2 ^ k` packages: the packages of the
sub-lists (subsets) of its attachments, each exactly once, in the order of the masks; a
package is the main item followed by its subset, with the main's weight and value plus the
sums over the subset; the first package of a block is the main item alone; no package outside
the block starts with that main item; the whole list has sum over mains of `2 ^ k`
entries. -/
theorem dependPackages_structure_int (items : List ItemD) (Wm Vm : Nat)
    (hW : ∀ it ∈ items, it.weight ≤ Wm) (hV : ∀ it ∈ items, it.value ≤ Vm)
    (hk : ∀ i, (attsOf items i).length < 31)
    (hbW : ∀ i, ((attsOf items i).length + 1) * Wm < 2147483648)
    (hbV : ∀ i, ((attsOf items i).length + 1) * Vm < 2147483648) :
    buildPackagesW items
      = (mainsOf items).flatMap (fun i =>
          (attsOf items i).sublists.map (fun l => castPackage (packageOf items i l))) ∧
    (buildPackagesW items).length
      = ((mainsOf items).map (fun i => 2 ^ (attsOf items i).length)).sum ∧
    ∀ i ∈ mainsOf items,
      (attsOf items i).Nodup ∧
      (List.range (2 ^ (attsOf items i).length)).map
          (mkPackageW items i (groupsFind (buildAttachments items) (i : Int)))
        = (attsOf items i).sublists.map (fun l => castPackage (packageOf items i l)) ∧
      ((attsOf items i).sublists.map (fun l => castPackage (packageOf items i l))).length
        = 2 ^ (attsOf items i).length ∧
      ((attsOf items i).sublists.map (packageOf items i)).Nodup ∧
      ((attsOf items i).sublists.map (fun l => castPackage (packageOf items i l))).head?
        = some ⟨((items.getD i default).weight : Int), ((items.getD i default).value : Int),
            [i]⟩ ∧
      ∃ pre post, buildPackagesW items
          = pre ++ (attsOf items i).sublists.map (fun l => castPackage (packageOf items i l))
            ++ post
        ∧ ∀ p ∈ pre ++ post, p.items.head? ≠ some i := by
  obtain ⟨e1, e2, e3⟩ := dependPackages_structure items
  have hW' := getD_le_of_forall items (fun it => it.weight) Wm rfl hW
  have hV' := getD_le_of_forall items (fun it => it.value) Vm rfl hV
  have hE := buildPackagesW_eq items Wm Vm hW hV hk hbW hbV
  have hmapmap : ∀ i, (attsOf items i).sublists.map (fun l => castPackage (packageOf items i l))
      = ((attsOf items i).sublists.map (packageOf items i)).map castPackage := by
    intro i
    rw [List.map_map]
    rfl
  refine ⟨?_, ?_, fun i hi => ?_⟩
  · rw [hE, e1, List.map_flatMap]
    congr 1
    funext i
    exact (hmapmap i).symm
  · rw [hE, List.length_map, e2]
  · obtain ⟨a, b, c, d, e, pre, post, f1, f2⟩ := e3 i hi
    refine ⟨a, ?_, ?_, d, ?_, pre.map castPackage, post.map castPackage, ?_, ?_⟩
    · rw [hmapmap, ← b, List.map_map]
      apply List.map_congr_left
      intro mask _
      rw [groupsFind_buildAttachments]
      exact mkPackageW_cast items i (attsOf items i) mask Wm Vm hW' hV' (hbW i) (hbV i)
    · rw [List.length_map, List.length_sublists]
    · rw [hmapmap, List.head?_map, e]
      rfl
    · rw [hE, f1, List.map_append, List.map_append, hmapmap]
    · intro p hp
      rw [← List.map_append] at hp
      obtain ⟨q, hq, rfl⟩ := List.mem_map.1 hp
      exact f2 q hq

/-- An instance of `dependPackages_structure_int`: a main item with two attachments and a
second main item alone; the largest weight is 3 and the largest value 5. -/
theorem dependPackages_structure_int_witness :
    (∀ it ∈ [(⟨2, 5, 0⟩ : ItemD), ⟨1, 2, 1⟩, ⟨3, 4, 0⟩, ⟨1, 1, 1⟩], it.weight ≤ 3)
    ∧ (∀ it ∈ [(⟨2, 5, 0⟩ : ItemD), ⟨1, 2, 1⟩, ⟨3, 4, 0⟩, ⟨1, 1, 1⟩], it.value ≤ 5)
    ∧ buildPackagesW [⟨2, 5, 0⟩, ⟨1, 2, 1⟩, ⟨3, 4, 0⟩, ⟨1, 1, 1⟩]
        = [⟨2, 5, [0]⟩, ⟨3, 7, [0, 1]⟩, ⟨3, 6, [0, 3]⟩, ⟨4, 8, [0, 1, 3]⟩, ⟨3, 4, [2]⟩]
    ∧ (buildPackagesW [⟨2, 5, 0⟩, ⟨1, 2, 1⟩, ⟨3, 4, 0⟩, ⟨1, 1, 1⟩]).length
        = ((mainsOf [⟨2, 5, 0⟩, ⟨1, 2, 1⟩, ⟨3, 4, 0⟩, ⟨1, 1, 1⟩]).map
            (fun i => 2 ^ (attsOf [⟨2, 5, 0⟩, ⟨1, 2, 1⟩, ⟨3, 4, 0⟩, ⟨1, 1, 1⟩] i).length)).sum :=
  have hlen : ∀ i, (attsOf [⟨2, 5, 0⟩, ⟨1, 2, 1⟩, ⟨3, 4, 0⟩, ⟨1, 1, 1⟩] i).length ≤ 4 := by
    intro i
    unfold attsOf
    exact le_trans (List.length_filter_le _ _) (by simp)
  ⟨by decide, by decide, by decide,
    (dependPackages_structure_int [⟨2, 5, 0⟩, ⟨1, 2, 1⟩, ⟨3, 4, 0⟩, ⟨1, 1, 1⟩] 3 5
      (by decide) (by decide) (fun i => by have := hlen i; omega)
      (fun i => by have := hlen i; omega) (fun i => by have := hlen i; omega)).2.1⟩

/-! ## K-th best in `int` arithmetic -/

theorem mem_mergeTopK (a b : List Int) (k : Nat) (x : Int) (h : x ∈ mergeTopK a b k) :
    x ∈ a ∨ x ∈ b := by
  rw [mergeTopK_eq_take_merge] at h
  exact List.mem_merge.1 (List.mem_of_mem_take h)

theorem boundR_mk (V a b : Nat) : BoundR V (Table.mk a b [0]) := by
  intro r j x hx
  have h : (Table.mk a b ([0] : List Int)).get r j = [0] ∨
      (Table.mk a b ([0] : List Int)).get r j = [] := by
    unfold Table.mk Table.get
    by_cases hr : r < a
    · by_cases hj : j < b
      · left
        simp [List.getD_eq_getElem?_getD, hr, hj]
      · right
        simp [List.getD_eq_getElem?_getD, List.getElem?_replicate, hr, hj]
        rfl
    · right
      simp [List.getD_eq_getElem?_getD, List.getElem?_replicate, hr]
      rfl
  rcases h with h | h
  · rw [h] at hx
    rw [List.mem_singleton.1 hx]
    constructor <;> omega
  · rw [h] at hx
    exact absurd hx (List.not_mem_nil _)

/-- One cell of the k-th-best table, when the previous row is within `(i - 1) * V`, the value
of the item within `V` and `i * V < 2^31`: the `int` sums are the exact ones, and the new
table is within the bounds. -/
theorem cellKthW_eq (w : Nat) (v : Int) (K i j V : Nat) (T : Table (List Int))
    (hT : BoundR V T) (hi : 1 ≤ i) (hv : -(V : Int) ≤ v ∧ v ≤ (V : Int))
    (hb : i * V < 2147483648) :
    cellKthW w v K i j T = cellKth w v K i j T ∧ BoundR V (cellKth w v K i j T) := by
  obtain ⟨i, rfl⟩ : ∃ i', i = i' + 1 := ⟨i - 1, by omega⟩
  have hs : (i + 1) * V = i * V + V := by ring
  have hmap : (T.get i (j - w)).map (fun val => wrap32 (val + v))
      = (T.get i (j - w)).map (fun val => val + v) := by
    apply List.map_congr_left
    intro x hx
    have := hT i (j - w) x hx
    exact wrap32_eq _ (by push_cast at this ⊢; omega) (by push_cast at this ⊢; omega)
  constructor
  · unfold cellKthW cellKth
    simp only [Nat.add_sub_cancel]
    rw [hmap]
  · intro a b x hx
    unfold cellKth at hx
    simp only [Nat.add_sub_cancel] at hx
    rcases Table.get_set_cases T (i + 1) j _ a b with h1 | ⟨h1, h2⟩
    · rw [h1] at hx
      exact hT a b x hx
    · obtain ⟨rfl, rfl⟩ := Prod.mk.inj h1
      rw [h2] at hx
      rcases mem_mergeTopK _ _ _ _ hx with h | h
      · have := hT i b x h
        push_cast at this ⊢
        constructor <;> nlinarith [this.1, this.2, hv.1, hv.2]
      · by_cases hjw : b ≥ w
        · rw [if_pos hjw] at h
          obtain ⟨y, hy, rfl⟩ := List.mem_map.1 h
          have := hT i (b - w) y hy
          push_cast at this ⊢
          constructor <;> nlinarith [this.1, this.2, hv.1, hv.2]
        · rw [if_neg hjw] at h
          exact absurd h (List.not_mem_nil _)

/-- The k-th-best table when every value is within `V` in absolute value and `n * V < 2^31`:
the `int` table is the exact table. -/
theorem fillKthW_eq (items : List ItemK) (C K V : Nat)
    (hV : ∀ it ∈ items, -(V : Int) ≤ it.value ∧ it.value ≤ (V : Int))
    (hb : items.length * V < 2147483648) :
    fillKthW items C K = fillKth items C K := by
  unfold fillKthW fillKth
  exact (forUp_sim id (BoundR V) 1 items.length _ _ (fun i hi1 hi2 T hT =>
    forUp_sim id (BoundR V) 0 C _ _ (fun j _ _ T' hT' =>
      cellKthW_eq _ _ K i j V T' hT' hi1 (hV _ (getD_mem_of_lt items (i - 1) (by omega)))
        (lt_of_le_of_lt (Nat.mul_le_mul_right V hi2) hb))
      T hT) _ (boundR_mk V _ _)).1

/-- C6 (refuted as stated): capacity 2, `K = 4` and the two items `(1, 2000000000)`. The
program reports the list `[2000000000, 0, -294967296, 2000000000]`: the `int` sum
`2000000000 + 2000000000` wraps. The four sub-selections have the values `4000000000`,
`2000000000`, `2000000000` and `0`. -/
theorem knapsackKth_int_overflow :
    (∀ it ∈ [(⟨1, 2000000000⟩ : ItemK), ⟨1, 2000000000⟩], 0 < it.weight)
    ∧ topKW [⟨1, 2000000000⟩, ⟨1, 2000000000⟩] 2 4 = [2000000000, 0, -294967296, 2000000000]
    ∧ (sortedSubsetValues [⟨1, 2000000000⟩, ⟨1, 2000000000⟩] 2).take
        (min 4 (subsetValuesWithin [⟨1, 2000000000⟩, ⟨1, 2000000000⟩] 2).length)
      = [4000000000, 2000000000, 2000000000, 0] := by
  refine ⟨by decide, by decide, by decide⟩

/-- C6 (amended): when every value is within `V` in absolute value and `n * V < 2^31` (then no sum
of the program leaves the range of `int`), for `K ≥ 1` the list `topK` that the program reports
(the final cell `dp[n][capacity]`) is the first `min(K, N)` elements of the non-increasingly
sorted list of the total values of all `N` sub-selections of the items whose total weight is at
most `capacity`, one entry per sub-selection (equal values stay as duplicates). The capacity is
an `int` below `2^31 - 1`, so that `capacity + 1`, the length of a row, is an `int` too. -/
theorem knapsackKth_topK_int (items : List ItemK) (capacity K V : Nat) (hK : 1 ≤ K)
    (hV : ∀ it ∈ items, -(V : Int) ≤ it.value ∧ it.value ≤ (V : Int))
    (hb : items.length * V < 2147483648)
    (hcap : capacity < 2147483647) :
    topKW items capacity K = (sortedSubsetValues items capacity).take
      (min K (subsetValuesWithin items capacity).length) := by
  have h := fillKth_correct items capacity K hK items.length capacity (le_refl _) (le_refl _)
  rw [List.take_length] at h
  have hl : (subsetValuesWithin items capacity).length
      = (sortedSubsetValues items capacity).length := by
    rw [sortedSubsetValues, List.length_insertionSort]
  unfold topKW
  rw [fillKthW_eq items capacity K V hV hb, hl, take_min_length]
  exact h

/-- An instance of `knapsackKth_topK_int`: three items of weight 1, capacity 3, `K = 2`. -/
theorem knapsackKth_topK_int_witness :
    1 ≤ 2
    ∧ (∀ it ∈ [(⟨1, 1⟩ : ItemK), ⟨1, 1⟩, ⟨1, 2⟩], -((2 : Nat) : Int) ≤ it.value
        ∧ it.value ≤ ((2 : Nat) : Int))
    ∧ topKW [⟨1, 1⟩, ⟨1, 1⟩, ⟨1, 2⟩] 3 2 = [4, 3]
    ∧ topKW [⟨1, 1⟩, ⟨1, 1⟩, ⟨1, 2⟩] 3 2 = (sortedSubsetValues [⟨1, 1⟩, ⟨1, 1⟩, ⟨1, 2⟩] 3).take
        (min 2 (subsetValuesWithin [⟨1, 1⟩, ⟨1, 1⟩, ⟨1, 2⟩] 3).length) :=
  ⟨by decide, by decide, by decide,
    knapsackKth_topK_int [⟨1, 1⟩, ⟨1, 1⟩, ⟨1, 2⟩] 3 2 2 (by decide) (by decide) (by decide)
      (by decide)⟩

/-- C24 (refuted as stated): capacity 2, `K = 4` and the two items `(1, 2000000000)`. The
cell `dp[2][2]` of the program is `[2000000000, 0, -294967296, 2000000000]`, which is not
non-increasing: the `int` sum `2000000000 + 2000000000` wraps to `-294967296`. -/
theorem kth_cell_int_overflow_unsorted :
    (fillKthW [⟨1, 2000000000⟩, ⟨1, 2000000000⟩] 2 4).get 2 2
      = [2000000000, 0, -294967296, 2000000000]
    ∧ ¬ ((fillKthW [⟨1, 2000000000⟩, ⟨1, 2000000000⟩] 2 4).get 2 2).Sorted (fun a b => a ≥ b) := by
  refine ⟨by decide, by decide⟩

/-- C24 (amended): when every value is within `V` in absolute value and `n * V < 2^31` (then no sum
of the program leaves the range of `int`), for `K ≥ 1` and weights `≥ 0` every cell `dp[i][j]`
of the table of the program with `0 ≤ i ≤ n` and `0 ≤ j ≤ C`, row 0 included, holds a sequence
that is non-increasing and has at most `K` elements. The capacity is an `int` below `2^31 - 1`,
so that `capacity + 1`, the length of a row, is an `int` too. -/
theorem kth_cells_shape_int (items : List ItemK) (capacity K V : Nat) (hK : 1 ≤ K)
    (hV : ∀ it ∈ items, -(V : Int) ≤ it.value ∧ it.value ≤ (V : Int))
    (hb : items.length * V < 2147483648)
    (hcap : capacity < 2147483647) :
    ∀ i j, i ≤ items.length → j ≤ capacity →
      ((fillKthW items capacity K).get i j).Sorted (fun a b => a ≥ b) ∧
      ((fillKthW items capacity K).get i j).length ≤ K := by
  intro i j hi hj
  rw [fillKthW_eq items capacity K V hV hb]
  exact fillKth_sorted items capacity K hK i j hi hj

/-- An instance of `kth_cells_shape_int`: an item of weight 0 and one of negative value. -/
theorem kth_cells_shape_int_witness :
    1 ≤ 2
    ∧ (fillKthW [⟨0, 5⟩, ⟨1, -3⟩, ⟨1, 2⟩] 3 2).get 3 3 = [7, 5]
    ∧ (fillKthW [⟨0, 5⟩, ⟨1, -3⟩, ⟨1, 2⟩] 3 2).get 0 3 = [0]
    ∧ ((fillKthW [⟨0, 5⟩, ⟨1, -3⟩, ⟨1, 2⟩] 3 2).get 3 3).Sorted (fun a b => a ≥ b)
    ∧ ((fillKthW [⟨0, 5⟩, ⟨1, -3⟩, ⟨1, 2⟩] 3 2).get 3 3).length ≤ 2 :=
  ⟨by decide, by decide, by decide,
    kth_cells_shape_int [⟨0, 5⟩, ⟨1, -3⟩, ⟨1, 2⟩] 3 2 5 (by decide) (by decide) (by decide)
      (by decide) 3 3 (by decide) (by decide)⟩

/-! ## Group knapsack in `int` arithmetic -/

theorem value_le_weight_mulG (items : List ItemG) (V : Nat)
    (hw : ∀ it ∈ items, 0 < it.weight) (hV : ∀ it ∈ items, it.value ≤ V) (idx : Nat) :
    (items.getD idx default).value ≤ (items.getD idx default).weight * V := by
  by_cases h : idx < items.length
  · exact le_weight_mul _ _ V (hV _ (getD_mem_of_lt items idx h))
      (hw _ (getD_mem_of_lt items idx h))
  · rw [List.getD_eq_default _ _ (by omega)]
    exact Nat.zero_le _

/-- One column of the group fill on a table whose cells are within `j * V`, when `C * V <
2^31`: the `int` computation is the exact one, `bestChoice` included. -/
theorem cellGroupW_cast (items : List ItemG) (groupItems : List Nat) (g j V C : Nat)
    (T : Table Nat) (hT : BoundJ V T)
    (hvw : ∀ idx, (items.getD idx default).value ≤ (items.getD idx default).weight * V)
    (hj : j ≤ C) (hb : C * V < 2147483648) :
    cellGroupW items groupItems g j (castT T)
        = (castT (cellGroup items groupItems g j T).1, (cellGroup items groupItems g j T).2)
      ∧ BoundJ V (cellGroup items groupItems g j T).1 := by
  have hc := bound_cap j C V hj
  have h := foldl_sim (fun st : Table Nat × Int => ((castT st.1, st.2) : Table Int × Int))
    (fun st => BoundJ V st.1)
    (fun idx (st : Table Nat × Int) =>
      if j ≥ (items.getD idx default).weight ∧
          st.1.get g (j - (items.getD idx default).weight) + (items.getD idx default).value
            > st.1.get (g + 1) j then
        (st.1.set (g + 1) j (st.1.get g (j - (items.getD idx default).weight)
          + (items.getD idx default).value), (idx : Int))
      else st)
    (fun idx (st : Table Int × Int) =>
      if j ≥ (items.getD idx default).weight ∧
          wrap32 (st.1.get g (j - (items.getD idx default).weight)
            + ((items.getD idx default).value : Int)) > st.1.get (g + 1) j then
        (st.1.set (g + 1) j (wrap32 (st.1.get g (j - (items.getD idx default).weight)
          + ((items.getD idx default).value : Int))), (idx : Int))
      else st)
    groupItems
    (fun idx _ st hst => by
      simp only [castT_get]
      by_cases hjw : j ≥ (items.getD idx default).weight
      · have hs := bound_step_mul _ _ j _ V (hst g (j - (items.getD idx default).weight))
          (hvw idx) hjw
        rw [wrap32_add_cast _ _ (by omega)]
        by_cases hgt : st.1.get g (j - (items.getD idx default).weight)
            + (items.getD idx default).value > st.1.get (g + 1) j
        · rw [if_pos ⟨hjw, by exact_mod_cast hgt⟩, if_pos ⟨hjw, hgt⟩, castT_set]
          exact ⟨rfl, boundJ_set V _ hst _ _ _ hs⟩
        · rw [if_neg (fun hh => hgt (by exact_mod_cast hh.2)), if_neg (fun hh => hgt hh.2)]
          exact ⟨rfl, hst⟩
      · rw [if_neg (fun hh => hjw hh.1), if_neg (fun hh => hjw hh.1)]
        exact ⟨rfl, hst⟩)
    (T.set (g + 1) j (T.get g j), -1) (boundJ_set V T hT _ _ _ (hT g j))
  unfold cellGroupW cellGroup
  simp only [castT_get]
  rw [← castT_set]
  exact h

/-- The group table when all weights are positive, all values at most `V` and `C * V < 2^31`:
the `int` table is the exact table, and so are the steps. -/
theorem fillGroupStepsW_eq (items : List ItemG) (C V : Nat)
    (hw : ∀ it ∈ items, 0 < it.weight) (hV : ∀ it ∈ items, it.value ≤ V)
    (hb : C * V < 2147483648) :
    fillGroupStepsW items C
      = (castT (fillGroupSteps items C).1, (fillGroupSteps items C).2.map castStepG) := by
  unfold fillGroupStepsW fillGroupSteps
  simp only []
  have h0 : ((Table.mk ((buildGroups items).length + 1) (C + 1) 0, []) : Table Int × List StepGW)
      = (fun st : Table Nat × List StepG => (castT st.1, st.2.map castStepG))
          (Table.mk ((buildGroups items).length + 1) (C + 1) 0, []) := by
    simp only [castT_mk, List.map_nil]
  rw [h0]
  exact (forLt_sim (fun st : Table Nat × List StepG => (castT st.1, st.2.map castStepG))
    (fun st => BoundJ V st.1) 0 _ _ _ (fun g _ _ st hst =>
      forUp_sim (fun st : Table Nat × List StepG => (castT st.1, st.2.map castStepG))
        (fun st => BoundJ V st.1) 0 C _ _ (fun j _ hj st' hst' => by
          obtain ⟨e1, e2⟩ := cellGroupW_cast items
            (groupsFind (buildGroups items) ((groupIdsOf (buildGroups items)).getD g 0))
            g j V C st'.1 hst' (value_le_weight_mulG items V hw hV) hj hb
          simp only [e1, castT_get, List.map_append, List.map_singleton]
          exact ⟨rfl, e2⟩) st hst) _ (boundJ_mk V _ _)).1

theorem fillGroupW_eq (items : List ItemG) (C V : Nat)
    (hw : ∀ it ∈ items, 0 < it.weight) (hV : ∀ it ∈ items, it.value ≤ V)
    (hb : C * V < 2147483648) :
    fillGroupW items C = castT (fillGroup items C) := by
  unfold fillGroupW fillGroup
  simp only []
  rw [← castT_mk]
  exact (forLt_sim castT (BoundJ V) 0 _ _ _ (fun g _ _ T hT =>
      forUp_sim castT (BoundJ V) 0 C _ _ (fun j _ hj T' hT' => by
          obtain ⟨e1, e2⟩ := cellGroupW_cast items
            (groupsFind (buildGroups items) ((groupIdsOf (buildGroups items)).getD g 0))
            g j V C T' hT' (value_le_weight_mulG items V hw hV) hj hb
          rw [e1]
          exact ⟨rfl, e2⟩) T hT) _ (boundJ_mk V _ _)).1

theorem stepsGroupW_eq (items : List ItemG) (C V : Nat)
    (hw : ∀ it ∈ items, 0 < it.weight) (hV : ∀ it ∈ items, it.value ≤ V)
    (hb : C * V < 2147483648) :
    stepsGroupW items C = (stepsGroup items C).map castStepG := by
  unfold stepsGroupW stepsGroup
  rw [fillGroupStepsW_eq items C V hw hV hb]

theorem recordedChoiceW_map (steps : List StepG) (row col : Nat) :
    recordedChoiceW (steps.map castStepG) row col = recordedChoice steps row col := by
  unfold recordedChoiceW recordedChoice
  rw [List.find?_map, Option.map_map]
  rfl

theorem numGroupsOf_pos (items : List ItemG) (hne : items ≠ []) : 0 < numGroupsOf items := by
  rw [numGroupsOf_eq]
  unfold distinctGroupIds
  rw [Finset.length_sort, Finset.card_pos]
  obtain ⟨x, hx⟩ := List.exists_mem_of_ne_nil items hne
  exact ⟨x.group, List.mem_toFinset.2 (List.mem_map.2 ⟨x, hx, rfl⟩)⟩

/-- C8 (refuted as stated): capacity 2 and the items `(1, 2000000000)` of group 1 and
`(1, 2000000000)` of group 2. The program has `dp[2][2] = 2000000000` (the `int` sum
`2000000000 + 2000000000` wraps to `-294967296`), while one item of each group fits and the
optimum is `4000000000`. With no item at all there is no group, and the run ends in the
division `n / numGroups` before anything is printed: no `max_value` is reported. -/
theorem knapsackGroup_int_overflow :
    (∀ it ∈ [(⟨1, 2000000000, 1⟩ : ItemG), ⟨1, 2000000000, 2⟩], 0 < it.weight)
    ∧ fillGroupW [⟨1, 2000000000, 1⟩, ⟨1, 2000000000, 2⟩] 2
        = [[0, 0, 0], [0, 2000000000, 2000000000], [0, 2000000000, 2000000000]]
    ∧ reportedMaxGroupW [⟨1, 2000000000, 1⟩, ⟨1, 2000000000, 2⟩] 2 = some 2000000000
    ∧ IsGreatest (feasibleValuesGroup [⟨1, 2000000000, 1⟩, ⟨1, 2000000000, 2⟩] 2 2) 4000000000
    ∧ ∀ capacity, reportedMaxGroupW [] capacity = none := by
  refine ⟨by decide, by decide, by decide, ?_, fun capacity => rfl⟩
  have h := fillGroup_greatest [⟨1, 2000000000, 1⟩, ⟨1, 2000000000, 2⟩] 2 2 2 (by decide)
    (by decide)
  have e : (fillGroup [⟨1, 2000000000, 1⟩, ⟨1, 2000000000, 2⟩] 2).get 2 2 = 4000000000 := by
    decide
  rw [e] at h
  exact h

/-- C8 (amended): for items with positive weights and values at most `V`, when `capacity * V < 2^31`
(then no sum of the program leaves the range of `int`), with `G` the number of distinct group
ids (the solver's `numGroups`), every cell `dp[g][j]` of the table of the program (`g ≤ G`, `j ≤
capacity`) is the greatest total value of a selection that takes at most one item from each of
the first `g` groups, in ascending group-id order, and has total weight at most `j`; and when
there is at least one item, the run prints a `max_value`, which is `dp[G][capacity]`, the
optimum of the instance. The capacity is an `int` below `2^31 - 1`, so that `capacity + 1`, the
length of a row, is an `int` too. -/
theorem knapsackGroup_optimal_int (items : List ItemG) (capacity V : Nat)
    (hw : ∀ it ∈ items, 0 < it.weight) (hV : ∀ it ∈ items, it.value ≤ V)
    (hb : capacity * V < 2147483648)
    (hcap : capacity < 2147483647) :
    numGroupsOf items = (distinctGroupIds items).length
    ∧ (∀ g j, g ≤ (distinctGroupIds items).length → j ≤ capacity →
      ∃ m : Nat, (fillGroupW items capacity).get g j = (m : Int)
        ∧ IsGreatest (feasibleValuesGroup items g j) m)
    ∧ (items ≠ [] →
      reportedMaxGroupW items capacity
          = some ((fillGroupW items capacity).get (distinctGroupIds items).length capacity)
      ∧ ∃ m : Nat, reportedMaxGroupW items capacity = some (m : Int)
        ∧ IsGreatest (feasibleValuesGroup items (distinctGroupIds items).length capacity) m) := by
  have hE := fillGroupW_eq items capacity V hw hV hb
  refine ⟨numGroupsOf_eq items, fun g j hg hj => ⟨(fillGroup items capacity).get g j, ?_,
    fillGroup_greatest items capacity g j (by rw [numGroupsOf_eq]; exact hg) hj⟩, fun hne => ?_⟩
  · rw [hE, castT_get]
  · have hpos := numGroupsOf_pos items hne
    have hr : reportedMaxGroupW items capacity
        = some ((fillGroupW items capacity).get (distinctGroupIds items).length capacity) := by
      unfold reportedMaxGroupW maxValueGroupW
      rw [if_neg (by omega), numGroupsOf_eq]
    refine ⟨hr, (fillGroup items capacity).get (distinctGroupIds items).length capacity, ?_, ?_⟩
    · rw [hr, hE, castT_get]
    · exact fillGroup_greatest items capacity _ _ (by rw [numGroupsOf_eq]) (le_refl _)

/-- An instance of `knapsackGroup_optimal_int`: three items in two groups, capacity 4. -/
theorem knapsackGroup_optimal_int_witness :
    (∀ it ∈ [(⟨2, 3, 5⟩ : ItemG), ⟨3, 4, 1⟩, ⟨4, 5, 5⟩], 0 < it.weight)
    ∧ (∀ it ∈ [(⟨2, 3, 5⟩ : ItemG), ⟨3, 4, 1⟩, ⟨4, 5, 5⟩], it.value ≤ 5)
    ∧ 4 * 5 < 2147483648
    ∧ reportedMaxGroupW [⟨2, 3, 5⟩, ⟨3, 4, 1⟩, ⟨4, 5, 5⟩] 4 = some 5
    ∧ ∃ m : Nat, reportedMaxGroupW [⟨2, 3, 5⟩, ⟨3, 4, 1⟩, ⟨4, 5, 5⟩] 4 = some (m : Int)
        ∧ IsGreatest (feasibleValuesGroup [⟨2, 3, 5⟩, ⟨3, 4, 1⟩, ⟨4, 5, 5⟩]
            (distinctGroupIds [⟨2, 3, 5⟩, ⟨3, 4, 1⟩, ⟨4, 5, 5⟩]).length 4) m :=
  ⟨by decide, by decide, by decide, by decide,
    ((knapsackGroup_optimal_int [⟨2, 3, 5⟩, ⟨3, 4, 1⟩, ⟨4, 5, 5⟩] 4 5 (by decide) (by decide)
      (by decide) (by decide)).2.2 (by decide)).2⟩

/-- C34 (refuted as stated): capacity 2 and the items `(1, 2000000000)` of group 1 and
`(1, 2000000000)` of group 2. In the cell `(2, 2)` item 1 has weight `1 ≤ 2` and
`dp[1][1] + v = 4000000000` is strictly greater than `dp[1][2] = 2000000000`, but the
program compares the wrapped `int` sum `-294967296` and records `bestChoice = -1`. -/
theorem bestChoice_int_overflow :
    recordedChoiceW (stepsGroupW [⟨1, 2000000000, 1⟩, ⟨1, 2000000000, 2⟩] 2) 2 2 = some (-1)
    ∧ groupsFind (buildGroups [⟨1, 2000000000, 1⟩, ⟨1, 2000000000, 2⟩])
        ((groupIdsOf (buildGroups [⟨1, 2000000000, 1⟩, ⟨1, 2000000000, 2⟩])).getD 1 0) = [1]
    ∧ (([⟨1, 2000000000, 1⟩, ⟨1, 2000000000, 2⟩] : List ItemG).getD 1 default).weight ≤ 2
    ∧ (fillGroupW [⟨1, 2000000000, 1⟩, ⟨1, 2000000000, 2⟩] 2).get 1 2
        < (fillGroupW [⟨1, 2000000000, 1⟩, ⟨1, 2000000000, 2⟩] 2).get 1 (2 - 1) + 2000000000 := by
  refine ⟨by decide, by decide, by decide, by decide⟩

/-- C34 (amended): for items with positive weights and values at most `V`, when `capacity * V <
2^31` (then no sum of the program leaves the range of `int`), for group index `g < numGroups`
and column `j ≤ capacity` the step of cell `(g + 1, j)` records a `bestChoice` `b`; `b = -1`
exactly when no member of the group with weight at most `j` gives `dp[g][j - w] + v` strictly
greater than `dp[g][j]`; otherwise `b` is the first member, in the order of the group's list,
with weight at most `j` and `dp[g][j - w] + v = dp[g + 1][j]`. The capacity is an `int` below
`2^31 - 1`, so that `capacity + 1`, the length of a row, is an `int` too. -/
theorem bestChoice_first_maximiser_int (items : List ItemG) (capacity V g j : Nat)
    (hw : ∀ it ∈ items, 0 < it.weight) (hV : ∀ it ∈ items, it.value ≤ V)
    (hb : capacity * V < 2147483648) (hg : g < numGroupsOf items) (hj : j ≤ capacity)
    (hcap : capacity < 2147483647) :
    ∃ b : Int, recordedChoiceW (stepsGroupW items capacity) (g + 1) j = some b
      ∧ (b = -1 ↔ ∀ idx ∈ groupsFind (buildGroups items)
            ((groupIdsOf (buildGroups items)).getD g 0),
          ¬ ((items.getD idx default).weight ≤ j
            ∧ (fillGroupW items capacity).get g j
              < (fillGroupW items capacity).get g (j - (items.getD idx default).weight)
                + ((items.getD idx default).value : Int)))
      ∧ (b ≠ -1 → ∃ idx : Nat, b = (idx : Int)
          ∧ (groupsFind (buildGroups items) ((groupIdsOf (buildGroups items)).getD g 0)).find?
              (fun y => decide (j ≥ (items.getD y default).weight
                ∧ (fillGroupW items capacity).get (g + 1) j
                  = (fillGroupW items capacity).get g (j - (items.getD y default).weight)
                    + ((items.getD y default).value : Int))) = some idx) := by
  obtain ⟨b, h1, h2, h3⟩ := bestChoice_first_maximiser items capacity g j hg hj
  have hlt : ∀ a c v : Nat, ((a : Int) < (c : Int) + (v : Int)) ↔ a < c + v := by
    intro a c v
    omega
  have heq : ∀ a c v : Nat, ((a : Int) = (c : Int) + (v : Int)) ↔ a = c + v := by
    intro a c v
    omega
  refine ⟨b, ?_, ?_, ?_⟩
  · rw [stepsGroupW_eq items capacity V hw hV hb, recordedChoiceW_map]
    exact h1
  · rw [fillGroupW_eq items capacity V hw hV hb]
    simp only [castT_get, hlt]
    exact h2
  · rw [fillGroupW_eq items capacity V hw hV hb]
    simp only [castT_get, heq]
    exact h3

/-- An instance of `bestChoice_first_maximiser_int`: one group of three members, the last two
of the same value; the first of the two is recorded. -/
theorem bestChoice_first_maximiser_int_witness :
    (∀ it ∈ [(⟨1, 1, 1⟩ : ItemG), ⟨1, 2, 1⟩, ⟨1, 2, 1⟩], 0 < it.weight)
    ∧ (∀ it ∈ [(⟨1, 1, 1⟩ : ItemG), ⟨1, 2, 1⟩, ⟨1, 2, 1⟩], it.value ≤ 2)
    ∧ 1 * 2 < 2147483648
    ∧ 0 < numGroupsOf [⟨1, 1, 1⟩, ⟨1, 2, 1⟩, ⟨1, 2, 1⟩]
    ∧ groupsFind (buildGroups [⟨1, 1, 1⟩, ⟨1, 2, 1⟩, ⟨1, 2, 1⟩])
        ((groupIdsOf (buildGroups [⟨1, 1, 1⟩, ⟨1, 2, 1⟩, ⟨1, 2, 1⟩])).getD 0 0) = [0, 1, 2]
    ∧ recordedChoiceW (stepsGroupW [⟨1, 1, 1⟩, ⟨1, 2, 1⟩, ⟨1, 2, 1⟩] 1) 1 1 = some 1
    ∧ ∃ b : Int, recordedChoiceW (stepsGroupW [⟨1, 1, 1⟩, ⟨1, 2, 1⟩, ⟨1, 2, 1⟩] 1) (0 + 1) 1
          = some b
      ∧ (b ≠ -1 → ∃ idx : Nat, b = (idx : Int)
          ∧ (groupsFind (buildGroups [⟨1, 1, 1⟩, ⟨1, 2, 1⟩, ⟨1, 2, 1⟩])
              ((groupIdsOf (buildGroups [⟨1, 1, 1⟩, ⟨1, 2, 1⟩, ⟨1, 2, 1⟩])).getD 0 0)).find?
              (fun y => decide
                (1 ≥ (([⟨1, 1, 1⟩, ⟨1, 2, 1⟩, ⟨1, 2, 1⟩] : List ItemG).getD y default).weight
                ∧ (fillGroupW [⟨1, 1, 1⟩, ⟨1, 2, 1⟩, ⟨1, 2, 1⟩] 1).get (0 + 1) 1
                  = (fillGroupW [⟨1, 1, 1⟩, ⟨1, 2, 1⟩, ⟨1, 2, 1⟩] 1).get 0
                      (1 - (([⟨1, 1, 1⟩, ⟨1, 2, 1⟩, ⟨1, 2, 1⟩] : List ItemG).getD y default).weight)
                    + ((([⟨1, 1, 1⟩, ⟨1, 2, 1⟩, ⟨1, 2, 1⟩] : List ItemG).getD y default).value
                        : Int))) = some idx) :=
  have h := bestChoice_first_maximiser_int [⟨1, 1, 1⟩, ⟨1, 2, 1⟩, ⟨1, 2, 1⟩] 1 2 0 1
    (by decide) (by decide) (by decide) (by decide) (by decide) (by decide)
  ⟨by decide, by decide, by decide, by decide, by decide, by decide,
    h.choose, h.choose_spec.1, h.choose_spec.2.2⟩

/-! ## Mixed knapsack in `int` arithmetic -/

/-- The loop of the multiple branch over a row within `b * V`, for a weight below `2^31`, a
value of at most `V` times the weight, a column `j ≤ C` with `C * V < 2^31` and
`2 * C < 2^31`: the `int` computation is the exact one and stays within `j * V`. -/
theorem loopMultipleW_cast (T : Table Nat) (a w v count j V C : Nat)
    (hprev : ∀ b, T.get a b ≤ b * V) (hvw : v ≤ w * V) (hw : w < 2147483648) (hj : j ≤ C)
    (hb : C * V < 2147483648) (hC : 2 * C < 2147483648) :
    ∀ (fuel k newVal : Nat), 1 ≤ k → k * w ≤ j + w → newVal ≤ j * V →
      loopMultipleW (fun b => getI (castT T) a b) (w : Int) (v : Int) count j fuel k
          (newVal : Int)
        = ((loopMultiple (fun b => T.get a b) w v count j fuel k newVal : Nat) : Int)
      ∧ loopMultiple (fun b => T.get a b) w v count j fuel k newVal ≤ j * V := by
  have hc := bound_cap j C V hj
  intro fuel
  induction fuel with
  | zero =>
    intro k newVal _ _ hn
    exact ⟨rfl, hn⟩
  | succ fuel ih =>
    intro k newVal hk hkw hn
    have hkw31 : k * w < 2147483648 := by
      rcases Nat.lt_or_ge k 2 with h | h
      · have : k = 1 := by omega
        subst this
        omega
      · have := Nat.mul_le_mul_right w h
        omega
    unfold loopMultipleW loopMultiple
    rw [wrap32_mul_cast k w hkw31]
    by_cases hg : k ≤ count ∧ k * w ≤ j
    · rw [if_pos ⟨hg.1, by exact_mod_cast hg.2⟩, if_pos hg]
      have hkv : k * v ≤ k * w * V := by
        rw [Nat.mul_assoc]
        exact Nat.mul_le_mul_left k hvw
      have hs := bound_step_mul _ (k * v) j (k * w) V (hprev (j - k * w)) hkv hg.2
      rw [wrap32_sub_cast j (k * w) hg.2 (by omega), wrap32_mul_cast k v (by omega)]
      rw [getI_cast _ _ _ (by omega), Int.toNat_ofNat, wrap32_add_cast _ _ (by omega)]
      have hnext : (k + 1) * w ≤ j + w := by
        rw [Nat.succ_mul]
        omega
      by_cases hgt : T.get a (j - k * w) + k * v > newVal
      · rw [if_pos (by exact_mod_cast hgt), if_pos hgt]
        exact ih (k + 1) _ (by omega) hnext hs
      · rw [if_neg (fun hh => hgt (by exact_mod_cast hh)), if_neg hgt]
        exact ih (k + 1) _ (by omega) hnext hn
    · rw [if_neg (fun hh => hg ⟨hh.1, by exact_mod_cast hh.2⟩), if_neg hg]
      exact ⟨rfl, hn⟩

/-- One cell of the mixed fill on a table within `j * V`: the `int` computation is the exact
one. -/
theorem cellMixedW_cast (it : ItemM) (i j V C : Nat) (T : Table Nat) (hT : BoundJ V T)
    (hvw : it.value ≤ it.weight * V) (hj : j ≤ C) (hb : C * V < 2147483648)
    (h2 : it.type ≤ 1 ∨ (it.weight < 2147483648 ∧ 2 * C < 2147483648)) :
    cellMixedW it i j (castT T) = castT (cellMixed it i j T) ∧ BoundJ V (cellMixed it i j T) := by
  have hc := bound_cap j C V hj
  unfold cellMixedW cellMixed
  simp only [castT_get]
  by_cases h0 : it.type = 0
  · simp only [if_pos h0]
    by_cases hjw : j ≥ it.weight
    · have hs := bound_step_mul _ _ j _ V (hT (i - 1) (j - it.weight)) hvw hjw
      rw [wrap32_add_cast _ _ (by omega)]
      by_cases hgt : T.get (i - 1) (j - it.weight) + it.value > T.get (i - 1) j
      · rw [if_pos ⟨hjw, by exact_mod_cast hgt⟩, if_pos ⟨hjw, hgt⟩, castT_set]
        exact ⟨rfl, boundJ_set V _ hT _ _ _ hs⟩
      · rw [if_neg (fun hh => hgt (by exact_mod_cast hh.2)), if_neg (fun hh => hgt hh.2),
          castT_set]
        exact ⟨rfl, boundJ_set V _ hT _ _ _ (hT (i - 1) j)⟩
    · rw [if_neg (fun hh => hjw hh.1), if_neg (fun hh => hjw hh.1), castT_set]
      exact ⟨rfl, boundJ_set V _ hT _ _ _ (hT (i - 1) j)⟩
  · simp only [if_neg h0]
    by_cases h1 : it.type = 1
    · simp only [if_pos h1]
      by_cases hjw : j ≥ it.weight
      · have hs := bound_step_mul _ _ j _ V (hT i (j - it.weight)) hvw hjw
        rw [wrap32_add_cast _ _ (by omega)]
        by_cases hgt : T.get i (j - it.weight) + it.value > T.get (i - 1) j
        · rw [if_pos ⟨hjw, by exact_mod_cast hgt⟩, if_pos ⟨hjw, hgt⟩, castT_set]
          exact ⟨rfl, boundJ_set V _ hT _ _ _ hs⟩
        · rw [if_neg (fun hh => hgt (by exact_mod_cast hh.2)), if_neg (fun hh => hgt hh.2),
            castT_set]
          exact ⟨rfl, boundJ_set V _ hT _ _ _ (hT (i - 1) j)⟩
      · rw [if_neg (fun hh => hjw hh.1), if_neg (fun hh => hjw hh.1), castT_set]
        exact ⟨rfl, boundJ_set V _ hT _ _ _ (hT (i - 1) j)⟩
    · simp only [if_neg h1]
      have h3 : it.weight < 2147483648 ∧ 2 * C < 2147483648 := by
        rcases h2 with h2 | h2
        · omega
        · exact h2
      obtain ⟨e1, e2⟩ := loopMultipleW_cast T (i - 1) it.weight it.value it.count j V C
        (fun b => hT (i - 1) b) hvw h3.1 hj hb h3.2 it.count 1 (T.get (i - 1) j) (le_refl _)
        (by omega) (hT (i - 1) j)
      rw [e1, castT_set]
      exact ⟨rfl, boundJ_set V _ hT _ _ _ e2⟩

/-- The mixed table for items with values at most `V` times the weights, when
`C * V < 2^31` and, if there is an item of a type other than 0 and 1, the weights are below
`2^31` and `2 * C < 2^31`: the `int` table is the exact table. -/
theorem fillMixedW_cast (items : List ItemM) (C V : Nat)
    (hvw : ∀ it ∈ items, it.value ≤ it.weight * V) (hb : C * V < 2147483648)
    (h2 : ∀ it ∈ items, it.type ≤ 1 ∨ (it.weight < 2147483648 ∧ 2 * C < 2147483648)) :
    fillMixedW items C = castT (fillMixed items C) ∧ BoundJ V (fillMixed items C) := by
  unfold fillMixedW fillMixed
  simp only []
  rw [← castT_mk]
  exact forUp_sim castT (BoundJ V) 1 items.length _ _ (fun i hi1 hi2 T hT => by
    obtain ⟨e1, e2⟩ := forUp_sim castT (BoundJ V) 0 C
      (fun j dp => dp.set i j (dp.get (i - 1) j)) (fun j dp => dp.set i j (dp.get (i - 1) j))
      (fun j _ _ T' hT' => by
        show (castT T').set i j ((castT T').get (i - 1) j) = castT (T'.set i j (T'.get (i - 1) j))
          ∧ BoundJ V (T'.set i j (T'.get (i - 1) j))
        rw [castT_get, castT_set]
        exact ⟨rfl, boundJ_set V _ hT' _ _ _ (hT' (i - 1) j)⟩) T hT
    rw [e1]
    exact forUp_sim castT (BoundJ V) 0 C _ _ (fun j _ hj T' hT' =>
      cellMixedW_cast _ i j V C T' hT' (hvw _ (getD_mem_of_lt items (i - 1) (by omega)))
        hj hb (h2 _ (getD_mem_of_lt items (i - 1) (by omega)))) _ e2)
    _ (boundJ_mk V _ _)

theorem parseMixed_bounds (args : List (Nat × Nat × Nat)) (C V : Nat)
    (hw : ∀ a ∈ args, 0 < a.1) (hV : ∀ a ∈ args, a.2.1 ≤ V)
    (h2 : ∀ a ∈ args, a.2.2 ≤ 1 ∨ (a.1 < 2147483648 ∧ 2 * C < 2147483648)) :
    (∀ it ∈ parseMixed args, it.value ≤ it.weight * V)
    ∧ (∀ it ∈ parseMixed args,
        it.type ≤ 1 ∨ (it.weight < 2147483648 ∧ 2 * C < 2147483648)) := by
  constructor
  · intro it hit
    unfold parseMixed at hit
    obtain ⟨a, ha, rfl⟩ := List.mem_map.1 hit
    exact le_weight_mul _ _ V (hV a ha) (hw a ha)
  · intro it hit
    unfold parseMixed at hit
    obtain ⟨a, ha, rfl⟩ := List.mem_map.1 hit
    exact h2 a ha

theorem fillMixedW_eq (args : List (Nat × Nat × Nat)) (C V : Nat)
    (hw : ∀ a ∈ args, 0 < a.1) (hV : ∀ a ∈ args, a.2.1 ≤ V) (hb : C * V < 2147483648)
    (h2 : ∀ a ∈ args, a.2.2 ≤ 1 ∨ (a.1 < 2147483648 ∧ 2 * C < 2147483648)) :
    fillMixedW (parseMixed args) C = castT (fillMixed (parseMixed args) C) :=
  (fillMixedW_cast (parseMixed args) C V (parseMixed_bounds args C V hw hV h2).1 hb
    (parseMixed_bounds args C V hw hV h2).2).1

theorem maxValueMixedW_eq (args : List (Nat × Nat × Nat)) (C V : Nat)
    (hw : ∀ a ∈ args, 0 < a.1) (hV : ∀ a ∈ args, a.2.1 ≤ V) (hb : C * V < 2147483648)
    (h2 : ∀ a ∈ args, a.2.2 ≤ 1 ∨ (a.1 < 2147483648 ∧ 2 * C < 2147483648)) :
    maxValueMixedW args C = ((maxValueMixed args C : Nat) : Int) := by
  unfold maxValueMixedW maxValueMixed
  rw [fillMixedW_eq args C V hw hV hb h2, castT_get]

theorem getD_le_of_forall' (items : List ItemM) (V : Nat)
    (h : ∀ it ∈ items, it.value ≤ it.weight * V) (t : Nat) :
    (items.getD t default).value ≤ (items.getD t default).weight * V := by
  by_cases ht : t < items.length
  · exact h _ (getD_mem_of_lt items t ht)
  · rw [List.getD_eq_default _ _ (by omega)]
    exact Nat.zero_le _

theorem whileMixed_le (T : Table Nat) (i w v : Nat) :
    ∀ fuel j, whileMixed T i w v fuel j ≤ j := by
  intro fuel
  induction fuel with
  | zero => intro j; exact le_refl _
  | succ fuel ih =>
    intro j
    unfold whileMixed
    split
    · exact le_trans (ih _) (Nat.sub_le _ _)
    · exact le_refl _

theorem whileMixedW_cast (T : Table Nat) (V C i w v : Nat) (hT : BoundJ V T) (hvw : v ≤ w * V)
    (hb : C * V < 2147483648) :
    ∀ fuel j, j ≤ C → whileMixedW (castT T) i w (v : Int) fuel j = whileMixed T i w v fuel j := by
  intro fuel
  induction fuel with
  | zero => intro j _; rfl
  | succ fuel ih =>
    intro j hj
    have hc := bound_cap j C V hj
    unfold whileMixedW whileMixed
    simp only [castT_get]
    by_cases hjw : j ≥ w
    · have hs := bound_step_mul _ _ j _ V (hT i (j - w)) hvw hjw
      rw [wrap32_add_cast _ _ (by omega)]
      by_cases he : T.get i j = T.get i (j - w) + v
      · rw [if_pos ⟨hjw, by exact_mod_cast he⟩, if_pos ⟨hjw, he⟩]
        exact ih _ (by omega)
      · rw [if_neg (fun hh => he (by exact_mod_cast hh.2)), if_neg (fun hh => he hh.2)]
    · rw [if_neg (fun hh => hjw hh.1), if_neg (fun hh => hjw hh.1)]

theorem backtrackMixedW_cast (items : List ItemM) (T : Table Nat) (V C : Nat) (hT : BoundJ V T)
    (hvw : ∀ t, (items.getD t default).value ≤ (items.getD t default).weight * V)
    (hb : C * V < 2147483648) :
    ∀ i j, j ≤ C → backtrackMixedW items (castT T) i j = backtrackMixed items T i j := by
  intro i
  induction i with
  | zero => intro j _; rfl
  | succ i ih =>
    intro j hj
    unfold backtrackMixedW backtrackMixed
    simp only [castT_get]
    by_cases hj0 : j > 0
    · rw [if_pos hj0, if_pos hj0]
      by_cases hne : T.get (i + 1) j ≠ T.get i j
      · rw [if_pos (by exact_mod_cast hne), if_pos hne]
        rw [whileMixedW_cast T V C (i + 1) _ _ hT (hvw i) hb j j hj]
        congr 1
        apply ih
        split
        · exact le_trans (whileMixed_le _ _ _ _ _ _) hj
        · omega
      · rw [if_neg (fun hh => hne (by exact_mod_cast hh)), if_neg hne]
        exact ih j hj
    · rw [if_neg hj0, if_neg hj0]

theorem pathMixedW_eq (args : List (Nat × Nat × Nat)) (C V : Nat)
    (hw : ∀ a ∈ args, 0 < a.1) (hV : ∀ a ∈ args, a.2.1 ≤ V) (hb : C * V < 2147483648)
    (h2 : ∀ a ∈ args, a.2.2 ≤ 1 ∨ (a.1 < 2147483648 ∧ 2 * C < 2147483648)) :
    pathMixedW args C = pathMixed args C := by
  unfold pathMixedW pathMixed
  obtain ⟨e1, e2⟩ := fillMixedW_cast (parseMixed args) C V
    (parseMixed_bounds args C V hw hV h2).1 hb (parseMixed_bounds args C V hw hV h2).2
  rw [e1]
  exact backtrackMixedW_cast _ _ V C e2
    (getD_le_of_forall' (parseMixed args) V (parseMixed_bounds args C V hw hV h2).1) hb _ _
    (le_refl _)

/-- C10 (refuted as stated): capacity 2 and the two type-0 items `(1, 2000000000)`. The
program reports `max_value = 2000000000` (the `int` sum `2000000000 + 2000000000` wraps to
`-294967296`), while both items fit and the optimum is `4000000000`. -/
theorem knapsackMixed_int_overflow :
    (∀ a ∈ [((1 : Nat), (2000000000 : Nat), (0 : Nat)), (1, 2000000000, 0)], a.2.2 ≤ 2 ∧ 0 < a.1)
    ∧ fillMixedW (parseMixed [(1, 2000000000, 0), (1, 2000000000, 0)]) 2
        = [[0, 0, 0], [0, 2000000000, 2000000000], [0, 2000000000, 2000000000]]
    ∧ maxValueMixedW [(1, 2000000000, 0), (1, 2000000000, 0)] 2 = 2000000000
    ∧ IsGreatest (feasibleValuesMixed [(1, 2000000000, 0), (1, 2000000000, 0)] 2 2)
        4000000000 := by
  refine ⟨by decide, by decide, by decide, ?_⟩
  have h := fillMixed_greatest [(1, 2000000000, 0), (1, 2000000000, 0)] 2 (by decide)
    (by decide) 2 2 (by decide) (by decide)
  have e : (fillMixed (parseMixed [(1, 2000000000, 0), (1, 2000000000, 0)]) 2).get 2 2
      = 4000000000 := by decide
  rw [e] at h
  exact h

/-- C10 (amended): for arguments `(weight, value, type)` with types in {0, 1, 2}, positive
weights below `2^31` and values at most `V`, when `capacity * V < 2^31` and
`2 * capacity < 2^31` (then no sum or product of the program leaves the range of `int`), the
cells of the table of the program, and in particular `max_value = dp[n][capacity]`, are the
greatest `sum x t * value t` over copy counts with `sum x t * weight t` within the capacity,
where an item of type 0 is taken at most once, an item of type 1 any number of times and an
item of type 2 at most 3 times (the count the program gives every item of type 2). -/
theorem knapsackMixed_optimal_int (args : List (Nat × Nat × Nat)) (capacity V : Nat)
    (hty : ∀ a ∈ args, a.2.2 ≤ 2) (hw : ∀ a ∈ args, 0 < a.1)
    (hwb : ∀ a ∈ args, a.1 < 2147483648) (hV : ∀ a ∈ args, a.2.1 ≤ V)
    (hb : capacity * V < 2147483648) (hC : 2 * capacity < 2147483648) :
    (∀ it ∈ parseMixed args, it.type = 2 → it.count = 3)
    ∧ (∀ i j, i ≤ args.length → j ≤ capacity →
      ∃ m : Nat, (fillMixedW (parseMixed args) capacity).get i j = (m : Int)
        ∧ IsGreatest (feasibleValuesMixed args i j) m)
    ∧ ∃ m : Nat, maxValueMixedW args capacity = (m : Int)
        ∧ IsGreatest (feasibleValuesMixed args args.length capacity) m := by
  refine ⟨?_, fun i j hi hj => ⟨(fillMixed (parseMixed args) capacity).get i j, ?_,
    fillMixed_greatest args capacity hty hw i j hi hj⟩,
    ⟨maxValueMixed args capacity, maxValueMixedW_eq args capacity V hw hV hb
        (fun a ha => Or.inr ⟨hwb a ha, hC⟩),
      fillMixed_greatest args capacity hty hw _ _ (le_refl _) (le_refl _)⟩⟩
  · intro it hit h2
    unfold parseMixed at hit
    obtain ⟨a, -, rfl⟩ := List.mem_map.1 hit
    simp only at h2 ⊢
    rw [if_pos h2]
  · rw [fillMixedW_eq args capacity V hw hV hb (fun a ha => Or.inr ⟨hwb a ha, hC⟩), castT_get]

/-- An instance of `knapsackMixed_optimal_int`: one item of each type, capacity 12. -/
theorem knapsackMixed_optimal_int_witness :
    (∀ a ∈ [((2 : Nat), (3 : Nat), (0 : Nat)), (3, 4, 1), (4, 5, 2)], a.2.2 ≤ 2)
    ∧ (∀ a ∈ [((2 : Nat), (3 : Nat), (0 : Nat)), (3, 4, 1), (4, 5, 2)], 0 < a.1)
    ∧ (∀ a ∈ [((2 : Nat), (3 : Nat), (0 : Nat)), (3, 4, 1), (4, 5, 2)], a.2.1 ≤ 5)
    ∧ 12 * 5 < 2147483648
    ∧ maxValueMixedW [(2, 3, 0), (3, 4, 1), (4, 5, 2)] 12 = 16
    ∧ ∃ m : Nat, maxValueMixedW [(2, 3, 0), (3, 4, 1), (4, 5, 2)] 12 = (m : Int)
        ∧ IsGreatest (feasibleValuesMixed [(2, 3, 0), (3, 4, 1), (4, 5, 2)]
            ([(2, 3, 0), (3, 4, 1), (4, 5, 2)] : List (Nat × Nat × Nat)).length 12) m :=
  ⟨by decide, by decide, by decide, by decide, by decide,
    (knapsackMixed_optimal_int [(2, 3, 0), (3, 4, 1), (4, 5, 2)] 12 5 (by decide) (by decide)
      (by decide) (by decide) (by decide) (by decide)).2.2⟩

/-- C16 (refuted as stated): the path of the mixed solver has one tuple per item, not one per
copy. With capacity 3 and the one unbounded item `(w, v, type) = (1, 1, 1)` three copies are
taken, `max_value = 3`, and the path is the single tuple of item 0, whose items have total
value 1. (For a type-2 item the walk moreover lowers the column by one weight only, whatever
the number of copies: with capacity 3 and the items `(1, 1, 0), (1, 5, 2)` the path lists
items 1 and 0 though `max_value = 15` is three copies of item 1.) -/
theorem pathMixed_int_one_tuple_per_item :
    pathMixedW [(1, 1, 1)] 3 = [⟨1, 3, 0⟩] ∧ maxValueMixedW [(1, 1, 1)] 3 = 3 ∧
    ((pathMixedW [(1, 1, 1)] 3).map
      (fun e => ((parseMixed [(1, 1, 1)]).getD e.item default).value)).sum = 1 ∧
    pathMixedW [(1, 1, 0), (1, 5, 2)] 3 = [⟨2, 3, 1⟩, ⟨1, 2, 0⟩] ∧
    maxValueMixedW [(1, 1, 0), (1, 5, 2)] 3 = 15 := by
  decide

/-- C16 (amended): for a mixed instance with types 0 and 1 only, positive weights and values
at most `V`, when `capacity * V < 2^31` (then no sum of the program leaves the range of
`int`), the path of the program has one tuple per selected item, at strictly decreasing
positions of the input, the tuple of a type-1 item standing for all the copies the while loop
removes: there are copy counts `x`, positive exactly at the listed items and at most 1 at a
type-0 item, with `sum x t * w t ≤ C` and `sum x t * v t = max_value = dp[n][C]`, the
optimum. The capacity is an `int` below `2^31 - 1`, so that `capacity + 1`, the length of a
row, is an `int` too. -/
theorem pathMixed_items_int (args : List (Nat × Nat × Nat)) (capacity V : Nat)
    (hty : ∀ a ∈ args, a.2.2 ≤ 1) (hw : ∀ a ∈ args, 0 < a.1) (hV : ∀ a ∈ args, a.2.1 ≤ V)
    (hb : capacity * V < 2147483648) (hcap : capacity < 2147483647) :
    ((pathMixedW args capacity).map (fun e => e.item)).Pairwise (fun a b => a > b) ∧
    (∀ e ∈ pathMixedW args capacity, e.item < args.length ∧ e.r = e.item + 1) ∧
    ∃ x : Nat → Nat,
      (∀ t, 0 < x t ↔ t ∈ (pathMixedW args capacity).map (fun e => e.item)) ∧
      (∀ t, ((parseMixed args).getD t default).type = 0 → x t ≤ 1) ∧
      (∑ t in Finset.range args.length, x t * ((parseMixed args).getD t default).weight)
        ≤ capacity ∧
      (((∑ t in Finset.range args.length, x t * ((parseMixed args).getD t default).value : Nat)
        : Int) = maxValueMixedW args capacity) ∧
      IsGreatest (feasibleValuesMixed args args.length capacity)
        (∑ t in Finset.range args.length, x t * ((parseMixed args).getD t default).value) := by
  rw [pathMixedW_eq args capacity V hw hV hb (fun a ha => Or.inl (hty a ha)),
    maxValueMixedW_eq args capacity V hw hV hb (fun a ha => Or.inl (hty a ha))]
  obtain ⟨h1, h2, x, hx1, hx2, hx3, hx4, hx5⟩ := pathMixed_items args capacity hty hw
  exact ⟨h1, h2, x, hx1, hx2, hx3, by rw [hx4], hx5⟩

/-- An instance of `pathMixed_items_int`: an unbounded item and a 0/1 item, capacity 4. -/
theorem pathMixed_items_int_witness :
    (∀ a ∈ [((1 : Nat), (1 : Nat), (1 : Nat)), (2, 5, 0)], a.2.2 ≤ 1) ∧
    (∀ a ∈ [((1 : Nat), (1 : Nat), (1 : Nat)), (2, 5, 0)], 0 < a.1) ∧
    (∀ a ∈ [((1 : Nat), (1 : Nat), (1 : Nat)), (2, 5, 0)], a.2.1 ≤ 5) ∧
    4 * 5 < 2147483648 ∧
    pathMixedW [(1, 1, 1), (2, 5, 0)] 4 = [⟨2, 4, 1⟩, ⟨1, 2, 0⟩] ∧
    maxValueMixedW [(1, 1, 1), (2, 5, 0)] 4 = 7 ∧
    ((pathMixedW [(1, 1, 1), (2, 5, 0)] 4).map (fun e => e.item)).Pairwise (fun a b => a > b) :=
  ⟨by decide, by decide, by decide, by decide, by decide, by decide,
    (pathMixed_items_int [(1, 1, 1), (2, 5, 0)] 4 5 (by decide) (by decide) (by decide)
      (by decide) (by decide)).1⟩

/-! ## Solution counting in `int` arithmetic -/

theorem boundP_set (T : Table Nat) (h : BoundP T) (i j x : Nat) (hx : x ≤ 2 ^ i) :
    BoundP (T.set i j x) := by
  intro a b
  rcases Table.get_set_cases T i j x a b with h1 | ⟨h1, h2⟩
  · rw [h1]
    exact h a b
  · obtain ⟨rfl, rfl⟩ := Prod.mk.inj h1
    rw [h2]
    exact hx

theorem boundP_mk (R Cc : Nat) : BoundP ((Table.mk R Cc 0).set 0 0 1) := by
  apply boundP_set
  · intro r j
    rw [tableMk_get_zero]
    exact Nat.zero_le _
  · exact le_refl _

/-- One cell of the counting table, when the cells of row `r` are at most `2 ^ r` and
`i ≤ 30`: the `int` sum is the exact one. -/
theorem cellCountW_cast (w i j : Nat) (T : Table Nat) (hT : BoundP T) (hi1 : 1 ≤ i)
    (hi : i ≤ 30) :
    cellCountW w i j (castT T) = castT (cellCount w i j T) ∧ BoundP (cellCount w i j T) := by
  obtain ⟨i, rfl⟩ : ∃ i', i = i' + 1 := ⟨i - 1, by omega⟩
  have hp : 2 ^ (i + 1) = 2 ^ i + 2 ^ i := by rw [pow_succ]; ring
  have h30 : 2 ^ (i + 1) ≤ 2 ^ 30 := Nat.pow_le_pow_right (by omega) hi
  have hlit : (2 : Nat) ^ 30 = 1073741824 := by norm_num
  unfold cellCountW cellCount
  simp only [Nat.add_sub_cancel, castT_get]
  have ha := hT i j
  by_cases hjw : j ≥ w
  · have hb := hT i (j - w)
    rw [if_pos hjw, if_pos hjw, wrap32_add_cast _ _ (by omega), castT_set]
    exact ⟨rfl, boundP_set T hT _ _ _ (by omega)⟩
  · rw [if_neg hjw, if_neg hjw]
    have h0 : ((T.get i j : Nat) : Int) + 0 = ((T.get i j : Nat) : Int) + ((0 : Nat) : Int) := by
      simp
    rw [h0, wrap32_add_cast _ _ (by omega), castT_set]
    exact ⟨rfl, boundP_set T hT _ _ _ (by omega)⟩

/-- The counting table for at most 30 items: the `int` table is the exact table. -/
theorem fillCountW_eq (items : List Item) (C : Nat) (hn : items.length ≤ 30) :
    fillCountW items C = castT (fillCount items C) := by
  unfold fillCountW fillCount
  simp only []
  have h0 : ((Table.mk (items.length + 1) (C + 1) 0).set 0 0 1 : Table Int)
      = castT ((Table.mk (items.length + 1) (C + 1) 0).set 0 0 1) := by
    rw [castT_set, castT_mk]
    rfl
  rw [h0]
  exact (forUp_sim castT BoundP 1 items.length _ _ (fun i hi1 hi2 T hT =>
    forUp_sim castT BoundP 0 C _ _ (fun j _ _ T' hT' =>
      cellCountW_cast _ i j T' hT' hi1 (by omega)) T hT) _ (boundP_mk _ _)).1

theorem resultCountW_eq (items : List Item) (C : Nat) (hn : items.length ≤ 30) :
    resultCountW items C = ((resultCount items C : Nat) : Int) := by
  unfold resultCountW resultCount
  rw [fillCountW_eq items C hn, castT_get]

theorem readItems_length (n : Nat) (tuples : List Item) : (readItems n tuples).length = n := by
  rw [readItems_eq]
  simp
  omega

set_option maxRecDepth 1000000 in
/-- C29 (refuted as stated): a missing tuple is not dropped but read as an item of weight 0
and value 0, which doubles the count. With capacity 1 and the one tuple `(1, 5)`, declaring
`n = 2` gives the count 2 and declaring `n = 3` gives 4, where the run that declares exactly
that one item gives 1. The doubling is an `int` sum: declaring `n = 32` gives `-2147483648`
and declaring `n = 33` gives 0. -/
theorem count_int_missing_tuples_double :
    readItems 2 [⟨1, 5⟩] = [⟨1, 5⟩, ⟨0, 0⟩] ∧
    resultCountDeclaredW 1 [⟨1, 5⟩] 1 = 1 ∧ resultCountDeclaredW 2 [⟨1, 5⟩] 1 = 2 ∧
    resultCountDeclaredW 3 [⟨1, 5⟩] 1 = 4 ∧
    resultCountDeclaredW 32 [⟨1, 5⟩] 1 = -2147483648 ∧
    resultCountDeclaredW 33 [⟨1, 5⟩] 1 = 0 := by
  refine ⟨by decide, by decide, by decide, by decide, by decide, by decide⟩

/-- C29 (amended): when the declared count `n` is larger than the number `m` of tuples supplied and
`n ≤ 30` (then no count leaves the range of `int`: a cell of row `i` is at most `2 ^ i`), the
solver works on the `m` supplied items followed by `n - m` items of weight 0 and value 0, and
the count `dp[n][C]` it reports is `2 ^ (n - m)` times the count reported by the run that
declares exactly those `m` items. The capacity is an `int` below `2^31 - 1`, so that `capacity +
1`, the length of a row, is an `int` too. -/
theorem count_missing_tuples_int (n : Nat) (tuples : List Item) (capacity : Nat)
    (hn : tuples.length ≤ n) (h30 : n ≤ 30)
    (hcap : capacity < 2147483647) :
    readItems n tuples = tuples ++ List.replicate (n - tuples.length) ⟨0, 0⟩ ∧
    readItems tuples.length tuples = tuples ∧
    resultCountDeclaredW n tuples capacity
      = 2 ^ (n - tuples.length) * resultCountDeclaredW tuples.length tuples capacity := by
  refine ⟨by rw [readItems_eq, List.take_of_length_le hn], by simp [readItems_eq], ?_⟩
  unfold resultCountDeclaredW
  rw [resultCountW_eq _ _ (by rw [readItems_length]; exact h30),
    resultCountW_eq _ _ (by rw [readItems_length]; omega)]
  have h1 := resultCountDeclared_eq n tuples capacity hn
  have h2 := resultCountDeclared_eq tuples.length tuples capacity (le_refl _)
  unfold resultCountDeclared at h1 h2
  rw [h1, h2]
  simp

/-- An instance of `count_missing_tuples_int`: one tuple supplied, three declared. -/
theorem count_missing_tuples_int_witness :
    ([(⟨1, 5⟩ : Item)]).length ≤ 3 ∧ 3 ≤ 30 ∧
    resultCountDeclaredW 3 [⟨1, 5⟩] 1 = 4 ∧
    resultCountDeclaredW 3 [⟨1, 5⟩] 1
      = 2 ^ (3 - ([(⟨1, 5⟩ : Item)]).length)
        * resultCountDeclaredW ([(⟨1, 5⟩ : Item)]).length [⟨1, 5⟩] 1 :=
  ⟨by decide, by decide, by decide,
    (count_missing_tuples_int 3 [⟨1, 5⟩] 1 (by decide) (by decide) (by decide)).2.2⟩

/-! ## The run of `knapsack_01.cpp` on a decoded command line -/

theorem forUp_sim_pos {σ τ : Type} (c : σ → τ) (Inv : Nat → σ → Prop) (hi : Nat)
    (f : Nat → σ → σ) (g : Nat → τ → τ)
    (h : ∀ k, k ≤ hi → ∀ s, Inv k s → g k (c s) = c (f k s) ∧ Inv (k + 1) (f k s))
    (s0 : σ) (h0 : Inv 0 s0) :
    forUp 0 hi g (c s0) = c (forUp 0 hi f s0) ∧ Inv (hi + 1) (forUp 0 hi f s0) :=
  forLt_sim_pos c Inv f g s0 h0 (hi + 1) (fun k hk => h k (by omega))

theorem foldr_range_sim_pos {σ τ : Type} (c : σ → τ) (Inv : Nat → σ → Prop)
    (f : Nat → σ → σ) (g : Nat → τ → τ) (s0 : σ) :
    ∀ n lo, (∀ k, lo ≤ k → k < lo + n → ∀ s, Inv (k + 1) s →
        g k (c s) = c (f k s) ∧ Inv k (f k s)) → Inv (lo + n) s0 →
      (List.range' lo n).foldr (fun k acc => g k acc) (c s0)
        = c ((List.range' lo n).foldr (fun k acc => f k acc) s0)
      ∧ Inv lo ((List.range' lo n).foldr (fun k acc => f k acc) s0) := by
  intro n
  induction n with
  | zero => intro lo _ h0; exact ⟨rfl, h0⟩
  | succ n ih =>
    intro lo h h0
    obtain ⟨h1, h2⟩ := ih (lo + 1) (fun k hk1 hk2 => h k (by omega) (by omega))
      (by rw [show lo + 1 + n = lo + (n + 1) by omega]; exact h0)
    simp only [List.range'_succ, List.foldr_cons]
    rw [h1]
    exact h lo (le_refl _) (by omega) _ h2

theorem forDown_sim_pos {σ τ : Type} (c : σ → τ) (Inv : Nat → σ → Prop) (hi lo : Nat)
    (f : Nat → σ → σ) (g : Nat → τ → τ)
    (h : ∀ k, lo ≤ k → k ≤ hi → ∀ s, Inv (k + 1) s → g k (c s) = c (f k s) ∧ Inv k (f k s))
    (s0 : σ) (h0 : Inv (lo + (hi + 1 - lo)) s0) :
    forDown hi lo g (c s0) = c (forDown hi lo f s0) ∧ Inv lo (forDown hi lo f s0) := by
  unfold forDown
  exact foldr_range_sim_pos c Inv f g s0 _ lo (fun k hk1 hk2 => h k hk1 (by omega)) h0

theorem Table.get_set_of_ne {α : Type} [Inhabited α] (T : Table α) (i j : Nat) (x : α)
    (a b : Nat) (h : (a, b) ≠ (i, j)) : (T.set i j x).get a b = T.get a b := by
  rcases Table.get_set_cases T i j x a b with h1 | ⟨h1, -⟩
  · exact h1
  · exact absurd h1 h

/-- The merge of a child's row when every sum of an entry of the parent's row and an entry of
the child's row is below `2^31`: the `int` merge is the exact merge. The sums the loop forms
are sums of entries as they were before the loop. -/
theorem mergeChildW_cast_sums (w C u child : Nat) (T : Table Nat) (hne : child ≠ u)
    (hsum : ∀ a, a ≤ C → ∀ b, b ≤ C → T.get u a + T.get child b < 2147483648) :
    mergeChildW w C u child (castT T) = castT (mergeChild w C u child T) := by
  unfold mergeChildW mergeChild
  exact (forDown_sim_pos castT
    (fun j (T1 : Table Nat) => (∀ b, T1.get child b = T.get child b)
      ∧ ∀ a, a < j → T1.get u a = T.get u a) C w _ _
    (fun j hj1 hj2 T1 hT1 => by
      obtain ⟨e1, e2⟩ := forUp_sim_pos castT
        (fun k (T2 : Table Nat) => (∀ b, T2.get child b = T.get child b)
          ∧ (∀ a, a < j → T2.get u a = T.get u a) ∧ (k = 0 → T2.get u j = T.get u j))
        (j - w)
        (fun k dp => if dp.get u j < dp.get u (j - k) + dp.get child k then
          dp.set u j (dp.get u (j - k) + dp.get child k) else dp)
        (fun k dp => if dp.get u j < wrap32 (dp.get u (j - k) + dp.get child k) then
          dp.set u j (wrap32 (dp.get u (j - k) + dp.get child k)) else dp)
        (fun k hk T2 hT2 => by
          obtain ⟨hc, hlow, h0⟩ := hT2
          have hread : T2.get u (j - k) = T.get u (j - k) := by
            rcases Nat.eq_zero_or_pos k with rfl | hpos
            · exact h0 rfl
            · exact hlow _ (by omega)
          have hs := hsum (j - k) (by omega) k (by omega)
          simp only [castT_get]
          rw [wrap32_add_cast _ _ (by rw [hread, hc k]; exact hs)]
          by_cases hlt : T2.get u j < T2.get u (j - k) + T2.get child k
          · rw [if_pos hlt, if_pos (by exact_mod_cast hlt), ← castT_set]
            refine ⟨rfl, fun b => ?_, fun a ha => ?_, fun hk0 => absurd hk0 (by omega)⟩
            · rw [Table.get_set_of_ne _ _ _ _ _ _ (fun e => hne (Prod.mk.inj e).1)]
              exact hc b
            · rw [Table.get_set_of_ne _ _ _ _ _ _ (fun e => by
                have := (Prod.mk.inj e).2
                omega)]
              exact hlow a ha
          · rw [if_neg hlt, if_neg (by exact_mod_cast hlt)]
            exact ⟨rfl, hc, hlow, fun hk0 => absurd hk0 (by omega)⟩)
        T1 ⟨hT1.1, fun a ha => hT1.2 a (by omega), fun _ => hT1.2 j (by omega)⟩
      exact ⟨e1, e2.1, e2.2.1⟩)
    T ⟨fun _ => rfl, fun _ _ => rfl⟩).1

/-- C32 (amended): on an `int` table of natural numbers in which every sum of an entry of the
parent's row and an entry of the child's row is below `2^31` (then no sum of the loop leaves
the range of `int`), the in-place merge of a child's row `Ch = dp[child]` into the parent's
row `P = dp[u]` (rows of `C + 1` entries, `child ≠ u`, any weight `w`) gives the merge
computed from the rows before the loop: `P'[j]` is the greatest `P[j - k] + Ch[k]` over
`k ≤ j - w` for `w ≤ j ≤ C`, `P'[j] = P[j]` for `j < w`, and no other row changes. -/
theorem mergeChild_snapshot_int (w C u child R : ℕ) (dp : Table ℕ)
    (hd : dp.Dims R (C + 1)) (hu : u < R) (hne : child ≠ u)
    (hsum : ∀ a, a ≤ C → ∀ b, b ≤ C → dp.get u a + dp.get child b < 2147483648) :
    (∀ j, w ≤ j → j ≤ C →
        ∃ m : Nat, (mergeChildW w C u child (castT dp)).get u j = (m : Int)
          ∧ IsGreatest {x | ∃ k, k ≤ j - w ∧ x = dp.get u (j - k) + dp.get child k} m)
    ∧ (∀ j, j < w → (mergeChildW w C u child (castT dp)).get u j = (castT dp).get u j)
    ∧ ∀ a j, a ≠ u → (mergeChildW w C u child (castT dp)).get a j = (castT dp).get a j := by
  rw [mergeChildW_cast_sums w C u child dp hne hsum]
  obtain ⟨-, h2, h3, h4⟩ := mergeChild_spec w C u child R dp hd hu hne
  refine ⟨fun j hwj hj => ⟨_, castT_get _ u j, h4 j hwj hj⟩, fun j hj => ?_, fun a j ha => ?_⟩
  · rw [castT_get, castT_get, h3 j hj]
  · rw [castT_get, castT_get, h2 a j ha]

/-- An instance of `mergeChild_snapshot_int`: `C = 3`, `w = 1`, `P = [3, 5, 5, 5]` and
`Ch = [2, 4, 7, 7]` give `P' = [3, 7, 9, 12]`. -/
theorem mergeChild_snapshot_int_witness :
    Table.Dims ([[3, 5, 5, 5], [2, 4, 7, 7]] : Table ℕ) 2 (3 + 1) ∧ 0 < 2 ∧ 1 ≠ 0
    ∧ mergeChildW 1 3 0 1 (castT [[3, 5, 5, 5], [2, 4, 7, 7]])
        = [[3, 7, 9, 12], [2, 4, 7, 7]]
    ∧ ∃ m : Nat, (mergeChildW 1 3 0 1 (castT [[3, 5, 5, 5], [2, 4, 7, 7]])).get 0 3 = (m : Int)
        ∧ IsGreatest {x | ∃ k, k ≤ 3 - 1 ∧ x
            = Table.get ([[3, 5, 5, 5], [2, 4, 7, 7]] : Table ℕ) 0 (3 - k)
              + Table.get ([[3, 5, 5, 5], [2, 4, 7, 7]] : Table ℕ) 1 k} m :=
  ⟨⟨rfl, by decide⟩, by decide, by decide, by decide,
    (mergeChild_snapshot_int 1 3 0 1 2 [[3, 5, 5, 5], [2, 4, 7, 7]] ⟨rfl, by decide⟩
      (by decide) (by decide) (by decide)).1 3 (by decide) (by decide)⟩

end Knapsack
